import Mathlib

/-! LL(1) grammar analysis (`cc.c`): a shallow embedding.

The C program keeps every grammar symbol, alternative and set element as a
NUL-terminated `char` array.  Here a C string is the list of its bytes
(without the terminator), a fixed-capacity array together with its counter is
a list, and a loop over an index is a recursion over the list or over the
positions it visits.  Capacities (`MAX_PRODS`, `char lhs[20]`, ...) are not
modelled: the definitions describe the program while every buffer is large
enough.  A `NULL` pointer handed to `strcpy`/`strcmp`/`strlen` is modelled as
failure (`none`).

Character classes are those of the "C" locale (the program never calls
`setlocale`); bytes above 127 belong to no class.
-/

namespace LL1

/-- A C string: its bytes, terminator excluded. -/
abbrev CStr := List Nat

/-- An ASCII literal as a C string. -/
def str (s : String) : CStr := s.toList.map Char.toNat

/-- The macro `EPSILON`: the bytes between the quotes of line 16 of `cc.c`
(`C3 8E C2 B5`, the text `Îµ` in UTF-8). -/
def EPSILON : CStr := [0xC3, 0x8E, 0xC2, 0xB5]

/-- The function `isspace` in the "C" locale: space, `\t`, `\n`, `\v`, `\f`, `\r`. -/
def isspace (c : Nat) : Bool := c == 32 || (9 ≤ c && c ≤ 13)

/-- The function `isupper` in the "C" locale. -/
def isupper (c : Nat) : Bool := 65 ≤ c && c ≤ 90

/-- The function `isalpha` in the "C" locale. -/
def isalpha (c : Nat) : Bool := isupper c || (97 ≤ c && c ≤ 122)

/-- The function `isalnum` in the "C" locale. -/
def isalnum (c : Nat) : Bool := isalpha c || (48 ≤ c && c ≤ 57)

/-- The loop condition of the identifier scan in `getSymbol` (line 503):
`isalnum(c) || c == '_' || c == '\''`. -/
def isIdentChar (c : Nat) : Bool := isalnum c || c == 95 || c == 39

structure Production where
  lhs : CStr
  rhs : List CStr
  deriving DecidableEq, Repr

structure Grammar where
  productions : List Production
  terminals : List CStr
  nonTerminals : List CStr
  startSymbol : CStr
  deriving DecidableEq, Repr

/-- The C struct `Set` (a FIRST or FOLLOW set): the name of its non-terminal
and its elements in insertion order. -/
structure Set where
  symbol : CStr
  elements : List CStr
  deriving DecidableEq, Repr

structure ParseTableEntry where
  nonTerminal : CStr
  terminal : CStr
  production : CStr
  deriving DecidableEq, Repr

structure ParseTable where
  entries : List ParseTableEntry
  terminals : List CStr
  nonTerminals : List CStr
  deriving DecidableEq, Repr

/-- The whitespace loop that opens `getSymbol` and `getSymbol1`: the position
after the run of `isspace` bytes that starts at `pos`. -/
def skipSpaces (rhs : CStr) (pos : Nat) : Nat :=
  pos + ((rhs.drop pos).takeWhile isspace).length

/-- The function `getSymbol(rhs, &pos)`: the token (`none` for `NULL`) and the new value of
`pos`. -/
def getSymbol (rhs : CStr) (pos : Nat) : Option CStr × Nat :=
  let p := skipSpaces rhs pos
  match rhs.drop p with
  | [] => (none, p)
  | c :: rest =>
    if isalpha c && isupper c then
      let symbol := (c :: rest).takeWhile isIdentChar
      (some symbol, p + symbol.length)
    else
      (some [c], p + 1)

/-- The function `getSymbol1(rhs, &pos)`: recognises the two bytes `CE B5` only. -/
def getSymbol1 (rhs : CStr) (pos : Nat) : Option CStr × Nat :=
  let p := skipSpaces rhs pos
  match rhs.drop p with
  | [] => (none, p)
  | c :: rest =>
    if c = 0xCE ∧ rest.head? = some 0xB5 then (some EPSILON, p + 2)
    else (none, p)

/-- The function `isTerminal(grammar, symbol)`. -/
def isTerminal (grammar : Grammar) (symbol : CStr) : Bool :=
  grammar.terminals.any (fun t => t == symbol)

/-- The function `isNonTerminal(grammar, symbol)`. -/
def isNonTerminal (grammar : Grammar) (symbol : CStr) : Bool :=
  grammar.nonTerminals.any (fun t => t == symbol)

/-- The function `addToSet(set, element)`: append unless already present. -/
def addToSet (set : Set) (element : CStr) : Set :=
  if set.elements.any (fun e => e == element) then set
  else { set with elements := set.elements ++ [element] }

/-- The function `isInSet(set, element)`. -/
def isInSet (set : Set) (element : CStr) : Bool :=
  set.elements.any (fun e => e == element)

/-- The search `for (j = 0; j < numNonTerminals; j++) if (strcmp(sets[j].symbol,
name) == 0) { index = j; break; }` over the first `n` entries of a set array
(`none` for the index `-1`). -/
def findSet : List Set → Nat → CStr → Option Nat
  | [], _, _ => none
  | _ :: _, 0, _ => none
  | s :: rest, n + 1, name =>
    if s.symbol = name then some 0 else (findSet rest n name).map (· + 1)

/-- The elements of `sets[i]` (no elements when the array is too short). -/
def elementsAt (sets : List Set) (i : Nat) : List CStr :=
  match sets[i]? with
  | some s => s.elements
  | none => []

/-- The call `addToSet(&sets[i], element)`. -/
def addToSetAt (sets : List Set) (i : Nat) (element : CStr) : List Set :=
  match sets[i]? with
  | some s => sets.set i (addToSet s element)
  | none => sets

/-- The loop `for (k ...) addToSet(&sets[i], src[k])` over a source list.  The
program reads the source from a set array while it writes `sets[i]`; when
both are the same set every element is already present and nothing is
written, so reading the elements beforehand gives the same result. -/
def addAllAt (sets : List Set) (i : Nat) (src : List CStr) : List Set :=
  src.foldl (fun acc e => addToSetAt acc i e) sets

/-- The same loop with the guard `strcmp(src[k], EPSILON) != 0`. -/
def addAllExceptEpsilonAt (sets : List Set) (i : Nat) (src : List CStr) : List Set :=
  addAllAt sets i (src.filter (fun e => e != EPSILON))

/-- The test `prevSize < sets[i].numElements` that sets `changes`. -/
def grewAt (before after : List Set) (i : Nat) : Bool :=
  decide ((elementsAt before i).length < (elementsAt after i).length)

/-! ## FIRST sets (`computeFirstSets`, lines 855-970) -/

/-- The loop over the alternatives of one production (lines 886-965), for the
production whose set has index `ntIndex`.  Every path through the body ends
in `break` except the `continue` taken when the alternative has no symbol. -/
def firstAlternatives (grammar : Grammar) (ntIndex : Nat) :
    List CStr → List Set → Bool → List Set × Bool
  | [], firstSets, changes => (firstSets, changes)
  | rhs :: more, firstSets, changes =>
    match getSymbol rhs 0 with
    | (none, _) => firstAlternatives grammar ntIndex more firstSets changes
    | (some symbol, pos) =>
      if symbol = EPSILON then
        let s1 := addToSetAt firstSets ntIndex EPSILON
        (s1, changes || grewAt firstSets s1 ntIndex)
      else if isTerminal grammar symbol then
        let s1 := addToSetAt firstSets ntIndex symbol
        (s1, changes || grewAt firstSets s1 ntIndex)
      else if isNonTerminal grammar symbol then
        match findSet firstSets grammar.nonTerminals.length symbol with
        | none => (firstSets, changes)
        | some symbolIndex =>
          let s1 := addAllExceptEpsilonAt firstSets ntIndex (elementsAt firstSets symbolIndex)
          let c1 := changes || grewAt firstSets s1 ntIndex
          let hasEpsilon := (elementsAt s1 symbolIndex).any (fun e => e == EPSILON)
          if !hasEpsilon then (s1, c1)
          else
            match getSymbol rhs pos with
            | (none, _) =>
              let s2 := addToSetAt s1 ntIndex EPSILON
              (s2, c1 || grewAt s1 s2 ntIndex)
            | (some _, _) => (s1, c1)
      else (firstSets, changes)

/-- One pass of the loop over the productions (lines 871-966). -/
def firstPass (grammar : Grammar) : List Production → List Set → Bool → List Set × Bool
  | [], firstSets, changes => (firstSets, changes)
  | prod :: rest, firstSets, changes =>
    match findSet firstSets grammar.nonTerminals.length prod.lhs with
    | none => firstPass grammar rest firstSets changes
    | some ntIndex =>
      let r := firstAlternatives grammar ntIndex prod.rhs firstSets changes
      firstPass grammar rest r.1 r.2

/-- The loop `while (changes)`, at most `fuel` passes. -/
def firstLoop (grammar : Grammar) : Nat → List Set → List Set
  | 0, firstSets => firstSets
  | fuel + 1, firstSets =>
    let r := firstPass grammar grammar.productions firstSets false
    if r.2 then firstLoop grammar fuel r.1 else r.1

/-- The initial array: one empty set per non-terminal. -/
def initSets (grammar : Grammar) : List Set :=
  grammar.nonTerminals.map (fun nt => { symbol := nt, elements := [] })

/-- A number of passes after which no set can grow any more: every element
is a terminal or `EPSILON`. -/
def firstFuel (grammar : Grammar) : Nat :=
  grammar.nonTerminals.length * (grammar.terminals.length + 1) + 1

/-- The function `computeFirstSets(grammar)`. -/
def computeFirstSets (grammar : Grammar) : List Set :=
  firstLoop grammar (firstFuel grammar) (initSets grammar)

/-! ## FOLLOW sets (`computeFollowSets`, lines 973-1117) -/

/-- The scan `while (pos < rhsLen)` of one alternative (lines 1013-1111), at
most `fuel` iterations.  After a look-ahead that found a symbol the position
is restored to `savedPos`; after one that found none it stays where the
look-ahead left it. -/
def followScan (grammar : Grammar) (firstSets : List Set) (lhsIndex : Nat) (rhs : CStr) :
    Nat → Nat → List Set → Bool → List Set × Bool
  | 0, _, followSets, changes => (followSets, changes)
  | fuel + 1, pos, followSets, changes =>
    if pos < rhs.length then
      match getSymbol rhs pos with
      | (none, _) => (followSets, changes)
      | (some symbol, savedPos) =>
        if isNonTerminal grammar symbol then
          match findSet followSets grammar.nonTerminals.length symbol with
          | none => followScan grammar firstSets lhsIndex rhs fuel savedPos followSets changes
          | some ntIndex =>
            match getSymbol rhs savedPos with
            | (none, endPos) =>
              let s1 := addAllAt followSets ntIndex (elementsAt followSets lhsIndex)
              followScan grammar firstSets lhsIndex rhs fuel endPos s1
                (changes || grewAt followSets s1 ntIndex)
            | (some nextSymbol, _) =>
              if isTerminal grammar nextSymbol then
                let s1 := addToSetAt followSets ntIndex nextSymbol
                followScan grammar firstSets lhsIndex rhs fuel savedPos s1
                  (changes || grewAt followSets s1 ntIndex)
              else if isNonTerminal grammar nextSymbol then
                match findSet firstSets grammar.nonTerminals.length nextSymbol with
                | none => followScan grammar firstSets lhsIndex rhs fuel savedPos followSets changes
                | some nextIndex =>
                  let s1 :=
                    addAllExceptEpsilonAt followSets ntIndex (elementsAt firstSets nextIndex)
                  let c1 := changes || grewAt followSets s1 ntIndex
                  if (elementsAt firstSets nextIndex).any (fun e => e == EPSILON) then
                    let s2 := addAllAt s1 ntIndex (elementsAt s1 lhsIndex)
                    followScan grammar firstSets lhsIndex rhs fuel savedPos s2
                      (c1 || grewAt s1 s2 ntIndex)
                  else followScan grammar firstSets lhsIndex rhs fuel savedPos s1 c1
              else followScan grammar firstSets lhsIndex rhs fuel savedPos followSets changes
        else followScan grammar firstSets lhsIndex rhs fuel savedPos followSets changes
    else (followSets, changes)

/-- The loop over the alternatives of one production (lines 1009-1112).  Every
iteration of the scan consumes at least one byte, so `strlen(rhs) + 1`
iterations are enough. -/
def followAlternatives (grammar : Grammar) (firstSets : List Set) (lhsIndex : Nat) :
    List CStr → List Set → Bool → List Set × Bool
  | [], followSets, changes => (followSets, changes)
  | rhs :: more, followSets, changes =>
    let r := followScan grammar firstSets lhsIndex rhs (rhs.length + 1) 0 followSets changes
    followAlternatives grammar firstSets lhsIndex more r.1 r.2

/-- One pass of the loop over the productions (lines 994-1113). -/
def followPass (grammar : Grammar) (firstSets : List Set) :
    List Production → List Set → Bool → List Set × Bool
  | [], followSets, changes => (followSets, changes)
  | prod :: rest, followSets, changes =>
    match findSet followSets grammar.nonTerminals.length prod.lhs with
    | none => followPass grammar firstSets rest followSets changes
    | some lhsIndex =>
      let r := followAlternatives grammar firstSets lhsIndex prod.rhs followSets changes
      followPass grammar firstSets rest r.1 r.2

/-- The loop `while (changes)`, at most `fuel` passes. -/
def followLoop (grammar : Grammar) (firstSets : List Set) : Nat → List Set → List Set
  | 0, followSets => followSets
  | fuel + 1, followSets =>
    let r := followPass grammar firstSets grammar.productions followSets false
    if r.2 then followLoop grammar firstSets fuel r.1 else r.1

/-- The initial array (lines 977-985): `$` in the set of every non-terminal
whose name is the start symbol. -/
def initFollowSets (grammar : Grammar) : List Set :=
  grammar.nonTerminals.map (fun nt =>
    if nt = grammar.startSymbol then addToSet { symbol := nt, elements := [] } (str "$")
    else { symbol := nt, elements := [] })

/-- A number of passes after which no set can grow any more: every element
is `$`, a terminal or an element of one of the supplied FIRST sets. -/
def followFuel (grammar : Grammar) (firstSets : List Set) : Nat :=
  grammar.nonTerminals.length *
    (1 + grammar.terminals.length +
      ((firstSets.take grammar.nonTerminals.length).map (fun s => s.elements.length)).sum) + 1

/-- The function `computeFollowSets(grammar, firstSets)`. -/
def computeFollowSets (grammar : Grammar) (firstSets : List Set) : List Set :=
  followLoop grammar firstSets (followFuel grammar firstSets) (initFollowSets grammar)

/-! ## The parsing table (`constructLL1Table`, lines 1253-1407) -/

/-- The symbol the table builder calls `firstSymbol` (lines 1304-1314):
`getSymbol` is called at position 0, and then `getSymbol1` (when the
alternative is `EPSILON`) or `getSymbol` again is called at the position the
first call left behind. -/
def tableFirstSymbol (rhs : CStr) : Option CStr :=
  let pos := (getSymbol rhs 0).2
  if rhs = EPSILON then (getSymbol1 rhs pos).1 else (getSymbol rhs pos).1

/-- The entries one alternative adds (lines 1299-1402). -/
def tableAlternative (grammar : Grammar) (firstSets followSets : List Set)
    (lhs : CStr) (ntIndex : Nat) (rhs : CStr) : List ParseTableEntry :=
  let epsilonEntries := (elementsAt followSets ntIndex).map (fun terminal =>
    { nonTerminal := lhs, terminal := terminal, production := EPSILON : ParseTableEntry })
  match tableFirstSymbol rhs with
  | none => epsilonEntries
  | some firstSymbol =>
    if firstSymbol = EPSILON then epsilonEntries
    else if isTerminal grammar firstSymbol then
      [{ nonTerminal := lhs, terminal := firstSymbol, production := rhs }]
    else if isNonTerminal grammar firstSymbol then
      match findSet firstSets grammar.nonTerminals.length firstSymbol with
      | none => []
      | some symbolIndex =>
        ((elementsAt firstSets symbolIndex).filter (fun e => e != EPSILON)).map (fun terminal =>
          { nonTerminal := lhs, terminal := terminal, production := rhs : ParseTableEntry })
        ++ (if (elementsAt firstSets symbolIndex).any (fun e => e == EPSILON) then
              (elementsAt followSets ntIndex).map (fun terminal =>
                { nonTerminal := lhs, terminal := terminal, production := rhs : ParseTableEntry })
            else [])
    else []

/-- The entries one production adds (lines 1280-1403). -/
def tableProduction (grammar : Grammar) (firstSets followSets : List Set)
    (prod : Production) : List ParseTableEntry :=
  match findSet firstSets grammar.nonTerminals.length prod.lhs with
  | none => []
  | some ntIndex =>
    (prod.rhs.map (tableAlternative grammar firstSets followSets prod.lhs ntIndex)).flatten

/-- The function `constructLL1Table(grammar, firstSets, followSets)`. -/
def constructLL1Table (grammar : Grammar) (firstSets followSets : List Set) : ParseTable :=
  { entries := (grammar.productions.map (tableProduction grammar firstSets followSets)).flatten
    terminals := grammar.terminals ++ [str "$"]
    nonTerminals := grammar.nonTerminals }

/-! ## Fresh non-terminal names (lines 628-638 and 763-773) -/

/-- The digits `sprintf("%d", n)` prints for `n ≥ 0`, least significant first. -/
def decimalRev : Nat → Nat → List Nat
  | 0, _ => []
  | fuel + 1, n => if n < 10 then [48 + n] else (48 + n % 10) :: decimalRev fuel (n / 10)

/-- The text `sprintf("%d", n)` prints for `n ≥ 0`. -/
def decimal (n : Nat) : CStr := (decimalRev (n + 1) n).reverse

/-- The loop `while (isNonTerminal(result, temp)) sprintf(temp, "%s'%d", lhs,
suffix++);`, at most `fuel` iterations. -/
def freshLoop (result : Grammar) (lhs : CStr) : Nat → Nat → CStr → CStr
  | 0, _, temp => temp
  | fuel + 1, suffix, temp =>
    if isNonTerminal result temp then
      freshLoop result lhs fuel (suffix + 1) (lhs ++ str "'" ++ decimal suffix)
    else temp

/-- The name chosen for a new non-terminal made from `lhs`: `lhs'`, or the
first of `lhs'1`, `lhs'2`, ... that is not a non-terminal of `result`.  The
candidates are pairwise different, so one of the first
`numNonTerminals + 1` is free. -/
def freshName (result : Grammar) (lhs : CStr) : CStr :=
  freshLoop result lhs (result.nonTerminals.length + 1) 1 (lhs ++ str "'")

/-! ## Left-recursion removal (lines 689-811) -/

/-- The function `hasDirectLeftRecursion(prod)`. -/
def hasDirectLeftRecursion (prod : Production) : Bool :=
  prod.rhs.any (fun rhs => decide ((getSymbol rhs 0).1 = some prod.lhs))

/-- The array `recursiveParts` after the loop of lines 741-760: for every
alternative whose first symbol is the left-hand side, the text after that
symbol. -/
def recursiveParts (prod : Production) : List CStr :=
  prod.rhs.filterMap (fun rhs =>
    match getSymbol rhs 0 with
    | (some firstSymbol, pos) =>
      if firstSymbol = prod.lhs then
        some (if firstSymbol.length < rhs.length then rhs.drop pos else [])
      else none
    | (none, _) => none)

/-- The array `nonRecursiveParts` after the loop of lines 741-760. -/
def nonRecursiveParts (prod : Production) : List CStr :=
  prod.rhs.filter (fun rhs => !decide ((getSymbol rhs 0).1 = some prod.lhs))

/-- The body of the loop over the non-terminals (lines 713-808). -/
def removeStep (grammar : Grammar) (result : Grammar) (nonTerminal : CStr) : Grammar :=
  match grammar.productions.find? (fun p => p.lhs == nonTerminal) with
  | none => result
  | some prod =>
    if !hasDirectLeftRecursion prod then
      { result with productions := result.productions ++ [prod] }
    else
      let newNonTerminal := freshName result nonTerminal
      { result with
        nonTerminals := result.nonTerminals ++ [newNonTerminal]
        productions := result.productions ++
          [ { lhs := nonTerminal
              rhs := (nonRecursiveParts prod).map (fun part =>
                if part = EPSILON then newNonTerminal else part ++ str " " ++ newNonTerminal) },
            { lhs := newNonTerminal
              rhs := (recursiveParts prod).map (fun part =>
                if part = [] then newNonTerminal else part ++ str " " ++ newNonTerminal)
                ++ [EPSILON] } ] }

/-- The function `leftRecursionRemoval(grammar)`. -/
def leftRecursionRemoval (grammar : Grammar) : Grammar :=
  grammar.nonTerminals.foldl (removeStep grammar) { grammar with productions := [] }

/-! ## Left factoring (lines 474-482 and 549-686) -/

/-- The bytes `hasCommonPrefix` writes to its out-parameter. -/
def commonPrefix : CStr → CStr → CStr
  | a :: as, b :: bs => if a = b then a :: commonPrefix as bs else []
  | _, _ => []

/-- The function `hasCommonPrefix(rhs1, rhs2, out)`: the return value and the out-parameter. -/
def hasCommonPrefix (rhs1 rhs2 : CStr) : Bool × CStr :=
  (decide (0 < (commonPrefix rhs1 rhs2).length), commonPrefix rhs1 rhs2)

/-- The flag `needsFactoring` (lines 557-567). -/
def needsFactoring : List CStr → Bool
  | [] => false
  | rhs :: more =>
    more.any (fun other =>
      (hasCommonPrefix rhs other).1 && decide (0 < (hasCommonPrefix rhs other).2.length))
    || needsFactoring more

/-- The text `remainder` (lines 610-619) of an alternative whose first symbol
is `firstSymbol`, read up to position `pos`. -/
def remainderOf (rhs firstSymbol : CStr) (pos : Nat) : CStr :=
  if firstSymbol.length < rhs.length then rhs.drop pos
  else if rhs.length = firstSymbol.length then EPSILON
  else []

/-- The loop over `k` (lines 585-624) for a fixed `j`, over the positions
still to visit: the first symbol of alternative `j`, the array `newRHS` and
the flags `processed`.  `none` when `getSymbol` returns `NULL` and the result
goes to `strcpy` or `strcmp`. -/
def collectGroup (rhs : List CStr) (j : Nat) :
    List Nat → CStr → List CStr → List Bool → Option (CStr × List CStr × List Bool)
  | [], pre, newRHS, processed => some (pre, newRHS, processed)
  | k :: ks, pre, newRHS, processed =>
    if processed.getD k false then collectGroup rhs j ks pre newRHS processed
    else if j = k then
      match getSymbol (rhs.getD j []) 0 with
      | (none, _) => none
      | (some symbol, pos) =>
        collectGroup rhs j ks symbol
          (newRHS ++ [remainderOf (rhs.getD k []) symbol pos]) (processed.set k true)
    else
      match getSymbol (rhs.getD j []) 0, getSymbol (rhs.getD k []) 0 with
      | (some symbol1, _), (some symbol2, pos) =>
        if symbol1 = symbol2 then
          collectGroup rhs j ks pre
            (newRHS ++ [remainderOf (rhs.getD k []) symbol2 pos]) (processed.set k true)
        else collectGroup rhs j ks pre newRHS processed
      | _, _ => none

/-- The loop over `j` (lines 577-662), over the positions still to visit. -/
def factorGroups (prod : Production) :
    List Nat → List Bool → Grammar → Option (Grammar × List Bool)
  | [], processed, result => some (result, processed)
  | j :: js, processed, result =>
    if processed.getD j false then factorGroups prod js processed result
    else
      match collectGroup prod.rhs j (List.range' j (prod.rhs.length - j)) [] [] processed with
      | none => none
      | some (pre, newRHS, processed1) =>
        if 0 < newRHS.length then
          let newLHS := freshName result prod.lhs
          factorGroups prod js processed1
            { result with
              nonTerminals := result.nonTerminals ++ [newLHS]
              productions := result.productions ++
                [ { lhs := prod.lhs, rhs := [pre ++ str " " ++ newLHS] },
                  { lhs := newLHS, rhs := newRHS } ] }
        else factorGroups prod js processed1 result

/-- The body of the loop over the productions (lines 553-683). -/
def factorProduction (result : Grammar) (prod : Production) : Option Grammar :=
  if !needsFactoring prod.rhs then
    some { result with productions := result.productions ++ [prod] }
  else
    match factorGroups prod (List.range prod.rhs.length)
        (List.replicate prod.rhs.length false) result with
    | none => none
    | some (result1, processed) =>
      let unfactored := ((prod.rhs.zip processed).filter (fun x => !x.2)).map (fun x => x.1)
      if 0 < unfactored.length then
        some { result1 with
          productions := result1.productions ++ [{ lhs := prod.lhs, rhs := unfactored }] }
      else some result1

/-- The loop over the productions (lines 553-683). -/
def factorAll : List Production → Grammar → Option Grammar
  | [], result => some result
  | prod :: rest, result =>
    match factorProduction result prod with
    | none => none
    | some result1 => factorAll rest result1

/-- The function `leftFactoring(grammar)`; `none` when the program hands a `NULL` symbol to
a string function. -/
def leftFactoring (grammar : Grammar) : Option Grammar :=
  factorAll grammar.productions { grammar with productions := [] }

/-- The grammar `E -> T E'`, `E' -> + T E' | ε`, `T -> id`, with the symbol
lists `readGrammarFromFile` registers for these three lines: the left-hand
sides and single upper-case letters as non-terminals, every other byte of a
right-hand side as a terminal. -/
def exprGrammar : Grammar :=
  { productions :=
      [ { lhs := str "E", rhs := [str "T E'"] },
        { lhs := str "E'", rhs := [str "+ T E'", EPSILON] },
        { lhs := str "T", rhs := [str "id"] } ]
    terminals := [str " ", str "'", str "+", [0xC3], [0x8E], [0xC2], [0xB5], str "i", str "d"]
    nonTerminals := [str "E", str "T", str "E'"]
    startSymbol := str "E" }

/-- What the program reads as FIRST(`name`) or FOLLOW(`name`) in a set
array: the elements of the first set whose symbol is `name`. -/
def setFor (sets : List Set) (name : CStr) : List CStr :=
  match sets.find? (fun s => s.symbol == name) with
  | some s => s.elements
  | none => []

/-- The grammar `A -> aB | aC | d` as `readGrammarFromFile` registers it. -/
def factorGrammar : Grammar :=
  { productions := [{ lhs := str "A", rhs := [str "aB", str "aC", str "d"] }]
    terminals := [str "a", str "d"]
    nonTerminals := [str "A", str "B", str "C"]
    startSymbol := str "A" }

/-- The grammar `A -> Ab | c` as `readGrammarFromFile` registers it. -/
def recursionGrammar : Grammar :=
  { productions := [{ lhs := str "A", rhs := [str "Ab", str "c"] }]
    terminals := [str "b", str "c"]
    nonTerminals := [str "A"]
    startSymbol := str "A" }

/-- The grammar `S -> a | aB` as `readGrammarFromFile` registers it. -/
def ambiguousGrammar : Grammar :=
  { productions := [{ lhs := str "S", rhs := [str "a", str "aB"] }]
    terminals := [str "a"]
    nonTerminals := [str "S", str "B"]
    startSymbol := str "S" }

/-- The grammar `A -> ab` as `readGrammarFromFile` registers it. -/
def terminalGrammar : Grammar :=
  { productions := [{ lhs := str "A", rhs := [str "ab"] }]
    terminals := [str "a", str "b"]
    nonTerminals := [str "A"]
    startSymbol := str "A" }

/-- The grammar whose only production is `X -> ε`, the alternative being
the bytes `marker`, as `readGrammarFromFile` registers it: every byte of the
marker becomes a terminal. -/
def epsilonGrammar (marker : CStr) : Grammar :=
  { productions := [{ lhs := str "X", rhs := [marker] }]
    terminals := marker.map (fun c => [c])
    nonTerminals := [str "X"]
    startSymbol := str "X" }

/-- The grammar `X -> a | b` as `readGrammarFromFile` registers it. -/
def choiceGrammar : Grammar :=
  { productions := [{ lhs := str "X", rhs := [str "a", str "b"] }]
    terminals := [str "a", str "b"]
    nonTerminals := [str "X"]
    startSymbol := str "X" }

/-- The grammar `X -> alt`, `Y -> ε` as `readGrammarFromFile` registers it,
`altTerminals` being the terminals found in `alt`. -/
def nullableGrammar (alt : CStr) (altTerminals : List CStr) : Grammar :=
  { productions := [{ lhs := str "X", rhs := [alt] }, { lhs := str "Y", rhs := [EPSILON] }]
    terminals := altTerminals ++ [[0xC3], [0x8E], [0xC2], [0xB5]]
    nonTerminals := [str "X", str "Y"]
    startSymbol := str "X" }

/-- The candidate names in the order the search loop tries them. -/
def candidate (lhs : CStr) (k : Nat) : CStr :=
  if k = 0 then lhs ++ str "'" else lhs ++ str "'" ++ decimal k

/-- The names `getSymbol` returns as one multi-byte token: an upper-case
letter followed by bytes that continue the scan of line 503. -/
def isIdentifier : CStr → Bool
  | [] => false
  | c :: cs => isupper c && cs.all isIdentChar

/-! ## Notions used to state and prove the properties of the solvers -/

/-- The number of elements held by a set array. -/
def total (sets : List Set) : Nat := (sets.map (fun s => s.elements.length)).sum

/-- The array `after` extends the array `before`: the same symbols at the same
indices, and every element list continued at its end. -/
def Ext : List Set → List Set → Prop
  | [], [] => True
  | a :: as, b :: bs => (b.symbol = a.symbol ∧ a.elements <+: b.elements) ∧ Ext as bs
  | _, _ => False

/-- The array `after` is `before` with the set at index `i` replaced by a
set that extends it (or `before` itself when there is no such index). -/
def ExtAt (i : Nat) (before after : List Set) : Prop :=
  ∃ y, after = before.set i y ∧
    ∀ x, before[i]? = some x → y.symbol = x.symbol ∧ x.elements <+: y.elements

/-- What a piece of a solver pass does to the array and to the flag
`changes`: the array is extended, the flag stays raised, it is raised when
an element was added and only then. -/
def Adv (before : List Set) (changes : Bool) (r : List Set × Bool) : Prop :=
  Ext before r.1 ∧ (r.2 = false → changes = false ∧ r.1 = before) ∧
    (r.2 = true → changes = true ∨ total before < total r.1) ∧
    (changes = true → r.2 = true)

/-- Every set of the array is duplicate-free and made of elements of `alphabet`. -/
def WF (alphabet : List CStr) (sets : List Set) : Prop :=
  ∀ x ∈ sets, x.elements.Nodup ∧ ∀ e ∈ x.elements, e ∈ alphabet

/-- The elements a FIRST set can hold: `EPSILON` and the terminals. -/
def firstAlphabet (grammar : Grammar) : List CStr := EPSILON :: grammar.terminals

/-- The elements a FOLLOW set can hold: `$`, the terminals and the elements
of the supplied FIRST sets. -/
def followAlphabet (grammar : Grammar) (firstSets : List Set) : List CStr :=
  str "$" :: (grammar.terminals ++
    ((firstSets.take grammar.nonTerminals.length).map (fun s => s.elements)).flatten)

/-- One iteration of the scan of an alternative (lines 1016-1110), after
`getSymbol` returned `symbol` and left the position at `savedPos`: the
position, the array and the flag `changes` at the end of the iteration. -/
def scanStep (grammar : Grammar) (firstSets : List Set) (lhsIndex : Nat) (rhs : CStr)
    (symbol : CStr) (savedPos : Nat) (followSets : List Set) (changes : Bool) :
    Nat × List Set × Bool :=
  if isNonTerminal grammar symbol then
    match findSet followSets grammar.nonTerminals.length symbol with
    | none => (savedPos, followSets, changes)
    | some ntIndex =>
      match getSymbol rhs savedPos with
      | (none, endPos) =>
        let s1 := addAllAt followSets ntIndex (elementsAt followSets lhsIndex)
        (endPos, s1, changes || grewAt followSets s1 ntIndex)
      | (some nextSymbol, _) =>
        if isTerminal grammar nextSymbol then
          let s1 := addToSetAt followSets ntIndex nextSymbol
          (savedPos, s1, changes || grewAt followSets s1 ntIndex)
        else if isNonTerminal grammar nextSymbol then
          match findSet firstSets grammar.nonTerminals.length nextSymbol with
          | none => (savedPos, followSets, changes)
          | some nextIndex =>
            let s1 :=
              addAllExceptEpsilonAt followSets ntIndex (elementsAt firstSets nextIndex)
            let c1 := changes || grewAt followSets s1 ntIndex
            if (elementsAt firstSets nextIndex).any (fun e => e == EPSILON) then
              let s2 := addAllAt s1 ntIndex (elementsAt s1 lhsIndex)
              (savedPos, s2, c1 || grewAt s1 s2 ntIndex)
            else (savedPos, s1, c1)
        else (savedPos, followSets, changes)
  else (savedPos, followSets, changes)

/-- The symbols `getSymbol` returns when it is called again and again from
position `pos`, at most `fuel` of them. -/
def tokensFrom (rhs : CStr) : Nat → Nat → List CStr
  | 0, _ => []
  | fuel + 1, pos =>
    match getSymbol rhs pos with
    | (none, _) => []
    | (some symbol, next) => symbol :: tokensFrom rhs fuel next

/-- The symbol sequence of an alternative, as `getSymbol` splits it.  Every
symbol takes at least one byte, so `strlen(rhs) + 1` calls are enough. -/
def tokenize (rhs : CStr) : List CStr := tokensFrom rhs (rhs.length + 1) 0

/-- The condition under which one iteration of the scan adds nothing, for the
symbol `symbol` of an alternative of the production at index `lhsIndex`,
followed by the symbol `next` (`none` at the end of the alternative). -/
def ClosedAt (grammar : Grammar) (firstSets : List Set) (lhsIndex : Nat) (s : List Set)
    (symbol : CStr) (next : Option CStr) : Prop :=
  isNonTerminal grammar symbol = true →
  ∀ ntIndex, findSet s grammar.nonTerminals.length symbol = some ntIndex →
    match next with
    | none => ∀ e ∈ elementsAt s lhsIndex, e ∈ elementsAt s ntIndex
    | some nextSymbol =>
      (isTerminal grammar nextSymbol = true → nextSymbol ∈ elementsAt s ntIndex) ∧
      (isTerminal grammar nextSymbol = false → isNonTerminal grammar nextSymbol = true →
        ∀ nextIndex, findSet firstSets grammar.nonTerminals.length nextSymbol = some nextIndex →
          (∀ e ∈ elementsAt firstSets nextIndex, e ≠ EPSILON → e ∈ elementsAt s ntIndex) ∧
          (EPSILON ∈ elementsAt firstSets nextIndex →
            ∀ e ∈ elementsAt s lhsIndex, e ∈ elementsAt s ntIndex))

/-- The rule of the specification (section 4.4) for FIRST of a symbol
sequence, computed from supplied FIRST sets: `EPSILON` for the empty
sequence; a leading terminal alone; for a leading non-terminal its FIRST set
without `EPSILON`, continued with the rest of the sequence when that set
contains `EPSILON`. -/
def specFirstOfSequence (grammar : Grammar) (firstSets : List Set) : List CStr → List CStr
  | [] => [EPSILON]
  | symbol :: rest =>
    if symbol = EPSILON then [EPSILON]
    else if isTerminal grammar symbol then [symbol]
    else
      (setFor firstSets symbol).filter (fun e => e != EPSILON) ++
        (if (setFor firstSets symbol).any (fun e => e == EPSILON) then
          specFirstOfSequence grammar firstSets rest
        else [])

/-- The grammar `S -> B C d` as `readGrammarFromFile` registers it. -/
def sequenceGrammar : Grammar :=
  { productions := [{ lhs := str "S", rhs := [str "B C d"] }]
    terminals := [str " ", str "d"]
    nonTerminals := [str "S", str "B", str "C"]
    startSymbol := str "S" }

/-- A FIRST-set argument for `sequenceGrammar`, indexed by its non-terminals,
in which FIRST(C) holds `EPSILON`. -/
def sequenceFirstSets : List Set :=
  [⟨str "S", []⟩, ⟨str "B", []⟩, ⟨str "C", [EPSILON]⟩]

/-- The grammar `S -> B`, `x -> B a B b` as `readGrammarFromFile` registers it:
the left-hand side `x` does not start with an upper-case letter, so it is not
entered in the non-terminal list, but its production is kept. -/
def strayGrammar : Grammar :=
  { productions :=
      [{ lhs := str "S", rhs := [str "B"] }, { lhs := str "x", rhs := [str "B a B b"] }]
    terminals := [str " ", str "a", str "b"]
    nonTerminals := [str "S", str "B"]
    startSymbol := str "S" }

/-- The grammar `A -> B a B b` as `readGrammarFromFile` registers it. -/
def repeatGrammar : Grammar :=
  { productions := [{ lhs := str "A", rhs := [str "B a B b"] }]
    terminals := [str " ", str "a", str "b"]
    nonTerminals := [str "A", str "B"]
    startSymbol := str "A" }

/-- The grammar `A -> a B | a C` as `readGrammarFromFile` registers it. -/
def spacedGrammar : Grammar :=
  { productions := [{ lhs := str "A", rhs := [str "a B", str "a C"] }]
    terminals := [str "a", str " "]
    nonTerminals := [str "A", str "B", str "C"]
    startSymbol := str "A" }

/-- The grammar `after` continues the grammar `before`: the same terminals
and start symbol, the non-terminal list and the production list continued
at their ends, and no repeated non-terminal name unless there was one. -/
def Continues (before after : Grammar) : Prop :=
  after.terminals = before.terminals ∧ after.startSymbol = before.startSymbol ∧
  (∃ names, after.nonTerminals = before.nonTerminals ++ names) ∧
  (before.nonTerminals.Nodup → after.nonTerminals.Nodup) ∧
  (∃ prods, after.productions = before.productions ++ prods)

/-- The first symbol of the alternative at index `k` (`none` for `NULL`). -/
def symAt (alts : List CStr) (k : Nat) : Option CStr := (getSymbol (alts.getD k []) 0).1

/-- The text `remainder` the grouping loop computes for the alternative at
index `k` when its first symbol is `symbol`. -/
def remAt (alts : List CStr) (symbol : CStr) (k : Nat) : CStr :=
  remainderOf (alts.getD k []) symbol (getSymbol (alts.getD k []) 0).2

/-- The alternatives of the production the grouping loop puts under the
first symbol `symbol`: for every alternative that begins with `symbol`, in
the original order, the text after that symbol, or `EPSILON` when the
alternative is `symbol` alone. -/
def groupOf (alts : List CStr) (symbol : CStr) : List CStr :=
  (alts.filter (fun rhs => decide ((getSymbol rhs 0).1 = some symbol))).map
    (fun rhs => remainderOf rhs symbol (getSymbol rhs 0).2)

/-- The grammar `A -> a A'`, `A' -> B | B` with a space before the second `B`: what `leftFactoring`
returns for `A -> aB | a B`. -/
def indentedGrammar : Grammar :=
  { productions :=
      [{ lhs := str "A", rhs := [str "a A'"] }, { lhs := str "A'", rhs := [str "B", str " B"] }]
    terminals := [str "a", str " "]
    nonTerminals := [str "A", str "B", str "A'"]
    startSymbol := str "A" }

/-- The grammar `A -> B a`, `B -> A b` as `readGrammarFromFile` registers it:
left recursion that goes through two non-terminals. -/
def indirectGrammar : Grammar :=
  { productions := [{ lhs := str "A", rhs := [str "B a"] }, { lhs := str "B", rhs := [str "A b"] }]
    terminals := [str " ", str "a", str "b"]
    nonTerminals := [str "A", str "B"]
    startSymbol := str "A" }

/-- The grammar `S -> B c` as `readGrammarFromFile` registers it: the
non-terminal `B` is used in an alternative and has no production. -/
def undefinedGrammar : Grammar :=
  { productions := [{ lhs := str "S", rhs := [str "B c"] }]
    terminals := [str " ", str "c"]
    nonTerminals := [str "S", str "B"]
    startSymbol := str "S" }

/-- The production written by lines 780-791 for a production `prod` with
direct left recursion and the new name `newNonTerminal`: the left-hand side
of `prod` with, for every non-recursive part, that part followed by a space
and the new name (the new name alone when the part is `EPSILON`). -/
def rewrittenProduction (prod : Production) (newNonTerminal : CStr) : Production :=
  { lhs := prod.lhs
    rhs := (nonRecursiveParts prod).map (fun part =>
      if part = EPSILON then newNonTerminal else part ++ str " " ++ newNonTerminal) }

/-- The production written by lines 794-807: the new name with, for every
recursive part, that part followed by a space and the new name (the new name
alone when the part is empty), and `EPSILON` as last alternative. -/
def tailProduction (prod : Production) (newNonTerminal : CStr) : Production :=
  { lhs := newNonTerminal
    rhs := (recursiveParts prod).map (fun part =>
      if part = [] then newNonTerminal else part ++ str " " ++ newNonTerminal) ++ [EPSILON] }

/-- What the loop over the non-terminals (lines 713-808) does, in order: for
every non-terminal that has a production, the first production with that
left-hand side and, when it has direct left recursion, the new name made for
it. -/
def removalSteps (grammar : Grammar) : List CStr → Grammar → List (Production × Option CStr)
  | [], _ => []
  | nt :: rest, result =>
    match grammar.productions.find? (fun p => p.lhs == nt) with
    | none => removalSteps grammar rest (removeStep grammar result nt)
    | some prod =>
      (prod, if hasDirectLeftRecursion prod then some (freshName result nt) else none) ::
        removalSteps grammar rest (removeStep grammar result nt)

/-- The productions one step of the loop appends to the result. -/
def stepProductions : Production × Option CStr → List Production
  | (prod, none) => [prod]
  | (prod, some name) => [rewrittenProduction prod name, tailProduction prod name]

/-- What `leftFactoring` returns for `A -> aB | aC | d`: the productions
`A -> a A'`, `A' -> B | C`, `A -> d A'1`, `A'1 -> ε`, two of them with the
left-hand side `A`. -/
def factoredGrammar : Grammar :=
  { productions :=
      [ { lhs := str "A", rhs := [str "a A'"] }, { lhs := str "A'", rhs := [str "B", str "C"] },
        { lhs := str "A", rhs := [str "d A'1"] }, { lhs := str "A'1", rhs := [EPSILON] } ]
    terminals := [str "a", str "d"]
    nonTerminals := [str "A", str "B", str "C", str "A'", str "A'1"]
    startSymbol := str "A" }

/-- The grammar `A -> A | b` as `readGrammarFromFile` registers it: one
alternative is the left-hand side alone. -/
def bareGrammar : Grammar :=
  { productions := [{ lhs := str "A", rhs := [str "A", str "b"] }]
    terminals := [str "b"]
    nonTerminals := [str "A"]
    startSymbol := str "A" }

/-- The grammar `E -> E + T | T`, `T -> i` as `readGrammarFromFile` registers it. -/
def sumGrammar : Grammar :=
  { productions :=
      [{ lhs := str "E", rhs := [str "E + T", str "T"] }, { lhs := str "T", rhs := [str "i"] }]
    terminals := [str " ", str "+", str "i"]
    nonTerminals := [str "E", str "T"]
    startSymbol := str "E" }

/-- The body of the loop over the alternatives (lines 892-964) for an
alternative whose first symbol is `symbol`, read up to position `pos`: the
array and the flag `changes` when the loop is left. -/
def firstStep (grammar : Grammar) (ntIndex : Nat) (rhs symbol : CStr) (pos : Nat)
    (firstSets : List Set) (changes : Bool) : List Set × Bool :=
  if symbol = EPSILON then
    let s1 := addToSetAt firstSets ntIndex EPSILON
    (s1, changes || grewAt firstSets s1 ntIndex)
  else if isTerminal grammar symbol then
    let s1 := addToSetAt firstSets ntIndex symbol
    (s1, changes || grewAt firstSets s1 ntIndex)
  else if isNonTerminal grammar symbol then
    match findSet firstSets grammar.nonTerminals.length symbol with
    | none => (firstSets, changes)
    | some symbolIndex =>
      let s1 := addAllExceptEpsilonAt firstSets ntIndex (elementsAt firstSets symbolIndex)
      let c1 := changes || grewAt firstSets s1 ntIndex
      let hasEpsilon := (elementsAt s1 symbolIndex).any (fun e => e == EPSILON)
      if !hasEpsilon then (s1, c1)
      else
        match getSymbol rhs pos with
        | (none, _) =>
          let s2 := addToSetAt s1 ntIndex EPSILON
          (s2, c1 || grewAt s1 s2 ntIndex)
        | (some _, _) => (s1, c1)
  else (firstSets, changes)

/-- The array `s` lies below the array `t`: the same symbols at the same
indices, and every element of a set of `s` is in the set of `t` at the same
index. -/
def Below (s t : List Set) : Prop :=
  s.map (fun x => x.symbol) = t.map (fun x => x.symbol) ∧
    ∀ i, ∀ e ∈ elementsAt s i, e ∈ elementsAt t i

/-- The condition under which the body of the loop over the alternatives
adds nothing to the array `s`, for an alternative of the production with
index `ntIndex` whose first symbol is `symbol`, followed by the symbol `next`
(`none` at the end of the alternative). -/
def FirstClosedAt (grammar : Grammar) (s : List Set) (ntIndex : Nat) (symbol : CStr)
    (next : Option CStr) : Prop :=
  (symbol = EPSILON → EPSILON ∈ elementsAt s ntIndex) ∧
  (symbol ≠ EPSILON → isTerminal grammar symbol = true → symbol ∈ elementsAt s ntIndex) ∧
  (symbol ≠ EPSILON → isTerminal grammar symbol = false → isNonTerminal grammar symbol = true →
    ∀ symbolIndex, findSet s grammar.nonTerminals.length symbol = some symbolIndex →
      (∀ e ∈ elementsAt s symbolIndex, e ≠ EPSILON → e ∈ elementsAt s ntIndex) ∧
      (EPSILON ∈ elementsAt s symbolIndex → next = none → EPSILON ∈ elementsAt s ntIndex))

/-- The symbol sequence an alternative stands for: the empty sequence for
the alternative `EPSILON`, the symbols `getSymbol` splits it into otherwise. -/
def symbolsOf (rhs : CStr) : List CStr := if rhs = EPSILON then [] else tokenize rhs

/-- Derivation of terminal strings: `Derives grammar form w` says that the
symbol sequence `form` derives the string `w` of terminals, every terminal
of `form` standing for itself and every non-terminal of `form` being
replaced by the symbol sequence of one of the alternatives of one of its
productions, which in turn derives its part of `w`. -/
inductive Derives (grammar : Grammar) : List CStr → List CStr → Prop
  | done : Derives grammar [] []
  | shift (t : CStr) (rest w : List CStr) (ht : isTerminal grammar t = true)
      (h : Derives grammar rest w) : Derives grammar (t :: rest) (t :: w)
  | expand (lhs : CStr) (alts : List CStr) (rhs : CStr) (rest u w : List CStr)
      (hn : isNonTerminal grammar lhs = true)
      (hp : (⟨lhs, alts⟩ : Production) ∈ grammar.productions) (hr : rhs ∈ alts)
      (h1 : Derives grammar (symbolsOf rhs) u) (h2 : Derives grammar rest w) :
      Derives grammar (lhs :: rest) (u ++ w)

/-- One derivation step: a non-terminal of the sequence that is the
left-hand side of a production is replaced by the symbol sequence of one of
the alternatives of that production. -/
def Rewrites (grammar : Grammar) (form form1 : List CStr) : Prop :=
  ∃ (pre post : List CStr) (prod : Production) (rhs : CStr),
    prod ∈ grammar.productions ∧ isNonTerminal grammar prod.lhs = true ∧ rhs ∈ prod.rhs ∧
    form = pre ++ prod.lhs :: post ∧ form1 = pre ++ symbolsOf rhs ++ post

/-- The language of a grammar: the strings of terminals that the start
symbol reaches in any number of derivation steps. -/
def Generates (grammar : Grammar) (w : List CStr) : Prop :=
  (∀ t ∈ w, isTerminal grammar t = true) ∧
    Relation.ReflTransGen (Rewrites grammar) [grammar.startSymbol] w

/-- The alternatives of the productions whose left-hand side is `symbol`. -/
def alternativesOf (grammar : Grammar) (symbol : CStr) : List CStr :=
  ((grammar.productions.filter (fun p => p.lhs == symbol)).map (fun p => p.rhs)).flatten

/-- Every element of every set of the array satisfies `P`, a property of the
symbol of the set and of the element. -/
def Holds (P : CStr → CStr → Prop) (sets : List Set) : Prop :=
  ∀ x ∈ sets, ∀ e ∈ x.elements, P x.symbol e

/-- The symbol `symbol` is the first symbol of an alternative of a production
for `name`. -/
def BeginsWith (grammar : Grammar) (name symbol : CStr) : Prop :=
  ∃ prod ∈ grammar.productions, prod.lhs = name ∧
    ∃ rhs ∈ prod.rhs, (getSymbol rhs 0).1 = some symbol

/-- The symbol `t` can start what `name` derives: there is a chain
`name = X0, X1, ..., Xn` in which every `X(i+1)` is a non-terminal and the
first symbol of an alternative of a production for `Xi`, and `t` is the first
symbol of an alternative of a production for `Xn`. -/
def CanStart (grammar : Grammar) (name t : CStr) : Prop :=
  ∃ last,
    Relation.ReflTransGen
      (fun X Y => isNonTerminal grammar Y = true ∧ BeginsWith grammar X Y) name last ∧
    BeginsWith grammar last t

/-- What holds of an element `e` of the FIRST set of `name`: it is not
`EPSILON`, it is a terminal, and it can start what `name` derives. -/
def FirstOk (grammar : Grammar) (name e : CStr) : Prop :=
  e ≠ EPSILON ∧ isTerminal grammar e = true ∧ CanStart grammar name e

/-- The production `prod` truncated to its first alternative that is not
empty or whitespace-only (no alternative at all when it has none). -/
def firstAlternativeOnly (prod : Production) : Production :=
  { prod with rhs := (prod.rhs.find? (fun rhs => !rhs.all isspace)).toList }

/-- The grammar the specification of `computeFirstSets` is compared with,
in its words: the grammar with every production truncated to its first
alternative that is not empty or whitespace-only. -/
def truncatedGrammar (grammar : Grammar) : Grammar :=
  { grammar with productions := grammar.productions.map firstAlternativeOnly }

/-- The grammar `A -> | B c | d`, `B -> b`: the first alternative of `A` is a
single space. -/
def blankFirstGrammar : Grammar :=
  { productions :=
      [{ lhs := str "A", rhs := [str " ", str "B c", str "d"] }, { lhs := str "B", rhs := [str "b"] }]
    terminals := [str " ", str "c", str "d", str "b"]
    nonTerminals := [str "A", str "B"]
    startSymbol := str "A" }

/-- The productions that stay when every production is removed whose
left-hand side is not in the list `nonTerminals` or that is preceded by
another production with the same left-hand side; `seen` holds the left-hand
sides of the productions that come before. -/
def firstListedProductions (nonTerminals : List CStr) :
    List Production → List CStr → List Production
  | [], _ => []
  | p :: rest, seen =>
    if p.lhs ∈ nonTerminals ∧ p.lhs ∉ seen then
      p :: firstListedProductions nonTerminals rest (p.lhs :: seen)
    else firstListedProductions nonTerminals rest (p.lhs :: seen)

/-- The grammar the specification of `leftRecursionRemoval` is compared
with, in its words: the grammar with every production removed whose
left-hand side is not in the non-terminal list or that is preceded by
another production with the same left-hand side. -/
def prunedGrammar (grammar : Grammar) : Grammar :=
  { grammar with
    productions := firstListedProductions grammar.nonTerminals grammar.productions [] }

/-- The grammar `after` has the terminals and the start symbol of `before`,
and its non-terminal list is that of `before` followed by names that are not
in it. -/
def Appends (before after : Grammar) : Prop :=
  after.terminals = before.terminals ∧ after.startSymbol = before.startSymbol ∧
  ∃ names, after.nonTerminals = before.nonTerminals ++ names ∧
    ∀ name ∈ names, name ∉ before.nonTerminals

/-- The first symbols of the alternatives at the indices `js` that no earlier
alternative begins with, in the order of the indices. -/
def leadingSymbolsFrom (alts : List CStr) (js : List Nat) : List CStr :=
  js.filterMap (fun j =>
    if (List.range j).all (fun j' => symAt alts j' != symAt alts j) then symAt alts j else none)

/-- The distinct first symbols of the alternatives, in the order in which
they first occur. -/
def leadingSymbols (alts : List CStr) : List CStr :=
  leadingSymbolsFrom alts (List.range alts.length)

/-- The productions the grouping loop writes for the production `prod` when
its groups are those of the first symbols `x.1` and the new non-terminals
made for them are the names `x.2`: for every group the production
`lhs -> symbol F` with that single alternative, followed by the production of
`F`, whose alternatives are the group. -/
def factoredBlock (prod : Production) (groups : List (CStr × CStr)) : List Production :=
  (groups.map (fun x =>
    [({ lhs := prod.lhs, rhs := [x.1 ++ str " " ++ x.2] } : Production),
      { lhs := x.2, rhs := groupOf prod.rhs x.1 }])).flatten

/-- What the loop over the productions writes for the production `prod`: the
production itself when no factoring is asked for, and otherwise one pair of
productions for every distinct first symbol of its alternatives, each with a
new non-terminal that is not in the list `base` and is in the list `final`. -/
def FactoredAs (base final : List CStr) (prod : Production) (block : List Production) : Prop :=
  (needsFactoring prod.rhs = false → block = [prod]) ∧
  (needsFactoring prod.rhs = true →
    ∃ groups : List (CStr × CStr),
      groups.map (fun x => x.1) = leadingSymbols prod.rhs ∧
      block = factoredBlock prod groups ∧
      ∀ name ∈ groups.map (fun x => x.2), name ∉ base ∧ name ∈ final)

/-! ## Lemmas -/

/-! ### Set arrays and the table builder -/

/-- The index search reads only the symbol fields of the array. -/
theorem findSet_congr (a b : List Set) (n : Nat) (name : CStr)
    (h : a.map (fun s => s.symbol) = b.map (fun s => s.symbol)) :
    findSet a n name = findSet b n name := by
  induction a generalizing b n with
  | nil =>
    cases b with
    | nil => rfl
    | cons y ys => simp at h
  | cons x xs ih =>
    cases b with
    | nil => simp at h
    | cons y ys =>
      simp only [List.map_cons, List.cons.injEq] at h
      cases n with
      | zero => rfl
      | succ m =>
        simp only [findSet, h.1]
        rw [ih ys m h.2]

/-- A name that occurs among the symbols of the first `n` sets is found, and
the set at the index found is the one `setFor` reads. -/
theorem findSet_elementsAt (sets : List Set) (n : Nat) (name : CStr)
    (hn : sets.length ≤ n) (hmem : name ∈ sets.map (fun s => s.symbol)) :
    ∃ i, findSet sets n name = some i ∧ elementsAt sets i = setFor sets name := by
  induction sets generalizing n with
  | nil => simp at hmem
  | cons x xs ih =>
    cases n with
    | zero => simp at hn
    | succ m =>
      by_cases hx : x.symbol = name
      · refine ⟨0, ?_, ?_⟩
        · simp [findSet, hx]
        · simp [elementsAt, setFor, List.find?, hx]
      · have hmem2 : name ∈ xs.map (fun s => s.symbol) := by
          simp only [List.map_cons, List.mem_cons] at hmem
          rcases hmem with h | h
          · exact absurd h.symm hx
          · exact h
        have hlen : xs.length ≤ m := by simpa using hn
        obtain ⟨i, hi, he⟩ := ih m hlen hmem2
        refine ⟨i + 1, ?_, ?_⟩
        · simp [findSet, hx, hi]
        · have hbeq : (x.symbol == name) = false := by simpa using hx
          simpa [elementsAt, setFor, List.find?, hbeq] using he

/-- The table builder finds no first symbol in the alternative `EPSILON`: the
first call of `getSymbol` consumes its first byte and `getSymbol1` does not
find the bytes `CE B5` after it. -/
theorem tableFirstSymbol_EPSILON : tableFirstSymbol EPSILON = none := by
  decide

/-! ### Fresh names: the search loop ends on an unused name -/

/-- With fuel left, the digit list is not empty. -/
theorem decimalRev_ne_nil (fuel n : Nat) (h : 0 < fuel) : decimalRev fuel n ≠ [] := by
  cases fuel with
  | zero => omega
  | succ f =>
    unfold decimalRev
    split <;> simp

/-- Two numbers with the same digits are equal. -/
theorem decimalRev_inj (n : Nat) :
    ∀ (f g m : Nat), n < f → m < g → decimalRev f n = decimalRev g m → n = m := by
  induction n using Nat.strong_induction_on with
  | _ n ih =>
    intro f g m hf hg h
    cases f with
    | zero => omega
    | succ f =>
      cases g with
      | zero => omega
      | succ g =>
        unfold decimalRev at h
        by_cases hn : n < 10
        · by_cases hm : m < 10
          · simp only [hn, hm, if_true, List.cons.injEq, and_true] at h
            omega
          · simp only [hn, hm, if_true, if_false, List.cons.injEq] at h
            exact absurd h.2.symm (decimalRev_ne_nil g (m / 10) (by omega))
        · by_cases hm : m < 10
          · simp only [hn, hm, if_true, if_false, List.cons.injEq] at h
            exact absurd h.2 (decimalRev_ne_nil f (n / 10) (by omega))
          · simp only [hn, hm, if_false, List.cons.injEq] at h
            have hq : n / 10 = m / 10 :=
              ih (n / 10) (by omega) f g (m / 10) (by omega) (by omega) h.2
            omega

/-- The text of a number determines the number. -/
theorem decimal_inj (n m : Nat) (h : decimal n = decimal m) : n = m := by
  unfold decimal at h
  exact decimalRev_inj n (n + 1) (m + 1) m (by omega) (by omega) (List.reverse_injective h)

/-- The text of a number is not empty. -/
theorem decimal_ne_nil (n : Nat) : decimal n ≠ [] := by
  unfold decimal
  intro h
  exact decimalRev_ne_nil (n + 1) n (by omega) (List.reverse_eq_nil_iff.mp h)

/-- The candidate names are pairwise different. -/
theorem candidate_inj (lhs : CStr) (j k : Nat) (h : candidate lhs j = candidate lhs k) :
    j = k := by
  unfold candidate at h
  by_cases hj : j = 0
  · by_cases hk : k = 0
    · omega
    · simp only [hj, hk, if_true, if_false] at h
      have h2 : decimal k = [] := by simpa using h.symm
      exact absurd h2 (decimal_ne_nil k)
  · by_cases hk : k = 0
    · simp only [hj, hk, if_true, if_false] at h
      have h2 : decimal j = [] := by simpa using h
      exact absurd h2 (decimal_ne_nil j)
    · simp only [hj, hk, if_false] at h
      exact decimal_inj j k (List.append_cancel_left h)

/-- The test `isNonTerminal` is membership in the non-terminal list. -/
theorem isNonTerminal_iff (grammar : Grammar) (symbol : CStr) :
    isNonTerminal grammar symbol = true ↔ symbol ∈ grammar.nonTerminals := by
  simp [isNonTerminal, List.any_eq_true]

/-- When one of the next `fuel` candidates is unused, the loop stops on an
unused name. -/
theorem freshLoop_unused (result : Grammar) (lhs : CStr) (fuel : Nat) :
    ∀ k, (∃ j, k ≤ j ∧ j < k + fuel ∧ isNonTerminal result (candidate lhs j) = false) →
      isNonTerminal result (freshLoop result lhs fuel (k + 1) (candidate lhs k)) = false := by
  induction fuel with
  | zero =>
    intro k h
    obtain ⟨j, h1, h2, _⟩ := h
    omega
  | succ f ih =>
    intro k h
    obtain ⟨j, h1, h2, h3⟩ := h
    unfold freshLoop
    by_cases hk : isNonTerminal result (candidate lhs k) = true
    · simp only [hk, if_true]
      have hjk : j ≠ k := by
        intro e
        rw [e, hk] at h3
        exact Bool.noConfusion h3
      have hc : lhs ++ str "'" ++ decimal (k + 1) = candidate lhs (k + 1) := by
        simp [candidate]
      rw [hc]
      exact ih (k + 1) ⟨j, by omega, by omega, h3⟩
    · have hk2 : isNonTerminal result (candidate lhs k) = false := by
        simpa using hk
      simp only [hk2]
      exact hk2

/-- Among the first `numNonTerminals + 1` candidates one is unused. -/
theorem exists_unused_candidate (result : Grammar) (lhs : CStr) :
    ∃ j, j < result.nonTerminals.length + 1 ∧
      isNonTerminal result (candidate lhs j) = false := by
  by_contra hcon
  have hall : ∀ j, j < result.nonTerminals.length + 1 →
      candidate lhs j ∈ result.nonTerminals := by
    intro j hj
    by_contra hnot
    apply hcon
    refine ⟨j, hj, ?_⟩
    have := (isNonTerminal_iff result (candidate lhs j)).not.mpr hnot
    simpa using this
  have hnodup : ((List.range (result.nonTerminals.length + 1)).map (candidate lhs)).Nodup :=
    List.Nodup.map_on (fun x _ y _ h => candidate_inj lhs x y h)
      (List.nodup_range _)
  have hsub : (List.range (result.nonTerminals.length + 1)).map (candidate lhs)
      ⊆ result.nonTerminals := by
    intro x hx
    obtain ⟨j, hj, rfl⟩ := List.mem_map.mp hx
    exact hall j (List.mem_range.mp hj)
  have hle := (List.Nodup.subperm hnodup hsub).length_le
  simp at hle

/-- The search loop has fuel enough: the name it returns is not a
non-terminal of `result`. -/
theorem freshName_unused (result : Grammar) (lhs : CStr) :
    freshName result lhs ∉ result.nonTerminals := by
  obtain ⟨j, hj, hu⟩ := exists_unused_candidate result lhs
  have h := freshLoop_unused result lhs (result.nonTerminals.length + 1) 0
    ⟨j, by omega, by omega, hu⟩
  have hc : candidate lhs 0 = lhs ++ str "'" := by simp [candidate]
  rw [hc] at h
  intro hmem
  have := (isNonTerminal_iff result (freshName result lhs)).mpr hmem
  unfold freshName at this
  rw [h] at this
  exact Bool.noConfusion this

/-- The fresh name depends on the non-terminal list only. -/
theorem freshName_congr (r1 r2 : Grammar) (lhs : CStr)
    (h : r1.nonTerminals = r2.nonTerminals) : freshName r1 lhs = freshName r2 lhs := by
  have hloop : ∀ fuel suffix temp,
      freshLoop r1 lhs fuel suffix temp = freshLoop r2 lhs fuel suffix temp := by
    intro fuel
    induction fuel with
    | zero => intro suffix temp; rfl
    | succ f ih =>
      intro suffix temp
      simp only [freshLoop, isNonTerminal, h, ih]
  simp only [freshName, h, hloop]

/-! ### Left-recursion removal of a single production -/

/-- An upper-case letter is not whitespace. -/
theorem isspace_of_isupper (c : Nat) (h : isupper c = true) : isspace c = false := by
  simp only [isupper, Bool.and_eq_true, decide_eq_true_eq] at h
  simp only [isspace, Bool.or_eq_false_iff, beq_eq_false_iff_ne, Bool.and_eq_false_iff,
    decide_eq_false_iff_not]
  omega

/-- An upper-case letter continues an identifier. -/
theorem isIdentChar_of_isupper (c : Nat) (h : isupper c = true) : isIdentChar c = true := by
  simp [isIdentChar, isalnum, isalpha, h]

/-- A scan stops at the end of a block of accepted bytes that is followed by
a rejected byte or by nothing. -/
theorem takeWhile_block (p : Nat → Bool) (l r : List Nat) (hl : ∀ x ∈ l, p x = true)
    (hr : ∀ x xs, r = x :: xs → p x = false) : (l ++ r).takeWhile p = l := by
  induction l with
  | nil =>
    cases r with
    | nil => rfl
    | cons x xs => simp [List.takeWhile, hr x xs rfl]
  | cons a as ih =>
    have ha : p a = true := hl a (List.mem_cons_self a as)
    simp only [List.cons_append, List.takeWhile_cons, ha, if_true]
    rw [ih (fun x hx => hl x (List.mem_cons_of_mem a hx))]

/-- At the start of `A ++ α`, with `A` an identifier and `α` not continuing
it, `getSymbol` returns `A` and stops right after it. -/
theorem getSymbol_identifier_append (A α : CStr) (hA : isIdentifier A = true)
    (hα : ∀ x xs, α = x :: xs → isIdentChar x = false) :
    getSymbol (A ++ α) 0 = (some A, A.length) := by
  cases A with
  | nil => simp [isIdentifier] at hA
  | cons c cs =>
    simp only [isIdentifier, Bool.and_eq_true, List.all_eq_true] at hA
    obtain ⟨hc, hcs⟩ := hA
    have hsp : isspace c = false := isspace_of_isupper c hc
    have halpha : isalpha c = true := by simp [isalpha, hc]
    have hblock : (c :: (cs ++ α)).takeWhile isIdentChar = c :: cs := by
      rw [← List.cons_append]
      apply takeWhile_block isIdentChar (c :: cs) α _ hα
      intro x hx
      rcases List.mem_cons.mp hx with h | h
      · rw [h]; exact isIdentChar_of_isupper c hc
      · exact hcs x h
    have hskip : skipSpaces (c :: (cs ++ α)) 0 = 0 := by
      simp [skipSpaces, List.takeWhile_cons, hsp]
    rw [List.cons_append]
    simp only [getSymbol, hskip, List.drop_zero, halpha, hc, Bool.and_self, if_true, hblock]
    simp

/-- A non-terminal without a production leaves the result as it is. -/
theorem removeStep_no_production (grammar result : Grammar) (nonTerminal : CStr)
    (h : grammar.productions.find? (fun p => p.lhs == nonTerminal) = none) :
    removeStep grammar result nonTerminal = result := by
  simp [removeStep, h]

/-- Non-terminals without a production leave the result as it is. -/
theorem foldl_removeStep_no_production (grammar : Grammar) (l : List CStr)
    (h : ∀ x ∈ l, grammar.productions.find? (fun p => p.lhs == x) = none) :
    ∀ result, l.foldl (removeStep grammar) result = result := by
  induction l with
  | nil => intro result; rfl
  | cons x xs ih =>
    intro result
    simp only [List.foldl_cons]
    rw [removeStep_no_production grammar result x (h x (List.mem_cons_self x xs))]
    exact ih (fun y hy => h y (List.mem_cons_of_mem x hy)) result

/-- The loop body at `A` for the grammar whose only production is
`A -> Aα | β`. -/
theorem removeStep_single (grammar result : Grammar) (A α β : CStr)
    (hA : isIdentifier A = true)
    (hα : ∃ x xs, α = x :: xs ∧ isIdentChar x = false)
    (hβ : (getSymbol β 0).1 ≠ some A)
    (hprods : grammar.productions = [⟨A, [A ++ α, β]⟩]) :
    removeStep grammar result A =
      { result with
        nonTerminals := result.nonTerminals ++ [freshName result A]
        productions := result.productions ++
          [ ⟨A, [if β = EPSILON then freshName result A
                 else β ++ str " " ++ freshName result A]⟩,
            ⟨freshName result A, [α ++ str " " ++ freshName result A, EPSILON]⟩ ] } := by
  obtain ⟨x, xs, hx, hxc⟩ := hα
  have hne : α ≠ [] := by rw [hx]; exact List.cons_ne_nil x xs
  have hlen : A.length < (A ++ α).length := by
    rw [List.length_append, hx, List.length_cons]; omega
  have h1 : getSymbol (A ++ α) 0 = (some A, A.length) :=
    getSymbol_identifier_append A α hA (fun y ys hy => by
      rw [hx] at hy
      rw [← (List.cons.inj hy).1]; exact hxc)
  have hrec : hasDirectLeftRecursion ⟨A, [A ++ α, β]⟩ = true := by
    simp [hasDirectLeftRecursion, h1]
  have hparts : recursiveParts ⟨A, [A ++ α, β]⟩ = [α] := by
    rcases hgs : getSymbol β 0 with ⟨sym, pos⟩
    rw [hgs] at hβ
    cases sym with
    | none => simp [recursiveParts, List.filterMap, h1, hgs, hlen]
    | some sym =>
      have hsym : sym ≠ A := fun e => hβ (by rw [e])
      simp [recursiveParts, List.filterMap, h1, hgs, hlen, hsym]
  have hnon : nonRecursiveParts ⟨A, [A ++ α, β]⟩ = [β] := by
    simp [nonRecursiveParts, List.filter, h1, hβ]
  simp only [removeStep, hprods, List.find?, beq_self_eq_true, hrec, Bool.not_true,
    hparts, hnon, List.map_cons, List.map_nil, hne, if_false]
  simp

/-! ### The solvers on the example grammars -/

/-- On each grammar used as an example below the two solvers stop because a
pass changed nothing, not because the pass budget ran out: one more pass
over the productions reports no change. -/
theorem example_grammars_converge :
    ∀ g ∈ [exprGrammar, ambiguousGrammar, terminalGrammar, epsilonGrammar EPSILON,
        epsilonGrammar [0xCE, 0xB5], choiceGrammar,
        nullableGrammar (str "Y t") [str " ", str "t"], nullableGrammar (str "Y") []],
      (firstPass g g.productions (computeFirstSets g) false).2 = false ∧
      (followPass g (computeFirstSets g) g.productions
        (computeFollowSets g (computeFirstSets g)) false).2 = false := by
  decide

/-! ### Set arrays that only grow -/

/-- Every array extends itself. -/
theorem Ext.ext_refl : ∀ s : List Set, Ext s s
  | [] => trivial
  | _ :: as => ⟨⟨rfl, List.prefix_refl _⟩, Ext.ext_refl as⟩

/-- An extension of an extension is an extension. -/
theorem Ext.ext_trans : ∀ {s t u : List Set}, Ext s t → Ext t u → Ext s u
  | [], [], [], _, _ => trivial
  | _ :: _, _ :: _, _ :: _, h1, h2 =>
    ⟨⟨h2.1.1.trans h1.1.1, h1.1.2.trans h2.1.2⟩, Ext.ext_trans h1.2 h2.2⟩
  | [], _ :: _, _, h1, _ => h1.elim
  | _ :: _, [], _, h1, _ => h1.elim
  | _ :: _, _ :: _, [], _, h2 => h2.elim
  | [], [], _ :: _, _, h2 => h2.elim

/-- An extension has as many sets as the array it extends. -/
theorem Ext.length_eq : ∀ {s t : List Set}, Ext s t → t.length = s.length
  | [], [], _ => rfl
  | _ :: _, _ :: _, h => by simp [Ext.length_eq h.2]
  | [], _ :: _, h => h.elim
  | _ :: _, [], h => h.elim

/-- An extension carries the same symbols. -/
theorem Ext.symbols : ∀ {s t : List Set}, Ext s t →
    t.map (fun x => x.symbol) = s.map (fun x => x.symbol)
  | [], [], _ => rfl
  | a :: as, b :: bs, h => by simp [h.1.1, Ext.symbols h.2]
  | [], _ :: _, h => h.elim
  | _ :: _, [], h => h.elim

/-- In an extended array every set still starts with its old elements. -/
theorem Ext.elementsAt_kept : ∀ {s t : List Set}, Ext s t →
    ∀ i, elementsAt s i <+: elementsAt t i
  | [], [], _, i => by simp [elementsAt]
  | a :: as, b :: bs, h, 0 => by simpa [elementsAt] using h.1.2
  | a :: as, b :: bs, h, i + 1 => by
    have := Ext.elementsAt_kept h.2 i
    simpa [elementsAt] using this
  | [], _ :: _, h, _ => h.elim
  | _ :: _, [], h, _ => h.elim

/-- An extension holds at least as many elements. -/
theorem Ext.ext_total_le : ∀ {s t : List Set}, Ext s t → total s ≤ total t
  | [], [], _ => Nat.le_refl _
  | a :: as, b :: bs, h => by
    have h1 := h.1.2.length_le
    have h2 := Ext.ext_total_le h.2
    simp only [total, List.map_cons, List.sum_cons] at h2 ⊢
    omega
  | [], _ :: _, h => h.elim
  | _ :: _, [], h => h.elim

/-- An extension that holds no more elements is the array itself. -/
theorem Ext.eq_of_total_le : ∀ {s t : List Set}, Ext s t → total t ≤ total s → t = s
  | [], [], _, _ => rfl
  | a :: as, b :: bs, h, hle => by
    have h1 := h.1.2.length_le
    have h2 := Ext.ext_total_le h.2
    simp only [total, List.map_cons, List.sum_cons] at h2 hle
    have hel : a.elements = b.elements := h.1.2.eq_of_length_le (by omega)
    have hrest : bs = as := Ext.eq_of_total_le h.2 (by simp only [total]; omega)
    have hb : b = a := by
      cases a; cases b
      simp only [Set.mk.injEq]
      exact ⟨h.1.1, hel.symm⟩
    rw [hb, hrest]
  | [], _ :: _, h, _ => h.elim
  | _ :: _, [], h, _ => h.elim

/-- The index search gives the same answer on an extended array. -/
theorem Ext.findSet_eq {s t : List Set} (h : Ext s t) (n : Nat) (name : CStr) :
    findSet t n name = findSet s n name :=
  findSet_congr t s n name (Ext.symbols h)

/-- An index found by the search is an index of the array. -/
theorem findSet_lt : ∀ (s : List Set) (n : Nat) (name : CStr) (i : Nat),
    findSet s n name = some i → i < s.length ∧ i < n
  | [], _, _, _, h => by simp [findSet] at h
  | _ :: _, 0, _, _, h => by simp [findSet] at h
  | x :: xs, n + 1, name, i, h => by
    simp only [findSet] at h
    by_cases hx : x.symbol = name
    · simp only [hx, if_true, Option.some.injEq] at h
      subst h
      simp
    · simp only [hx, if_false, Option.map_eq_some'] at h
      obtain ⟨j, hj, rfl⟩ := h
      have := findSet_lt xs n name j hj
      simp only [List.length_cons]
      omega

/-- The set at an index found by the search carries the name searched for. -/
theorem findSet_symbol : ∀ (s : List Set) (n : Nat) (name : CStr) (i : Nat),
    findSet s n name = some i → ∃ x, s[i]? = some x ∧ x.symbol = name
  | [], _, _, _, h => by simp [findSet] at h
  | _ :: _, 0, _, _, h => by simp [findSet] at h
  | x :: xs, n + 1, name, i, h => by
    simp only [findSet] at h
    by_cases hx : x.symbol = name
    · simp only [hx, if_true, Option.some.injEq] at h
      subst h
      exact ⟨x, by simp, hx⟩
    · simp only [hx, if_false, Option.map_eq_some'] at h
      obtain ⟨j, hj, rfl⟩ := h
      obtain ⟨y, hy, hs⟩ := findSet_symbol xs n name j hj
      exact ⟨y, by simpa using hy, hs⟩

/-- Leaving the array alone is an update at any index. -/
theorem ExtAt.at_refl (i : Nat) (s : List Set) : ExtAt i s s := by
  cases h : s[i]? with
  | none =>
    refine ⟨⟨[], []⟩, ?_, ?_⟩
    · rw [List.set_eq_of_length_le]
      exact List.getElem?_eq_none_iff.mp h
    · intro x hx
      rw [h] at hx
      exact Option.noConfusion hx
  | some x =>
    refine ⟨x, ?_, ?_⟩
    · apply List.ext_getElem?
      intro j
      by_cases hj : i = j
      · subst hj
        rw [List.getElem?_set_self (by
          by_contra hlt
          rw [List.getElem?_eq_none_iff.mpr (by omega)] at h
          exact Option.noConfusion h), h]
      · rw [List.getElem?_set_ne hj]
    · intro x' hx'
      rw [h] at hx'
      rw [Option.some.inj hx']
      exact ⟨rfl, List.prefix_refl _⟩

/-- Two updates at the same index make one. -/
theorem ExtAt.at_trans {i : Nat} {s t u : List Set} (h1 : ExtAt i s t) (h2 : ExtAt i t u) :
    ExtAt i s u := by
  obtain ⟨y, rfl, hy⟩ := h1
  obtain ⟨z, rfl, hz⟩ := h2
  refine ⟨z, List.set_set y z s i, ?_⟩
  intro x hx
  have hlt : i < s.length := by
    by_contra hlt
    rw [List.getElem?_eq_none_iff.mpr (by omega)] at hx
    exact Option.noConfusion hx
  have h3 := hz y (List.getElem?_set_self hlt)
  have h4 := hy x hx
  exact ⟨h3.1.trans h4.1, h4.2.trans h3.2⟩

/-- Replacing one set by an extension of it extends the array. -/
theorem ext_set : ∀ (s : List Set) (i : Nat) (y : Set),
    (∀ x, s[i]? = some x → y.symbol = x.symbol ∧ x.elements <+: y.elements) →
    Ext s (s.set i y)
  | [], _, _, _ => trivial
  | a :: as, 0, y, h => ⟨h a (by simp), Ext.ext_refl as⟩
  | a :: as, i + 1, y, h =>
    ⟨⟨rfl, List.prefix_refl _⟩, ext_set as i y (fun x hx => h x (by simpa using hx))⟩

/-- An update at an index extends the array. -/
theorem ExtAt.to_ext {i : Nat} {s t : List Set} (h : ExtAt i s t) : Ext s t := by
  obtain ⟨y, rfl, hy⟩ := h
  exact ext_set s i y hy

/-- The element count after one set was replaced. -/
theorem total_set : ∀ (s : List Set) (i : Nat) (x y : Set), s[i]? = some x →
    total (s.set i y) + x.elements.length = total s + y.elements.length
  | [], _, _, _, h => by simp at h
  | a :: as, 0, x, y, h => by
    simp only [List.getElem?_cons_zero, Option.some.injEq] at h
    subst h
    simp only [List.set_cons_zero, total, List.map_cons, List.sum_cons]
    omega
  | a :: as, i + 1, x, y, h => by
    have := total_set as i x y (by simpa using h)
    simp only [List.set_cons_succ, total, List.map_cons, List.sum_cons] at this ⊢
    omega

/-- The test that raises `changes` after an update of the set at index `i`
is true exactly when the array holds more elements than before, and an
update that adds nothing leaves the array as it was. -/
theorem ExtAt.to_adv {i : Nat} {s t : List Set} (h : ExtAt i s t) (changes : Bool) :
    Adv s changes (t, changes || grewAt s t i) := by
  have hext := h.to_ext
  obtain ⟨y, rfl, hy⟩ := h
  cases hx : s[i]? with
  | none =>
    have hlen : s.length ≤ i := List.getElem?_eq_none_iff.mp hx
    have hst : s.set i y = s := List.set_eq_of_length_le hlen
    rw [hst]
    have hg : grewAt s s i = false := by simp [grewAt]
    rw [hg]
    refine ⟨Ext.ext_refl s, ?_, ?_, ?_⟩ <;> simp
  | some x =>
    have hlt : i < s.length := by
      by_contra hlt
      rw [List.getElem?_eq_none_iff.mpr (by omega)] at hx
      exact Option.noConfusion hx
    obtain ⟨hsym, hpre⟩ := hy x hx
    have htot := total_set s i x y hx
    have hafter : elementsAt (s.set i y) i = y.elements := by
      simp [elementsAt, List.getElem?_set_self hlt]
    have hbefore : elementsAt s i = x.elements := by simp [elementsAt, hx]
    have hg : grewAt s (s.set i y) i = decide (x.elements.length < y.elements.length) := by
      simp [grewAt, hafter, hbefore]
    rw [hg]
    have hle := hpre.length_le
    refine ⟨hext, ?_, ?_, ?_⟩
    · intro hf
      simp only [Bool.or_eq_false_iff, decide_eq_false_iff_not] at hf
      refine ⟨hf.1, ?_⟩
      have hle2 : total (s.set i y) ≤ total s := by omega
      exact Ext.eq_of_total_le hext hle2
    · intro ht
      simp only [Bool.or_eq_true, decide_eq_true_eq] at ht
      rcases ht with ht | ht
      · exact Or.inl ht
      · right; show total s < total (s.set i y); omega
    · intro hc
      simp [hc]

/-- Two pieces of a pass, one after the other, make a piece of a pass. -/
theorem Adv.adv_trans {s : List Set} {c : Bool} {r r' : List Set × Bool}
    (h1 : Adv s c r) (h2 : Adv r.1 r.2 r') : Adv s c r' := by
  obtain ⟨e1, a1, b1, c1⟩ := h1
  obtain ⟨e2, a2, b2, c2⟩ := h2
  refine ⟨e1.ext_trans e2, ?_, ?_, ?_⟩
  · intro hf
    obtain ⟨hr, hs⟩ := a2 hf
    obtain ⟨hc, hs1⟩ := a1 hr
    exact ⟨hc, hs.trans hs1⟩
  · intro ht
    rcases b2 ht with h | h
    · rcases b1 h with h' | h'
      · exact Or.inl h'
      · right
        have := e2.ext_total_le
        omega
    · right
      have := e1.ext_total_le
      omega
  · intro hc
    exact c2 (c1 hc)

/-- Doing nothing is a piece of a pass. -/
theorem Adv.adv_refl (s : List Set) (c : Bool) : Adv s c (s, c) := by
  refine ⟨Ext.ext_refl s, ?_, ?_, ?_⟩
  · intro h; exact ⟨h, rfl⟩
  · intro h; exact Or.inl h
  · intro h; exact h

/-! ### The updates `addToSet` makes -/

/-- The call `addToSet` keeps the symbol of the set. -/
theorem addToSet_symbol (x : Set) (e : CStr) : (addToSet x e).symbol = x.symbol := by
  unfold addToSet
  split <;> rfl

/-- The call `addToSet` keeps the elements and their order. -/
theorem addToSet_keeps (x : Set) (e : CStr) : x.elements <+: (addToSet x e).elements := by
  unfold addToSet
  split
  · exact List.prefix_refl _
  · exact List.prefix_append _ _

/-- After `addToSet` the element is in the set. -/
theorem mem_addToSet (x : Set) (e : CStr) : e ∈ (addToSet x e).elements := by
  unfold addToSet
  split
  · rename_i h
    simpa [List.any_eq_true] using h
  · simp

/-- After `addToSet` the set holds its old elements and the new one only. -/
theorem mem_of_mem_addToSet (x : Set) (e a : CStr) (h : a ∈ (addToSet x e).elements) :
    a ∈ x.elements ∨ a = e := by
  unfold addToSet at h
  split at h
  · exact Or.inl h
  · simpa using h

/-- The call `addToSet` adds no duplicate. -/
theorem addToSet_nodup (x : Set) (e : CStr) (h : x.elements.Nodup) :
    (addToSet x e).elements.Nodup := by
  unfold addToSet
  split
  · exact h
  · rename_i hn
    have hne : e ∉ x.elements := by
      intro hmem
      apply hn
      simp only [List.any_eq_true, beq_iff_eq]
      exact ⟨e, hmem, rfl⟩
    simp only
    rw [List.nodup_append]
    refine ⟨h, List.nodup_singleton e, ?_⟩
    intro a ha hb
    rw [List.mem_singleton.mp hb] at ha
    exact hne ha

/-- The call `addToSet` on the set at an index is an update at that index. -/
theorem addToSetAt_extAt (s : List Set) (i : Nat) (e : CStr) :
    ExtAt i s (addToSetAt s i e) := by
  unfold addToSetAt
  cases h : s[i]? with
  | none => exact ExtAt.at_refl i s
  | some x =>
    refine ⟨addToSet x e, rfl, ?_⟩
    intro x' hx'
    rw [h] at hx'
    rw [← Option.some.inj hx']
    exact ⟨addToSet_symbol x e, addToSet_keeps x e⟩

/-- The loop of `addToSet` calls on the set at an index is an update at that index. -/
theorem addAllAt_extAt (i : Nat) (src : List CStr) :
    ∀ s : List Set, ExtAt i s (addAllAt s i src) := by
  induction src with
  | nil => intro s; exact ExtAt.at_refl i s
  | cons e rest ih =>
    intro s
    have h1 := addToSetAt_extAt s i e
    have h2 := ih (addToSetAt s i e)
    simpa [addAllAt] using h1.at_trans h2

/-- The guarded loop of `addToSet` calls is an update at the index. -/
theorem addAllExceptEpsilonAt_extAt (i : Nat) (src : List CStr) (s : List Set) :
    ExtAt i s (addAllExceptEpsilonAt s i src) :=
  addAllAt_extAt i _ s

/-- After the update the element is in the set at the index, when there is
such an index. -/
theorem mem_addToSetAt (s : List Set) (i : Nat) (e : CStr) (h : i < s.length) :
    e ∈ elementsAt (addToSetAt s i e) i := by
  have hx : s[i]? = some s[i] := List.getElem?_eq_getElem h
  simp only [addToSetAt, hx, elementsAt, List.getElem?_set_self h]
  exact mem_addToSet _ e

/-- After the loop every element of the source is in the set at the index. -/
theorem mem_addAllAt (i : Nat) (src : List CStr) :
    ∀ s : List Set, i < s.length → ∀ e ∈ src, e ∈ elementsAt (addAllAt s i src) i := by
  induction src with
  | nil => intro s _ e he; simp at he
  | cons a rest ih =>
    intro s hlt e he
    have hlen : i < (addToSetAt s i a).length := by
      rw [(addToSetAt_extAt s i a).to_ext.length_eq]; exact hlt
    rcases List.mem_cons.mp he with h | h
    · subst h
      have h1 := mem_addToSetAt s i e hlt
      have h2 := (addAllAt_extAt i rest (addToSetAt s i e)).to_ext.elementsAt_kept i
      exact h2.subset h1
    · exact ih (addToSetAt s i a) hlen e h

/-- A loop that leaves the array as it was found every element present. -/
theorem subset_of_addAllAt_eq (s : List Set) (i : Nat) (src : List CStr)
    (hlt : i < s.length) (h : addAllAt s i src = s) : ∀ e ∈ src, e ∈ elementsAt s i := by
  intro e he
  have := mem_addAllAt i src s hlt e he
  rw [h] at this
  exact this

/-- A call of `addToSet` that leaves the array as it was found the element present. -/
theorem mem_of_addToSetAt_eq (s : List Set) (i : Nat) (e : CStr)
    (hlt : i < s.length) (h : addToSetAt s i e = s) : e ∈ elementsAt s i := by
  have := mem_addToSetAt s i e hlt
  rw [h] at this
  exact this

/-- In a well-formed array every set read by index is duplicate-free and within the alphabet. -/
theorem WF.wf_elementsAt {A : List CStr} {s : List Set} (h : WF A s) (i : Nat) :
    (elementsAt s i).Nodup ∧ ∀ e ∈ elementsAt s i, e ∈ A := by
  unfold LL1.elementsAt
  cases hx : s[i]? with
  | none => simp
  | some x => exact h x (List.getElem?_mem hx)

/-- Replacing a set by a well-formed set keeps the array well formed. -/
theorem WF.wf_set {A : List CStr} {s : List Set} (h : WF A s) (i : Nat) (y : Set)
    (hy : y.elements.Nodup ∧ ∀ e ∈ y.elements, e ∈ A) : WF A (s.set i y) := by
  intro x hx
  rcases List.mem_or_eq_of_mem_set hx with h1 | h1
  · exact h x h1
  · rw [h1]; exact hy

/-- Adding an element of the alphabet keeps the array well formed. -/
theorem WF.wf_addToSetAt {A : List CStr} {s : List Set} (h : WF A s) (i : Nat) (e : CStr)
    (he : e ∈ A) : WF A (addToSetAt s i e) := by
  unfold LL1.addToSetAt
  cases hx : s[i]? with
  | none => exact h
  | some x =>
    have hxs := h x (List.getElem?_mem hx)
    apply h.wf_set
    refine ⟨addToSet_nodup x e hxs.1, ?_⟩
    intro a ha
    rcases mem_of_mem_addToSet x e a ha with h1 | h1
    · exact hxs.2 a h1
    · rw [h1]; exact he

/-- Adding elements of the alphabet keeps the array well formed. -/
theorem WF.wf_addAllAt {A : List CStr} (i : Nat) (src : List CStr) :
    ∀ s : List Set, WF A s → (∀ e ∈ src, e ∈ A) → WF A (addAllAt s i src) := by
  induction src with
  | nil => intro s h _; exact h
  | cons a rest ih =>
    intro s h hsrc
    have h1 := h.wf_addToSetAt i a (hsrc a (List.mem_cons_self a rest))
    have h2 := ih (LL1.addToSetAt s i a) h1 (fun e he => hsrc e (List.mem_cons_of_mem a he))
    simpa [LL1.addAllAt] using h2

/-- The guarded loop keeps the array well formed. -/
theorem WF.wf_addAllExceptEpsilonAt {A : List CStr} {s : List Set} (h : WF A s) (i : Nat)
    (src : List CStr) (hsrc : ∀ e ∈ src, e ∈ A) : WF A (addAllExceptEpsilonAt s i src) := by
  unfold LL1.addAllExceptEpsilonAt
  apply WF.wf_addAllAt i _ s h
  intro e he
  exact hsrc e (List.mem_of_mem_filter he)

/-- A well-formed array holds at most `length * |alphabet|` elements. -/
theorem WF.wf_total_le {A : List CStr} : ∀ {s : List Set}, WF A s →
    total s ≤ s.length * A.length
  | [], _ => by simp [total]
  | x :: xs, h => by
    have hx := h x (List.mem_cons_self x xs)
    have hlen : x.elements.length ≤ A.length :=
      (List.Nodup.subperm hx.1 (fun e he => hx.2 e he)).length_le
    have hrest := WF.wf_total_le (s := xs) (fun y hy => h y (List.mem_cons_of_mem x hy))
    simp only [total, List.map_cons, List.sum_cons, List.length_cons] at hrest ⊢
    rw [Nat.add_mul]
    omega

/-! ### The FIRST solver reaches a fixed point -/

/-- The test `isTerminal` is membership in the terminal list. -/
theorem isTerminal_iff (grammar : Grammar) (symbol : CStr) :
    isTerminal grammar symbol = true ↔ symbol ∈ grammar.terminals := by
  simp [isTerminal, List.any_eq_true]

/-- The loop over the alternatives only extends the array, raises `changes`
exactly when it adds an element, and adds terminals and `EPSILON` only. -/
theorem firstAlternatives_adv (grammar : Grammar) (ntIndex : Nat) :
    ∀ (alts : List CStr) (s : List Set) (c : Bool),
      Adv s c (firstAlternatives grammar ntIndex alts s c) ∧
      (WF (firstAlphabet grammar) s →
        WF (firstAlphabet grammar) (firstAlternatives grammar ntIndex alts s c).1) := by
  intro alts
  induction alts with
  | nil => intro s c; exact ⟨Adv.adv_refl s c, fun h => h⟩
  | cons rhs more ih =>
    intro s c
    unfold firstAlternatives
    rcases hgs : getSymbol rhs 0 with ⟨sym, pos⟩
    cases sym with
    | none => simpa using ih s c
    | some symbol =>
      simp only
      by_cases h1 : symbol = EPSILON
      · simp only [h1, if_true]
        exact ⟨(addToSetAt_extAt s ntIndex EPSILON).to_adv c,
          fun h => h.wf_addToSetAt ntIndex EPSILON (List.mem_cons_self _ _)⟩
      · simp only [h1, if_false]
        by_cases h2 : isTerminal grammar symbol = true
        · simp only [h2, if_true]
          exact ⟨(addToSetAt_extAt s ntIndex symbol).to_adv c,
            fun h => h.wf_addToSetAt ntIndex symbol
              (List.mem_cons_of_mem _ ((isTerminal_iff grammar symbol).mp h2))⟩
        · simp only [h2, if_false]
          by_cases h3 : isNonTerminal grammar symbol = true
          · simp only [h3, if_true]
            cases hf : findSet s grammar.nonTerminals.length symbol with
            | none => exact ⟨Adv.adv_refl s c, fun h => h⟩
            | some symbolIndex =>
              simp only
              have a1 := (addAllExceptEpsilonAt_extAt ntIndex
                (elementsAt s symbolIndex) s).to_adv c
              have w1 : WF (firstAlphabet grammar) s → WF (firstAlphabet grammar)
                  (addAllExceptEpsilonAt s ntIndex (elementsAt s symbolIndex)) :=
                fun h => h.wf_addAllExceptEpsilonAt ntIndex _ (h.wf_elementsAt symbolIndex).2
              by_cases hE : (elementsAt (addAllExceptEpsilonAt s ntIndex
                  (elementsAt s symbolIndex)) symbolIndex).any (fun e => e == EPSILON) = true
              · simp only [hE, Bool.not_true]
                rcases hg2 : getSymbol rhs pos with ⟨sym2, pos2⟩
                cases sym2 with
                | none =>
                  simp only [Bool.false_eq_true, if_false]
                  exact ⟨a1.adv_trans ((addToSetAt_extAt _ ntIndex EPSILON).to_adv _),
                    fun h => (w1 h).wf_addToSetAt ntIndex EPSILON (List.mem_cons_self _ _)⟩
                | some next =>
                  simp only [Bool.false_eq_true, if_false]
                  exact ⟨a1, w1⟩
              · have hE2 : (elementsAt (addAllExceptEpsilonAt s ntIndex
                  (elementsAt s symbolIndex)) symbolIndex).any (fun e => e == EPSILON)
                    = false := Bool.eq_false_iff.mpr hE
                simp only [hE2, Bool.not_false, if_true]
                exact ⟨a1, w1⟩
          · simp only [h3]
            exact ⟨Adv.adv_refl s c, fun h => h⟩

/-- One pass over the productions only extends the array, raises `changes`
exactly when it adds an element, and adds terminals and `EPSILON` only. -/
theorem firstPass_adv (grammar : Grammar) :
    ∀ (prods : List Production) (s : List Set) (c : Bool),
      Adv s c (firstPass grammar prods s c) ∧
      (WF (firstAlphabet grammar) s →
        WF (firstAlphabet grammar) (firstPass grammar prods s c).1) := by
  intro prods
  induction prods with
  | nil => intro s c; exact ⟨Adv.adv_refl s c, fun h => h⟩
  | cons prod rest ih =>
    intro s c
    unfold firstPass
    cases hf : findSet s grammar.nonTerminals.length prod.lhs with
    | none => simpa using ih s c
    | some ntIndex =>
      simp only
      have h1 := firstAlternatives_adv grammar ntIndex prod.rhs s c
      have h2 := ih (firstAlternatives grammar ntIndex prod.rhs s c).1
        (firstAlternatives grammar ntIndex prod.rhs s c).2
      exact ⟨h1.1.adv_trans h2.1, fun h => h2.2 (h1.2 h)⟩

/-- With enough passes left the loop ends on an array that a further pass
leaves as it is. -/
theorem firstLoop_fixed (grammar : Grammar) :
    ∀ (fuel : Nat) (s : List Set), WF (firstAlphabet grammar) s →
      s.length * (firstAlphabet grammar).length < total s + fuel →
      firstPass grammar grammar.productions (firstLoop grammar fuel s) false =
        (firstLoop grammar fuel s, false) := by
  intro fuel
  induction fuel with
  | zero =>
    intro s hw hlt
    have := hw.wf_total_le
    omega
  | succ f ih =>
    intro s hw hlt
    have hadv := firstPass_adv grammar grammar.productions s false
    unfold firstLoop
    simp only
    by_cases hc : (firstPass grammar grammar.productions s false).2 = true
    · simp only [hc, if_true]
      have hgrow := hadv.1.2.2.1 hc
      have hlen := hadv.1.1.length_eq
      apply ih _ (hadv.2 hw)
      rw [hlen]
      rcases hgrow with h | h
      · exact Bool.noConfusion h
      · omega
    · have hc2 : (firstPass grammar grammar.productions s false).2 = false := by
        simpa using hc
      simp only [hc2]
      have hsame := (hadv.1.2.1 hc2).2
      rw [hsame]
      exact Prod.ext hsame hc2

/-- The initial array is well formed and empty. -/
theorem initSets_wf (A : List CStr) (grammar : Grammar) :
    WF A (initSets grammar) ∧ total (initSets grammar) = 0 ∧
      (initSets grammar).length = grammar.nonTerminals.length := by
  unfold initSets
  refine ⟨?_, ?_, by simp⟩
  · intro x hx
    obtain ⟨nt, _, rfl⟩ := List.mem_map.mp hx
    simp
  · unfold total
    induction grammar.nonTerminals with
    | nil => rfl
    | cons a as ih => simpa using ih

/-- The pass budget of `computeFirstSets` is enough. -/
theorem computeFirstSets_fixed (grammar : Grammar) :
    firstPass grammar grammar.productions (computeFirstSets grammar) false =
      (computeFirstSets grammar, false) := by
  unfold computeFirstSets
  obtain ⟨hw, ht, hl⟩ := initSets_wf (firstAlphabet grammar) grammar
  apply firstLoop_fixed grammar _ _ hw
  rw [ht, hl]
  simp [firstFuel, firstAlphabet]

/-! ### The FOLLOW solver reaches a fixed point -/

/-- The scan of an alternative, one iteration unfolded. -/
theorem followScan_succ (grammar : Grammar) (firstSets : List Set) (lhsIndex : Nat)
    (rhs : CStr) (fuel pos : Nat) (s : List Set) (c : Bool) :
    followScan grammar firstSets lhsIndex rhs (fuel + 1) pos s c =
      if pos < rhs.length then
        match getSymbol rhs pos with
        | (none, _) => (s, c)
        | (some symbol, savedPos) =>
          followScan grammar firstSets lhsIndex rhs fuel
            (scanStep grammar firstSets lhsIndex rhs symbol savedPos s c).1
            (scanStep grammar firstSets lhsIndex rhs symbol savedPos s c).2.1
            (scanStep grammar firstSets lhsIndex rhs symbol savedPos s c).2.2
      else (s, c) := by
  rw [followScan]
  by_cases hp : pos < rhs.length
  · simp only [hp, if_true]
    rcases hgs : getSymbol rhs pos with ⟨sym, sp⟩
    cases sym with
    | none => rfl
    | some symbol =>
      simp only [scanStep]
      split
      · split
        · rfl
        · split
          · rfl
          · split
            · rfl
            · split
              · split
                · rfl
                · split <;> rfl
              · rfl
      · rfl
  · simp only [hp, if_false]

/-- The elements of a supplied FIRST set that the scan can reach belong to
the FOLLOW alphabet. -/
theorem firstSets_subset_followAlphabet (grammar : Grammar) (firstSets : List Set)
    (name : CStr) (i : Nat)
    (h : findSet firstSets grammar.nonTerminals.length name = some i) :
    ∀ e ∈ elementsAt firstSets i, e ∈ followAlphabet grammar firstSets := by
  intro e he
  obtain ⟨hlt, hn⟩ := findSet_lt firstSets _ name i h
  have hx : firstSets[i]? = some firstSets[i] := List.getElem?_eq_getElem hlt
  simp only [elementsAt, hx] at he
  have hmem : firstSets[i] ∈ firstSets.take grammar.nonTerminals.length := by
    apply List.getElem?_mem (n := i)
    rw [List.getElem?_take_of_lt hn, hx]
  unfold followAlphabet
  apply List.mem_cons_of_mem
  apply List.mem_append_right
  exact List.mem_flatten.mpr ⟨_, List.mem_map.mpr ⟨_, hmem, rfl⟩, he⟩

/-- One iteration of the scan only extends the array, raises `changes`
exactly when it adds an element, and adds elements of the FOLLOW alphabet
only. -/
theorem scanStep_adv (grammar : Grammar) (firstSets : List Set) (lhsIndex : Nat)
    (rhs symbol : CStr) (savedPos : Nat) (s : List Set) (c : Bool) :
    Adv s c ((scanStep grammar firstSets lhsIndex rhs symbol savedPos s c).2.1,
      (scanStep grammar firstSets lhsIndex rhs symbol savedPos s c).2.2) ∧
    (WF (followAlphabet grammar firstSets) s →
      WF (followAlphabet grammar firstSets)
        (scanStep grammar firstSets lhsIndex rhs symbol savedPos s c).2.1) := by
  unfold scanStep
  by_cases h1 : isNonTerminal grammar symbol = true
  · simp only [h1, if_true]
    cases hf : findSet s grammar.nonTerminals.length symbol with
    | none => exact ⟨Adv.adv_refl s c, fun h => h⟩
    | some ntIndex =>
      simp only
      rcases hg : getSymbol rhs savedPos with ⟨nxt, endPos⟩
      cases nxt with
      | none =>
        simp only
        exact ⟨(addAllAt_extAt ntIndex _ s).to_adv c,
          fun h => WF.wf_addAllAt ntIndex _ s h (h.wf_elementsAt lhsIndex).2⟩
      | some nextSymbol =>
        simp only
        by_cases h2 : isTerminal grammar nextSymbol = true
        · simp only [h2, if_true]
          refine ⟨(addToSetAt_extAt s ntIndex nextSymbol).to_adv c,
            fun h => h.wf_addToSetAt ntIndex nextSymbol ?_⟩
          unfold followAlphabet
          exact List.mem_cons_of_mem _
            (List.mem_append_left _ ((isTerminal_iff grammar nextSymbol).mp h2))
        · simp only [h2, if_false]
          by_cases h3 : isNonTerminal grammar nextSymbol = true
          · simp only [h3, if_true]
            cases hf2 : findSet firstSets grammar.nonTerminals.length nextSymbol with
            | none => exact ⟨Adv.adv_refl s c, fun h => h⟩
            | some nextIndex =>
              simp only
              have a1 := (addAllExceptEpsilonAt_extAt ntIndex
                (elementsAt firstSets nextIndex) s).to_adv c
              have w1 : WF (followAlphabet grammar firstSets) s →
                  WF (followAlphabet grammar firstSets)
                    (addAllExceptEpsilonAt s ntIndex (elementsAt firstSets nextIndex)) :=
                fun h => h.wf_addAllExceptEpsilonAt ntIndex _
                  (firstSets_subset_followAlphabet grammar firstSets nextSymbol nextIndex hf2)
              by_cases hE : (elementsAt firstSets nextIndex).any (fun e => e == EPSILON) = true
              · simp only [hE, if_true]
                exact ⟨a1.adv_trans ((addAllAt_extAt ntIndex _ _).to_adv _),
                  fun h => WF.wf_addAllAt ntIndex _ _ (w1 h) ((w1 h).wf_elementsAt lhsIndex).2⟩
              · simp only [hE, if_false]
                exact ⟨a1, w1⟩
          · simp only [h3]
            exact ⟨Adv.adv_refl s c, fun h => h⟩
  · simp only [h1]
    exact ⟨Adv.adv_refl s c, fun h => h⟩

/-- The scan of an alternative only extends the array, raises `changes`
exactly when it adds an element, and adds elements of the FOLLOW alphabet
only. -/
theorem followScan_adv (grammar : Grammar) (firstSets : List Set) (lhsIndex : Nat)
    (rhs : CStr) :
    ∀ (fuel pos : Nat) (s : List Set) (c : Bool),
      Adv s c (followScan grammar firstSets lhsIndex rhs fuel pos s c) ∧
      (WF (followAlphabet grammar firstSets) s →
        WF (followAlphabet grammar firstSets)
          (followScan grammar firstSets lhsIndex rhs fuel pos s c).1) := by
  intro fuel
  induction fuel with
  | zero => intro pos s c; exact ⟨Adv.adv_refl s c, fun h => h⟩
  | succ f ih =>
    intro pos s c
    rw [followScan_succ]
    by_cases hp : pos < rhs.length
    · simp only [hp, if_true]
      rcases hgs : getSymbol rhs pos with ⟨sym, sp⟩
      cases sym with
      | none => exact ⟨Adv.adv_refl s c, fun h => h⟩
      | some symbol =>
        simp only
        have h1 := scanStep_adv grammar firstSets lhsIndex rhs symbol sp s c
        have h2 := ih (scanStep grammar firstSets lhsIndex rhs symbol sp s c).1
          (scanStep grammar firstSets lhsIndex rhs symbol sp s c).2.1
          (scanStep grammar firstSets lhsIndex rhs symbol sp s c).2.2
        exact ⟨h1.1.adv_trans h2.1, fun h => h2.2 (h1.2 h)⟩
    · simp only [hp, if_false]
      exact ⟨Adv.adv_refl s c, fun h => h⟩

/-- The loop over the alternatives only extends the array, raises `changes`
exactly when it adds an element, and adds elements of the FOLLOW alphabet only. -/
theorem followAlternatives_adv (grammar : Grammar) (firstSets : List Set) (lhsIndex : Nat) :
    ∀ (alts : List CStr) (s : List Set) (c : Bool),
      Adv s c (followAlternatives grammar firstSets lhsIndex alts s c) ∧
      (WF (followAlphabet grammar firstSets) s →
        WF (followAlphabet grammar firstSets)
          (followAlternatives grammar firstSets lhsIndex alts s c).1) := by
  intro alts
  induction alts with
  | nil => intro s c; exact ⟨Adv.adv_refl s c, fun h => h⟩
  | cons rhs more ih =>
    intro s c
    unfold followAlternatives
    simp only
    have h1 := followScan_adv grammar firstSets lhsIndex rhs (rhs.length + 1) 0 s c
    have h2 := ih (followScan grammar firstSets lhsIndex rhs (rhs.length + 1) 0 s c).1
      (followScan grammar firstSets lhsIndex rhs (rhs.length + 1) 0 s c).2
    exact ⟨h1.1.adv_trans h2.1, fun h => h2.2 (h1.2 h)⟩

/-- One pass over the productions only extends the array, raises `changes`
exactly when it adds an element, and adds elements of the FOLLOW alphabet only. -/
theorem followPass_adv (grammar : Grammar) (firstSets : List Set) :
    ∀ (prods : List Production) (s : List Set) (c : Bool),
      Adv s c (followPass grammar firstSets prods s c) ∧
      (WF (followAlphabet grammar firstSets) s →
        WF (followAlphabet grammar firstSets) (followPass grammar firstSets prods s c).1) := by
  intro prods
  induction prods with
  | nil => intro s c; exact ⟨Adv.adv_refl s c, fun h => h⟩
  | cons prod rest ih =>
    intro s c
    unfold followPass
    cases hf : findSet s grammar.nonTerminals.length prod.lhs with
    | none => simpa using ih s c
    | some lhsIndex =>
      simp only
      have h1 := followAlternatives_adv grammar firstSets lhsIndex prod.rhs s c
      have h2 := ih (followAlternatives grammar firstSets lhsIndex prod.rhs s c).1
        (followAlternatives grammar firstSets lhsIndex prod.rhs s c).2
      exact ⟨h1.1.adv_trans h2.1, fun h => h2.2 (h1.2 h)⟩

/-- With enough passes left the loop ends on an array that a further pass
leaves as it is. -/
theorem followLoop_fixed (grammar : Grammar) (firstSets : List Set) :
    ∀ (fuel : Nat) (s : List Set), WF (followAlphabet grammar firstSets) s →
      s.length * (followAlphabet grammar firstSets).length < total s + fuel →
      followPass grammar firstSets grammar.productions
          (followLoop grammar firstSets fuel s) false =
        (followLoop grammar firstSets fuel s, false) := by
  intro fuel
  induction fuel with
  | zero =>
    intro s hw hlt
    have := hw.wf_total_le
    omega
  | succ f ih =>
    intro s hw hlt
    have hadv := followPass_adv grammar firstSets grammar.productions s false
    unfold followLoop
    simp only
    by_cases hc : (followPass grammar firstSets grammar.productions s false).2 = true
    · simp only [hc, if_true]
      have hgrow := hadv.1.2.2.1 hc
      have hlen := hadv.1.1.length_eq
      apply ih _ (hadv.2 hw)
      rw [hlen]
      rcases hgrow with h | h
      · exact Bool.noConfusion h
      · omega
    · have hc2 : (followPass grammar firstSets grammar.productions s false).2 = false := by
        simpa using hc
      simp only [hc2]
      have hsame := (hadv.1.2.1 hc2).2
      rw [hsame]
      exact Prod.ext hsame hc2

/-- Any number of passes only extends the array. -/
theorem followLoop_ext (grammar : Grammar) (firstSets : List Set) :
    ∀ (fuel : Nat) (s : List Set), Ext s (followLoop grammar firstSets fuel s) := by
  intro fuel
  induction fuel with
  | zero => intro s; exact Ext.ext_refl s
  | succ f ih =>
    intro s
    have hadv := followPass_adv grammar firstSets grammar.productions s false
    unfold followLoop
    simp only
    split
    · exact hadv.1.1.ext_trans (ih _)
    · exact hadv.1.1

/-- The initial FOLLOW array is well formed. -/
theorem initFollowSets_wf (grammar : Grammar) (firstSets : List Set) :
    WF (followAlphabet grammar firstSets) (initFollowSets grammar) ∧
      (initFollowSets grammar).length = grammar.nonTerminals.length := by
  unfold initFollowSets
  refine ⟨?_, by simp⟩
  intro x hx
  obtain ⟨nt, _, rfl⟩ := List.mem_map.mp hx
  by_cases h : nt = grammar.startSymbol
  · simp only [h, if_true]
    refine ⟨addToSet_nodup _ _ (by simp), ?_⟩
    intro e he
    rcases mem_of_mem_addToSet _ _ e he with h1 | h1
    · simp at h1
    · rw [h1]; exact List.mem_cons_self _ _
  · simp [h]

/-- The pass budget of `computeFollowSets` is enough. -/
theorem computeFollowSets_fixed (grammar : Grammar) (firstSets : List Set) :
    followPass grammar firstSets grammar.productions
        (computeFollowSets grammar firstSets) false =
      (computeFollowSets grammar firstSets, false) := by
  unfold computeFollowSets
  obtain ⟨hw, hl⟩ := initFollowSets_wf grammar firstSets
  apply followLoop_fixed grammar firstSets _ _ hw
  rw [hl]
  simp only [followFuel, followAlphabet, List.length_cons, List.length_append,
    List.length_flatten, List.map_map]
  have : (List.map (List.length ∘ fun s => s.elements)
      (List.take grammar.nonTerminals.length firstSets)).sum =
      (List.map (fun s => s.elements.length)
        (List.take grammar.nonTerminals.length firstSets)).sum := rfl
  rw [this]
  have h2 : grammar.nonTerminals.length * (grammar.terminals.length +
      (List.map (fun s => s.elements.length)
        (List.take grammar.nonTerminals.length firstSets)).sum + 1) =
      grammar.nonTerminals.length * (1 + grammar.terminals.length +
      (List.map (fun s => s.elements.length)
        (List.take grammar.nonTerminals.length firstSets)).sum) := by
    congr 1; omega
  rw [h2]
  omega

/-! ### What the fixed point of the FOLLOW solver satisfies -/

/-- A symbol returned by `getSymbol` ends after the position the call
started from. -/
theorem getSymbol_pos_lt (rhs : CStr) (pos : Nat) (symbol : CStr) (savedPos : Nat)
    (h : getSymbol rhs pos = (some symbol, savedPos)) : pos < savedPos := by
  unfold getSymbol at h
  simp only at h
  have hsk : pos ≤ skipSpaces rhs pos := by unfold skipSpaces; omega
  cases hd : rhs.drop (skipSpaces rhs pos) with
  | nil => rw [hd] at h; simp at h
  | cons c rest =>
    rw [hd] at h
    simp only at h
    by_cases hu : (isalpha c && isupper c) = true
    · simp only [hu, if_true, Prod.mk.injEq, Option.some.injEq] at h
      have hc : isupper c = true := by
        simp only [Bool.and_eq_true] at hu; exact hu.2
      have hi : isIdentChar c = true := isIdentChar_of_isupper c hc
      have : 0 < (List.takeWhile isIdentChar (c :: rest)).length := by
        simp [List.takeWhile_cons, hi]
      rw [← h.2]
      exact Nat.lt_of_le_of_lt hsk (Nat.lt_add_of_pos_right this)
    · simp only [hu, Bool.false_eq_true, if_false, Prod.mk.injEq] at h
      rw [← h.2]
      omega

/-- At or after the end of the text `getSymbol` returns no symbol. -/
theorem getSymbol_none_of_le (rhs : CStr) (pos : Nat) (h : rhs.length ≤ pos) :
    (getSymbol rhs pos).1 = none := by
  unfold getSymbol
  simp only
  have hsk : pos ≤ skipSpaces rhs pos := by unfold skipSpaces; omega
  have hd : rhs.drop (skipSpaces rhs pos) = [] := List.drop_eq_nil_of_le (by omega)
  rw [hd]

/-- The first of the symbols read from a position is the one `getSymbol`
returns there. -/
theorem tokensFrom_head (rhs : CStr) (fuel pos : Nat) :
    (tokensFrom rhs (fuel + 1) pos).head? = (getSymbol rhs pos).1 := by
  unfold tokensFrom
  rcases getSymbol rhs pos with ⟨sym, sp⟩
  cases sym <;> rfl

/-- When a symbol follows, the iteration restores the position. -/
theorem scanStep_pos (grammar : Grammar) (firstSets : List Set) (lhsIndex : Nat)
    (rhs symbol : CStr) (savedPos : Nat) (s : List Set) (c : Bool)
    (h : (getSymbol rhs savedPos).1 ≠ none) :
    (scanStep grammar firstSets lhsIndex rhs symbol savedPos s c).1 = savedPos := by
  unfold scanStep
  rcases hg : getSymbol rhs savedPos with ⟨nxt, endPos⟩
  rw [hg] at h
  cases nxt with
  | none => exact absurd rfl h
  | some nextSymbol =>
    simp only
    split
    · split
      · rfl
      · split
        · rfl
        · split
          · split
            · rfl
            · split <;> rfl
          · rfl
    · rfl

/-- An iteration of the scan that leaves the array as it was found the
condition `ClosedAt` satisfied. -/
theorem scanStep_closed (grammar : Grammar) (firstSets : List Set) (lhsIndex : Nat)
    (rhs symbol : CStr) (savedPos : Nat) (s : List Set) (c : Bool)
    (h : (scanStep grammar firstSets lhsIndex rhs symbol savedPos s c).2.1 = s) :
    ClosedAt grammar firstSets lhsIndex s symbol (getSymbol rhs savedPos).1 := by
  intro h1 ntIndex hf
  have hlt := (findSet_lt s _ symbol ntIndex hf).1
  unfold scanStep at h
  simp only [h1, if_true, hf] at h
  rcases hg : getSymbol rhs savedPos with ⟨nxt, endPos⟩
  rw [hg] at h
  cases nxt with
  | none =>
    simp only at h
    exact subset_of_addAllAt_eq s ntIndex _ hlt h
  | some nextSymbol =>
    simp only at h ⊢
    constructor
    · intro h2
      simp only [h2, if_true] at h
      exact mem_of_addToSetAt_eq s ntIndex nextSymbol hlt h
    · intro h2 h3 nextIndex hf2
      simp only [h2, h3, if_true, hf2, Bool.false_eq_true, if_false] at h
      have e1 := (addAllExceptEpsilonAt_extAt ntIndex (elementsAt firstSets nextIndex) s).to_ext
      by_cases hE : (elementsAt firstSets nextIndex).any (fun e => e == EPSILON) = true
      · simp only [hE, if_true] at h
        have e2 := (addAllAt_extAt ntIndex
          (elementsAt (addAllExceptEpsilonAt s ntIndex (elementsAt firstSets nextIndex))
            lhsIndex)
          (addAllExceptEpsilonAt s ntIndex (elementsAt firstSets nextIndex))).to_ext
        have hs1 : addAllExceptEpsilonAt s ntIndex (elementsAt firstSets nextIndex) = s := by
          apply Ext.eq_of_total_le e1
          have := e2.ext_total_le
          rw [h] at this
          exact this
        rw [hs1] at h
        refine ⟨?_, fun _ => subset_of_addAllAt_eq s ntIndex _ hlt h⟩
        intro e he hne
        apply subset_of_addAllAt_eq s ntIndex _ hlt hs1
        simp only [List.mem_filter, bne_iff_ne, ne_eq]
        exact ⟨he, hne⟩
      · simp only [hE, if_false] at h
        refine ⟨?_, ?_⟩
        · intro e he hne
          apply subset_of_addAllAt_eq s ntIndex _ hlt h
          simp only [List.mem_filter, bne_iff_ne, ne_eq]
          exact ⟨he, hne⟩
        · intro hmem
          exfalso
          apply hE
          simp only [List.any_eq_true, beq_iff_eq]
          exact ⟨EPSILON, hmem, rfl⟩

/-- A scan that leaves the array as it was found `ClosedAt` satisfied at
every symbol of the alternative from the position on. -/
theorem followScan_closed (grammar : Grammar) (firstSets : List Set) (lhsIndex : Nat)
    (rhs : CStr) :
    ∀ (fuel pos : Nat) (s : List Set) (c : Bool),
      (followScan grammar firstSets lhsIndex rhs fuel pos s c).1 = s →
      rhs.length < pos + fuel →
      ∀ (l1 : List CStr) (symbol : CStr) (rest : List CStr),
        tokensFrom rhs fuel pos = l1 ++ symbol :: rest →
        ClosedAt grammar firstSets lhsIndex s symbol rest.head? := by
  intro fuel
  induction fuel with
  | zero =>
    intro pos s c _ _ l1 symbol rest ht
    simp [tokensFrom] at ht
  | succ f ih =>
    intro pos s c hfix hlen l1 symbol rest ht
    rw [followScan_succ] at hfix
    unfold tokensFrom at ht
    by_cases hp : pos < rhs.length
    · simp only [hp, if_true] at hfix
      rcases hgs : getSymbol rhs pos with ⟨sym, sp⟩
      rw [hgs] at hfix ht
      cases sym with
      | none => simp at ht
      | some tok =>
        simp only at hfix ht
        have hadv1 := (scanStep_adv grammar firstSets lhsIndex rhs tok sp s c).1
        have hadv2 := (followScan_adv grammar firstSets lhsIndex rhs f
          (scanStep grammar firstSets lhsIndex rhs tok sp s c).1
          (scanStep grammar firstSets lhsIndex rhs tok sp s c).2.1
          (scanStep grammar firstSets lhsIndex rhs tok sp s c).2.2).1
        have hstep : (scanStep grammar firstSets lhsIndex rhs tok sp s c).2.1 = s := by
          apply Ext.eq_of_total_le hadv1.1
          have := hadv2.1.ext_total_le
          rw [hfix] at this
          exact this
        have hpos := getSymbol_pos_lt rhs pos tok sp hgs
        have hf1 : 0 < f := by omega
        obtain ⟨f', rfl⟩ : ∃ f', f = f' + 1 := ⟨f - 1, by omega⟩
        cases l1 with
        | nil =>
          simp only [List.nil_append, List.cons.injEq] at ht
          obtain ⟨rfl, hrest⟩ := ht
          rw [← hrest, tokensFrom_head]
          exact scanStep_closed grammar firstSets lhsIndex rhs tok sp s c hstep
        | cons a l1' =>
          simp only [List.cons_append, List.cons.injEq] at ht
          obtain ⟨_, hrest⟩ := ht
          have hne : (getSymbol rhs sp).1 ≠ none := by
            intro hn
            have hh := tokensFrom_head rhs f' sp
            rw [hrest, hn] at hh
            cases l1' <;> simp at hh
          have hsp := scanStep_pos grammar firstSets lhsIndex rhs tok sp s c hne
          rw [hsp, hstep] at hfix
          exact ih sp s _ hfix (by omega) l1' symbol rest hrest
    · have : (getSymbol rhs pos).1 = none := getSymbol_none_of_le rhs pos (by omega)
      rcases hgs : getSymbol rhs pos with ⟨sym, sp⟩
      rw [hgs] at this ht
      simp only at this
      subst this
      simp at ht

/-- Once the text is covered, more calls of `getSymbol` give no more symbols. -/
theorem tokensFrom_fuel (rhs : CStr) :
    ∀ (fuel pos extra : Nat), rhs.length < pos + fuel →
      tokensFrom rhs (fuel + extra) pos = tokensFrom rhs fuel pos := by
  intro fuel
  induction fuel with
  | zero =>
    intro pos extra h
    have hn := getSymbol_none_of_le rhs pos (by omega)
    cases extra with
    | zero => rfl
    | succ e =>
      simp only [Nat.zero_add, tokensFrom]
      rcases hgs : getSymbol rhs pos with ⟨sym, sp⟩
      rw [hgs] at hn
      simp only at hn
      subst hn
      rfl
  | succ f ih =>
    intro pos extra h
    have e1 : f + 1 + extra = (f + extra) + 1 := by omega
    rw [e1]
    unfold tokensFrom
    rcases hgs : getSymbol rhs pos with ⟨sym, sp⟩
    cases sym with
    | none => rfl
    | some tok =>
      simp only
      have := getSymbol_pos_lt rhs pos tok sp hgs
      rw [ih sp extra (by omega)]

/-- When the loop over the alternatives leaves the array as it was, so does the
scan of each alternative. -/
theorem followAlternatives_fixed_elim (grammar : Grammar) (firstSets : List Set)
    (lhsIndex : Nat) :
    ∀ (alts : List CStr) (s : List Set) (c : Bool),
      (followAlternatives grammar firstSets lhsIndex alts s c).1 = s →
      ∀ rhs ∈ alts, ∃ c0,
        (followScan grammar firstSets lhsIndex rhs (rhs.length + 1) 0 s c0).1 = s := by
  intro alts
  induction alts with
  | nil => intro s c _ rhs hr; simp at hr
  | cons a more ih =>
    intro s c hfix rhs hr
    unfold followAlternatives at hfix
    simp only at hfix
    have h1 := (followScan_adv grammar firstSets lhsIndex a (a.length + 1) 0 s c).1
    have h2 := (followAlternatives_adv grammar firstSets lhsIndex more
      (followScan grammar firstSets lhsIndex a (a.length + 1) 0 s c).1
      (followScan grammar firstSets lhsIndex a (a.length + 1) 0 s c).2).1
    have hs : (followScan grammar firstSets lhsIndex a (a.length + 1) 0 s c).1 = s := by
      apply Ext.eq_of_total_le h1.1
      have := h2.1.ext_total_le
      rw [hfix] at this
      exact this
    rcases List.mem_cons.mp hr with h | h
    · subst h
      exact ⟨c, hs⟩
    · rw [hs] at hfix
      exact ih s _ hfix rhs h

/-- When a pass leaves the array as it was, so does the scan of each alternative
of each production whose left-hand side is found in the array. -/
theorem followPass_fixed_elim (grammar : Grammar) (firstSets : List Set) :
    ∀ (prods : List Production) (s : List Set) (c : Bool),
      (followPass grammar firstSets prods s c).1 = s →
      ∀ prod ∈ prods, ∀ lhsIndex,
        findSet s grammar.nonTerminals.length prod.lhs = some lhsIndex →
        ∀ rhs ∈ prod.rhs, ∃ c0,
          (followScan grammar firstSets lhsIndex rhs (rhs.length + 1) 0 s c0).1 = s := by
  intro prods
  induction prods with
  | nil => intro s c _ prod hp; simp at hp
  | cons p rest ih =>
    intro s c hfix prod hp lhsIndex hf rhs hr
    unfold followPass at hfix
    cases hfp : findSet s grammar.nonTerminals.length p.lhs with
    | none =>
      rw [hfp] at hfix
      simp only at hfix
      rcases List.mem_cons.mp hp with h | h
      · subst h
        rw [hfp] at hf
        exact Option.noConfusion hf
      · exact ih s c hfix prod h lhsIndex hf rhs hr
    | some j =>
      rw [hfp] at hfix
      simp only at hfix
      have h1 := (followAlternatives_adv grammar firstSets j p.rhs s c).1
      have h2 := (followPass_adv grammar firstSets rest
        (followAlternatives grammar firstSets j p.rhs s c).1
        (followAlternatives grammar firstSets j p.rhs s c).2).1
      have hs : (followAlternatives grammar firstSets j p.rhs s c).1 = s := by
        apply Ext.eq_of_total_le h1.1
        have := h2.1.ext_total_le
        rw [hfix] at this
        exact this
      rcases List.mem_cons.mp hp with h | h
      · subst h
        rw [hfp] at hf
        rw [← Option.some.inj hf]
        exact followAlternatives_fixed_elim grammar firstSets j prod.rhs s c hs rhs hr
      · rw [hs] at hfix
        exact ih s _ hfix prod h lhsIndex hf rhs hr

/-- The symbols of the initial FOLLOW array are the non-terminals. -/
theorem initFollowSets_symbols (grammar : Grammar) :
    (initFollowSets grammar).map (fun s => s.symbol) = grammar.nonTerminals := by
  unfold initFollowSets
  rw [List.map_map]
  conv => rhs; rw [← List.map_id grammar.nonTerminals]
  apply List.map_congr_left
  intro nt _
  simp only [Function.comp]
  split
  · exact addToSet_symbol _ _
  · rfl

/-- The symbols of the returned FOLLOW array are the non-terminals. -/
theorem computeFollowSets_symbols (grammar : Grammar) (firstSets : List Set) :
    (computeFollowSets grammar firstSets).map (fun s => s.symbol) = grammar.nonTerminals := by
  unfold computeFollowSets
  rw [(followLoop_ext grammar firstSets _ _).symbols]
  exact initFollowSets_symbols grammar

/-- In an array whose symbols are the non-terminals, the set of a
non-terminal is found at an index, and it is the set `setFor` reads. -/
theorem findSet_of_symbols (grammar : Grammar) (sets : List Set) (name : CStr)
    (hs : sets.map (fun s => s.symbol) = grammar.nonTerminals)
    (hn : name ∈ grammar.nonTerminals) :
    ∃ i, findSet sets grammar.nonTerminals.length name = some i ∧
      elementsAt sets i = setFor sets name := by
  apply findSet_elementsAt
  · rw [← hs, List.length_map]
  · rw [hs]; exact hn

/-- In the sets returned by `computeFollowSets` the condition `ClosedAt`
holds at every symbol of every alternative of every production whose
left-hand side is a non-terminal. -/
theorem computeFollowSets_closed (grammar : Grammar) (firstSets : List Set)
    (prod : Production) (rhs : CStr) (l1 : List CStr) (symbol : CStr) (rest : List CStr)
    (hprod : prod ∈ grammar.productions) (hlhs : prod.lhs ∈ grammar.nonTerminals)
    (hrhs : rhs ∈ prod.rhs) (htok : tokenize rhs = l1 ++ symbol :: rest) :
    ∃ lhsIndex,
      elementsAt (computeFollowSets grammar firstSets) lhsIndex =
        setFor (computeFollowSets grammar firstSets) prod.lhs ∧
      ClosedAt grammar firstSets lhsIndex (computeFollowSets grammar firstSets)
        symbol rest.head? := by
  obtain ⟨i, hi, he⟩ := findSet_of_symbols grammar _ prod.lhs
    (computeFollowSets_symbols grammar firstSets) hlhs
  refine ⟨i, he, ?_⟩
  have hfix := congrArg Prod.fst (computeFollowSets_fixed grammar firstSets)
  simp only at hfix
  obtain ⟨c0, hscan⟩ := followPass_fixed_elim grammar firstSets grammar.productions _ false
    hfix prod hprod i hi rhs hrhs
  exact followScan_closed grammar firstSets i rhs (rhs.length + 1) 0 _ c0 hscan (by omega)
    l1 symbol rest htok

/-- What `setFor` reads in an extended array starts with what it read before. -/
theorem Ext.setFor_kept : ∀ {s t : List Set}, Ext s t → ∀ name,
    setFor s name <+: setFor t name
  | [], [], _, name => by simp [setFor]
  | a :: as, b :: bs, h, name => by
    have ih := Ext.setFor_kept h.2 name
    unfold setFor at ih ⊢
    simp only [List.find?_cons, h.1.1]
    by_cases hn : (a.symbol == name) = true
    · simp only [hn]
      exact h.1.2
    · have hn2 : (a.symbol == name) = false := by simpa using hn
      simp only [hn2]
      exact ih
  | [], _ :: _, h, _ => h.elim
  | _ :: _, [], h, _ => h.elim

/-- The initial FOLLOW set of the start symbol holds `$`. -/
theorem initFollowSets_start (grammar : Grammar)
    (h : grammar.startSymbol ∈ grammar.nonTerminals) :
    str "$" ∈ setFor (initFollowSets grammar) grammar.startSymbol := by
  have aux : ∀ l : List CStr, grammar.startSymbol ∈ l →
      str "$" ∈ setFor (l.map (fun nt =>
        if nt = grammar.startSymbol then addToSet { symbol := nt, elements := [] } (str "$")
        else { symbol := nt, elements := [] })) grammar.startSymbol := by
    intro l
    induction l with
    | nil => intro hl; simp at hl
    | cons nt rest ih =>
      intro hl
      unfold setFor at ih ⊢
      simp only [List.map_cons, List.find?_cons]
      by_cases hnt : nt = grammar.startSymbol
      · simp only [hnt, if_true, addToSet_symbol, beq_self_eq_true]
        exact mem_addToSet _ _
      · have hb : (nt == grammar.startSymbol) = false := by simpa using hnt
        simp only [hnt, if_false, hb]
        apply ih
        rcases List.mem_cons.mp hl with h1 | h1
        · exact absurd h1.symm hnt
        · exact h1
  exact aux grammar.nonTerminals h

/-! ### Left factoring: what every step keeps -/

/-- Every grammar continues itself. -/
theorem Continues.cont_refl (r : Grammar) : Continues r r :=
  ⟨rfl, rfl, ⟨[], by simp⟩, fun h => h, ⟨[], by simp⟩⟩

/-- A continuation of a continuation is a continuation. -/
theorem Continues.cont_trans {r s t : Grammar} (h1 : Continues r s) (h2 : Continues s t) :
    Continues r t := by
  obtain ⟨a1, b1, ⟨n1, c1⟩, d1, ⟨p1, e1⟩⟩ := h1
  obtain ⟨a2, b2, ⟨n2, c2⟩, d2, ⟨p2, e2⟩⟩ := h2
  refine ⟨a2.trans a1, b2.trans b1, ⟨n1 ++ n2, ?_⟩, fun h => d2 (d1 h), ⟨p1 ++ p2, ?_⟩⟩
  · rw [c2, c1, List.append_assoc]
  · rw [e2, e1, List.append_assoc]

/-- Appending productions continues a grammar. -/
theorem Continues.add_productions (r : Grammar) (prods : List Production) :
    Continues r { r with productions := r.productions ++ prods } :=
  ⟨rfl, rfl, ⟨[], by simp⟩, fun h => h, ⟨prods, rfl⟩⟩

/-- Appending a fresh name and productions continues a grammar. -/
theorem Continues.add_fresh (r : Grammar) (lhs : CStr) (prods : List Production) :
    Continues r { r with
      nonTerminals := r.nonTerminals ++ [freshName r lhs]
      productions := r.productions ++ prods } := by
  refine ⟨rfl, rfl, ⟨[freshName r lhs], rfl⟩, ?_, ⟨prods, rfl⟩⟩
  intro h
  simp only
  rw [List.nodup_append]
  refine ⟨h, List.nodup_singleton _, ?_⟩
  intro a ha hb
  rw [List.mem_singleton.mp hb] at ha
  exact freshName_unused r lhs ha

/-- The loop over `j` continues the grammar built so far. -/
theorem factorGroups_continues (prod : Production) :
    ∀ (js : List Nat) (processed : List Bool) (result : Grammar) (r : Grammar × List Bool),
      factorGroups prod js processed result = some r → Continues result r.1 := by
  intro js
  induction js with
  | nil =>
    intro processed result r h
    simp only [factorGroups, Option.some.injEq] at h
    rw [← h]
    exact Continues.cont_refl result
  | cons j js ih =>
    intro processed result r h
    unfold factorGroups at h
    by_cases hp : processed.getD j false = true
    · simp only [hp, if_true] at h
      exact ih processed result r h
    · simp only [hp, if_false] at h
      cases hc : collectGroup prod.rhs j (List.range' j (prod.rhs.length - j)) [] []
          processed with
      | none => rw [hc] at h; exact Option.noConfusion h
      | some g =>
        obtain ⟨pre, newRHS, processed1⟩ := g
        rw [hc] at h
        simp only at h
        by_cases hn : 0 < newRHS.length
        · simp only [hn, if_true] at h
          exact (Continues.add_fresh result prod.lhs _).cont_trans (ih _ _ r h)
        · simp only [hn, if_false] at h
          exact ih _ _ r h

/-- The body of the loop over the productions continues the grammar built so far. -/
theorem factorProduction_continues (result : Grammar) (prod : Production) (r : Grammar)
    (h : factorProduction result prod = some r) : Continues result r := by
  unfold factorProduction at h
  by_cases hn : needsFactoring prod.rhs = true
  · simp only [hn, Bool.not_true, Bool.false_eq_true, if_false] at h
    cases hg : factorGroups prod (List.range prod.rhs.length)
        (List.replicate prod.rhs.length false) result with
    | none => rw [hg] at h; exact Option.noConfusion h
    | some g =>
      obtain ⟨result1, processed⟩ := g
      rw [hg] at h
      simp only at h
      have h1 := factorGroups_continues prod _ _ result _ hg
      split at h
      · rw [← Option.some.inj h]
        exact h1.cont_trans (Continues.add_productions result1 _)
      · rw [← Option.some.inj h]
        exact h1
  · have hn2 : needsFactoring prod.rhs = false := by simpa using hn
    simp only [hn2, Bool.not_false, if_true, Option.some.injEq] at h
    rw [← h]
    exact Continues.add_productions result [prod]

/-- The loop over the productions continues the grammar built so far. -/
theorem factorAll_continues :
    ∀ (prods : List Production) (result r : Grammar),
      factorAll prods result = some r → Continues result r := by
  intro prods
  induction prods with
  | nil =>
    intro result r h
    simp only [factorAll, Option.some.injEq] at h
    rw [← h]
    exact Continues.cont_refl result
  | cons prod rest ih =>
    intro result r h
    unfold factorAll at h
    cases hp : factorProduction result prod with
    | none => rw [hp] at h; exact Option.noConfusion h
    | some result1 =>
      rw [hp] at h
      exact (factorProduction_continues result prod result1 hp).cont_trans (ih result1 r h)

/-! ### Left factoring: productions without a shared first byte -/

/-- Two texts that do not begin with the same byte have no common prefix. -/
theorem commonPrefix_eq_nil (a b : CStr) (h : a.head? = none ∨ a.head? ≠ b.head?) :
    commonPrefix a b = [] := by
  cases a with
  | nil => simp [commonPrefix]
  | cons x xs =>
    cases b with
    | nil => simp [commonPrefix]
    | cons y ys =>
      have hxy : x ≠ y := by
        rcases h with h | h
        · simp at h
        · intro e; apply h; simp [e]
      simp [commonPrefix, hxy]

/-- No factoring is asked for when no two alternatives begin with the same
byte. -/
theorem needsFactoring_eq_false (alts : List CStr)
    (h : alts.Pairwise (fun a b => a.head? = none ∨ a.head? ≠ b.head?)) :
    needsFactoring alts = false := by
  induction alts with
  | nil => rfl
  | cons a more ih =>
    obtain ⟨h1, h2⟩ := List.pairwise_cons.mp h
    unfold needsFactoring
    rw [ih h2, Bool.or_false]
    simp only [List.any_eq_false, Bool.and_eq_true, decide_eq_true_eq, not_and]
    intro b hb
    simp [hasCommonPrefix, commonPrefix_eq_nil a b (h1 b hb)]

/-- Productions that need no factoring are copied one after the other. -/
theorem factorAll_unchanged :
    ∀ (prods : List Production) (result : Grammar),
      (∀ p ∈ prods, needsFactoring p.rhs = false) →
      factorAll prods result =
        some { result with productions := result.productions ++ prods } := by
  intro prods
  induction prods with
  | nil => intro result _; simp [factorAll]
  | cons p rest ih =>
    intro result h
    have hp := h p (List.mem_cons_self p rest)
    unfold factorAll
    simp only [factorProduction, hp, Bool.not_false, if_true]
    rw [ih _ (fun q hq => h q (List.mem_cons_of_mem p hq))]
    simp

/-! ### Left factoring: the groups -/

/-- Reading a flag after one flag was set. -/
theorem getD_set_true (l : List Bool) (k i : Nat) :
    (l.set k true).getD i false = true ↔ (i = k ∧ k < l.length) ∨ l.getD i false = true := by
  simp only [List.getD_eq_getElem?_getD, List.getElem?_set]
  by_cases hik : k = i
  · subst hik
    by_cases hlt : k < l.length
    · simp [hlt]
    · have hnone : l[k]? = none := List.getElem?_eq_none_iff.mpr (by omega)
      simp [hlt, hnone]
  · have hik2 : ¬ i = k := fun e => hik e.symm
    simp [hik, hik2]

/-- The loop over `k` after the iteration `k = j`: every alternative not yet
processed whose first symbol is that of alternative `j` adds its remainder
and is marked. -/
theorem collectGroup_tail (alts : List CStr) (j : Nat) (sj : CStr)
    (hj : symAt alts j = some sj) :
    ∀ (ks : List Nat) (pre : CStr) (newRHS : List CStr) (processed : List Bool),
      (∀ k ∈ ks, k ≠ j ∧ k < processed.length ∧ symAt alts k ≠ none) → ks.Nodup →
      ∃ p', collectGroup alts j ks pre newRHS processed =
          some (pre, newRHS ++ (ks.filter (fun k => !processed.getD k false &&
            decide (symAt alts k = some sj))).map (remAt alts sj), p') ∧
        p'.length = processed.length ∧
        ∀ i, p'.getD i false = true ↔
          processed.getD i false = true ∨ (i ∈ ks ∧ symAt alts i = some sj) := by
  intro ks
  induction ks with
  | nil =>
    intro pre newRHS processed _ _
    exact ⟨processed, by simp [collectGroup], rfl, by simp⟩
  | cons k ks ih =>
    intro pre newRHS processed hks hnd
    obtain ⟨hkj, hklt, hksym⟩ := hks k (List.mem_cons_self k ks)
    have hrest : ∀ k' ∈ ks, k' ≠ j ∧ k' < processed.length ∧ symAt alts k' ≠ none :=
      fun k' hk' => hks k' (List.mem_cons_of_mem k hk')
    obtain ⟨hknot, hnd'⟩ := List.nodup_cons.mp hnd
    unfold collectGroup
    by_cases hp : processed.getD k false = true
    · simp only [hp, if_true]
      obtain ⟨p', h1, h2, h3⟩ := ih pre newRHS processed hrest hnd'
      refine ⟨p', ?_, h2, ?_⟩
      · rw [h1, List.filter_cons_of_neg (by
          simp only [hp, Bool.not_true, Bool.false_and, Bool.false_eq_true,
            not_false_eq_true])]
      · intro i
        rw [h3 i]
        constructor
        · rintro (h | ⟨h, h'⟩)
          · exact Or.inl h
          · exact Or.inr ⟨List.mem_cons_of_mem k h, h'⟩
        · rintro (h | ⟨h, h'⟩)
          · exact Or.inl h
          · rcases List.mem_cons.mp h with e | e
            · subst e; exact Or.inl hp
            · exact Or.inr ⟨e, h'⟩
    · have hp2 : processed.getD k false = false := by simpa using hp
      have hjk : ¬ j = k := fun e => hkj e.symm
      simp only [hp2, Bool.false_eq_true, if_false, hjk]
      rcases hgj : getSymbol (alts.getD j []) 0 with ⟨oj, pj⟩
      have hoj : oj = some sj := by
        have := hj
        unfold symAt at this
        rw [hgj] at this
        exact this
      subst hoj
      rcases hgk : getSymbol (alts.getD k []) 0 with ⟨ok, pk⟩
      have hok : symAt alts k = ok := by
        unfold symAt
        rw [hgk]
      cases ok with
      | none => exact absurd hok hksym
      | some sk =>
        simp only
        have hfilter : ∀ (q : List Bool), (∀ i, i ≠ k → q.getD i false = processed.getD i false) →
            ks.filter (fun k' => !q.getD k' false && decide (symAt alts k' = some sj)) =
            ks.filter (fun k' => !processed.getD k' false &&
              decide (symAt alts k' = some sj)) := by
          intro q hq
          apply List.filter_congr
          intro k' hk'
          have : k' ≠ k := fun e => hknot (e ▸ hk')
          rw [hq k' this]
        by_cases hs : sj = sk
        · subst hs
          simp only [if_true]
          have hrest2 : ∀ k' ∈ ks, k' ≠ j ∧ k' < (processed.set k true).length ∧
              symAt alts k' ≠ none := by
            intro k' hk'
            have := hrest k' hk'
            simpa using this
          obtain ⟨p', h1, h2, h3⟩ := ih pre
            (newRHS ++ [remainderOf (alts.getD k []) sj pk]) (processed.set k true) hrest2 hnd'
          refine ⟨p', ?_, by simpa using h2, ?_⟩
          · rw [h1]
            have hq : ∀ i, i ≠ k → (processed.set k true).getD i false =
                processed.getD i false := by
              intro i hi
              simp only [List.getD_eq_getElem?_getD]
              rw [List.getElem?_set_ne (fun e => hi e.symm)]
            rw [hfilter _ hq]
            have hrem : remAt alts sj k = remainderOf (alts.getD k []) sj pk := by
              unfold remAt
              rw [hgk]
            rw [List.filter_cons_of_pos (by
              simp only [hp2, hok, Bool.not_false, Bool.true_and, decide_True]),
              List.map_cons, hrem, List.append_assoc, List.singleton_append]
          · intro i
            rw [h3 i, getD_set_true]
            constructor
            · rintro ((⟨e, _⟩ | h) | ⟨h, h'⟩)
              · subst e; exact Or.inr ⟨List.mem_cons_self _ _, hok⟩
              · exact Or.inl h
              · exact Or.inr ⟨List.mem_cons_of_mem k h, h'⟩
            · rintro (h | ⟨h, h'⟩)
              · exact Or.inl (Or.inr h)
              · rcases List.mem_cons.mp h with e | e
                · exact Or.inl (Or.inl ⟨e, hklt⟩)
                · exact Or.inr ⟨e, h'⟩
        · simp only [hs, if_false]
          obtain ⟨p', h1, h2, h3⟩ := ih pre newRHS processed hrest hnd'
          have hne : ¬ symAt alts k = some sj := by
            rw [hok]
            intro e
            exact hs (Option.some.inj e).symm
          refine ⟨p', ?_, h2, ?_⟩
          · rw [h1, List.filter_cons_of_neg (by
              simp only [hne, decide_False, Bool.and_false, Bool.false_eq_true,
                not_false_eq_true])]
          · intro i
            rw [h3 i]
            constructor
            · rintro (h | ⟨h, h'⟩)
              · exact Or.inl h
              · exact Or.inr ⟨List.mem_cons_of_mem k h, h'⟩
            · rintro (h | ⟨h, h'⟩)
              · exact Or.inl h
              · rcases List.mem_cons.mp h with e | e
                · subst e; exact absurd h' hne
                · exact Or.inr ⟨e, h'⟩

/-- The loop over `k` for an alternative `j` not yet processed: the group
consists of the alternatives from `j` on, not yet processed, whose first
symbol is that of alternative `j`; they are marked. -/
theorem collectGroup_at (alts : List CStr) (j : Nat) (sj : CStr) (processed : List Bool)
    (hj : symAt alts j = some sj) (hjlt : j < alts.length)
    (hlen : processed.length = alts.length) (hpj : processed.getD j false = false)
    (hsym : ∀ k, k < alts.length → symAt alts k ≠ none) :
    ∃ p', collectGroup alts j (List.range' j (alts.length - j)) [] [] processed =
        some (sj, ((List.range' j (alts.length - j)).filter (fun k =>
          !processed.getD k false && decide (symAt alts k = some sj))).map (remAt alts sj),
          p') ∧
      p'.length = processed.length ∧
      ∀ i, p'.getD i false = true ↔
        processed.getD i false = true ∨ (j ≤ i ∧ i < alts.length ∧ symAt alts i = some sj) := by
  have hsplit : List.range' j (alts.length - j) =
      j :: List.range' (j + 1) (alts.length - j - 1) := by
    have : alts.length - j = (alts.length - j - 1) + 1 := by omega
    rw [this, List.range'_succ]
    simp
  rw [hsplit]
  unfold collectGroup
  rcases hgj : getSymbol (alts.getD j []) 0 with ⟨oj, pj⟩
  have hoj : oj = some sj := by
    have := hj
    unfold symAt at this
    rw [hgj] at this
    exact this
  subst hoj
  simp only [hpj, Bool.false_eq_true, if_false, if_true]
  have hks : ∀ k ∈ List.range' (j + 1) (alts.length - j - 1),
      k ≠ j ∧ k < (processed.set j true).length ∧ symAt alts k ≠ none := by
    intro k hk
    have := List.mem_range'_1.mp hk
    refine ⟨by omega, ?_, hsym k (by omega)⟩
    rw [List.length_set, hlen]
    omega
  obtain ⟨p', h1, h2, h3⟩ := collectGroup_tail alts j sj hj
    (List.range' (j + 1) (alts.length - j - 1)) sj
    ([] ++ [remainderOf (alts.getD j []) sj pj]) (processed.set j true) hks
    (List.nodup_range' _ _)
  refine ⟨p', ?_, by simpa using h2, ?_⟩
  · rw [h1]
    have hrem : remAt alts sj j = remainderOf (alts.getD j []) sj pj := by
      unfold remAt
      rw [hgj]
    have hcongr : (List.range' (j + 1) (alts.length - j - 1)).filter (fun k =>
          !(processed.set j true).getD k false && decide (symAt alts k = some sj)) =
        (List.range' (j + 1) (alts.length - j - 1)).filter (fun k =>
          !processed.getD k false && decide (symAt alts k = some sj)) := by
      apply List.filter_congr
      intro k hk
      have hkj : j ≠ k := by
        have := List.mem_range'_1.mp hk
        omega
      simp only [List.getD_eq_getElem?_getD]
      rw [List.getElem?_set_ne hkj]
    rw [hcongr, List.filter_cons_of_pos (by
      simp only [hpj, hj, Bool.not_false, Bool.true_and, decide_True]),
      List.map_cons, hrem, List.nil_append, List.singleton_append]
  · intro i
    rw [h3 i, getD_set_true, List.mem_range'_1]
    constructor
    · rintro ((⟨e, _⟩ | h) | ⟨h, h'⟩)
      · subst e; exact Or.inr ⟨Nat.le_refl _, hjlt, hj⟩
      · exact Or.inl h
      · exact Or.inr ⟨by omega, by omega, h'⟩
    · rintro (h | ⟨h, h', h''⟩)
      · exact Or.inl (Or.inr h)
      · by_cases e : i = j
        · exact Or.inl (Or.inl ⟨e, by omega⟩)
        · exact Or.inr ⟨⟨by omega, by omega⟩, h''⟩

/-- The alternatives of a production are what `getD` reads at its indices. -/
theorem map_getD_range (alts : List CStr) :
    (List.range alts.length).map (fun k => alts.getD k []) = alts := by
  apply List.ext_getElem
  · simp
  · intro i h1 h2
    simp [List.getD_eq_getElem?_getD, List.getElem?_eq_getElem h2]

/-- The group collected at the first alternative that begins with a symbol
is made of all the alternatives that begin with it. -/
theorem group_eq_groupOf (alts : List CStr) (j : Nat) (sj : CStr) (processed : List Bool)
    (hjlt : j ≤ alts.length)
    (hbefore : ∀ k, k < j → symAt alts k ≠ some sj)
    (hfree : ∀ k, j ≤ k → k < alts.length → symAt alts k = some sj →
      processed.getD k false = false) :
    ((List.range' j (alts.length - j)).filter (fun k =>
      !processed.getD k false && decide (symAt alts k = some sj))).map (remAt alts sj) =
    groupOf alts sj := by
  have h1 : (List.range' j (alts.length - j)).filter (fun k =>
        !processed.getD k false && decide (symAt alts k = some sj)) =
      (List.range' j (alts.length - j)).filter (fun k => decide (symAt alts k = some sj)) := by
    apply List.filter_congr
    intro k hk
    have hk' := List.mem_range'_1.mp hk
    by_cases hs : symAt alts k = some sj
    · rw [hfree k hk'.1 (by omega) hs]
      simp
    · simp [hs]
  have h2 : (List.range' 0 j).filter (fun k => decide (symAt alts k = some sj)) = [] := by
    rw [List.filter_eq_nil_iff]
    intro k hk
    have hk' := List.mem_range'_1.mp hk
    simp only [decide_eq_true_eq]
    exact hbefore k (by omega)
  have h3 : List.range alts.length = List.range' 0 j ++ List.range' j (alts.length - j) := by
    rw [List.range_eq_range']
    have : alts.length = (alts.length - j) + j := by omega
    conv => lhs; rw [this]
    rw [← List.range'_append_1]
    simp
  rw [h1]
  unfold groupOf
  conv => rhs; rw [← map_getD_range alts]
  rw [List.filter_map, List.map_map, h3, List.filter_append]
  have h2' : List.filter ((fun rhs => decide ((getSymbol rhs 0).1 = some sj)) ∘
      fun k => alts.getD k []) (List.range' 0 j) = [] := h2
  rw [h2', List.nil_append]
  rfl

/-- An alternative that begins with a symbol makes the group of that symbol
non-empty. -/
theorem groupOf_ne_nil (alts : List CStr) (j : Nat) (sj : CStr) (hjlt : j < alts.length)
    (hj : symAt alts j = some sj) : 0 < (groupOf alts sj).length := by
  unfold groupOf
  rw [List.length_map]
  apply List.length_pos_of_mem (a := alts.getD j [])
  rw [List.mem_filter]
  refine ⟨?_, by simpa [symAt] using hj⟩
  simp only [List.getD_eq_getElem?_getD, List.getElem?_eq_getElem hjlt, Option.getD_some]
  exact List.getElem_mem hjlt

/-- The loop over `j`, when every alternative has a first symbol and the
alternatives marked as processed are those whose first symbol occurred
before position `j`: the loop returns, and for every first symbol that
occurs for the first time at or after `j` it appends the production
`lhs -> symbol F` immediately followed by the production of the new
non-terminal `F`, whose alternatives are the group of the symbol. -/
theorem factorGroups_spec (prod : Production)
    (hsym : ∀ k, k < prod.rhs.length → symAt prod.rhs k ≠ none) :
    ∀ (m j : Nat) (processed : List Bool) (result : Grammar),
      j + m = prod.rhs.length → processed.length = prod.rhs.length →
      (∀ k, k < prod.rhs.length →
        (processed.getD k false = true ↔
          ∃ j', j' < j ∧ symAt prod.rhs j' = symAt prod.rhs k)) →
      ∃ r, factorGroups prod (List.range' j m) processed result = some r ∧
        ∀ (sj : CStr) (j0 : Nat), j ≤ j0 → j0 < prod.rhs.length →
          symAt prod.rhs j0 = some sj → (∀ j', j' < j0 → symAt prod.rhs j' ≠ some sj) →
          ∃ F before after, F ∉ result.nonTerminals ∧ F ∈ r.1.nonTerminals ∧
            r.1.productions = result.productions ++
              (before ++ [⟨prod.lhs, [sj ++ str " " ++ F]⟩, ⟨F, groupOf prod.rhs sj⟩] ++
                after) := by
  intro m
  induction m with
  | zero =>
    intro j processed result hjm _ _
    refine ⟨(result, processed), by simp [factorGroups], ?_⟩
    intro sj j0 h1 h2
    omega
  | succ m ih =>
    intro j processed result hjm hlen hinv
    have hjlt : j < prod.rhs.length := by omega
    rw [List.range'_succ]
    unfold factorGroups
    by_cases hp : processed.getD j false = true
    · simp only [hp, if_true]
      obtain ⟨j1, hj1, hj1s⟩ := (hinv j hjlt).mp hp
      have hinv' : ∀ k, k < prod.rhs.length →
          (processed.getD k false = true ↔
            ∃ j', j' < j + 1 ∧ symAt prod.rhs j' = symAt prod.rhs k) := by
        intro k hk
        rw [hinv k hk]
        constructor
        · rintro ⟨j', h1, h2⟩
          exact ⟨j', by omega, h2⟩
        · rintro ⟨j', h1, h2⟩
          by_cases e : j' = j
          · subst e
            exact ⟨j1, hj1, hj1s.trans h2⟩
          · exact ⟨j', by omega, h2⟩
      obtain ⟨r, hr, hspec⟩ := ih (j + 1) processed result (by omega) hlen hinv'
      refine ⟨r, hr, ?_⟩
      intro sj j0 h1 h2 h3 h4
      by_cases e : j0 = j
      · subst e
        exfalso
        exact h4 j1 hj1 (hj1s.trans h3)
      · exact hspec sj j0 (by omega) h2 h3 h4
    · have hp2 : processed.getD j false = false := by simpa using hp
      simp only [hp2, Bool.false_eq_true, if_false]
      cases hsj : symAt prod.rhs j with
      | none => exact absurd hsj (hsym j hjlt)
      | some sj' =>
        have hbefore : ∀ k, k < j → symAt prod.rhs k ≠ some sj' := by
          intro k hk e
          have := (hinv j hjlt).mpr ⟨k, hk, e.trans hsj.symm⟩
          rw [hp2] at this
          exact Bool.noConfusion this
        have hfree : ∀ k, j ≤ k → k < prod.rhs.length → symAt prod.rhs k = some sj' →
            processed.getD k false = false := by
          intro k _ hk e
          by_contra hne
          have hk1 : processed.getD k false = true := by simpa using hne
          obtain ⟨j', h1, h2⟩ := (hinv k hk).mp hk1
          exact hbefore j' h1 (h2.trans e)
        obtain ⟨p', hc, hplen, hpp⟩ := collectGroup_at prod.rhs j sj' processed hsj hjlt
          hlen hp2 hsym
        rw [group_eq_groupOf prod.rhs j sj' processed (by omega) hbefore hfree] at hc
        rw [hc]
        simp only [groupOf_ne_nil prod.rhs j sj' hjlt hsj, if_true]
        have hinv' : ∀ k, k < prod.rhs.length →
            (p'.getD k false = true ↔
              ∃ j', j' < j + 1 ∧ symAt prod.rhs j' = symAt prod.rhs k) := by
          intro k hk
          rw [hpp k, hinv k hk]
          constructor
          · rintro (⟨j', h1, h2⟩ | ⟨_, _, h3⟩)
            · exact ⟨j', by omega, h2⟩
            · exact ⟨j, by omega, hsj.trans h3.symm⟩
          · rintro ⟨j', h1, h2⟩
            by_cases e : j' = j
            · subst e
              by_cases hkj : j' ≤ k
              · exact Or.inr ⟨hkj, hk, h2.symm.trans hsj⟩
              · exact Or.inl ⟨k, by omega, rfl⟩
            · exact Or.inl ⟨j', by omega, h2⟩
        obtain ⟨r, hr, hspec⟩ := ih (j + 1) p'
          { result with
            nonTerminals := result.nonTerminals ++ [freshName result prod.lhs]
            productions := result.productions ++
              [ { lhs := prod.lhs, rhs := [sj' ++ str " " ++ freshName result prod.lhs] },
                { lhs := freshName result prod.lhs, rhs := groupOf prod.rhs sj' } ] }
          (by omega) (hplen.trans hlen) hinv'
        refine ⟨r, hr, ?_⟩
        have hcont := factorGroups_continues prod _ _ _ r hr
        obtain ⟨_, _, ⟨names, hnames⟩, _, ⟨prods, hprods⟩⟩ := hcont
        simp only at hnames hprods
        intro sj j0 h1 h2 h3 h4
        by_cases e : j0 = j
        · subst e
          have hs : sj = sj' := Option.some.inj (h3.symm.trans hsj)
          subst hs
          refine ⟨freshName result prod.lhs, [], prods, freshName_unused result prod.lhs,
            ?_, ?_⟩
          · rw [hnames]
            simp
          · rw [hprods]
            simp
        · obtain ⟨F, before, after, hF1, hF2, hF3⟩ := hspec sj j0 (by omega) h2 h3 h4
          simp only at hF1 hF3
          refine ⟨F, [⟨prod.lhs, [sj' ++ str " " ++ freshName result prod.lhs]⟩,
            ⟨freshName result prod.lhs, groupOf prod.rhs sj'⟩] ++ before, after, ?_, hF2, ?_⟩
          · intro hmem
            exact hF1 (List.mem_append_left _ hmem)
          · rw [hF3]
            simp

/-- Alternatives that all have a first symbol have one at every index. -/
theorem symAt_ne_none (alts : List CStr) (h : ∀ rhs ∈ alts, (getSymbol rhs 0).1 ≠ none) :
    ∀ k, k < alts.length → symAt alts k ≠ none := by
  intro k hk
  unfold symAt
  simp only [List.getD_eq_getElem?_getD, List.getElem?_eq_getElem hk, Option.getD_some]
  exact h _ (List.getElem_mem hk)

/-- An alternative that begins with a symbol sits at some index. -/
theorem symAt_of_mem (alts : List CStr) (rhs : CStr) (s : CStr) (hmem : rhs ∈ alts)
    (hs : (getSymbol rhs 0).1 = some s) : ∃ k, k < alts.length ∧ symAt alts k = some s := by
  obtain ⟨k, hk, he⟩ := List.getElem_of_mem hmem
  refine ⟨k, hk, ?_⟩
  unfold symAt
  simp only [List.getD_eq_getElem?_getD, List.getElem?_eq_getElem hk, Option.getD_some, he]
  exact hs

/-- Among the indices with a property there is a first one. -/
theorem exists_first (P : Nat → Prop) (n : Nat) (h : ∃ k, k < n ∧ P k) :
    ∃ j0, j0 < n ∧ P j0 ∧ ∀ j', j' < j0 → ¬ P j' := by
  classical
  obtain ⟨k, hk, hP⟩ := h
  have hex : ∃ j, P j := ⟨k, hP⟩
  refine ⟨Nat.find hex, ?_, Nat.find_spec hex, fun j' hj' => Nat.find_min hex hj'⟩
  exact Nat.lt_of_le_of_lt (Nat.find_min' hex hP) hk

/-- The body of the loop over the productions, for a production whose
alternatives all have a first symbol: it returns, and when factoring is
asked for it appends, for every first symbol of an alternative, the
production `lhs -> symbol F` immediately followed by the production of the
new non-terminal `F`. -/
theorem factorProduction_spec (result : Grammar) (prod : Production)
    (hsym : ∀ k, k < prod.rhs.length → symAt prod.rhs k ≠ none) :
    ∃ r, factorProduction result prod = some r ∧
      (needsFactoring prod.rhs = true →
        ∀ (sj : CStr) (j0 : Nat), j0 < prod.rhs.length →
          symAt prod.rhs j0 = some sj → (∀ j', j' < j0 → symAt prod.rhs j' ≠ some sj) →
          ∃ F before after, F ∉ result.nonTerminals ∧ F ∈ r.nonTerminals ∧
            r.productions = result.productions ++
              (before ++ [⟨prod.lhs, [sj ++ str " " ++ F]⟩, ⟨F, groupOf prod.rhs sj⟩] ++
                after)) := by
  unfold factorProduction
  by_cases hn : needsFactoring prod.rhs = true
  · simp only [hn, Bool.not_true, Bool.false_eq_true, if_false]
    obtain ⟨r, hr, hspec⟩ := factorGroups_spec prod hsym prod.rhs.length 0
      (List.replicate prod.rhs.length false) result (by omega) (by simp)
      (by
        intro k hk
        constructor
        · intro h
          simp [List.getD_eq_getElem?_getD, List.getElem?_replicate, hk] at h
        · rintro ⟨j', h1, _⟩
          omega)
    rw [List.range_eq_range', hr]
    obtain ⟨result1, processed⟩ := r
    simp only
    split
    · refine ⟨_, rfl, ?_⟩
      intro _ sj j0 h1 h2 h3
      obtain ⟨F, before, after, hF1, hF2, hF3⟩ := hspec sj j0 (by omega) h1 h2 h3
      simp only at hF2 hF3
      refine ⟨F, before, after ++ [⟨prod.lhs,
        ((prod.rhs.zip processed).filter (fun x => !x.2)).map (fun x => x.1)⟩],
        hF1, hF2, ?_⟩
      simp only [hF3, List.append_assoc]
    · refine ⟨_, rfl, ?_⟩
      intro _ sj j0 h1 h2 h3
      exact hspec sj j0 (by omega) h1 h2 h3
  · have hn2 : needsFactoring prod.rhs = false := by simpa using hn
    simp only [hn2, Bool.not_false, if_true]
    exact ⟨_, rfl, fun h => absurd h (by simp)⟩

/-- The loop over the productions, when every alternative has a first
symbol: it returns, and for every production for which factoring is asked
and every first symbol of one of its alternatives the output holds the
production `lhs -> symbol F` immediately followed by the production of the
new non-terminal `F`. -/
theorem factorAll_spec :
    ∀ (prods : List Production) (result : Grammar),
      (∀ p ∈ prods, ∀ k, k < p.rhs.length → symAt p.rhs k ≠ none) →
      ∃ r, factorAll prods result = some r ∧
        ∀ prod ∈ prods, needsFactoring prod.rhs = true →
          ∀ (sj : CStr) (j0 : Nat), j0 < prod.rhs.length →
            symAt prod.rhs j0 = some sj → (∀ j', j' < j0 → symAt prod.rhs j' ≠ some sj) →
            ∃ F before after, F ∉ result.nonTerminals ∧ F ∈ r.nonTerminals ∧
              r.productions = result.productions ++
                (before ++ [⟨prod.lhs, [sj ++ str " " ++ F]⟩, ⟨F, groupOf prod.rhs sj⟩] ++
                  after) := by
  intro prods
  induction prods with
  | nil =>
    intro result _
    exact ⟨result, rfl, fun prod hp => by simp at hp⟩
  | cons p rest ih =>
    intro result hsym
    obtain ⟨r1, hr1, hspec1⟩ := factorProduction_spec result p
      (hsym p (List.mem_cons_self p rest))
    obtain ⟨r, hr, hspec⟩ := ih r1 (fun q hq => hsym q (List.mem_cons_of_mem p hq))
    have hc1 := factorProduction_continues result p r1 hr1
    have hc2 := factorAll_continues rest r1 r hr
    obtain ⟨_, _, ⟨names1, hnames1⟩, _, ⟨prods1, hprods1⟩⟩ := hc1
    obtain ⟨_, _, ⟨names2, hnames2⟩, _, ⟨prods2, hprods2⟩⟩ := hc2
    refine ⟨r, by simp only [factorAll, hr1, hr], ?_⟩
    intro prod hprod hgate sj j0 h1 h2 h3
    rcases List.mem_cons.mp hprod with e | e
    · subst e
      obtain ⟨F, before, after, hF1, hF2, hF3⟩ := hspec1 hgate sj j0 h1 h2 h3
      refine ⟨F, before, after ++ prods2, hF1, ?_, ?_⟩
      · rw [hnames2]
        exact List.mem_append_left _ hF2
      · rw [hprods2, hF3]
        simp only [List.append_assoc]
    · obtain ⟨F, before, after, hF1, hF2, hF3⟩ := hspec prod e hgate sj j0 h1 h2 h3
      refine ⟨F, prods1 ++ before, after, ?_, hF2, ?_⟩
      · intro hmem
        apply hF1
        rw [hnames1]
        exact List.mem_append_left _ hmem
      · rw [hF3, hprods1]
        simp only [List.append_assoc]

/-! ### The solvers return for every grammar -/

/-- The loop of `computeFirstSets` only extends the array. -/
theorem firstLoop_ext (grammar : Grammar) :
    ∀ (fuel : Nat) (s : List Set), Ext s (firstLoop grammar fuel s) := by
  intro fuel
  induction fuel with
  | zero => intro s; exact Ext.ext_refl s
  | succ f ih =>
    intro s
    have hadv := firstPass_adv grammar grammar.productions s false
    unfold firstLoop
    simp only
    split
    · exact hadv.1.1.ext_trans (ih _)
    · exact hadv.1.1

/-- The loop of `computeFirstSets` keeps every set inside terminals plus `EPSILON`. -/
theorem firstLoop_wf (grammar : Grammar) :
    ∀ (fuel : Nat) (s : List Set), WF (firstAlphabet grammar) s →
      WF (firstAlphabet grammar) (firstLoop grammar fuel s) := by
  intro fuel
  induction fuel with
  | zero => intro s h; exact h
  | succ f ih =>
    intro s h
    have hadv := firstPass_adv grammar grammar.productions s false
    unfold firstLoop
    simp only
    split
    · exact ih _ (hadv.2 h)
    · exact hadv.2 h

/-- The initial FIRST array carries the non-terminals as symbols. -/
theorem initSets_symbols (grammar : Grammar) :
    (initSets grammar).map (fun s => s.symbol) = grammar.nonTerminals := by
  simp [initSets, Function.comp_def]

/-- The array `computeFirstSets` returns carries the non-terminals as symbols. -/
theorem computeFirstSets_symbols (grammar : Grammar) :
    (computeFirstSets grammar).map (fun s => s.symbol) = grammar.nonTerminals := by
  unfold computeFirstSets
  rw [(firstLoop_ext grammar _ _).symbols, initSets_symbols]

/-- Once a pass reports no change, more passes in the budget change nothing. -/
theorem firstLoop_more (grammar : Grammar) :
    ∀ (fuel extra : Nat) (s : List Set),
      firstPass grammar grammar.productions (firstLoop grammar fuel s) false =
        (firstLoop grammar fuel s, false) →
      firstLoop grammar (fuel + extra) s = firstLoop grammar fuel s := by
  intro fuel
  induction fuel with
  | zero =>
    intro extra s h
    cases extra with
    | zero => rfl
    | succ e =>
      simp only [firstLoop] at h
      simp only [Nat.zero_add, firstLoop, h]
      simp
  | succ f ih =>
    intro extra s h
    have he : f + 1 + extra = (f + extra) + 1 := by omega
    rw [he]
    unfold firstLoop
    simp only
    by_cases hc : (firstPass grammar grammar.productions s false).2 = true
    · simp only [hc, if_true]
      apply ih
      have h2 := h
      unfold firstLoop at h2
      simpa only [hc, if_true] using h2
    · have hc2 : (firstPass grammar grammar.productions s false).2 = false := by
        simpa using hc
      simp only [hc2]
      simp

/-- When an extension holds more elements, one of its sets is longer. -/
theorem Ext.exists_longer : ∀ {s t : List Set}, Ext s t → total s < total t →
    ∃ i, (elementsAt s i).length < (elementsAt t i).length
  | [], [], _, h => by simp [total] at h
  | a :: as, b :: bs, h, hlt => by
    by_cases hab : a.elements.length < b.elements.length
    · exact ⟨0, by simpa [elementsAt] using hab⟩
    · have hle := h.1.2.length_le
      have htail : total as < total bs := by
        simp only [total, List.map_cons, List.sum_cons] at hlt ⊢
        omega
      obtain ⟨i, hi⟩ := Ext.exists_longer h.2 htail
      exact ⟨i + 1, by simpa [elementsAt] using hi⟩
  | [], _ :: _, h, _ => h.elim
  | _ :: _, [], h, _ => h.elim

/-- The position `getSymbol` leaves behind is never before the one it started from. -/
theorem getSymbol_pos_le (rhs : CStr) (pos : Nat) : pos ≤ (getSymbol rhs pos).2 := by
  unfold getSymbol
  simp only
  have hsk : pos ≤ skipSpaces rhs pos := by unfold skipSpaces; omega
  cases hd : rhs.drop (skipSpaces rhs pos) with
  | nil => exact hsk
  | cons c rest =>
    simp only
    split
    · exact Nat.le_trans hsk (Nat.le_add_right _ _)
    · exact Nat.le_trans hsk (Nat.le_add_right _ _)

/-- An iteration of the scan ends at or after the end of the symbol it read:
the look-ahead either is undone or has found the end of the text. -/
theorem scanStep_pos_ge (grammar : Grammar) (firstSets : List Set) (lhsIndex : Nat)
    (rhs symbol : CStr) (savedPos : Nat) (s : List Set) (c : Bool) :
    savedPos ≤ (scanStep grammar firstSets lhsIndex rhs symbol savedPos s c).1 := by
  by_cases h : (getSymbol rhs savedPos).1 = none
  · have hle := getSymbol_pos_le rhs savedPos
    unfold scanStep
    rcases hg : getSymbol rhs savedPos with ⟨nxt, endPos⟩
    rw [hg] at h hle
    simp only at h hle
    subst h
    simp only
    split
    · split
      · exact Nat.le_refl _
      · exact hle
    · exact Nat.le_refl _
  · rw [scanStep_pos grammar firstSets lhsIndex rhs symbol savedPos s c h]

/-- The scan of an alternative has budget enough: once the text is covered,
a larger budget gives the same result. -/
theorem followScan_more (grammar : Grammar) (firstSets : List Set) (lhsIndex : Nat)
    (rhs : CStr) :
    ∀ (fuel pos extra : Nat) (s : List Set) (c : Bool), rhs.length < pos + fuel →
      followScan grammar firstSets lhsIndex rhs (fuel + extra) pos s c =
        followScan grammar firstSets lhsIndex rhs fuel pos s c := by
  intro fuel
  induction fuel with
  | zero =>
    intro pos extra s c h
    cases extra with
    | zero => rfl
    | succ e =>
      have hp : ¬ pos < rhs.length := by omega
      rw [Nat.zero_add, followScan_succ]
      simp only [hp, if_false]
      rfl
  | succ f ih =>
    intro pos extra s c h
    have e1 : f + 1 + extra = (f + extra) + 1 := by omega
    rw [e1, followScan_succ, followScan_succ]
    by_cases hp : pos < rhs.length
    · simp only [hp, if_true]
      rcases hgs : getSymbol rhs pos with ⟨sym, sp⟩
      cases sym with
      | none => rfl
      | some symbol =>
        simp only
        have h1 := getSymbol_pos_lt rhs pos symbol sp hgs
        have h2 := scanStep_pos_ge grammar firstSets lhsIndex rhs symbol sp s c
        exact ih _ extra _ _ (by omega)
    · simp only [hp, if_false]

/-- The loop of `computeFollowSets` keeps every set inside the FOLLOW alphabet. -/
theorem followLoop_wf (grammar : Grammar) (firstSets : List Set) :
    ∀ (fuel : Nat) (s : List Set), WF (followAlphabet grammar firstSets) s →
      WF (followAlphabet grammar firstSets) (followLoop grammar firstSets fuel s) := by
  intro fuel
  induction fuel with
  | zero => intro s h; exact h
  | succ f ih =>
    intro s h
    have hadv := followPass_adv grammar firstSets grammar.productions s false
    unfold followLoop
    simp only
    split
    · exact ih _ (hadv.2 h)
    · exact hadv.2 h

/-- Once a pass reports no change, more passes in the budget change nothing. -/
theorem followLoop_more (grammar : Grammar) (firstSets : List Set) :
    ∀ (fuel extra : Nat) (s : List Set),
      followPass grammar firstSets grammar.productions
          (followLoop grammar firstSets fuel s) false =
        (followLoop grammar firstSets fuel s, false) →
      followLoop grammar firstSets (fuel + extra) s = followLoop grammar firstSets fuel s := by
  intro fuel
  induction fuel with
  | zero =>
    intro extra s h
    cases extra with
    | zero => rfl
    | succ e =>
      simp only [followLoop] at h
      simp only [Nat.zero_add, followLoop, h]
      simp
  | succ f ih =>
    intro extra s h
    have he : f + 1 + extra = (f + extra) + 1 := by omega
    rw [he]
    unfold followLoop
    simp only
    by_cases hc : (followPass grammar firstSets grammar.productions s false).2 = true
    · simp only [hc, if_true]
      apply ih
      have h2 := h
      unfold followLoop at h2
      simpa only [hc, if_true] using h2
    · have hc2 : (followPass grammar firstSets grammar.productions s false).2 = false := by
        simpa using hc
      simp only [hc2]
      simp

/-- Without direct left recursion the loop over the non-terminals copies the
first production of each of them. -/
theorem foldl_removeStep_no_recursion (grammar : Grammar)
    (h : ∀ p ∈ grammar.productions, hasDirectLeftRecursion p = false) :
    ∀ (nts : List CStr) (result : Grammar),
      nts.foldl (removeStep grammar) result =
        { result with productions := result.productions ++
            nts.filterMap (fun nt => grammar.productions.find? (fun p => p.lhs == nt)) } := by
  intro nts
  induction nts with
  | nil => intro result; simp
  | cons nt rest ih =>
    intro result
    simp only [List.foldl_cons]
    cases hf : grammar.productions.find? (fun p => p.lhs == nt) with
    | none =>
      rw [removeStep_no_production grammar result nt hf, ih result]
      simp [List.filterMap_cons, hf]
    | some prod =>
      have hp : prod ∈ grammar.productions := List.mem_of_find?_eq_some hf
      have hstep : removeStep grammar result nt =
          { result with productions := result.productions ++ [prod] } := by
        simp [removeStep, hf, h prod hp]
      rw [hstep, ih]
      simp [List.filterMap_cons, hf]

/-- An update at one index leaves the sets at the other indices as they were. -/
theorem ExtAt.elementsAt_other {i : Nat} {s t : List Set} (h : ExtAt i s t) (j : Nat)
    (hj : j ≠ i) : elementsAt t j = elementsAt s j := by
  obtain ⟨y, rfl, _⟩ := h
  simp [elementsAt, List.getElem?_set_ne (Ne.symm hj)]

/-- The loop over the alternatives of a production writes the set of its
left-hand side only. -/
theorem firstAlternatives_extAt (grammar : Grammar) (ntIndex : Nat) :
    ∀ (alts : List CStr) (s : List Set) (c : Bool),
      ExtAt ntIndex s (firstAlternatives grammar ntIndex alts s c).1 := by
  intro alts
  induction alts with
  | nil => intro s c; exact ExtAt.at_refl ntIndex s
  | cons rhs more ih =>
    intro s c
    unfold firstAlternatives
    rcases hgs : getSymbol rhs 0 with ⟨sym, pos⟩
    cases sym with
    | none => simpa using ih s c
    | some symbol =>
      simp only
      by_cases h1 : symbol = EPSILON
      · simp only [h1, if_true]
        exact addToSetAt_extAt s ntIndex EPSILON
      · simp only [h1, if_false]
        by_cases h2 : isTerminal grammar symbol = true
        · simp only [h2, if_true]
          exact addToSetAt_extAt s ntIndex symbol
        · simp only [h2, if_false]
          by_cases h3 : isNonTerminal grammar symbol = true
          · simp only [h3, if_true]
            cases hf : findSet s grammar.nonTerminals.length symbol with
            | none => exact ExtAt.at_refl ntIndex s
            | some symbolIndex =>
              simp only
              have a1 := addAllExceptEpsilonAt_extAt ntIndex (elementsAt s symbolIndex) s
              by_cases hE : (elementsAt (addAllExceptEpsilonAt s ntIndex
                  (elementsAt s symbolIndex)) symbolIndex).any (fun e => e == EPSILON) = true
              · simp only [hE, Bool.not_true]
                rcases hg2 : getSymbol rhs pos with ⟨sym2, pos2⟩
                cases sym2 with
                | none =>
                  simp only [Bool.false_eq_true, if_false]
                  exact a1.at_trans (addToSetAt_extAt _ ntIndex EPSILON)
                | some next =>
                  simp only [Bool.false_eq_true, if_false]
                  exact a1
              · have hE2 : (elementsAt (addAllExceptEpsilonAt s ntIndex
                  (elementsAt s symbolIndex)) symbolIndex).any (fun e => e == EPSILON)
                    = false := Bool.eq_false_iff.mpr hE
                simp only [hE2, Bool.not_false, if_true]
                exact a1
          · simp only [h3]
            exact ExtAt.at_refl ntIndex s

/-- A pass leaves as it was every set that is the set of no production. -/
theorem firstPass_untouched (grammar : Grammar) (j : Nat) :
    ∀ (prods : List Production) (s : List Set) (c : Bool),
      (∀ p ∈ prods, findSet s grammar.nonTerminals.length p.lhs ≠ some j) →
      elementsAt (firstPass grammar prods s c).1 j = elementsAt s j := by
  intro prods
  induction prods with
  | nil => intro s c _; rfl
  | cons prod rest ih =>
    intro s c h
    unfold firstPass
    cases hf : findSet s grammar.nonTerminals.length prod.lhs with
    | none =>
      simp only
      exact ih s c (fun p hp => h p (List.mem_cons_of_mem _ hp))
    | some ntIndex =>
      simp only
      have hx := firstAlternatives_extAt grammar ntIndex prod.rhs s c
      have hne : j ≠ ntIndex := by
        intro e
        exact h prod (List.mem_cons_self _ _) (by rw [hf, e])
      rw [ih _ _ (fun p hp => by
        rw [hx.to_ext.findSet_eq]
        exact h p (List.mem_cons_of_mem _ hp))]
      exact hx.elementsAt_other j hne

/-- The loop leaves as it was every set that is the set of no production. -/
theorem firstLoop_untouched (grammar : Grammar) (j : Nat) :
    ∀ (fuel : Nat) (s : List Set),
      (∀ p ∈ grammar.productions, findSet s grammar.nonTerminals.length p.lhs ≠ some j) →
      elementsAt (firstLoop grammar fuel s) j = elementsAt s j := by
  intro fuel
  induction fuel with
  | zero => intro s _; rfl
  | succ f ih =>
    intro s h
    have hp := firstPass_untouched grammar j grammar.productions s false h
    have hext := (firstPass_adv grammar grammar.productions s false).1.1
    unfold firstLoop
    simp only
    split
    · rw [ih _ (fun p hp2 => by rw [hext.findSet_eq]; exact h p hp2)]
      exact hp
    · exact hp

/-- The FIRST set of a name that is the left-hand side of no production
comes back empty. -/
theorem computeFirstSets_without_production (grammar : Grammar) (name : CStr)
    (h : ∀ p ∈ grammar.productions, p.lhs ≠ name) :
    setFor (computeFirstSets grammar) name = [] := by
  by_cases hn : name ∈ grammar.nonTerminals
  · obtain ⟨i, hi, he⟩ := findSet_of_symbols grammar (computeFirstSets grammar) name
      (computeFirstSets_symbols grammar) hn
    rw [← he]
    have hinit : findSet (initSets grammar) grammar.nonTerminals.length name = some i := by
      rw [← (firstLoop_ext grammar (firstFuel grammar) (initSets grammar)).findSet_eq]
      exact hi
    unfold computeFirstSets
    rw [firstLoop_untouched grammar i _ _ (fun p hp hc => by
      obtain ⟨x, hx, hsym⟩ := findSet_symbol _ _ _ _ hc
      obtain ⟨y, hy, hsym2⟩ := findSet_symbol _ _ _ _ hinit
      rw [hx] at hy
      have := Option.some.inj hy
      subst this
      exact h p hp (hsym.symm.trans hsym2))]
    have hall : ∀ x ∈ initSets grammar, x.elements = [] := by
      intro x hx
      obtain ⟨nt, _, rfl⟩ := List.mem_map.mp hx
      rfl
    unfold elementsAt
    cases hget : (initSets grammar)[i]? with
    | none => rfl
    | some x => exact hall x (List.getElem?_mem hget)
  · unfold setFor
    cases hfind : (computeFirstSets grammar).find? (fun s => s.symbol == name) with
    | none => rfl
    | some x =>
      exfalso
      apply hn
      have hx := List.mem_of_find?_eq_some hfind
      have hs := List.find?_some hfind
      rw [← computeFirstSets_symbols grammar]
      exact List.mem_map.mpr ⟨x, hx, by simpa using hs⟩

/-! ### Symbol sequences -/

/-- A scan that stops inside a text is not changed by what is appended. -/
theorem takeWhile_append_inside (p : Nat → Bool) :
    ∀ (l r : List Nat), (l.takeWhile p).length < l.length →
      (l ++ r).takeWhile p = l.takeWhile p
  | [], _, h => by simp at h
  | a :: as, r, h => by
    by_cases ha : p a = true
    · simp only [List.cons_append, List.takeWhile_cons, ha, if_true, List.length_cons] at h ⊢
      rw [takeWhile_append_inside p as r (by omega)]
    · simp [List.takeWhile_cons, ha]

/-- A scan stops at a rejected byte that is appended. -/
theorem takeWhile_append_stop (p : Nat → Bool) (x : Nat) (hx : p x = false) :
    ∀ (l r : List Nat), (l ++ x :: r).takeWhile p = l.takeWhile p
  | [], r => by simp [List.takeWhile_cons, hx]
  | a :: as, r => by
    by_cases ha : p a = true
    · simp only [List.cons_append, List.takeWhile_cons, ha, if_true]
      rw [takeWhile_append_stop p x hx as r]
    · simp [List.takeWhile_cons, ha]

/-- The whitespace loop started at `pos` is the one started at 0 on the rest of the text. -/
theorem skipSpaces_drop (rhs : CStr) (pos : Nat) :
    skipSpaces rhs pos = pos + skipSpaces (rhs.drop pos) 0 := by
  simp [skipSpaces]

/-- A call of `getSymbol` at `pos` is the call at 0 on the rest of the text. -/
theorem getSymbol_drop (rhs : CStr) (pos : Nat) :
    getSymbol rhs pos =
      ((getSymbol (rhs.drop pos) 0).1, pos + (getSymbol (rhs.drop pos) 0).2) := by
  have hd : rhs.drop (skipSpaces rhs pos) =
      (rhs.drop pos).drop (skipSpaces (rhs.drop pos) 0) := by
    rw [skipSpaces_drop rhs pos, List.drop_drop]
  unfold getSymbol
  simp only
  rw [hd, skipSpaces_drop rhs pos]
  cases (rhs.drop pos).drop (skipSpaces (rhs.drop pos) 0) with
  | nil => rfl
  | cons c rest =>
    simp only
    split
    · simp [Nat.add_assoc]
    · simp [Nat.add_assoc]

/-- The symbols read from `pos` are the symbols of the rest of the text. -/
theorem tokensFrom_drop :
    ∀ (fuel : Nat) (rhs : CStr) (pos : Nat),
      tokensFrom rhs fuel pos = tokensFrom (rhs.drop pos) fuel 0 := by
  intro fuel
  induction fuel with
  | zero => intro rhs pos; rfl
  | succ f ih =>
    intro rhs pos
    unfold tokensFrom
    rw [getSymbol_drop rhs pos]
    rcases hg : getSymbol (rhs.drop pos) 0 with ⟨sym, q⟩
    cases sym with
    | none => rfl
    | some t =>
      simp only
      rw [ih rhs (pos + q), ih (rhs.drop pos) q, List.drop_drop]

/-- A symbol returned by `getSymbol` lies inside the text. -/
theorem getSymbol_some_le (rhs : CStr) (pos : Nat) (t : CStr) (q : Nat)
    (h : getSymbol rhs pos = (some t, q)) : q ≤ rhs.length ∧ pos + t.length ≤ q := by
  unfold getSymbol at h
  simp only at h
  have hsk : pos ≤ skipSpaces rhs pos := by unfold skipSpaces; omega
  cases hd : rhs.drop (skipSpaces rhs pos) with
  | nil => rw [hd] at h; simp at h
  | cons c rest =>
    rw [hd] at h
    simp only at h
    have hlen : (rhs.drop (skipSpaces rhs pos)).length = rest.length + 1 := by rw [hd]; rfl
    rw [List.length_drop] at hlen
    by_cases hu : (isalpha c && isupper c) = true
    · simp only [hu, if_true, Prod.mk.injEq, Option.some.injEq] at h
      have hle : (List.takeWhile isIdentChar (c :: rest)).length ≤ rest.length + 1 := by
        have := (List.takeWhile_prefix isIdentChar (l := c :: rest)).length_le
        simpa using this
      rw [← h.1, ← h.2]
      constructor <;> omega
    · simp only [hu, Bool.false_eq_true, if_false, Prod.mk.injEq, Option.some.injEq] at h
      rw [← h.1, ← h.2]
      simp only [List.length_singleton]
      constructor <;> omega

/-- The symbol sequence of a text that starts with a symbol. -/
theorem tokenize_cons (rhs : CStr) (t : CStr) (pos : Nat)
    (h : getSymbol rhs 0 = (some t, pos)) : tokenize rhs = t :: tokenize (rhs.drop pos) := by
  have h1 := getSymbol_pos_lt rhs 0 t pos h
  have h2 := (getSymbol_some_le rhs 0 t pos h).1
  unfold tokenize
  rw [tokensFrom, h]
  simp only
  rw [tokensFrom_drop rhs.length rhs pos]
  have he : rhs.length = ((rhs.drop pos).length + 1) + (pos - 1) := by
    rw [List.length_drop]; omega
  rw [show tokensFrom (rhs.drop pos) rhs.length 0 =
    tokensFrom (rhs.drop pos) (((rhs.drop pos).length + 1) + (pos - 1)) 0 by rw [← he]]
  rw [tokensFrom_fuel (rhs.drop pos) ((rhs.drop pos).length + 1) 0 (pos - 1) (by omega)]

/-- The symbol sequence of a text without a symbol is empty. -/
theorem tokenize_none (rhs : CStr) (h : (getSymbol rhs 0).1 = none) : tokenize rhs = [] := by
  unfold tokenize
  rw [tokensFrom]
  rcases hg : getSymbol rhs 0 with ⟨sym, q⟩
  rw [hg] at h
  simp only at h
  subst h
  rfl

/-- A text has no symbol exactly when it is whitespace. -/
theorem getSymbol_none_iff (rhs : CStr) :
    (getSymbol rhs 0).1 = none ↔ rhs.takeWhile isspace = rhs := by
  unfold getSymbol skipSpaces
  simp only [List.drop_zero, Nat.zero_add]
  constructor
  · intro h
    cases hd : rhs.drop (rhs.takeWhile isspace).length with
    | nil =>
      have hle := List.drop_eq_nil_iff.mp hd
      have hpre := List.takeWhile_prefix isspace (l := rhs)
      exact hpre.eq_of_length_le hle
    | cons c rest =>
      rw [hd] at h
      simp only at h
      split at h <;> simp at h
  · intro h
    rw [h, List.drop_length]

/-- The first symbol of a text and the position after it are not changed by
appending a space and more text. -/
theorem getSymbol_append_space (β γ : CStr) (t : CStr)
    (h : (getSymbol β 0).1 = some t) : getSymbol (β ++ 32 :: γ) 0 = getSymbol β 0 := by
  have hnot : ¬ (β.takeWhile isspace = β) := by
    intro e
    rw [(getSymbol_none_iff β).mpr e] at h
    exact Option.noConfusion h
  have hlt : (β.takeWhile isspace).length < β.length := by
    by_contra hge
    exact hnot ((List.takeWhile_prefix isspace (l := β)).eq_of_length_le (by omega))
  have hsk : skipSpaces (β ++ 32 :: γ) 0 = skipSpaces β 0 := by
    simp only [skipSpaces, List.drop_zero, Nat.zero_add]
    rw [takeWhile_append_inside isspace β (32 :: γ) hlt]
  have hp : skipSpaces β 0 = (β.takeWhile isspace).length := by simp [skipSpaces]
  unfold getSymbol
  simp only
  rw [hsk, hp, List.drop_append_of_le_length (Nat.le_of_lt hlt)]
  cases hd : β.drop (β.takeWhile isspace).length with
  | nil =>
    have := List.drop_eq_nil_iff.mp hd
    omega
  | cons c rest =>
    simp only [List.cons_append]
    have hsp : isIdentChar 32 = false := by decide
    have htw : (c :: (rest ++ 32 :: γ)).takeWhile isIdentChar = (c :: rest).takeWhile isIdentChar := by
      rw [← List.cons_append]
      exact takeWhile_append_stop isIdentChar 32 hsp (c :: rest) γ
    rw [htw]

/-- A name that `getSymbol` reads as one symbol, put after whitespace and a
space, is the first symbol of the text and ends it. -/
theorem getSymbol_blank_append (β X : CStr) (h : (getSymbol β 0).1 = none)
    (hX : isIdentifier X = true) :
    getSymbol (β ++ 32 :: X) 0 = (some X, β.length + 1 + X.length) := by
  have hall := (getSymbol_none_iff β).mp h
  cases X with
  | nil => simp [isIdentifier] at hX
  | cons c cs =>
    simp only [isIdentifier, Bool.and_eq_true, List.all_eq_true] at hX
    obtain ⟨hc, hcs⟩ := hX
    have hsp : isspace c = false := isspace_of_isupper c hc
    have halpha : isalpha c = true := by simp [isalpha, hc]
    have hbl : ∀ x ∈ β ++ [32], isspace x = true := by
      intro x hx
      rcases List.mem_append.mp hx with hx | hx
      · rw [← hall] at hx
        exact (List.mem_takeWhile_imp hx)
      · simp only [List.mem_singleton] at hx
        rw [hx]; decide
    have htw : (β ++ 32 :: c :: cs).takeWhile isspace = β ++ [32] := by
      have e : β ++ 32 :: c :: cs = (β ++ [32]) ++ c :: cs := by simp
      rw [e]
      exact takeWhile_block isspace (β ++ [32]) (c :: cs) hbl
        (fun x xs hx => by rw [(List.cons.inj hx).1] at hsp; exact hsp)
    have hsk : skipSpaces (β ++ 32 :: c :: cs) 0 = β.length + 1 := by
      simp [skipSpaces, htw]
    have hdrop : (β ++ 32 :: c :: cs).drop (β.length + 1) = c :: cs := by
      have e : β ++ 32 :: c :: cs = (β ++ [32]) ++ c :: cs := by simp
      rw [e]
      exact List.drop_left' (by simp)
    have hblock : (c :: cs).takeWhile isIdentChar = c :: cs := by
      have := takeWhile_block isIdentChar (c :: cs) [] (fun x hx => by
        rcases List.mem_cons.mp hx with h | h
        · rw [h]; exact isIdentChar_of_isupper c hc
        · exact hcs x h) (fun x xs hx => by simp at hx)
      simpa using this
    unfold getSymbol
    simp only
    rw [hsk, hdrop]
    simp only [halpha, hc, Bool.and_self, if_true, hblock]

/-- The symbol sequence of the empty text. -/
theorem tokenize_nil : tokenize [] = [] := by decide

/-- A name that `getSymbol` reads as one symbol is the symbol sequence of
its own text. -/
theorem tokenize_name (X : CStr) (hX : isIdentifier X = true) : tokenize X = [X] := by
  have h := getSymbol_identifier_append X [] hX (fun x xs hx => by simp at hx)
  rw [List.append_nil] at h
  rw [tokenize_cons X X X.length h, List.drop_length, tokenize_nil]

/-- Appending a space and a name adds the name to the symbol sequence. -/
theorem tokenize_append_name (X : CStr) (hX : isIdentifier X = true) :
    ∀ (n : Nat) (β : CStr), β.length ≤ n → tokenize (β ++ 32 :: X) = tokenize β ++ [X] := by
  intro n
  induction n with
  | zero =>
    intro β hβ
    have : β = [] := List.eq_nil_of_length_eq_zero (by omega)
    subst this
    have h := getSymbol_blank_append [] X (by decide) hX
    rw [tokenize_cons _ X _ h, tokenize_nil]
    simp only [List.nil_append, List.length_nil, Nat.zero_add, List.cons.injEq, true_and]
    rw [List.drop_eq_nil_of_le (by simp; omega), tokenize_nil]
  | succ m ih =>
    intro β hβ
    rcases hg : getSymbol β 0 with ⟨sym, pos⟩
    cases sym with
    | none =>
      have hn : (getSymbol β 0).1 = none := by rw [hg]
      have h := getSymbol_blank_append β X hn hX
      rw [tokenize_cons _ X _ h, tokenize_none β hn]
      simp only [List.nil_append, List.cons.injEq, true_and]
      rw [List.drop_eq_nil_of_le (by simp; omega), tokenize_nil]
    | some t =>
      have hs : (getSymbol β 0).1 = some t := by rw [hg]
      have h := getSymbol_append_space β X t hs
      rw [hg] at h
      have h1 := getSymbol_pos_lt β 0 t pos hg
      have h2 := (getSymbol_some_le β 0 t pos hg).1
      rw [tokenize_cons _ t pos h, tokenize_cons β t pos hg,
        List.drop_append_of_le_length h2, ih (β.drop pos) (by rw [List.length_drop]; omega)]
      rfl

/-! ### Left-recursion removal: the steps of the loop -/

/-- The search loop returns one of the candidate names. -/
theorem freshLoop_candidate (result : Grammar) (lhs : CStr) :
    ∀ (fuel k : Nat), ∃ j, freshLoop result lhs fuel (k + 1) (candidate lhs k) = candidate lhs j := by
  intro fuel
  induction fuel with
  | zero => intro k; exact ⟨k, rfl⟩
  | succ f ih =>
    intro k
    unfold freshLoop
    by_cases hk : isNonTerminal result (candidate lhs k) = true
    · simp only [hk, if_true]
      have hc : lhs ++ str "'" ++ decimal (k + 1) = candidate lhs (k + 1) := by
        simp [candidate]
      rw [hc]
      exact ih (k + 1)
    · simp only [hk]
      exact ⟨k, rfl⟩

/-- The new name is one of the candidate names. -/
theorem freshName_candidate (result : Grammar) (lhs : CStr) :
    ∃ k, freshName result lhs = candidate lhs k := by
  have hc : candidate lhs 0 = lhs ++ str "'" := by simp [candidate]
  have h := freshLoop_candidate result lhs (result.nonTerminals.length + 1) 0
  rw [hc] at h
  exact h

/-- The text of a number consists of digits. -/
theorem decimalRev_digits : ∀ (fuel n : Nat), ∀ d ∈ decimalRev fuel n, 48 ≤ d ∧ d ≤ 57
  | 0, _, d, h => by simp [decimalRev] at h
  | fuel + 1, n, d, h => by
    unfold decimalRev at h
    by_cases hn : n < 10
    · simp only [hn, if_true, List.mem_singleton] at h
      omega
    · simp only [hn, if_false, List.mem_cons] at h
      rcases h with h | h
      · omega
      · exact decimalRev_digits fuel (n / 10) d h

/-- A candidate made from a name that `getSymbol` reads as one symbol is
read as one symbol too. -/
theorem candidate_identifier (lhs : CStr) (k : Nat) (h : isIdentifier lhs = true) :
    isIdentifier (candidate lhs k) = true := by
  cases lhs with
  | nil => simp [isIdentifier] at h
  | cons c cs =>
    simp only [isIdentifier, Bool.and_eq_true, List.all_eq_true] at h
    have hq : isIdentChar 39 = true := by decide
    have hdig : ∀ d ∈ decimal k, isIdentChar d = true := by
      intro d hd
      unfold decimal at hd
      have := decimalRev_digits (k + 1) k d (List.mem_reverse.mp hd)
      simp only [isIdentChar, isalnum, isalpha, isupper, Bool.or_eq_true, Bool.and_eq_true,
        decide_eq_true_eq, beq_iff_eq]
      omega
    unfold candidate
    split
    · simp only [List.cons_append, isIdentifier, Bool.and_eq_true, List.all_eq_true,
        List.mem_append]
      refine ⟨h.1, fun x hx => ?_⟩
      rcases hx with hx | hx
      · exact h.2 x hx
      · have : x = 39 := by simpa [str] using hx
        rw [this]; exact hq
    · simp only [List.cons_append, isIdentifier, Bool.and_eq_true, List.all_eq_true,
        List.mem_append]
      refine ⟨h.1, fun x hx => ?_⟩
      rcases hx with (hx | hx) | hx
      · exact h.2 x hx
      · have : x = 39 := by simpa [str] using hx
        rw [this]; exact hq
      · exact hdig x hx

/-- A candidate is longer than the name it is made from. -/
theorem candidate_length (lhs : CStr) (k : Nat) : lhs.length < (candidate lhs k).length := by
  unfold candidate
  split <;> simp [str]

/-- The new name made from a name read as one symbol is read as one symbol. -/
theorem freshName_identifier (result : Grammar) (lhs : CStr) (h : isIdentifier lhs = true) :
    isIdentifier (freshName result lhs) = true := by
  obtain ⟨k, hk⟩ := freshName_candidate result lhs
  rw [hk]
  exact candidate_identifier lhs k h

/-- The recursive parts are the texts after the first symbol of the
alternatives that begin with the left-hand side. -/
theorem recursiveParts_eq (prod : Production) :
    recursiveParts prod =
      (prod.rhs.filter (fun rhs => decide ((getSymbol rhs 0).1 = some prod.lhs))).map
        (fun rhs => rhs.drop (getSymbol rhs 0).2) := by
  unfold recursiveParts
  induction prod.rhs with
  | nil => rfl
  | cons a as ih =>
    rw [List.filterMap_cons, ih]
    rcases hg : getSymbol a 0 with ⟨sym, pos⟩
    cases sym with
    | none => simp [List.filter_cons, hg]
    | some t =>
      by_cases ht : t = prod.lhs
      · have hle := getSymbol_some_le a 0 t pos hg
        have hd : (if t.length < a.length then a.drop pos else []) = a.drop pos := by
          split
          · rfl
          · exact (List.drop_eq_nil_of_le (by omega)).symm
        simp only [ht, if_true, List.filter_cons, hg, decide_True]
        rw [← ht, hd]
        simp [hg]
      · have hne : ¬ (some t = some prod.lhs) := fun e => ht (Option.some.inj e)
        simp [List.filter_cons, hg, ht]

/-- The body of the loop at a non-terminal that has a production. -/
theorem removeStep_some (grammar result : Grammar) (nt : CStr) (prod : Production)
    (h : grammar.productions.find? (fun p => p.lhs == nt) = some prod) :
    removeStep grammar result nt =
      { result with
        nonTerminals := result.nonTerminals ++
          (if hasDirectLeftRecursion prod then [freshName result nt] else [])
        productions := result.productions ++
          stepProductions (prod,
            if hasDirectLeftRecursion prod then some (freshName result nt) else none) } := by
  have hl : prod.lhs = nt := by
    have := List.find?_some h
    simpa using this
  unfold removeStep
  rw [h]
  by_cases hr : hasDirectLeftRecursion prod = true
  · simp [hr, stepProductions, rewrittenProduction, tailProduction, hl]
  · have hr2 : hasDirectLeftRecursion prod = false := by simpa using hr
    simp [hr2, stepProductions]

/-- The result of the loop over the non-terminals: the productions of the
steps, in order, appended to the productions, the new names appended to the
non-terminal list, the other fields as they were. -/
theorem foldl_removeStep_eq (grammar : Grammar) :
    ∀ (nts : List CStr) (result : Grammar),
      nts.foldl (removeStep grammar) result =
        { result with
          nonTerminals := result.nonTerminals ++
            (removalSteps grammar nts result).filterMap (fun e => e.2)
          productions := result.productions ++
            ((removalSteps grammar nts result).map stepProductions).flatten } := by
  intro nts
  induction nts with
  | nil => intro result; simp [removalSteps]
  | cons nt rest ih =>
    intro result
    simp only [List.foldl_cons]
    rw [ih]
    cases hf : grammar.productions.find? (fun p => p.lhs == nt) with
    | none =>
      have hs : removalSteps grammar (nt :: rest) result =
          removalSteps grammar rest (removeStep grammar result nt) := by
        rw [removalSteps, hf]
      rw [hs, removeStep_no_production grammar result nt hf]
    | some prod =>
      have hs : removalSteps grammar (nt :: rest) result =
          (prod, if hasDirectLeftRecursion prod then some (freshName result nt) else none) ::
            removalSteps grammar rest (removeStep grammar result nt) := by
        rw [removalSteps, hf]
      rw [hs, removeStep_some grammar result nt prod hf]
      by_cases hr : hasDirectLeftRecursion prod = true
      · simp [hr, List.filterMap_cons]
      · have hr2 : hasDirectLeftRecursion prod = false := by simpa using hr
        simp [hr2, List.filterMap_cons]

/-- A step of the loop keeps the names of the non-terminal list. -/
theorem removeStep_nonTerminals (grammar result : Grammar) (nt : CStr) :
    ∀ x ∈ result.nonTerminals, x ∈ (removeStep grammar result nt).nonTerminals := by
  intro x hx
  cases hf : grammar.productions.find? (fun p => p.lhs == nt) with
  | none => rw [removeStep_no_production grammar result nt hf]; exact hx
  | some prod =>
    rw [removeStep_some grammar result nt prod hf]
    exact List.mem_append_left _ hx

/-- What every step of the loop is made of: the first production of one of
the non-terminals, and a new name exactly when that production has direct
left recursion; the new name is a candidate made from the left-hand side
and is not in the non-terminal list the loop started with. -/
theorem removalSteps_spec (grammar : Grammar) :
    ∀ (nts : List CStr) (result : Grammar), ∀ e ∈ removalSteps grammar nts result,
      grammar.productions.find? (fun p => p.lhs == e.1.lhs) = some e.1 ∧ e.1.lhs ∈ nts ∧
      (e.2 = none → hasDirectLeftRecursion e.1 = false) ∧
      ∀ name, e.2 = some name → hasDirectLeftRecursion e.1 = true ∧
        name ∉ result.nonTerminals ∧ ∃ k, name = candidate e.1.lhs k := by
  intro nts
  induction nts with
  | nil => intro result e he; simp [removalSteps] at he
  | cons nt rest ih =>
    intro result e he
    have htail : e ∈ removalSteps grammar rest (removeStep grammar result nt) →
        grammar.productions.find? (fun p => p.lhs == e.1.lhs) = some e.1 ∧
        e.1.lhs ∈ nt :: rest ∧ (e.2 = none → hasDirectLeftRecursion e.1 = false) ∧
        ∀ name, e.2 = some name → hasDirectLeftRecursion e.1 = true ∧
          name ∉ result.nonTerminals ∧ ∃ k, name = candidate e.1.lhs k := by
      intro h
      obtain ⟨h1, h2, h3, h4⟩ := ih _ e h
      refine ⟨h1, List.mem_cons_of_mem _ h2, h3, fun name hn => ?_⟩
      obtain ⟨h5, h6, h7⟩ := h4 name hn
      exact ⟨h5, fun hmem => h6 (removeStep_nonTerminals grammar result nt name hmem), h7⟩
    unfold removalSteps at he
    cases hf : grammar.productions.find? (fun p => p.lhs == nt) with
    | none =>
      rw [hf] at he
      exact htail he
    | some prod =>
      rw [hf] at he
      simp only [List.mem_cons] at he
      rcases he with he | he
      · have hl : prod.lhs = nt := by
          have := List.find?_some hf
          simpa using this
        subst he
        simp only
        refine ⟨by rw [hl]; exact hf, by rw [hl]; exact List.mem_cons_self _ _, ?_, ?_⟩
        · intro hnone
          by_cases hr : hasDirectLeftRecursion prod = true
          · simp [hr] at hnone
          · simpa using hr
        · intro name hname
          by_cases hr : hasDirectLeftRecursion prod = true
          · simp only [hr, if_true, Option.some.injEq] at hname
            subst hname
            refine ⟨hr, freshName_unused result nt, ?_⟩
            rw [hl]
            exact freshName_candidate result nt
          · simp [hr] at hname
      · exact htail he

/-- The new names of the steps are pairwise different and none of them is
in the non-terminal list the loop started with. -/
theorem removalSteps_names (grammar : Grammar) :
    ∀ (nts : List CStr) (result : Grammar),
      ((removalSteps grammar nts result).filterMap (fun e => e.2)).Nodup ∧
      ∀ name ∈ (removalSteps grammar nts result).filterMap (fun e => e.2),
        name ∉ result.nonTerminals := by
  intro nts
  induction nts with
  | nil => intro result; simp [removalSteps]
  | cons nt rest ih =>
    intro result
    obtain ⟨ih1, ih2⟩ := ih (removeStep grammar result nt)
    have hsub : ∀ name ∈ (removalSteps grammar rest (removeStep grammar result nt)).filterMap
        (fun e => e.2), name ∉ result.nonTerminals :=
      fun name hn hmem => ih2 name hn (removeStep_nonTerminals grammar result nt name hmem)
    unfold removalSteps
    cases hf : grammar.productions.find? (fun p => p.lhs == nt) with
    | none => exact ⟨ih1, hsub⟩
    | some prod =>
      simp only
      by_cases hr : hasDirectLeftRecursion prod = true
      · simp only [hr, if_true, List.filterMap_cons]
        have hnew : ∀ name ∈ (removalSteps grammar rest (removeStep grammar result nt)).filterMap
            (fun e => e.2), name ≠ freshName result nt := by
          intro name hn e
          apply ih2 name hn
          rw [removeStep_some grammar result nt prod hf]
          simp [hr, e]
        refine ⟨List.nodup_cons.mpr ⟨fun hmem => hnew _ hmem rfl, ih1⟩, fun name hn => ?_⟩
        rcases List.mem_cons.mp hn with h | h
        · rw [h]; exact freshName_unused result nt
        · exact hsub name h
      · have hr2 : hasDirectLeftRecursion prod = false := by simpa using hr
        simp only [hr2, Bool.false_eq_true, if_false, List.filterMap_cons]
        exact ⟨ih1, hsub⟩

/-- Every non-terminal of the list that has a production has a step. -/
theorem removalSteps_exists (grammar : Grammar) (prod : Production) :
    ∀ (nts : List CStr) (result : Grammar), prod.lhs ∈ nts →
      grammar.productions.find? (fun p => p.lhs == prod.lhs) = some prod →
      ∃ e ∈ removalSteps grammar nts result, e.1 = prod := by
  intro nts
  induction nts with
  | nil => intro result h; simp at h
  | cons nt rest ih =>
    intro result h hf
    unfold removalSteps
    by_cases hnt : nt = prod.lhs
    · rw [hnt, hf]
      exact ⟨_, List.mem_cons_self _ _, rfl⟩
    · have hrest : prod.lhs ∈ rest := by
        rcases List.mem_cons.mp h with h | h
        · exact absurd h.symm hnt
        · exact h
      obtain ⟨e, he, he1⟩ := ih (removeStep grammar result nt) hrest hf
      cases hf2 : grammar.productions.find? (fun p => p.lhs == nt) with
      | none => exact ⟨e, he, he1⟩
      | some p2 => exact ⟨e, List.mem_cons_of_mem _ he, he1⟩

/-- Two steps with the same new name are the same step. -/
theorem removalSteps_unique (grammar : Grammar) (nts : List CStr) (result : Grammar)
    (p1 p2 : Production) (name : CStr)
    (h1 : (p1, some name) ∈ removalSteps grammar nts result)
    (h2 : (p2, some name) ∈ removalSteps grammar nts result) : p1 = p2 := by
  have hnodup := (removalSteps_names grammar nts result).1
  generalize removalSteps grammar nts result = steps at h1 h2 hnodup
  induction steps with
  | nil => simp at h1
  | cons e rest ih =>
    rcases e with ⟨p, o⟩
    cases o with
    | none =>
      simp only [List.filterMap_cons] at hnodup
      simp only [List.mem_cons, Prod.mk.injEq] at h1 h2
      rcases h1 with h1 | h1
      · exact absurd h1.2 (by simp)
      · rcases h2 with h2 | h2
        · exact absurd h2.2 (by simp)
        · exact ih h1 h2 hnodup
    | some n =>
      simp only [List.filterMap_cons] at hnodup
      obtain ⟨hnot, hnd⟩ := List.nodup_cons.mp hnodup
      have hin : ∀ q, (q, some name) ∈ rest → name ∈ rest.filterMap (fun e => e.2) :=
        fun q hq => List.mem_filterMap.mpr ⟨(q, some name), hq, rfl⟩
      simp only [List.mem_cons, Prod.mk.injEq, Option.some.injEq] at h1 h2
      rcases h1 with h1 | h1
      · rcases h2 with h2 | h2
        · rw [h1.1, h2.1]
        · exact absurd (h1.2 ▸ hin p2 h2) hnot
      · rcases h2 with h2 | h2
        · exact absurd (h2.2 ▸ hin p1 h1) hnot
        · exact ih h1 h2 hnd

/-- The text `part ++ " " ++ name` written by `sprintf(newRHS, "%s %s", part, name)`. -/
theorem append_space (β X : CStr) : β ++ str " " ++ X = β ++ 32 :: X := by
  simp [str]

/-- The productions of the output are those of the steps of the loop, and
the new names are appended to the non-terminal list. -/
theorem leftRecursionRemoval_eq (grammar : Grammar) :
    leftRecursionRemoval grammar =
      { grammar with
        nonTerminals := grammar.nonTerminals ++
          (removalSteps grammar grammar.nonTerminals { grammar with productions := [] }).filterMap
            (fun e => e.2)
        productions :=
          ((removalSteps grammar grammar.nonTerminals { grammar with productions := [] }).map
            stepProductions).flatten } := by
  unfold leftRecursionRemoval
  rw [foldl_removeStep_eq]
  simp

/-- The first symbol of a name read as one symbol is the name. -/
theorem getSymbol_name (X : CStr) (hX : isIdentifier X = true) :
    getSymbol X 0 = (some X, X.length) := by
  have h := getSymbol_identifier_append X [] hX (fun x xs hx => by simp at hx)
  rwa [List.append_nil] at h

/-- No alternative of the rewritten production begins with its left-hand side. -/
theorem rewrittenProduction_no_recursion (prod : Production) (name : CStr)
    (hname : isIdentifier name = true) (hne : name ≠ prod.lhs) :
    hasDirectLeftRecursion (rewrittenProduction prod name) = false := by
  unfold hasDirectLeftRecursion
  rw [List.any_eq_false]
  intro alt halt
  simp only [rewrittenProduction, nonRecursiveParts, List.mem_map, List.mem_filter] at halt
  obtain ⟨β, ⟨_, hβ⟩, rfl⟩ := halt
  have hβ2 : (getSymbol β 0).1 ≠ some prod.lhs := by simpa using hβ
  simp only [rewrittenProduction, decide_eq_true_eq]
  split
  · rw [getSymbol_name name hname]
    exact fun e => hne (Option.some.inj e)
  · rw [append_space]
    cases hfirst : (getSymbol β 0).1 with
    | none =>
      rw [getSymbol_blank_append β name hfirst hname]
      exact fun e => hne (Option.some.inj e)
    | some t =>
      rw [getSymbol_append_space β name t hfirst, hfirst]
      rw [hfirst] at hβ2
      exact hβ2

/-- No alternative of the production of the new name begins with the new
name, when every recursive alternative goes on with a symbol that is not
the new name. -/
theorem tailProduction_no_recursion (prod : Production) (name : CStr)
    (hname : isIdentifier name = true)
    (hnext : ∀ rhs ∈ prod.rhs, (getSymbol rhs 0).1 = some prod.lhs →
      ∃ t, (getSymbol rhs (getSymbol rhs 0).2).1 = some t ∧ t ≠ name) :
    hasDirectLeftRecursion (tailProduction prod name) = false := by
  unfold hasDirectLeftRecursion
  rw [List.any_eq_false]
  intro alt halt
  simp only [tailProduction, decide_eq_true_eq] at halt ⊢
  rcases List.mem_append.mp halt with halt | halt
  · rw [recursiveParts_eq] at halt
    simp only [List.mem_map, List.mem_filter, decide_eq_true_eq] at halt
    obtain ⟨α, ⟨rhs, ⟨hrhs, hfirst⟩, rfl⟩, rfl⟩ := halt
    obtain ⟨t, ht, htn⟩ := hnext rhs hrhs hfirst
    rw [getSymbol_drop] at ht
    simp only at ht
    have hne : rhs.drop (getSymbol rhs 0).2 ≠ [] := by
      intro e
      rw [e] at ht
      simp [getSymbol, skipSpaces] at ht
    simp only [hne, if_false]
    rw [append_space, getSymbol_append_space _ name t ht, ht]
    exact fun e => htn (Option.some.inj e)
  · simp only [List.mem_singleton] at halt
    rw [halt]
    have he : (getSymbol EPSILON 0).1 = some [0xC3] := by decide
    rw [he]
    intro e
    have hn := Option.some.inj e
    rw [← hn] at hname
    simp [isIdentifier, isupper] at hname

/-! ### The FIRST solver: the order of the productions -/

/-- The loop over the alternatives skips the alternatives without a symbol
and runs its body on the first one that has a symbol. -/
theorem firstAlternatives_cons (grammar : Grammar) (ntIndex : Nat) (rhs : CStr)
    (more : List CStr) (s : List Set) (c : Bool) :
    firstAlternatives grammar ntIndex (rhs :: more) s c =
      match getSymbol rhs 0 with
      | (none, _) => firstAlternatives grammar ntIndex more s c
      | (some symbol, pos) => firstStep grammar ntIndex rhs symbol pos s c := by
  rw [firstAlternatives]
  rfl

/-- The body of the loop writes the set of the left-hand side only. -/
theorem firstStep_extAt (grammar : Grammar) (ntIndex : Nat) (rhs symbol : CStr) (pos : Nat)
    (s : List Set) (c : Bool) : ExtAt ntIndex s (firstStep grammar ntIndex rhs symbol pos s c).1 := by
  unfold firstStep
  by_cases h1 : symbol = EPSILON
  · simp only [h1, if_true]
    exact addToSetAt_extAt s ntIndex EPSILON
  · simp only [h1, if_false]
    by_cases h2 : isTerminal grammar symbol = true
    · simp only [h2, if_true]
      exact addToSetAt_extAt s ntIndex symbol
    · simp only [h2, if_false]
      by_cases h3 : isNonTerminal grammar symbol = true
      · simp only [h3, if_true]
        cases hf : findSet s grammar.nonTerminals.length symbol with
        | none => exact ExtAt.at_refl ntIndex s
        | some symbolIndex =>
          simp only
          have a1 := addAllExceptEpsilonAt_extAt ntIndex (elementsAt s symbolIndex) s
          by_cases hE : (elementsAt (addAllExceptEpsilonAt s ntIndex
              (elementsAt s symbolIndex)) symbolIndex).any (fun e => e == EPSILON) = true
          · simp only [hE, Bool.not_true]
            rcases hg2 : getSymbol rhs pos with ⟨sym2, pos2⟩
            cases sym2 with
            | none =>
              simp only [Bool.false_eq_true, if_false]
              exact a1.at_trans (addToSetAt_extAt _ ntIndex EPSILON)
            | some next =>
              simp only [Bool.false_eq_true, if_false]
              exact a1
          · have hE2 : (elementsAt (addAllExceptEpsilonAt s ntIndex
              (elementsAt s symbolIndex)) symbolIndex).any (fun e => e == EPSILON)
                = false := Bool.eq_false_iff.mpr hE
            simp only [hE2, Bool.not_false, if_true]
            exact a1
      · simp only [h3]
        exact ExtAt.at_refl ntIndex s

/-- The elements of a set after `addToSet` at an index. -/
theorem mem_elementsAt_addToSetAt (s : List Set) (i j : Nat) (e a : CStr)
    (h : a ∈ elementsAt (addToSetAt s i e) j) : a ∈ elementsAt s j ∨ (j = i ∧ a = e) := by
  by_cases hj : j = i
  · subst hj
    unfold addToSetAt at h
    cases hx : s[j]? with
    | none => rw [hx] at h; exact Or.inl h
    | some x =>
      rw [hx] at h
      simp only at h
      have hlt : j < s.length := by
        by_contra hge
        rw [List.getElem?_eq_none (by omega)] at hx
        exact Option.noConfusion hx
      simp only [elementsAt, List.getElem?_set_self hlt] at h
      rcases mem_of_mem_addToSet x e a h with h | h
      · left; simp only [elementsAt, hx]; exact h
      · exact Or.inr ⟨rfl, h⟩
  · left
    rw [← (addToSetAt_extAt s i e).elementsAt_other j hj]
    exact h

/-- The elements of a set after the loop of `addToSet` calls at an index. -/
theorem mem_elementsAt_addAllAt (i j : Nat) (src : List CStr) (a : CStr) :
    ∀ s : List Set, a ∈ elementsAt (addAllAt s i src) j →
      a ∈ elementsAt s j ∨ (j = i ∧ a ∈ src) := by
  induction src with
  | nil => intro s h; exact Or.inl h
  | cons b rest ih =>
    intro s h
    have h2 : a ∈ elementsAt (addAllAt (addToSetAt s i b) i rest) j := h
    rcases ih (addToSetAt s i b) h2 with h3 | ⟨hj, h3⟩
    · rcases mem_elementsAt_addToSetAt s i j b a h3 with h4 | ⟨hj, h4⟩
      · exact Or.inl h4
      · exact Or.inr ⟨hj, by rw [h4]; exact List.mem_cons_self _ _⟩
    · exact Or.inr ⟨hj, List.mem_cons_of_mem _ h3⟩

/-- An array that the body of the loop leaves as it is satisfies the
closure condition. -/
theorem firstStep_closed (grammar : Grammar) (ntIndex : Nat) (rhs symbol : CStr) (pos : Nat)
    (t : List Set) (c : Bool) (hlt : ntIndex < t.length)
    (h : (firstStep grammar ntIndex rhs symbol pos t c).1 = t) :
    FirstClosedAt grammar t ntIndex symbol (getSymbol rhs pos).1 := by
  unfold firstStep at h
  refine ⟨fun h1 => ?_, fun h1 h2 => ?_, fun h1 h2 h3 k hk => ?_⟩
  · simp only [h1, if_true] at h
    exact mem_of_addToSetAt_eq t ntIndex EPSILON hlt h
  · simp only [h1, if_false, h2, if_true] at h
    exact mem_of_addToSetAt_eq t ntIndex symbol hlt h
  · simp only [h1, if_false, h2, Bool.false_eq_true, h3, if_true, hk] at h
    have a1 := addAllExceptEpsilonAt_extAt ntIndex (elementsAt t k) t
    have hsub : addAllExceptEpsilonAt t ntIndex (elementsAt t k) = t →
        ∀ e ∈ elementsAt t k, e ≠ EPSILON → e ∈ elementsAt t ntIndex := by
      intro heq e he hne
      apply subset_of_addAllAt_eq t ntIndex _ hlt heq
      simp [List.mem_filter, he, hne]
    by_cases hE : (elementsAt (addAllExceptEpsilonAt t ntIndex
        (elementsAt t k)) k).any (fun e => e == EPSILON) = true
    · simp only [hE, Bool.not_true, Bool.false_eq_true, if_false] at h
      rcases hg2 : getSymbol rhs pos with ⟨sym2, pos2⟩
      rw [hg2] at h
      cases sym2 with
      | none =>
        simp only at h
        have a2 := addToSetAt_extAt (addAllExceptEpsilonAt t ntIndex (elementsAt t k))
          ntIndex EPSILON
        have h1eq : addAllExceptEpsilonAt t ntIndex (elementsAt t k) = t := by
          apply Ext.eq_of_total_le a1.to_ext
          have := a2.to_ext.ext_total_le
          rw [h] at this
          exact this
        refine ⟨hsub h1eq, fun _ _ => ?_⟩
        rw [h1eq] at h
        exact mem_of_addToSetAt_eq t ntIndex EPSILON hlt h
      | some nxt =>
        simp only at h
        exact ⟨hsub h, fun _ hn => Option.noConfusion hn⟩
    · have hE2 : (elementsAt (addAllExceptEpsilonAt t ntIndex
          (elementsAt t k)) k).any (fun e => e == EPSILON) = false := Bool.eq_false_iff.mpr hE
      simp only [hE2, Bool.not_false, if_true] at h
      refine ⟨hsub h, fun hmem _ => ?_⟩
      rw [h] at hE2
      exfalso
      have : (elementsAt t k).any (fun e => e == EPSILON) = true := by
        simp only [List.any_eq_true, beq_iff_eq]
        exact ⟨EPSILON, hmem, rfl⟩
      rw [this] at hE2
      exact Bool.noConfusion hE2

/-- The body of the loop keeps an array below every array that has the same
symbols and satisfies the closure condition. -/
theorem firstStep_below (grammar : Grammar) (ntIndex : Nat) (rhs symbol : CStr) (pos : Nat)
    (s t : List Set) (c : Bool) (hb : Below s t)
    (hc : FirstClosedAt grammar t ntIndex symbol (getSymbol rhs pos).1) :
    Below (firstStep grammar ntIndex rhs symbol pos s c).1 t := by
  have hsym := (firstStep_extAt grammar ntIndex rhs symbol pos s c).to_ext.symbols
  refine ⟨hsym.trans hb.1, ?_⟩
  have hfind : ∀ name, findSet s grammar.nonTerminals.length name =
      findSet t grammar.nonTerminals.length name :=
    fun name => findSet_congr s t _ name hb.1
  obtain ⟨c1, c2, c3⟩ := hc
  have hadd : ∀ (u : List Set) (x : CStr), (∀ i, ∀ e ∈ elementsAt u i, e ∈ elementsAt t i) →
      x ∈ elementsAt t ntIndex →
      ∀ i, ∀ e ∈ elementsAt (addToSetAt u ntIndex x) i, e ∈ elementsAt t i := by
    intro u x hu hx i e he
    rcases mem_elementsAt_addToSetAt u ntIndex i x e he with h | ⟨hi, h⟩
    · exact hu i e h
    · rw [hi, h]; exact hx
  unfold firstStep
  by_cases h1 : symbol = EPSILON
  · simp only [h1, if_true]
    exact hadd s EPSILON hb.2 (c1 h1)
  · simp only [h1, if_false]
    by_cases h2 : isTerminal grammar symbol = true
    · simp only [h2, if_true]
      exact hadd s symbol hb.2 (c2 h1 h2)
    · have h2f : isTerminal grammar symbol = false := by simpa using h2
      simp only [h2, if_false]
      by_cases h3 : isNonTerminal grammar symbol = true
      · simp only [h3, if_true]
        cases hf : findSet s grammar.nonTerminals.length symbol with
        | none => exact hb.2
        | some k =>
          simp only
          obtain ⟨d1, d2⟩ := c3 h1 h2f h3 k (by rw [← hfind, hf])
          have hs1 : ∀ i, ∀ e ∈ elementsAt (addAllExceptEpsilonAt s ntIndex (elementsAt s k)) i,
              e ∈ elementsAt t i := by
            intro i e he
            rcases mem_elementsAt_addAllAt ntIndex i _ e s he with h | ⟨hi, h⟩
            · exact hb.2 i e h
            · rw [hi]
              simp only [List.mem_filter, bne_iff_ne, ne_eq] at h
              exact d1 e (hb.2 k e h.1) h.2
          by_cases hE : (elementsAt (addAllExceptEpsilonAt s ntIndex
              (elementsAt s k)) k).any (fun e => e == EPSILON) = true
          · simp only [hE, Bool.not_true, Bool.false_eq_true, if_false]
            rcases hg2 : getSymbol rhs pos with ⟨sym2, pos2⟩
            cases sym2 with
            | none =>
              simp only
              apply hadd _ EPSILON hs1
              apply d2 _ (by rw [hg2])
              simp only [List.any_eq_true, beq_iff_eq] at hE
              obtain ⟨x, hx, hxe⟩ := hE
              rw [← hxe]
              exact hs1 k x hx
            | some nxt =>
              simp only
              exact hs1
          · have hE2 : (elementsAt (addAllExceptEpsilonAt s ntIndex
                (elementsAt s k)) k).any (fun e => e == EPSILON) = false :=
              Bool.eq_false_iff.mpr hE
            simp only [hE2, Bool.not_false, if_true]
            exact hs1
      · simp only [h3]
        exact hb.2

/-- The loop over the alternatives keeps an array below every array with
the same symbols that the loop leaves as it is. -/
theorem firstAlternatives_below (grammar : Grammar) (ntIndex : Nat) (t : List Set)
    (hlt : ntIndex < t.length) :
    ∀ (alts : List CStr) (s : List Set) (c c0 : Bool), Below s t →
      (firstAlternatives grammar ntIndex alts t c0).1 = t →
      Below (firstAlternatives grammar ntIndex alts s c).1 t := by
  intro alts
  induction alts with
  | nil => intro s c c0 hb _; exact hb
  | cons rhs more ih =>
    intro s c c0 hb hfix
    rw [firstAlternatives_cons] at hfix ⊢
    rcases hgs : getSymbol rhs 0 with ⟨sym, pos⟩
    rw [hgs] at hfix
    cases sym with
    | none => exact ih s c c0 hb hfix
    | some symbol =>
      simp only at hfix ⊢
      exact firstStep_below grammar ntIndex rhs symbol pos s t c hb
        (firstStep_closed grammar ntIndex rhs symbol pos t c0 hlt hfix)

/-- When a pass leaves the array as it was, so does the loop over the
alternatives of each production whose left-hand side is found in the array. -/
theorem firstPass_fixed_elim (grammar : Grammar) :
    ∀ (prods : List Production) (s : List Set) (c : Bool),
      (firstPass grammar prods s c).1 = s →
      ∀ prod ∈ prods, ∀ ntIndex,
        findSet s grammar.nonTerminals.length prod.lhs = some ntIndex →
        ∃ c0, (firstAlternatives grammar ntIndex prod.rhs s c0).1 = s := by
  intro prods
  induction prods with
  | nil => intro s c _ prod hp; simp at hp
  | cons p rest ih =>
    intro s c hfix prod hp ntIndex hf
    unfold firstPass at hfix
    cases hfp : findSet s grammar.nonTerminals.length p.lhs with
    | none =>
      rw [hfp] at hfix
      simp only at hfix
      rcases List.mem_cons.mp hp with h | h
      · subst h
        rw [hfp] at hf
        exact Option.noConfusion hf
      · exact ih s c hfix prod h ntIndex hf
    | some j =>
      rw [hfp] at hfix
      simp only at hfix
      have h1 := (firstAlternatives_adv grammar j p.rhs s c).1
      have h2 := (firstPass_adv grammar rest
        (firstAlternatives grammar j p.rhs s c).1
        (firstAlternatives grammar j p.rhs s c).2).1
      have hs : (firstAlternatives grammar j p.rhs s c).1 = s := by
        apply Ext.eq_of_total_le h1.1
        have := h2.1.ext_total_le
        rw [hfix] at this
        exact this
      rcases List.mem_cons.mp hp with h | h
      · subst h
        rw [hfp] at hf
        rw [← Option.some.inj hf]
        exact ⟨c, hs⟩
      · rw [hs] at hfix
        exact ih s _ hfix prod h ntIndex hf

/-- A pass keeps an array below every array with the same symbols that the
loop over the alternatives of each of the productions leaves as it is. -/
theorem firstPass_below (grammar : Grammar) (t : List Set) :
    ∀ (prods : List Production) (s : List Set) (c : Bool), Below s t →
      (∀ prod ∈ prods, ∀ ntIndex,
        findSet t grammar.nonTerminals.length prod.lhs = some ntIndex →
        ∃ c0, (firstAlternatives grammar ntIndex prod.rhs t c0).1 = t) →
      Below (firstPass grammar prods s c).1 t := by
  intro prods
  induction prods with
  | nil => intro s c hb _; exact hb
  | cons p rest ih =>
    intro s c hb hst
    unfold firstPass
    cases hfp : findSet s grammar.nonTerminals.length p.lhs with
    | none =>
      simp only
      exact ih s c hb (fun prod hp => hst prod (List.mem_cons_of_mem _ hp))
    | some j =>
      simp only
      have hft : findSet t grammar.nonTerminals.length p.lhs = some j := by
        rw [← findSet_congr s t _ p.lhs hb.1, hfp]
      obtain ⟨c0, hc0⟩ := hst p (List.mem_cons_self _ _) j hft
      have hlt := (findSet_lt t _ p.lhs j hft).1
      exact ih _ _ (firstAlternatives_below grammar j t hlt p.rhs s c c0 hb hc0)
        (fun prod hp => hst prod (List.mem_cons_of_mem _ hp))

/-- The loop keeps an array below every array with the same symbols that
the loop over the alternatives of each production leaves as it is. -/
theorem firstLoop_below (grammar : Grammar) (t : List Set)
    (hst : ∀ prod ∈ grammar.productions, ∀ ntIndex,
      findSet t grammar.nonTerminals.length prod.lhs = some ntIndex →
      ∃ c0, (firstAlternatives grammar ntIndex prod.rhs t c0).1 = t) :
    ∀ (fuel : Nat) (s : List Set), Below s t → Below (firstLoop grammar fuel s) t := by
  intro fuel
  induction fuel with
  | zero => intro s hb; exact hb
  | succ f ih =>
    intro s hb
    have hp := firstPass_below grammar t grammar.productions s false hb hst
    unfold firstLoop
    simp only
    split
    · exact ih _ hp
    · exact hp

/-- The body of the loop reads the terminal list and the non-terminal list
of the grammar only. -/
theorem firstStep_congr (g1 g2 : Grammar) (hT : g1.terminals = g2.terminals)
    (hN : g1.nonTerminals = g2.nonTerminals) (ntIndex : Nat) (rhs symbol : CStr) (pos : Nat)
    (s : List Set) (c : Bool) :
    firstStep g1 ntIndex rhs symbol pos s c = firstStep g2 ntIndex rhs symbol pos s c := by
  simp only [firstStep, isTerminal, isNonTerminal, hT, hN]

/-- The loop over the alternatives reads the terminal list and the
non-terminal list of the grammar only. -/
theorem firstAlternatives_congr (g1 g2 : Grammar) (hT : g1.terminals = g2.terminals)
    (hN : g1.nonTerminals = g2.nonTerminals) (ntIndex : Nat) :
    ∀ (alts : List CStr) (s : List Set) (c : Bool),
      firstAlternatives g1 ntIndex alts s c = firstAlternatives g2 ntIndex alts s c := by
  intro alts
  induction alts with
  | nil => intro s c; rfl
  | cons rhs more ih =>
    intro s c
    rw [firstAlternatives_cons, firstAlternatives_cons]
    rcases getSymbol rhs 0 with ⟨sym, pos⟩
    cases sym with
    | none => exact ih s c
    | some symbol => exact firstStep_congr g1 g2 hT hN ntIndex rhs symbol pos s c

/-- What the program reads as the set of a name lies, in an array below
another, inside what it reads in the other. -/
theorem Below.setFor_subset : ∀ {s t : List Set}, Below s t → ∀ name,
    ∀ e ∈ setFor s name, e ∈ setFor t name
  | [], [], _, name, e, he => he
  | a :: as, b :: bs, h, name, e, he => by
    have hsym : a.symbol = b.symbol := by
      have := h.1
      simp only [List.map_cons, List.cons.injEq] at this
      exact this.1
    have htail : Below as bs := by
      refine ⟨?_, fun i x hx => ?_⟩
      · have := h.1
        simp only [List.map_cons, List.cons.injEq] at this
        exact this.2
      · have := h.2 (i + 1) x (by simpa [elementsAt] using hx)
        simpa [elementsAt] using this
    by_cases hn : a.symbol = name
    · have hb : b.symbol = name := by rw [← hsym]; exact hn
      have h0 := h.2 0 e (by simpa [setFor, List.find?, hn, elementsAt] using he)
      simpa [setFor, List.find?, hb, elementsAt] using h0
    · have hb : ¬ b.symbol = name := by rw [← hsym]; exact hn
      have hab : (a.symbol == name) = false := by simpa using hn
      have hbb : (b.symbol == name) = false := by simpa using hb
      have he2 : e ∈ setFor as name := by simpa [setFor, List.find?, hab] using he
      have := Below.setFor_subset htail name e he2
      simpa [setFor, List.find?, hbb] using this
  | [], _ :: _, h, _, _, _ => by
    have := h.1
    simp at this
  | _ :: _, [], h, _, _, _ => by
    have := h.1
    simp at this

/-- The FIRST sets of a grammar lie below those of every grammar with the
same terminals and non-terminals that has all its productions. -/
theorem computeFirstSets_below (g1 g2 : Grammar) (hT : g1.terminals = g2.terminals)
    (hN : g1.nonTerminals = g2.nonTerminals)
    (hsub : ∀ prod ∈ g1.productions, prod ∈ g2.productions) :
    Below (computeFirstSets g1) (computeFirstSets g2) := by
  have hfix := computeFirstSets_fixed g2
  have hst := firstPass_fixed_elim g2 g2.productions (computeFirstSets g2) false
    (by rw [hfix])
  unfold computeFirstSets
  apply firstLoop_below g1
  · intro prod hp ntIndex hf
    rw [hN] at hf
    obtain ⟨c0, hc0⟩ := hst prod (hsub prod hp) ntIndex hf
    refine ⟨c0, ?_⟩
    rw [firstAlternatives_congr g1 g2 hT hN]
    exact hc0
  · refine ⟨?_, fun i e he => ?_⟩
    · rw [(firstLoop_ext g2 _ _).symbols, initSets_symbols, initSets_symbols, hN]
    · exfalso
      have hall : ∀ x ∈ initSets g1, x.elements = [] := by
        intro x hx
        obtain ⟨nt, _, rfl⟩ := List.mem_map.mp hx
        rfl
      unfold elementsAt at he
      cases hget : (initSets g1)[i]? with
      | none => rw [hget] at he; simp at he
      | some x =>
        rw [hget] at he
        simp only at he
        rw [hall x (List.getElem?_mem hget)] at he
        simp at he

/-! ### Derivations -/

/-- The empty sequence derives the empty string only. -/
theorem derives_nil_inv (grammar : Grammar) (w : List CStr) (h : Derives grammar [] w) :
    w = [] := by
  generalize hf : ([] : List CStr) = form at h
  cases h with
  | done => rfl
  | shift t rest w ht h => exact absurd hf (by simp)
  | expand lhs alts rhs rest u w hn hp hr h1 h2 => exact absurd hf (by simp)

/-- How a sequence that begins with a symbol derives a string. -/
theorem derives_cons_inv (grammar : Grammar) (s : CStr) (rest w : List CStr)
    (h : Derives grammar (s :: rest) w) :
    (isTerminal grammar s = true ∧ ∃ w1, w = s :: w1 ∧ Derives grammar rest w1) ∨
    (isNonTerminal grammar s = true ∧ ∃ alts rhs u w1,
      (⟨s, alts⟩ : Production) ∈ grammar.productions ∧ rhs ∈ alts ∧
      Derives grammar (symbolsOf rhs) u ∧ Derives grammar rest w1 ∧ w = u ++ w1) := by
  generalize hf : s :: rest = form at h
  cases h with
  | done => exact absurd hf (by simp)
  | shift t rest1 w1 ht h =>
    obtain ⟨h1, h2⟩ := List.cons.inj hf
    subst h1 h2
    exact Or.inl ⟨ht, w1, rfl, h⟩
  | expand lhs alts rhs rest1 u w1 hn hp hr h1 h2 =>
    obtain ⟨h3, h4⟩ := List.cons.inj hf
    subst h3 h4
    exact Or.inr ⟨hn, alts, rhs, u, w1, hp, hr, h1, h2, rfl⟩

/-- Two sequences one after the other derive the two strings one after the other. -/
theorem derives_append (grammar : Grammar) (a b u w : List CStr)
    (h1 : Derives grammar a u) (h2 : Derives grammar b w) : Derives grammar (a ++ b) (u ++ w) := by
  induction h1 with
  | done => exact h2
  | shift t rest w1 ht _ ih => exact Derives.shift t _ _ ht ih
  | expand lhs alts rhs rest u1 w1 hn hp hr h3 _ _ ih2 =>
    rw [List.cons_append, List.append_assoc]
    exact Derives.expand lhs alts rhs _ _ _ hn hp hr h3 ih2

/-- A non-terminal derives what one of its alternatives derives. -/
theorem derives_alternative (grammar : Grammar) (prod : Production) (rhs : CStr)
    (u : List CStr) (hn : isNonTerminal grammar prod.lhs = true)
    (hp : prod ∈ grammar.productions) (hr : rhs ∈ prod.rhs)
    (h : Derives grammar (symbolsOf rhs) u) : Derives grammar [prod.lhs] u := by
  have := Derives.expand prod.lhs prod.rhs rhs [] u [] hn hp hr h Derives.done
  rwa [List.append_nil] at this

/-- From the input grammar to the output of left-recursion removal: what a
sequence derives in `g` it derives in `g1`, when `g1` keeps the productions
without direct left recursion and holds, for each production `A -> A α | β`
with direct left recursion and each new name `A'` paired with it, the
alternatives `β A'` for `A` and `α A'` and the empty alternative for `A'`. -/
theorem derives_forward (g g1 : Grammar) (pairs : Production → CStr → Prop)
    (hterm : ∀ t, isTerminal g1 t = isTerminal g t)
    (hnt : ∀ x, isNonTerminal g x = true → isNonTerminal g1 x = true)
    (huniq : ∀ p1 ∈ g.productions, ∀ p2 ∈ g.productions, p1.lhs = p2.lhs → p1 = p2)
    (hkeep : ∀ prod ∈ g.productions, isNonTerminal g prod.lhs = true →
      hasDirectLeftRecursion prod = false → prod ∈ g1.productions)
    (hexists : ∀ prod ∈ g.productions, isNonTerminal g prod.lhs = true →
      hasDirectLeftRecursion prod = true → ∃ name, pairs prod name)
    (hrec : ∀ prod name, pairs prod name →
      hasDirectLeftRecursion prod = true ∧ isTerminal g prod.lhs = false ∧
      isNonTerminal g1 name = true)
    (hbeta : ∀ prod name, pairs prod name → ∀ rhs ∈ prod.rhs,
      (getSymbol rhs 0).1 ≠ some prod.lhs →
      ∃ alts1 rhs1, (⟨prod.lhs, alts1⟩ : Production) ∈ g1.productions ∧ rhs1 ∈ alts1 ∧
        symbolsOf rhs1 = symbolsOf rhs ++ [name])
    (halpha : ∀ prod name, pairs prod name → ∀ rhs ∈ prod.rhs,
      (getSymbol rhs 0).1 = some prod.lhs →
      ∃ γ alts1 rhs1, symbolsOf rhs = prod.lhs :: γ ∧
        (⟨name, alts1⟩ : Production) ∈ g1.productions ∧ rhs1 ∈ alts1 ∧
        symbolsOf rhs1 = γ ++ [name])
    (hempty : ∀ prod name, pairs prod name →
      ∃ alts1 rhs1, (⟨name, alts1⟩ : Production) ∈ g1.productions ∧ rhs1 ∈ alts1 ∧
        symbolsOf rhs1 = [])
    (form w : List CStr) (h : Derives g form w) :
    Derives g1 form w ∧
    ∀ prod name γ, form = prod.lhs :: γ → prod ∈ g.productions → pairs prod name →
      ∃ u1 v, w = u1 ++ v ∧
        (∀ t, Derives g1 [name] t → Derives g1 [prod.lhs] (u1 ++ t)) ∧ Derives g1 γ v := by
  induction h with
  | done => exact ⟨Derives.done, fun prod name γ hf => absurd hf (by simp)⟩
  | shift t rest w1 ht _ ih =>
    refine ⟨Derives.shift t rest w1 (by rw [hterm]; exact ht) ih.1, ?_⟩
    intro prod name γ hf _ hpair
    obtain ⟨h1, _⟩ := List.cons.inj hf
    have := (hrec prod name hpair).2.1
    rw [← h1, ht] at this
    exact Bool.noConfusion this
  | expand lhs alts rhs rest u w1 hn hp hr _ _ ih1 ih2 =>
    have hQ : ∀ name, pairs ⟨lhs, alts⟩ name →
        ∀ t, Derives g1 [name] t → Derives g1 [lhs] (u ++ t) := by
      intro name hpair t ht
      have hname := (hrec _ name hpair).2.2
      by_cases hfirst : (getSymbol rhs 0).1 = some lhs
      · obtain ⟨γ, alts1, rhs1, hsym, hp1, hr1, hsym1⟩ := halpha _ name hpair rhs hr hfirst
        obtain ⟨u1, v, huv, hq, hv⟩ := ih1.2 ⟨lhs, alts⟩ name γ hsym hp hpair
        have h1 : Derives g1 (γ ++ [name]) (v ++ t) := derives_append g1 _ _ _ _ hv ht
        rw [← hsym1] at h1
        have h2 : Derives g1 [name] (v ++ t) :=
          derives_alternative g1 ⟨name, alts1⟩ rhs1 _ hname hp1 hr1 h1
        have h3 := hq (v ++ t) h2
        rw [huv, List.append_assoc]
        exact h3
      · obtain ⟨alts1, rhs1, hp1, hr1, hsym1⟩ := hbeta _ name hpair rhs hr hfirst
        have h1 : Derives g1 (symbolsOf rhs ++ [name]) (u ++ t) :=
          derives_append g1 _ _ _ _ ih1.1 ht
        rw [← hsym1] at h1
        exact derives_alternative g1 ⟨lhs, alts1⟩ rhs1 _ (hnt lhs hn) hp1 hr1 h1
    have hsingle : Derives g1 [lhs] u := by
      by_cases hr2 : hasDirectLeftRecursion ⟨lhs, alts⟩ = true
      · obtain ⟨name, hpair⟩ := hexists _ hp hn hr2
        obtain ⟨alts1, rhs1, hp1, hr1, hsym1⟩ := hempty _ name hpair
        have hname := (hrec _ name hpair).2.2
        have h0 : Derives g1 [name] [] := by
          apply derives_alternative g1 ⟨name, alts1⟩ rhs1 _ hname hp1 hr1
          rw [hsym1]
          exact Derives.done
        have := hQ name hpair [] h0
        rwa [List.append_nil] at this
      · have hr3 : hasDirectLeftRecursion ⟨lhs, alts⟩ = false := by simpa using hr2
        exact derives_alternative g1 ⟨lhs, alts⟩ rhs _ (hnt lhs hn) (hkeep _ hp hn hr3) hr ih1.1
    refine ⟨derives_append g1 [lhs] rest u w1 hsingle ih2.1, ?_⟩
    intro prod name γ hf hprod hpair
    obtain ⟨h1, h2⟩ := List.cons.inj hf
    have hsame : prod = ⟨lhs, alts⟩ := huniq prod hprod _ hp h1.symm
    subst hsame
    subst h2
    exact ⟨u, w1, rfl, hQ name hpair, ih2.1⟩

/-- From the output of left-recursion removal back to the input grammar:
what a sequence without new names derives in `g1` it derives in `g`, when
every production of `g1` is a production of `g`, or holds alternatives
`β A'` for a production `A -> A α | β` of `g` and a new name `A'` paired with
it, or holds alternatives `α A'` and empty alternatives for such a pair. -/
theorem derives_backward (g g1 : Grammar) (pairs : Production → CStr → Prop)
    (hterm : ∀ t, isTerminal g1 t = isTerminal g t)
    (hfresh : ∀ prod name, pairs prod name →
      isTerminal g name = false ∧ isNonTerminal g name = false ∧ prod ∈ g.productions ∧
      isNonTerminal g prod.lhs = true)
    (hpure : ∀ prod ∈ g.productions, ∀ rhs ∈ prod.rhs, ∀ t ∈ symbolsOf rhs,
      ∀ p name, pairs p name → t ≠ name)
    (hone : ∀ p1 p2 name, pairs p1 name → pairs p2 name → p1 = p2)
    (hback : ∀ lhs alts, (⟨lhs, alts⟩ : Production) ∈ g1.productions →
      ((⟨lhs, alts⟩ : Production) ∈ g.productions ∧ isNonTerminal g lhs = true) ∨
      (∃ prod name, pairs prod name ∧ lhs = prod.lhs ∧
        ∀ rhs1 ∈ alts, ∃ rhs ∈ prod.rhs, symbolsOf rhs1 = symbolsOf rhs ++ [name]) ∨
      (∃ prod name, pairs prod name ∧ lhs = name ∧
        ∀ rhs1 ∈ alts, symbolsOf rhs1 = [] ∨
          ∃ rhs ∈ prod.rhs, ∃ γ, symbolsOf rhs = prod.lhs :: γ ∧ symbolsOf rhs1 = γ ++ [name]))
    (form w : List CStr) (h : Derives g1 form w) :
    ((∀ s ∈ form, ∀ p name, pairs p name → s ≠ name) → Derives g form w) ∧
    ∀ front prod name, form = front ++ [name] →
      (∀ s ∈ front, ∀ p name, pairs p name → s ≠ name) → pairs prod name →
      ∃ w1 w2, w = w1 ++ w2 ∧ Derives g front w1 ∧
        ∀ u, Derives g [prod.lhs] u → Derives g [prod.lhs] (u ++ w2) := by
  induction h with
  | done =>
    exact ⟨fun _ => Derives.done, fun front prod name hf => absurd hf (by simp)⟩
  | shift t rest w1 ht _ ih =>
    have htg : isTerminal g t = true := by rw [← hterm]; exact ht
    refine ⟨fun hp => Derives.shift t rest w1 htg
      (ih.1 (fun s hs => hp s (List.mem_cons_of_mem _ hs))), ?_⟩
    intro front prod name hf hfront hpair
    cases front with
    | nil =>
      simp only [List.nil_append, List.cons.injEq] at hf
      have := (hfresh prod name hpair).1
      rw [← hf.1, htg] at this
      exact Bool.noConfusion this
    | cons a front1 =>
      simp only [List.cons_append, List.cons.injEq] at hf
      obtain ⟨h1, h2⟩ := hf
      subst h1
      obtain ⟨v1, v2, hv, hd, htail⟩ := ih.2 front1 prod name h2
        (fun s hs => hfront s (List.mem_cons_of_mem _ hs)) hpair
      exact ⟨t :: v1, v2, by rw [hv]; rfl, Derives.shift t front1 v1 htg hd, htail⟩
  | expand lhs alts rhs rest u w1 hn hp hr _ _ ih1 ih2 =>
    have hsingle : (∀ p name, pairs p name → lhs ≠ name) → Derives g [lhs] u := by
      intro hl
      rcases hback lhs alts hp with ⟨hpg, hng⟩ | ⟨prod, name, hpair, hlhs, halts⟩ |
          ⟨prod, name, hpair, hlhs, _⟩
      · exact derives_alternative g ⟨lhs, alts⟩ rhs u hng hpg hr
          (ih1.1 (fun s hs => hpure _ hpg rhs hr s hs))
      · obtain ⟨β, hβ, hsym⟩ := halts rhs hr
        obtain ⟨_, _, hprod, hng⟩ := hfresh prod name hpair
        obtain ⟨v1, v2, hv, hd, htail⟩ := ih1.2 (symbolsOf β) prod name hsym
          (fun s hs => hpure prod hprod β hβ s hs) hpair
        have h1 : Derives g [prod.lhs] v1 := derives_alternative g prod β v1 hng hprod hβ hd
        have h2 := htail v1 h1
        rw [hlhs, hv]
        exact h2
      · exact absurd hlhs (hl prod name hpair)
    refine ⟨fun hpf => ?_, ?_⟩
    · exact derives_append g [lhs] rest u w1
        (hsingle (fun p name hpair => hpf lhs (List.mem_cons_self _ _) p name hpair))
        (ih2.1 (fun s hs => hpf s (List.mem_cons_of_mem _ hs)))
    · intro front prod name hf hfront hpair
      cases front with
      | nil =>
        simp only [List.nil_append, List.cons.injEq] at hf
        obtain ⟨h1, h2⟩ := hf
        subst h1 h2
        have hw1 : w1 = [] := derives_nil_inv g _ (ih2.1 (fun s hs => by simp at hs))
        obtain ⟨_, hnotnt, hprod, hng⟩ := hfresh prod lhs hpair
        rcases hback lhs alts hp with ⟨_, hng2⟩ | ⟨prod2, name2, hpair2, hlhs, _⟩ |
            ⟨prod2, name2, hpair2, hlhs, halts⟩
        · rw [hng2] at hnotnt
          exact Bool.noConfusion hnotnt
        · have := (hfresh prod2 name2 hpair2).2.2.2
          rw [← hlhs, hnotnt] at this
          exact Bool.noConfusion this
        · subst hlhs
          have hsame : prod2 = prod := hone prod2 prod lhs hpair2 hpair
          subst hsame
          refine ⟨[], u ++ w1, rfl, Derives.done, ?_⟩
          rw [hw1, List.append_nil]
          rcases halts rhs hr with hnil | ⟨rhs0, hr0, γ, hsym0, hsym1⟩
          · have : u = [] := derives_nil_inv g u (by
              have := ih1.1 (by rw [hnil]; intro s hs; simp at hs)
              rwa [hnil] at this)
            rw [this]
            intro u0 hu0
            rwa [List.append_nil]
          · obtain ⟨v1, v2, hv, hd, htail⟩ := ih1.2 γ prod2 lhs hsym1
              (fun s hs => hpure prod2 hprod rhs0 hr0 s (by rw [hsym0]; exact List.mem_cons_of_mem _ hs))
              hpair
            intro u0 hu0
            have h1 : Derives g (prod2.lhs :: γ) (u0 ++ v1) :=
              derives_append g [prod2.lhs] γ u0 v1 hu0 hd
            rw [← hsym0] at h1
            have h2 : Derives g [prod2.lhs] (u0 ++ v1) :=
              derives_alternative g prod2 rhs0 _ hng hprod hr0 h1
            have h3 := htail (u0 ++ v1) h2
            rw [hv, ← List.append_assoc]
            exact h3
      | cons a front1 =>
        simp only [List.cons_append, List.cons.injEq] at hf
        obtain ⟨h1, h2⟩ := hf
        subst h1
        obtain ⟨v1, v2, hv, hd, htail⟩ := ih2.2 front1 prod name h2
          (fun s hs => hfront s (List.mem_cons_of_mem _ hs)) hpair
        refine ⟨u ++ v1, v2, by rw [hv, List.append_assoc], ?_, htail⟩
        exact derives_append g [lhs] front1 u v1
          (hsingle (fun p n hpn => hfront lhs (List.mem_cons_self _ _) p n hpn)) hd

/-! ### Left-recursion removal keeps the language -/

/-- A name read as one symbol is not the text `EPSILON`. -/
theorem identifier_ne_epsilon (X : CStr) (h : isIdentifier X = true) : X ≠ EPSILON := by
  intro e
  rw [e] at h
  exact absurd h (by decide)

/-- A text that holds a space is not the text `EPSILON`. -/
theorem append_space_ne_epsilon (β X : CStr) : β ++ 32 :: X ≠ EPSILON := by
  intro e
  have h : 32 ∈ EPSILON := by rw [← e]; simp
  exact absurd h (by decide)

/-- The symbol sequence of an alternative of the rewritten production. -/
theorem symbolsOf_rewritten (β name : CStr) (hname : isIdentifier name = true) :
    symbolsOf (if β = EPSILON then name else β ++ str " " ++ name) = symbolsOf β ++ [name] := by
  by_cases hβ : β = EPSILON
  · simp only [hβ, if_true, symbolsOf, identifier_ne_epsilon name hname, if_false,
      List.nil_append]
    exact tokenize_name name hname
  · simp only [hβ, if_false, symbolsOf, append_space, append_space_ne_epsilon]
    exact tokenize_append_name name hname _ _ (Nat.le_refl _)

/-- The symbol sequence of an alternative of the production of the new name. -/
theorem symbolsOf_tail (α name : CStr) (hname : isIdentifier name = true) :
    symbolsOf (if α = [] then name else α ++ str " " ++ name) = tokenize α ++ [name] := by
  by_cases hα : α = []
  · simp only [hα, if_true, symbolsOf, identifier_ne_epsilon name hname, if_false,
      tokenize_nil, List.nil_append]
    exact tokenize_name name hname
  · simp only [hα, if_false, symbolsOf, append_space, append_space_ne_epsilon]
    exact tokenize_append_name name hname _ _ (Nat.le_refl _)

/-- The symbol sequence of an alternative that begins with the left-hand side. -/
theorem symbolsOf_recursive (rhs lhs : CStr) (hl : isIdentifier lhs = true)
    (h : (getSymbol rhs 0).1 = some lhs) :
    symbolsOf rhs = lhs :: tokenize (rhs.drop (getSymbol rhs 0).2) := by
  have hne : rhs ≠ EPSILON := by
    intro e
    rw [e] at h
    have he : (getSymbol EPSILON 0).1 = some [0xC3] := by decide
    rw [he] at h
    have := Option.some.inj h
    rw [← this] at hl
    exact absurd hl (by decide)
  have hg : getSymbol rhs 0 = (some lhs, (getSymbol rhs 0).2) := by rw [← h]
  simp only [symbolsOf, hne, if_false]
  exact tokenize_cons rhs lhs _ hg

/-- When no two productions have the same left-hand side, every production
is the first one with its left-hand side. -/
theorem find?_of_nodup_lhs : ∀ (prods : List Production),
    (prods.map (fun p => p.lhs)).Nodup → ∀ prod ∈ prods,
      prods.find? (fun p => p.lhs == prod.lhs) = some prod
  | [], _, prod, h => by simp at h
  | a :: as, hnd, prod, h => by
    simp only [List.map_cons, List.nodup_cons] at hnd
    by_cases ha : a.lhs = prod.lhs
    · have : prod = a := by
        rcases List.mem_cons.mp h with h | h
        · exact h
        · exfalso
          apply hnd.1
          rw [ha]
          exact List.mem_map.mpr ⟨prod, h, rfl⟩
      subst this
      simp [List.find?]
    · have hmem : prod ∈ as := by
        rcases List.mem_cons.mp h with h | h
        · exact absurd (by rw [h]) ha
        · exact h
      have hb : (a.lhs == prod.lhs) = false := by simpa using ha
      simp only [List.find?, hb]
      exact find?_of_nodup_lhs as hnd.2 prod hmem

/-- The first production of a non-terminal of the list, when it has no direct
left recursion, is a production of the output. -/
theorem leftRecursionRemoval_keeps (grammar : Grammar) (prod : Production)
    (hlisted : prod.lhs ∈ grammar.nonTerminals)
    (hfirst : grammar.productions.find? (fun p => p.lhs == prod.lhs) = some prod)
    (hrec : hasDirectLeftRecursion prod = false) :
    prod ∈ (leftRecursionRemoval grammar).productions := by
  obtain ⟨e, he, he1⟩ := removalSteps_exists grammar prod grammar.nonTerminals
    { grammar with productions := [] } hlisted hfirst
  obtain ⟨_, _, _, h4⟩ := removalSteps_spec grammar _ _ e he
  rw [leftRecursionRemoval_eq]
  simp only [List.mem_flatten, List.mem_map]
  refine ⟨stepProductions e, ⟨e, he, rfl⟩, ?_⟩
  rcases e with ⟨p, o⟩
  simp only at he1
  subst he1
  cases o with
  | none => simp [stepProductions]
  | some name =>
    have := (h4 name rfl).1
    rw [hrec] at this
    exact Bool.noConfusion this

/-- For a grammar whose terminals are not names read as one symbol, whose
non-terminals are, in which no two productions have the same left-hand side
and every symbol of an alternative is a terminal or a non-terminal of the
lists: a symbol sequence of the input grammar derives the same strings in
the output of `leftRecursionRemoval` as in the input. -/
theorem leftRecursionRemoval_derives (grammar : Grammar)
    (hT : ∀ t ∈ grammar.terminals, isIdentifier t = false)
    (hN : ∀ nt ∈ grammar.nonTerminals, isIdentifier nt = true)
    (hP : (grammar.productions.map (fun p => p.lhs)).Nodup)
    (hS : ∀ prod ∈ grammar.productions, ∀ rhs ∈ prod.rhs, ∀ t ∈ symbolsOf rhs,
      isTerminal grammar t = true ∨ isNonTerminal grammar t = true)
    (form w : List CStr)
    (hform : ∀ s ∈ form, isTerminal grammar s = true ∨ isNonTerminal grammar s = true) :
    Derives (leftRecursionRemoval grammar) form w ↔ Derives grammar form w := by
  have hsteps := removalSteps_spec grammar grammar.nonTerminals { grammar with productions := [] }
  have hprods : (leftRecursionRemoval grammar).productions =
      ((removalSteps grammar grammar.nonTerminals { grammar with productions := [] }).map
        stepProductions).flatten := by
    rw [leftRecursionRemoval_eq]
  have hnts : (leftRecursionRemoval grammar).nonTerminals = grammar.nonTerminals ++
      (removalSteps grammar grammar.nonTerminals { grammar with productions := [] }).filterMap
        (fun e => e.2) := by
    rw [leftRecursionRemoval_eq]
  have hterm : ∀ t, isTerminal (leftRecursionRemoval grammar) t = isTerminal grammar t := by
    intro t
    rw [leftRecursionRemoval_eq]
    rfl
  have hnotT : ∀ x, isIdentifier x = true → isTerminal grammar x = false := by
    intro x hx
    by_contra hcon
    have hmem := (isTerminal_iff grammar x).mp (by simpa using hcon)
    rw [hT x hmem] at hx
    exact Bool.noConfusion hx
  -- the facts about a step with a new name
  have hpair : ∀ prod name,
      (prod, some name) ∈ removalSteps grammar grammar.nonTerminals
        { grammar with productions := [] } →
      prod ∈ grammar.productions ∧ prod.lhs ∈ grammar.nonTerminals ∧
      hasDirectLeftRecursion prod = true ∧ name ∉ grammar.nonTerminals ∧
      isIdentifier name = true ∧ isIdentifier prod.lhs = true ∧
      rewrittenProduction prod name ∈ (leftRecursionRemoval grammar).productions ∧
      tailProduction prod name ∈ (leftRecursionRemoval grammar).productions ∧
      name ∈ (leftRecursionRemoval grammar).nonTerminals := by
    intro prod name he
    obtain ⟨h1, h2, _, h4⟩ := hsteps _ he
    obtain ⟨h5, h6, k, hk⟩ := h4 name rfl
    have hlid := hN prod.lhs h2
    refine ⟨List.mem_of_find?_eq_some h1, h2, h5, h6, ?_, hlid, ?_, ?_, ?_⟩
    · rw [hk]; exact candidate_identifier prod.lhs k hlid
    · rw [hprods]
      exact List.mem_flatten.mpr ⟨_, List.mem_map.mpr ⟨_, he, rfl⟩, by simp [stepProductions]⟩
    · rw [hprods]
      exact List.mem_flatten.mpr ⟨_, List.mem_map.mpr ⟨_, he, rfl⟩, by simp [stepProductions]⟩
    · rw [hnts]
      exact List.mem_append_right _ (List.mem_filterMap.mpr ⟨_, he, rfl⟩)
  have hnotfresh : ∀ s, isTerminal grammar s = true ∨ isNonTerminal grammar s = true →
      ∀ p name, (p, some name) ∈ removalSteps grammar grammar.nonTerminals
        { grammar with productions := [] } → s ≠ name := by
    intro s hs p name he e
    obtain ⟨_, _, _, hnew, hid, _⟩ := hpair p name he
    rcases hs with hs | hs
    · rw [e, hnotT name hid] at hs
      exact Bool.noConfusion hs
    · exact hnew (by rw [← e]; exact (isNonTerminal_iff grammar s).mp hs)
  constructor
  · intro h
    refine (derives_backward grammar (leftRecursionRemoval grammar)
      (fun prod name => (prod, some name) ∈ removalSteps grammar grammar.nonTerminals
        { grammar with productions := [] }) hterm ?_ ?_ ?_ ?_ form w h).1
      (fun s hs => hnotfresh s (hform s hs))
    · intro prod name he
      obtain ⟨h1, h2, _, hnew, hid, _⟩ := hpair prod name he
      refine ⟨hnotT name hid, ?_, h1, (isNonTerminal_iff grammar _).mpr h2⟩
      by_contra hcon
      exact hnew ((isNonTerminal_iff grammar name).mp (by simpa using hcon))
    · intro prod hprod rhs hrhs t ht
      exact hnotfresh t (hS prod hprod rhs hrhs t ht)
    · intro p1 p2 name h1 h2
      exact removalSteps_unique grammar _ _ p1 p2 name h1 h2
    · intro lhs alts hmem
      rw [hprods] at hmem
      simp only [List.mem_flatten, List.mem_map] at hmem
      obtain ⟨l, ⟨e, he, rfl⟩, hpl⟩ := hmem
      rcases e with ⟨prod, o⟩
      cases o with
      | none =>
        simp only [stepProductions, List.mem_singleton] at hpl
        obtain ⟨h1, h2, _, _⟩ := hsteps _ he
        left
        have hl : lhs = prod.lhs := congrArg Production.lhs hpl
        rw [hpl, hl]
        exact ⟨List.mem_of_find?_eq_some h1, (isNonTerminal_iff grammar _).mpr h2⟩
      | some name =>
        obtain ⟨_, _, _, _, hid, hlid, _⟩ := hpair prod name he
        simp only [stepProductions, List.mem_cons, List.mem_singleton, List.not_mem_nil,
          or_false] at hpl
        rcases hpl with hpl | hpl
        · right; left
          have hl : lhs = prod.lhs := congrArg Production.lhs hpl
          have ha : alts = (rewrittenProduction prod name).rhs := congrArg Production.rhs hpl
          refine ⟨prod, name, he, hl, fun rhs1 hr1 => ?_⟩
          rw [ha] at hr1
          simp only [rewrittenProduction, nonRecursiveParts, List.mem_map, List.mem_filter] at hr1
          obtain ⟨β, ⟨hβ, _⟩, rfl⟩ := hr1
          exact ⟨β, hβ, symbolsOf_rewritten β name hid⟩
        · right; right
          have hl : lhs = name := congrArg Production.lhs hpl
          have ha : alts = (tailProduction prod name).rhs := congrArg Production.rhs hpl
          refine ⟨prod, name, he, hl, fun rhs1 hr1 => ?_⟩
          rw [ha] at hr1
          simp only [tailProduction, List.mem_append, List.mem_singleton] at hr1
          rcases hr1 with hr1 | hr1
          · right
            rw [recursiveParts_eq] at hr1
            simp only [List.mem_map, List.mem_filter, decide_eq_true_eq] at hr1
            obtain ⟨α, ⟨rhs, ⟨hrhs, hfirst⟩, rfl⟩, rfl⟩ := hr1
            exact ⟨rhs, hrhs, _, symbolsOf_recursive rhs prod.lhs hlid hfirst,
              symbolsOf_tail _ name hid⟩
          · left
            rw [hr1]
            simp [symbolsOf]
  · intro h
    refine (derives_forward grammar (leftRecursionRemoval grammar)
      (fun prod name => (prod, some name) ∈ removalSteps grammar grammar.nonTerminals
        { grammar with productions := [] }) hterm ?_ ?_ ?_ ?_ ?_ ?_ ?_ ?_ form w h).1
    · intro x hx
      rw [isNonTerminal_iff] at hx ⊢
      rw [hnts]
      exact List.mem_append_left _ hx
    · intro p1 hp1 p2 hp2 hl
      have h1 := find?_of_nodup_lhs grammar.productions hP p1 hp1
      have h2 := find?_of_nodup_lhs grammar.productions hP p2 hp2
      rw [hl, h2] at h1
      exact (Option.some.inj h1).symm
    · intro prod hprod hn hr
      exact leftRecursionRemoval_keeps grammar prod ((isNonTerminal_iff grammar _).mp hn)
        (find?_of_nodup_lhs grammar.productions hP prod hprod) hr
    · intro prod hprod hn hr
      obtain ⟨e, he, he1⟩ := removalSteps_exists grammar prod grammar.nonTerminals
        { grammar with productions := [] } ((isNonTerminal_iff grammar _).mp hn)
        (find?_of_nodup_lhs grammar.productions hP prod hprod)
      obtain ⟨_, _, h3, _⟩ := hsteps e he
      rcases e with ⟨p, o⟩
      simp only at he1
      subst he1
      cases o with
      | none =>
        have := h3 rfl
        rw [hr] at this
        exact Bool.noConfusion this
      | some name => exact ⟨name, he⟩
    · intro prod name he
      obtain ⟨_, _, h3, _, _, hlid, _, _, h9⟩ := hpair prod name he
      exact ⟨h3, hnotT prod.lhs hlid, (isNonTerminal_iff _ name).mpr h9⟩
    · intro prod name he rhs hrhs hfirst
      obtain ⟨_, _, _, _, hid, _, h7, _, _⟩ := hpair prod name he
      refine ⟨(rewrittenProduction prod name).rhs,
        (if rhs = EPSILON then name else rhs ++ str " " ++ name), h7, ?_,
        symbolsOf_rewritten rhs name hid⟩
      simp only [rewrittenProduction, nonRecursiveParts, List.mem_map, List.mem_filter]
      exact ⟨rhs, ⟨hrhs, by simpa using hfirst⟩, rfl⟩
    · intro prod name he rhs hrhs hfirst
      obtain ⟨_, _, _, _, hid, hlid, _, h8, _⟩ := hpair prod name he
      refine ⟨_, (tailProduction prod name).rhs,
        (if rhs.drop (getSymbol rhs 0).2 = [] then name
          else rhs.drop (getSymbol rhs 0).2 ++ str " " ++ name),
        symbolsOf_recursive rhs prod.lhs hlid hfirst, h8, ?_, symbolsOf_tail _ name hid⟩
      simp only [tailProduction, List.mem_append, List.mem_singleton]
      left
      rw [recursiveParts_eq]
      simp only [List.mem_map, List.mem_filter, decide_eq_true_eq]
      exact ⟨_, ⟨rhs, ⟨hrhs, hfirst⟩, rfl⟩, rfl⟩
    · intro prod name he
      obtain ⟨_, _, _, _, _, _, _, h8, _⟩ := hpair prod name he
      refine ⟨(tailProduction prod name).rhs, EPSILON, h8, ?_, by simp [symbolsOf]⟩
      simp [tailProduction]

/-! ### Derivation steps and derivations -/

/-- Derivation steps can be made inside a longer sequence. -/
theorem rewrites_context (grammar : Grammar) (pre post : List CStr) {a b : List CStr}
    (h : Relation.ReflTransGen (Rewrites grammar) a b) :
    Relation.ReflTransGen (Rewrites grammar) (pre ++ a ++ post) (pre ++ b ++ post) := by
  apply Relation.ReflTransGen.lift (fun x => pre ++ x ++ post) _ h
  intro x y hxy
  obtain ⟨p, q, prod, rhs, h1, h2, h3, h4, h5⟩ := hxy
  refine ⟨pre ++ p, q ++ post, prod, rhs, h1, h2, h3, ?_, ?_⟩
  · rw [h4]; simp
  · rw [h5]; simp

/-- What a sequence derives is a string of terminals that it reaches by
derivation steps. -/
theorem derives_rewrites (grammar : Grammar) (form w : List CStr)
    (h : Derives grammar form w) :
    (∀ t ∈ w, isTerminal grammar t = true) ∧
      Relation.ReflTransGen (Rewrites grammar) form w := by
  induction h with
  | done => exact ⟨fun t ht => by simp at ht, Relation.ReflTransGen.refl⟩
  | shift t rest w1 ht _ ih =>
    refine ⟨fun x hx => ?_, ?_⟩
    · rcases List.mem_cons.mp hx with hx | hx
      · rw [hx]; exact ht
      · exact ih.1 x hx
    · have := rewrites_context grammar [t] [] ih.2
      simpa using this
  | expand lhs alts rhs rest u w1 hn hp hr _ _ ih1 ih2 =>
    refine ⟨fun x hx => ?_, ?_⟩
    · rcases List.mem_append.mp hx with hx | hx
      · exact ih1.1 x hx
      · exact ih2.1 x hx
    · have h0 : Rewrites grammar (lhs :: rest) (symbolsOf rhs ++ rest) :=
        ⟨[], rest, ⟨lhs, alts⟩, rhs, hp, hn, hr, rfl, rfl⟩
      have h1 : Relation.ReflTransGen (Rewrites grammar) (symbolsOf rhs ++ rest) (u ++ rest) := by
        have := rewrites_context grammar [] rest ih1.2
        simpa using this
      have h2 : Relation.ReflTransGen (Rewrites grammar) (u ++ rest) (u ++ w1) := by
        have := rewrites_context grammar u [] ih2.2
        simpa using this
      exact Relation.ReflTransGen.head h0 (h1.trans h2)

/-- A string of terminals derives itself. -/
theorem derives_terminals (grammar : Grammar) :
    ∀ w : List CStr, (∀ t ∈ w, isTerminal grammar t = true) → Derives grammar w w
  | [], _ => Derives.done
  | t :: w, h =>
    Derives.shift t w w (h t (List.mem_cons_self _ _))
      (derives_terminals grammar w (fun x hx => h x (List.mem_cons_of_mem _ hx)))

/-- What two sequences one after the other derive is made of what each of them derives. -/
theorem derives_append_inv (grammar : Grammar) :
    ∀ (a b w : List CStr), Derives grammar (a ++ b) w →
      ∃ u v, w = u ++ v ∧ Derives grammar a u ∧ Derives grammar b v
  | [], b, w, h => ⟨[], w, rfl, Derives.done, h⟩
  | s :: a, b, w, h => by
    rw [List.cons_append] at h
    rcases derives_cons_inv grammar s (a ++ b) w h with
      ⟨ht, w1, hw, hd⟩ | ⟨hn, alts, rhs, u, w1, hp, hr, h1, h2, hw⟩
    · obtain ⟨u1, v1, huv, hu, hv⟩ := derives_append_inv grammar a b w1 hd
      exact ⟨s :: u1, v1, by rw [hw, huv]; rfl, Derives.shift s a u1 ht hu, hv⟩
    · obtain ⟨u1, v1, huv, hu, hv⟩ := derives_append_inv grammar a b w1 h2
      exact ⟨u ++ u1, v1, by rw [hw, huv, List.append_assoc],
        Derives.expand s alts rhs a u u1 hn hp hr h1 hu, hv⟩

/-- A derivation step in front of a derivation. -/
theorem derives_of_rewrites (grammar : Grammar) (form form1 w : List CStr)
    (hstep : Rewrites grammar form form1) (h : Derives grammar form1 w) :
    Derives grammar form w := by
  obtain ⟨pre, post, prod, rhs, hp, hn, hr, hf, hf1⟩ := hstep
  rw [hf1, List.append_assoc] at h
  obtain ⟨u, v, huv, hu, hv⟩ := derives_append_inv grammar pre _ w h
  obtain ⟨v1, v2, hv12, hv1, hv2⟩ := derives_append_inv grammar (symbolsOf rhs) post v hv
  rw [hf, huv, hv12]
  exact derives_append grammar pre _ u _ hu
    (Derives.expand prod.lhs prod.rhs rhs post v1 v2 hn hp hr hv1 hv2)

/-- A string of terminals reached by derivation steps is derived. -/
theorem derives_of_steps (grammar : Grammar) (form w : List CStr)
    (hterm : ∀ t ∈ w, isTerminal grammar t = true)
    (hsteps : Relation.ReflTransGen (Rewrites grammar) form w) : Derives grammar form w := by
  induction hsteps using Relation.ReflTransGen.head_induction_on with
  | refl => exact derives_terminals grammar w hterm
  | head hstep _ ih => exact derives_of_rewrites grammar _ _ w hstep ih

/-- The language of a grammar is what its start symbol derives. -/
theorem generates_iff_derives (grammar : Grammar) (w : List CStr) :
    Generates grammar w ↔ Derives grammar [grammar.startSymbol] w :=
  ⟨fun h => derives_of_steps grammar _ w h.1 h.2, fun h => derives_rewrites grammar _ w h⟩

/-- A sequence that begins with a symbol that is no terminal derives a
string through one of the alternatives of that symbol. -/
theorem derives_cons_alternatives (grammar : Grammar) (s : CStr) (rest w : List CStr)
    (h : Derives grammar (s :: rest) w) (hs : isTerminal grammar s = false) :
    ∃ rhs ∈ alternativesOf grammar s, ∃ u w1,
      Derives grammar (symbolsOf rhs) u ∧ Derives grammar rest w1 ∧ w = u ++ w1 := by
  rcases derives_cons_inv grammar s rest w h with
    ⟨ht, _⟩ | ⟨_, alts, rhs, u, w1, hp, hr, h1, h2, hw⟩
  · rw [hs] at ht
    exact Bool.noConfusion ht
  · refine ⟨rhs, ?_, u, w1, h1, h2, hw⟩
    unfold alternativesOf
    simp only [List.mem_flatten, List.mem_map, List.mem_filter]
    exact ⟨alts, ⟨⟨s, alts⟩, ⟨hp, by simp⟩, rfl⟩, hr⟩

/-! ### The token `getSymbol` returns -/

/-- Dropping the bytes a scan accepts leaves what the scan does not reach. -/
theorem drop_takeWhile_length (p : Nat → Bool) (l : List Nat) :
    l.drop (l.takeWhile p).length = l.dropWhile p := by
  induction l with
  | nil => rfl
  | cons a as ih =>
    by_cases h : p a = true
    · simp [List.takeWhile, List.dropWhile, h, ih]
    · have h2 : p a = false := by simpa using h
      simp [List.takeWhile, List.dropWhile, h2]

/-- The result of `getSymbol` in terms of the run of whitespace at the
position and of the text after that run. -/
theorem getSymbol_cases (rhs : CStr) (pos : Nat) :
    getSymbol rhs pos =
      match (rhs.drop pos).dropWhile isspace with
      | [] => (none, pos + ((rhs.drop pos).takeWhile isspace).length)
      | c :: tail =>
        if isupper c then
          (some ((c :: tail).takeWhile isIdentChar),
            pos + ((rhs.drop pos).takeWhile isspace).length +
              ((c :: tail).takeWhile isIdentChar).length)
        else (some [c], pos + ((rhs.drop pos).takeWhile isspace).length + 1) := by
  have hd : rhs.drop (skipSpaces rhs pos) = (rhs.drop pos).dropWhile isspace := by
    unfold skipSpaces
    rw [← List.drop_drop, drop_takeWhile_length]
  unfold getSymbol
  simp only
  rw [hd]
  cases (rhs.drop pos).dropWhile isspace with
  | nil => rfl
  | cons c tail =>
    simp only [skipSpaces]
    by_cases hu : isupper c = true
    · simp [hu, isalpha]
    · have hu2 : isupper c = false := by simpa using hu
      simp [hu2]

/-- A symbol returned by `getSymbol` is a single byte or begins with an
upper-case letter. -/
theorem getSymbol_token (rhs : CStr) (pos : Nat) (t : CStr)
    (h : (getSymbol rhs pos).1 = some t) :
    t.length = 1 ∨ ∃ c cs, t = c :: cs ∧ isupper c = true := by
  rw [getSymbol_cases] at h
  cases hr : (rhs.drop pos).dropWhile isspace with
  | nil => rw [hr] at h; simp at h
  | cons c tail =>
    rw [hr] at h
    simp only at h
    by_cases hu : isupper c = true
    · simp only [hu, if_true, Option.some.injEq] at h
      right
      refine ⟨c, tail.takeWhile isIdentChar, ?_, hu⟩
      rw [← h]
      simp [List.takeWhile, isIdentChar_of_isupper c hu]
    · have hu2 : isupper c = false := by simpa using hu
      simp only [hu2, Bool.false_eq_true, if_false, Option.some.injEq] at h
      left
      rw [← h]
      rfl

/-- No symbol returned by `getSymbol` is the text `EPSILON`. -/
theorem getSymbol_ne_epsilon (rhs : CStr) (pos : Nat) (t : CStr)
    (h : (getSymbol rhs pos).1 = some t) : t ≠ EPSILON := by
  intro e
  subst e
  rcases getSymbol_token rhs pos EPSILON h with h1 | ⟨c, cs, h1, h2⟩
  · simp [EPSILON] at h1
  · simp only [EPSILON, List.cons.injEq] at h1
    rw [← h1.1] at h2
    simp [isupper] at h2

/-! ### Properties of the elements the solvers add -/

/-- An index outside the array reads no elements. -/
theorem elementsAt_of_none (s : List Set) (i : Nat) (h : s[i]? = none) :
    elementsAt s i = [] := by
  simp [elementsAt, h]

/-- A property of all elements holds of the elements read by index. -/
theorem Holds.holds_at {P : CStr → CStr → Prop} {s : List Set} (h : Holds P s) (i : Nat)
    (x : Set) (hx : s[i]? = some x) : ∀ e ∈ elementsAt s i, P x.symbol e := by
  intro e he
  simp only [elementsAt, hx] at he
  exact h x (List.getElem?_mem hx) e he

/-- Adding an element with the property to the set of `name` keeps the
property of all elements. -/
theorem Holds.holds_addToSetAt {P : CStr → CStr → Prop} {s : List Set} (h : Holds P s)
    (i : Nat) (name e : CStr) (hname : ∀ x, s[i]? = some x → x.symbol = name)
    (he : P name e) : Holds P (addToSetAt s i e) := by
  unfold addToSetAt
  cases hx : s[i]? with
  | none => exact h
  | some x =>
    intro y hy
    rcases List.mem_or_eq_of_mem_set hy with h1 | h1
    · exact h y h1
    · rw [h1, addToSet_symbol]
      intro a ha
      rcases mem_of_mem_addToSet x e a ha with h2 | h2
      · exact h x (List.getElem?_mem hx) a h2
      · rw [h2, hname x hx]
        exact he

/-- An update at an index keeps the symbol found at that index. -/
theorem ExtAt.symbol_kept {i : Nat} {s t : List Set} (h : ExtAt i s t) (name : CStr)
    (hname : ∀ x, s[i]? = some x → x.symbol = name) :
    ∀ y, t[i]? = some y → y.symbol = name := by
  obtain ⟨z, rfl, hz⟩ := h
  intro y hy
  by_cases hlt : i < s.length
  · rw [List.getElem?_set_self hlt] at hy
    have hx : s[i]? = some s[i] := List.getElem?_eq_getElem hlt
    rw [← Option.some.inj hy, (hz _ hx).1]
    exact hname _ hx
  · have hn : (s.set i z)[i]? = none := by
      rw [List.getElem?_eq_none_iff, List.length_set]
      omega
    rw [hn] at hy
    exact Option.noConfusion hy

/-- Adding elements with the property to the set of `name` keeps the property
of all elements. -/
theorem Holds.holds_addAllAt {P : CStr → CStr → Prop} (i : Nat) (name : CStr)
    (src : List CStr) :
    ∀ s : List Set, Holds P s → (∀ x, s[i]? = some x → x.symbol = name) →
      (∀ e ∈ src, P name e) → Holds P (addAllAt s i src) := by
  induction src with
  | nil => intro s h _ _; exact h
  | cons a rest ih =>
    intro s h hname hsrc
    have h1 := h.holds_addToSetAt i name a hname (hsrc a (List.mem_cons_self a rest))
    have h2 := ih (addToSetAt s i a) h1
      ((addToSetAt_extAt s i a).symbol_kept name hname)
      (fun e he => hsrc e (List.mem_cons_of_mem a he))
    simpa [addAllAt] using h2

/-- The guarded loop keeps the property of all elements when the source
elements other than `EPSILON` have it. -/
theorem Holds.holds_addAllExceptEpsilonAt {P : CStr → CStr → Prop} {s : List Set}
    (h : Holds P s) (i : Nat) (name : CStr) (src : List CStr)
    (hname : ∀ x, s[i]? = some x → x.symbol = name)
    (hsrc : ∀ e ∈ src, e ≠ EPSILON → P name e) :
    Holds P (addAllExceptEpsilonAt s i src) := by
  unfold addAllExceptEpsilonAt
  apply Holds.holds_addAllAt i name _ s h hname
  intro e he
  rw [List.mem_filter] at he
  exact hsrc e he.1 (by simpa using he.2)

/-- The index `findSet` returns is that of a set with the name searched for. -/
theorem findSet_name (s : List Set) (n : Nat) (name : CStr) (i : Nat)
    (h : findSet s n name = some i) : ∀ x, s[i]? = some x → x.symbol = name := by
  obtain ⟨y, hy, hn⟩ := findSet_symbol s n name i h
  intro x hx
  rw [hy] at hx
  rw [← Option.some.inj hx]
  exact hn

/-- A symbol that can start what the first symbol of an alternative derives
can start what the left-hand side derives. -/
theorem CanStart.can_step {grammar : Grammar} {name symbol t : CStr}
    (hn : isNonTerminal grammar symbol = true) (hb : BeginsWith grammar name symbol)
    (h : CanStart grammar symbol t) : CanStart grammar name t := by
  obtain ⟨last, hchain, hlast⟩ := h
  exact ⟨last, Relation.ReflTransGen.head ⟨hn, hb⟩ hchain, hlast⟩

/-- The body of the loop over the alternatives adds to FIRST of the left-hand
side only terminals that can start what it derives, and never `EPSILON`. -/
theorem firstStep_sound (grammar : Grammar) (ntIndex : Nat) (lhs rhs symbol : CStr)
    (pos : Nat) (s : List Set) (c : Bool)
    (hname : ∀ x, s[ntIndex]? = some x → x.symbol = lhs)
    (hb : BeginsWith grammar lhs symbol) (hs : Holds (FirstOk grammar) s) :
    Holds (FirstOk grammar) (firstStep grammar ntIndex rhs symbol pos s c).1 := by
  have hne : symbol ≠ EPSILON := by
    obtain ⟨prod, _, _, alt, _, hg⟩ := hb
    exact getSymbol_ne_epsilon alt 0 symbol hg
  unfold firstStep
  simp only [hne, if_false]
  by_cases h2 : isTerminal grammar symbol = true
  · simp only [h2, if_true]
    exact hs.holds_addToSetAt ntIndex lhs symbol hname ⟨hne, h2, lhs, Relation.ReflTransGen.refl, hb⟩
  · simp only [h2, if_false]
    by_cases h3 : isNonTerminal grammar symbol = true
    · simp only [h3, if_true]
      cases hf : findSet s grammar.nonTerminals.length symbol with
      | none => exact hs
      | some symbolIndex =>
        simp only
        obtain ⟨x, hx, hxn⟩ := findSet_symbol s _ symbol symbolIndex hf
        have hs1 : Holds (FirstOk grammar)
            (addAllExceptEpsilonAt s ntIndex (elementsAt s symbolIndex)) := by
          apply hs.holds_addAllExceptEpsilonAt ntIndex lhs _ hname
          intro e he _
          have hP := hs.holds_at symbolIndex x hx e he
          rw [hxn] at hP
          exact ⟨hP.1, hP.2.1, hP.2.2.can_step h3 hb⟩
        have hE : (elementsAt (addAllExceptEpsilonAt s ntIndex (elementsAt s symbolIndex))
            symbolIndex).any (fun e => e == EPSILON) = false := by
          rw [List.any_eq_false]
          intro e he
          cases hy : (addAllExceptEpsilonAt s ntIndex (elementsAt s symbolIndex))[symbolIndex]? with
          | none =>
            rw [elementsAt_of_none _ _ hy] at he
            simp at he
          | some y =>
            have := (hs1.holds_at symbolIndex y hy e he).1
            simpa using this
        simp only [hE, Bool.not_false, if_true]
        exact hs1
    · simp only [h3]
      exact hs

/-- The loop over the alternatives of a production adds to FIRST of its
left-hand side only terminals that can start what it derives. -/
theorem firstAlternatives_sound (grammar : Grammar) (ntIndex : Nat) (lhs : CStr) :
    ∀ (alts : List CStr) (s : List Set) (c : Bool),
      (∀ x, s[ntIndex]? = some x → x.symbol = lhs) →
      (∀ rhs ∈ alts, ∀ symbol, (getSymbol rhs 0).1 = some symbol →
        BeginsWith grammar lhs symbol) →
      Holds (FirstOk grammar) s →
      Holds (FirstOk grammar) (firstAlternatives grammar ntIndex alts s c).1 := by
  intro alts
  induction alts with
  | nil => intro s c _ _ h; exact h
  | cons rhs more ih =>
    intro s c hname hb hs
    rw [firstAlternatives_cons]
    rcases hg : getSymbol rhs 0 with ⟨sym, pos⟩
    cases sym with
    | none =>
      exact ih s c hname (fun r hr => hb r (List.mem_cons_of_mem rhs hr)) hs
    | some symbol =>
      exact firstStep_sound grammar ntIndex lhs rhs symbol pos s c hname
        (hb rhs (List.mem_cons_self rhs more) symbol (by rw [hg])) hs

/-- One pass over productions of the grammar adds to every FIRST set only
terminals that can start what its non-terminal derives. -/
theorem firstPass_sound (grammar : Grammar) :
    ∀ (prods : List Production) (s : List Set) (c : Bool),
      (∀ p ∈ prods, p ∈ grammar.productions) → Holds (FirstOk grammar) s →
      Holds (FirstOk grammar) (firstPass grammar prods s c).1 := by
  intro prods
  induction prods with
  | nil => intro s c _ h; exact h
  | cons prod rest ih =>
    intro s c hsub hs
    have hrest : ∀ p ∈ rest, p ∈ grammar.productions :=
      fun p hp => hsub p (List.mem_cons_of_mem prod hp)
    unfold firstPass
    cases hf : findSet s grammar.nonTerminals.length prod.lhs with
    | none => exact ih s c hrest hs
    | some ntIndex =>
      simp only
      apply ih _ _ hrest
      apply firstAlternatives_sound grammar ntIndex prod.lhs prod.rhs s c
        (findSet_name s _ prod.lhs ntIndex hf) _ hs
      intro rhs hr symbol hg
      exact ⟨prod, hsub prod (List.mem_cons_self prod rest), rfl, rhs, hr, hg⟩

/-- The loop of `computeFirstSets` adds to every FIRST set only terminals
that can start what its non-terminal derives. -/
theorem firstLoop_sound (grammar : Grammar) :
    ∀ (fuel : Nat) (s : List Set), Holds (FirstOk grammar) s →
      Holds (FirstOk grammar) (firstLoop grammar fuel s) := by
  intro fuel
  induction fuel with
  | zero => intro s h; exact h
  | succ f ih =>
    intro s h
    have h1 := firstPass_sound grammar grammar.productions s false (fun p hp => hp) h
    unfold firstLoop
    simp only
    split
    · exact ih _ h1
    · exact h1

/-- The initial array has no elements. -/
theorem initSets_sound (grammar : Grammar) : Holds (FirstOk grammar) (initSets grammar) := by
  intro x hx
  obtain ⟨nt, _, rfl⟩ := List.mem_map.mp hx
  simp

/-- Every element of every set `computeFirstSets` returns is a terminal
other than `EPSILON` that can start what the non-terminal of the set derives. -/
theorem computeFirstSets_sound (grammar : Grammar) :
    Holds (FirstOk grammar) (computeFirstSets grammar) :=
  firstLoop_sound grammar _ _ (initSets_sound grammar)

/-- What the program reads as the set of a name is one of the sets of the
array, with that name as symbol, when it reads any element. -/
theorem setFor_mem (sets : List Set) (name e : CStr) (h : e ∈ setFor sets name) :
    ∃ x ∈ sets, x.symbol = name ∧ e ∈ x.elements := by
  unfold setFor at h
  cases hf : sets.find? (fun s => s.symbol == name) with
  | none => rw [hf] at h; simp at h
  | some x =>
    rw [hf] at h
    refine ⟨x, List.mem_of_find?_eq_some hf, ?_, h⟩
    have := List.find?_some hf
    simpa using this

/-- One iteration of the scan adds to the FOLLOW sets only elements with the
property `Q`, when the terminals other than `EPSILON` and the elements other
than `EPSILON` of the supplied FIRST sets have it. -/
theorem scanStep_holds (grammar : Grammar) (firstSets : List Set) (Q : CStr → Prop)
    (hterm : ∀ t, isTerminal grammar t = true → t ≠ EPSILON → Q t)
    (hfirst : ∀ x ∈ firstSets, ∀ e ∈ x.elements, e ≠ EPSILON → Q e)
    (lhsIndex : Nat) (rhs symbol : CStr) (savedPos : Nat) (s : List Set) (c : Bool)
    (hs : Holds (fun _ e => Q e) s) :
    Holds (fun _ e => Q e) (scanStep grammar firstSets lhsIndex rhs symbol savedPos s c).2.1 := by
  have hread : ∀ (t : List Set), Holds (fun _ e => Q e) t → ∀ i, ∀ e ∈ elementsAt t i, Q e := by
    intro t ht i e he
    cases hx : t[i]? with
    | none => rw [elementsAt_of_none _ _ hx] at he; simp at he
    | some x => exact ht.holds_at i x hx e he
  have hnm : ∀ (t : List Set) (i : Nat), ∀ x, t[i]? = some x →
      x.symbol = (t[i]?.map (fun y => y.symbol)).getD [] := by
    intro t i x hx
    rw [hx]
    rfl
  unfold scanStep
  by_cases h1 : isNonTerminal grammar symbol = true
  · simp only [h1, if_true]
    cases hf : findSet s grammar.nonTerminals.length symbol with
    | none => exact hs
    | some ntIndex =>
      simp only
      rcases hg : getSymbol rhs savedPos with ⟨nxt, endPos⟩
      cases nxt with
      | none =>
        simp only
        exact Holds.holds_addAllAt ntIndex _ _ s hs (hnm s ntIndex) (hread s hs lhsIndex)
      | some nextSymbol =>
        simp only
        by_cases h2 : isTerminal grammar nextSymbol = true
        · simp only [h2, if_true]
          exact hs.holds_addToSetAt ntIndex _ nextSymbol (hnm s ntIndex)
            (hterm nextSymbol h2 (getSymbol_ne_epsilon rhs savedPos nextSymbol (by rw [hg])))
        · simp only [h2, if_false]
          by_cases h3 : isNonTerminal grammar nextSymbol = true
          · simp only [h3, if_true]
            cases hf2 : findSet firstSets grammar.nonTerminals.length nextSymbol with
            | none => exact hs
            | some nextIndex =>
              simp only
              have hs1 : Holds (fun _ e => Q e)
                  (addAllExceptEpsilonAt s ntIndex (elementsAt firstSets nextIndex)) := by
                apply hs.holds_addAllExceptEpsilonAt ntIndex _ _ (hnm s ntIndex)
                intro e he hne
                cases hx : firstSets[nextIndex]? with
                | none => rw [elementsAt_of_none _ _ hx] at he; simp at he
                | some x =>
                  simp only [elementsAt, hx] at he
                  exact hfirst x (List.getElem?_mem hx) e he hne
              by_cases hE : (elementsAt firstSets nextIndex).any (fun e => e == EPSILON) = true
              · simp only [hE, if_true]
                exact Holds.holds_addAllAt ntIndex _ _ _ hs1 (hnm _ ntIndex)
                  (hread _ hs1 lhsIndex)
              · simp only [hE, if_false]
                exact hs1
          · simp only [h3]
            exact hs
  · simp only [h1]
    exact hs

/-- The loop of `computeFollowSets` adds to the FOLLOW sets only elements
with the property `Q`, under the conditions of `scanStep_holds`. -/
theorem followLoop_holds (grammar : Grammar) (firstSets : List Set) (Q : CStr → Prop)
    (hterm : ∀ t, isTerminal grammar t = true → t ≠ EPSILON → Q t)
    (hfirst : ∀ x ∈ firstSets, ∀ e ∈ x.elements, e ≠ EPSILON → Q e) :
    ∀ (fuel : Nat) (s : List Set), Holds (fun _ e => Q e) s →
      Holds (fun _ e => Q e) (followLoop grammar firstSets fuel s) := by
  have hscan : ∀ (lhsIndex : Nat) (rhs : CStr) (fuel pos : Nat) (s : List Set) (c : Bool),
      Holds (fun _ e => Q e) s →
      Holds (fun _ e => Q e) (followScan grammar firstSets lhsIndex rhs fuel pos s c).1 := by
    intro lhsIndex rhs fuel
    induction fuel with
    | zero => intro pos s c h; exact h
    | succ f ih =>
      intro pos s c h
      rw [followScan_succ]
      by_cases hp : pos < rhs.length
      · simp only [hp, if_true]
        rcases hgs : getSymbol rhs pos with ⟨sym, sp⟩
        cases sym with
        | none => exact h
        | some symbol =>
          exact ih _ _ _ (scanStep_holds grammar firstSets Q hterm hfirst lhsIndex rhs symbol
            sp s c h)
      · simp only [hp, if_false]
        exact h
  have halts : ∀ (lhsIndex : Nat) (alts : List CStr) (s : List Set) (c : Bool),
      Holds (fun _ e => Q e) s →
      Holds (fun _ e => Q e) (followAlternatives grammar firstSets lhsIndex alts s c).1 := by
    intro lhsIndex alts
    induction alts with
    | nil => intro s c h; exact h
    | cons rhs more ih =>
      intro s c h
      unfold followAlternatives
      exact ih _ _ (hscan lhsIndex rhs _ _ s c h)
  have hpass : ∀ (prods : List Production) (s : List Set) (c : Bool),
      Holds (fun _ e => Q e) s →
      Holds (fun _ e => Q e) (followPass grammar firstSets prods s c).1 := by
    intro prods
    induction prods with
    | nil => intro s c h; exact h
    | cons prod rest ih =>
      intro s c h
      unfold followPass
      cases hf : findSet s grammar.nonTerminals.length prod.lhs with
      | none => exact ih s c h
      | some lhsIndex => exact ih _ _ (halts lhsIndex prod.rhs s c h)
  intro fuel
  induction fuel with
  | zero => intro s h; exact h
  | succ f ih =>
    intro s h
    have h1 := hpass grammar.productions s false h
    unfold followLoop
    simp only
    split
    · exact ih _ h1
    · exact h1

/-- Every element of the initial FOLLOW array is the end-marker. -/
theorem initFollowSets_holds (grammar : Grammar) (Q : CStr → Prop) (hQ : Q (str "$")) :
    Holds (fun _ e => Q e) (initFollowSets grammar) := by
  intro x hx
  unfold initFollowSets at hx
  obtain ⟨nt, _, rfl⟩ := List.mem_map.mp hx
  by_cases h : nt = grammar.startSymbol
  · simp only [h, if_true]
    intro e he
    rcases mem_of_mem_addToSet _ _ e he with h1 | h1
    · simp at h1
    · rw [h1]; exact hQ
  · simp [h]

/-! ### The FIRST solver reads one alternative of each production -/

/-- A scan accepts the whole text exactly when it accepts every byte. -/
theorem takeWhile_eq_self_iff (p : Nat → Bool) (l : List Nat) :
    l.takeWhile p = l ↔ l.all p = true := by
  induction l with
  | nil => simp
  | cons a as ih =>
    by_cases h : p a = true
    · simp [List.takeWhile, h, ih]
    · have h2 : p a = false := by simpa using h
      simp [List.takeWhile, h2]

/-- The alternatives in which `getSymbol` finds no symbol are the empty and
the whitespace-only ones. -/
theorem getSymbol_none_iff_blank (rhs : CStr) :
    (getSymbol rhs 0).1 = none ↔ rhs.all isspace = true := by
  rw [getSymbol_none_iff, takeWhile_eq_self_iff]

/-- The loop over the alternatives does what it does on the first
alternative that holds a symbol alone. -/
theorem firstAlternatives_truncated (grammar : Grammar) (ntIndex : Nat) :
    ∀ (alts : List CStr) (s : List Set) (c : Bool),
      firstAlternatives grammar ntIndex alts s c =
        firstAlternatives grammar ntIndex
          (alts.find? (fun rhs => !rhs.all isspace)).toList s c := by
  intro alts
  induction alts with
  | nil => intro s c; rfl
  | cons rhs more ih =>
    intro s c
    by_cases hb : rhs.all isspace = true
    · have hg := (getSymbol_none_iff_blank rhs).mpr hb
      rw [List.find?_cons_of_neg _ (by simp [hb]), ← ih s c, firstAlternatives_cons]
      rcases hgs : getSymbol rhs 0 with ⟨sym, pos⟩
      rw [hgs] at hg
      simp only at hg
      subst hg
      rfl
    · have hb2 : rhs.all isspace = false := by simpa using hb
      have hg : (getSymbol rhs 0).1 ≠ none := fun e => hb ((getSymbol_none_iff_blank rhs).mp e)
      rw [List.find?_cons_of_pos _ (by simp [hb2]), Option.toList, firstAlternatives_cons,
        firstAlternatives_cons]
      rcases hgs : getSymbol rhs 0 with ⟨sym, pos⟩
      rw [hgs] at hg
      cases sym with
      | none => exact absurd rfl hg
      | some symbol => rfl

/-- One pass over the productions does what it does on the truncated
productions. -/
theorem firstPass_truncated (grammar : Grammar) :
    ∀ (prods : List Production) (s : List Set) (c : Bool),
      firstPass grammar prods s c =
        firstPass (truncatedGrammar grammar) (prods.map firstAlternativeOnly) s c := by
  intro prods
  induction prods with
  | nil => intro s c; rfl
  | cons prod rest ih =>
    intro s c
    rw [List.map_cons, firstPass, firstPass]
    have hn : (truncatedGrammar grammar).nonTerminals = grammar.nonTerminals := rfl
    have hl : (firstAlternativeOnly prod).lhs = prod.lhs := rfl
    rw [hn, hl]
    cases hf : findSet s grammar.nonTerminals.length prod.lhs with
    | none => exact ih s c
    | some ntIndex =>
      simp only
      rw [firstAlternatives_truncated grammar ntIndex prod.rhs s c,
        firstAlternatives_congr grammar (truncatedGrammar grammar) rfl rfl ntIndex]
      exact ih _ _

/-- The loop of `computeFirstSets` does what it does on the truncated grammar. -/
theorem firstLoop_truncated (grammar : Grammar) :
    ∀ (fuel : Nat) (s : List Set),
      firstLoop grammar fuel s = firstLoop (truncatedGrammar grammar) fuel s := by
  intro fuel
  induction fuel with
  | zero => intro s; rfl
  | succ f ih =>
    intro s
    have hp : (truncatedGrammar grammar).productions =
        grammar.productions.map firstAlternativeOnly := rfl
    rw [firstLoop, firstLoop, hp, ← firstPass_truncated grammar grammar.productions s false]
    split
    · exact ih _
    · rfl

/-! ### Left-recursion removal: the productions it reads -/

/-- The steps of the loop follow the non-terminal list: their left-hand
sides are the non-terminals that have a production, in the order of the list. -/
theorem removalSteps_lhs (grammar : Grammar) :
    ∀ (nts : List CStr) (result : Grammar),
      (removalSteps grammar nts result).map (fun e => e.1.lhs) =
        nts.filter (fun nt => (grammar.productions.find? (fun p => p.lhs == nt)).isSome) := by
  intro nts
  induction nts with
  | nil => intro result; rfl
  | cons nt rest ih =>
    intro result
    rw [removalSteps]
    cases hf : grammar.productions.find? (fun p => p.lhs == nt) with
    | none =>
      simp only
      rw [ih, List.filter_cons_of_neg (by simp [hf])]
    | some prod =>
      simp only [List.map_cons]
      have hl : prod.lhs = nt := by
        have := List.find?_some hf
        simpa using this
      rw [ih, List.filter_cons_of_pos (by simp [hf]), hl]

/-- Among the productions that stay, the first one with a listed left-hand
side not seen before is the first one of the whole list. -/
theorem find?_firstListedProductions (nts : List CStr) (nt : CStr) (hnt : nt ∈ nts) :
    ∀ (prods : List Production) (seen : List CStr),
      (firstListedProductions nts prods seen).find? (fun p => p.lhs == nt) =
        if nt ∈ seen then none else prods.find? (fun p => p.lhs == nt) := by
  intro prods
  induction prods with
  | nil => intro seen; simp [firstListedProductions]
  | cons p rest ih =>
    intro seen
    rw [firstListedProductions]
    by_cases hp : p.lhs = nt
    · subst hp
      by_cases hs : p.lhs ∈ seen
      · simp only [hs, not_true_eq_false, and_false, if_false, if_true]
        rw [ih]
        simp
      · simp only [hnt, hs, not_false_eq_true, and_self, if_true, if_false]
        simp
    · have hpb : (p.lhs == nt) = false := by simpa using hp
      have hmem : nt ∈ p.lhs :: seen ↔ nt ∈ seen := by
        simp only [List.mem_cons]
        constructor
        · rintro (h | h)
          · exact absurd h.symm hp
          · exact h
        · exact Or.inr
      split
      · rw [List.find?_cons_of_neg _ (by simp [hp]), ih, List.find?_cons_of_neg _ (by simp [hp])]
        simp only [hmem]
      · rw [ih, List.find?_cons_of_neg _ (by simp [hp])]
        simp only [hmem]

/-- The body of the loop reads the grammar only through the first production
of the non-terminal. -/
theorem removeStep_congr (g1 g2 result : Grammar) (nt : CStr)
    (h : g1.productions.find? (fun p => p.lhs == nt) =
      g2.productions.find? (fun p => p.lhs == nt)) :
    removeStep g1 result nt = removeStep g2 result nt := by
  unfold removeStep
  rw [h]

/-- The loop over the non-terminals reads the grammar only through the first
production of each of them. -/
theorem foldl_removeStep_congr (g1 g2 : Grammar) :
    ∀ (nts : List CStr) (result : Grammar),
      (∀ nt ∈ nts, g1.productions.find? (fun p => p.lhs == nt) =
        g2.productions.find? (fun p => p.lhs == nt)) →
      nts.foldl (removeStep g1) result = nts.foldl (removeStep g2) result := by
  intro nts
  induction nts with
  | nil => intro result _; rfl
  | cons nt rest ih =>
    intro result h
    simp only [List.foldl_cons]
    rw [removeStep_congr g1 g2 result nt (h nt (List.mem_cons_self nt rest))]
    exact ih _ (fun x hx => h x (List.mem_cons_of_mem nt hx))

/-! ### The symbol the table builder reads -/

/-- When `getSymbol` finds no symbol it leaves the position at or after the
end of the text. -/
theorem getSymbol_none_pos (rhs : CStr) (pos : Nat) (h : (getSymbol rhs pos).1 = none) :
    rhs.length ≤ (getSymbol rhs pos).2 := by
  have hsplit := List.takeWhile_append_dropWhile isspace (rhs.drop pos)
  rw [getSymbol_cases] at h ⊢
  cases hr : (rhs.drop pos).dropWhile isspace with
  | nil =>
    rw [hr, List.append_nil] at hsplit
    simp only
    rw [hsplit, List.length_drop]
    omega
  | cons c tail =>
    rw [hr] at h
    simp only at h
    by_cases hu : isupper c = true
    · simp [hu] at h
    · simp [hu] at h

/-- The first symbol of the symbol sequence of a text is the one `getSymbol`
returns at position 0. -/
theorem tokenize_head (rhs : CStr) : (tokenize rhs).head? = (getSymbol rhs 0).1 :=
  tokensFrom_head rhs rhs.length 0

/-- A second call of `getSymbol`, at the position the first call left behind,
returns the second symbol of the text. -/
theorem getSymbol_second (rhs : CStr) :
    (getSymbol rhs (getSymbol rhs 0).2).1 = (tokenize rhs)[1]? := by
  rcases hg : getSymbol rhs 0 with ⟨sym, pos⟩
  cases sym with
  | none =>
    have h1 : (getSymbol rhs 0).1 = none := by rw [hg]
    have h2 := getSymbol_none_pos rhs 0 h1
    rw [hg] at h2
    rw [tokenize_none rhs h1]
    exact getSymbol_none_of_le rhs pos h2
  | some t =>
    rw [tokenize_cons rhs t pos hg]
    simp only [List.getElem?_cons_succ]
    rw [← List.head?_eq_getElem?, tokenize_head, getSymbol_drop rhs pos]

/-- For an alternative other than `EPSILON` the table builder reads the
second symbol. -/
theorem tableFirstSymbol_eq (rhs : CStr) (h : rhs ≠ EPSILON) :
    tableFirstSymbol rhs = (tokenize rhs)[1]? := by
  unfold tableFirstSymbol
  simp only [h, if_false]
  exact getSymbol_second rhs

/-! ### The symbol lists the transformations return -/

/-- Every grammar appends nothing to itself. -/
theorem Appends.app_refl (r : Grammar) : Appends r r :=
  ⟨rfl, rfl, [], by simp, by simp⟩

/-- Appending twice is appending. -/
theorem Appends.app_trans {r s t : Grammar} (h1 : Appends r s) (h2 : Appends s t) :
    Appends r t := by
  obtain ⟨a1, b1, n1, c1, d1⟩ := h1
  obtain ⟨a2, b2, n2, c2, d2⟩ := h2
  refine ⟨a2.trans a1, b2.trans b1, n1 ++ n2, ?_, ?_⟩
  · rw [c2, c1, List.append_assoc]
  · intro name hn
    rcases List.mem_append.mp hn with h | h
    · exact d1 name h
    · intro hmem
      apply d2 name h
      rw [c1]
      exact List.mem_append_left _ hmem

/-- Adding productions appends nothing to the symbol lists. -/
theorem Appends.app_productions (r : Grammar) (prods : List Production) :
    Appends r { r with productions := prods } :=
  ⟨rfl, rfl, [], by simp, by simp⟩

/-- Adding a fresh name appends a name that was not in the list. -/
theorem Appends.app_fresh (r : Grammar) (lhs : CStr) (prods : List Production) :
    Appends r { r with
      nonTerminals := r.nonTerminals ++ [freshName r lhs]
      productions := prods } := by
  refine ⟨rfl, rfl, [freshName r lhs], rfl, ?_⟩
  intro name hn
  rw [List.mem_singleton.mp hn]
  exact freshName_unused r lhs

/-- The loop over `j` appends names that were not in the list. -/
theorem factorGroups_appends (prod : Production) :
    ∀ (js : List Nat) (processed : List Bool) (result : Grammar) (r : Grammar × List Bool),
      factorGroups prod js processed result = some r → Appends result r.1 := by
  intro js
  induction js with
  | nil =>
    intro processed result r h
    simp only [factorGroups, Option.some.injEq] at h
    rw [← h]
    exact Appends.app_refl result
  | cons j js ih =>
    intro processed result r h
    unfold factorGroups at h
    by_cases hp : processed.getD j false = true
    · simp only [hp, if_true] at h
      exact ih processed result r h
    · simp only [hp, if_false] at h
      cases hc : collectGroup prod.rhs j (List.range' j (prod.rhs.length - j)) [] []
          processed with
      | none => rw [hc] at h; exact Option.noConfusion h
      | some g =>
        obtain ⟨pre, newRHS, processed1⟩ := g
        rw [hc] at h
        simp only at h
        by_cases hn : 0 < newRHS.length
        · simp only [hn, if_true] at h
          exact (Appends.app_fresh result prod.lhs _).app_trans (ih _ _ r h)
        · simp only [hn, if_false] at h
          exact ih _ _ r h

/-- The body of the loop over the productions appends names that were not in
the list. -/
theorem factorProduction_appends (result : Grammar) (prod : Production) (r : Grammar)
    (h : factorProduction result prod = some r) : Appends result r := by
  unfold factorProduction at h
  by_cases hn : needsFactoring prod.rhs = true
  · simp only [hn, Bool.not_true, Bool.false_eq_true, if_false] at h
    cases hg : factorGroups prod (List.range prod.rhs.length)
        (List.replicate prod.rhs.length false) result with
    | none => rw [hg] at h; exact Option.noConfusion h
    | some g =>
      obtain ⟨result1, processed⟩ := g
      rw [hg] at h
      simp only at h
      have h1 := factorGroups_appends prod _ _ result _ hg
      split at h
      · rw [← Option.some.inj h]
        exact h1.app_trans (Appends.app_productions result1 _)
      · rw [← Option.some.inj h]
        exact h1
  · have hn2 : needsFactoring prod.rhs = false := by simpa using hn
    simp only [hn2, Bool.not_false, if_true, Option.some.injEq] at h
    rw [← h]
    exact Appends.app_productions result _

/-- The loop over the productions appends names that were not in the list. -/
theorem factorAll_appends :
    ∀ (prods : List Production) (result r : Grammar),
      factorAll prods result = some r → Appends result r := by
  intro prods
  induction prods with
  | nil =>
    intro result r h
    simp only [factorAll, Option.some.injEq] at h
    rw [← h]
    exact Appends.app_refl result
  | cons prod rest ih =>
    intro result r h
    unfold factorAll at h
    cases hp : factorProduction result prod with
    | none => rw [hp] at h; exact Option.noConfusion h
    | some result1 =>
      rw [hp] at h
      exact (factorProduction_appends result prod result1 hp).app_trans (ih result1 r h)

/-- Left-recursion removal appends names that were not in the list. -/
theorem leftRecursionRemoval_appends (grammar : Grammar) :
    Appends grammar (leftRecursionRemoval grammar) := by
  rw [leftRecursionRemoval_eq]
  exact ⟨rfl, rfl, _, rfl,
    (removalSteps_names grammar grammar.nonTerminals { grammar with productions := [] }).2⟩

/-! ### Left factoring: the productions written for one production -/

/-- An alternative is the first to begin with its symbol exactly when no
earlier alternative begins with the same symbol. -/
theorem firstOccurrence_iff (alts : List CStr) (j : Nat) :
    (List.range j).all (fun j' => symAt alts j' != symAt alts j) = true ↔
      ¬ ∃ j', j' < j ∧ symAt alts j' = symAt alts j := by
  simp only [List.all_eq_true, List.mem_range, bne_iff_ne, ne_eq, not_exists, not_and]

/-- The list of first symbols at an index whose symbol occurred before. -/
theorem leadingSymbolsFrom_cons_later (alts : List CStr) (j : Nat) (js : List Nat)
    (h : ¬ (List.range j).all (fun j' => symAt alts j' != symAt alts j) = true) :
    leadingSymbolsFrom alts (j :: js) = leadingSymbolsFrom alts js := by
  have h2 : (List.range j).all (fun j' => symAt alts j' != symAt alts j) = false := by
    simpa using h
  unfold leadingSymbolsFrom
  rw [List.filterMap_cons]
  simp only [h2, Bool.false_eq_true, if_false]

/-- The list of first symbols at an index whose symbol occurs for the first time. -/
theorem leadingSymbolsFrom_cons_first (alts : List CStr) (j : Nat) (js : List Nat) (s : CStr)
    (h : (List.range j).all (fun j' => symAt alts j' != symAt alts j) = true)
    (hs : symAt alts j = some s) :
    leadingSymbolsFrom alts (j :: js) = s :: leadingSymbolsFrom alts js := by
  unfold leadingSymbolsFrom
  rw [List.filterMap_cons]
  simp only [h, if_true]
  rw [hs]

/-- The distinct first symbols are pairwise different. -/
theorem leadingSymbols_nodup (alts : List CStr) : (leadingSymbols alts).Nodup := by
  unfold leadingSymbols leadingSymbolsFrom
  apply List.Nodup.filterMap _ (List.nodup_range _)
  intro a a' b ha ha'
  simp only [Option.mem_def] at ha ha'
  by_cases h1 : (List.range a).all (fun j' => symAt alts j' != symAt alts a) = true
  · by_cases h2 : (List.range a').all (fun j' => symAt alts j' != symAt alts a') = true
    · simp only [h1, h2, if_true] at ha ha'
      have n1 := (firstOccurrence_iff alts a).mp h1
      have n2 := (firstOccurrence_iff alts a').mp h2
      by_contra hne
      rcases Nat.lt_or_gt_of_ne hne with hlt | hlt
      · exact n2 ⟨a, hlt, ha.trans ha'.symm⟩
      · exact n1 ⟨a', hlt, ha'.trans ha.symm⟩
    · simp [h2] at ha'
  · simp [h1] at ha

/-- The distinct first symbols are the first symbols of the alternatives. -/
theorem mem_leadingSymbols (alts : List CStr) (s : CStr) :
    s ∈ leadingSymbols alts ↔ ∃ rhs ∈ alts, (getSymbol rhs 0).1 = some s := by
  unfold leadingSymbols leadingSymbolsFrom
  rw [List.mem_filterMap]
  constructor
  · rintro ⟨j, hj, hf⟩
    have hlt : j < alts.length := List.mem_range.mp hj
    by_cases h1 : (List.range j).all (fun j' => symAt alts j' != symAt alts j) = true
    · simp only [h1, if_true] at hf
      refine ⟨alts[j], List.getElem_mem hlt, ?_⟩
      unfold symAt at hf
      simpa [List.getD_eq_getElem?_getD, List.getElem?_eq_getElem hlt] using hf
    · simp [h1] at hf
  · rintro ⟨rhs, hmem, hs⟩
    obtain ⟨j0, h1, h2, h3⟩ := exists_first (fun k => symAt alts k = some s) alts.length
      (symAt_of_mem alts rhs s hmem hs)
    refine ⟨j0, List.mem_range.mpr h1, ?_⟩
    have hfirst : (List.range j0).all (fun j' => symAt alts j' != symAt alts j0) = true := by
      rw [firstOccurrence_iff]
      rintro ⟨j', hj', he⟩
      exact h3 j' hj' (he.trans h2)
    simp only [hfirst, if_true]
    exact h2

/-- Every alternative that begins with a symbol is in the group of that symbol. -/
theorem mem_groupOf (alts : List CStr) (rhs s : CStr) (hmem : rhs ∈ alts)
    (hs : (getSymbol rhs 0).1 = some s) :
    remainderOf rhs s (getSymbol rhs 0).2 ∈ groupOf alts s := by
  unfold groupOf
  apply List.mem_map.mpr
  exact ⟨rhs, List.mem_filter.mpr ⟨hmem, by simpa using hs⟩, rfl⟩

/-- When every flag is set no alternative is left unfactored. -/
theorem unfactored_nil (alts : List CStr) (p : List Bool)
    (h : ∀ k, k < p.length → p.getD k false = true) :
    ((alts.zip p).filter (fun x => !x.2)).map (fun x => x.1) = [] := by
  rw [List.map_eq_nil_iff, List.filter_eq_nil_iff]
  intro x hx
  have h2 : x.2 ∈ p := (List.of_mem_zip hx).2
  obtain ⟨k, hk, he⟩ := List.getElem_of_mem h2
  have := h k hk
  simp only [List.getD_eq_getElem?_getD, List.getElem?_eq_getElem hk, Option.getD_some] at this
  rw [← he, this]
  simp

/-- The loop over `j`, when every alternative has a first symbol and the
alternatives marked as processed are those whose first symbol occurred
before position `j`: the loop returns; it appends, for every first symbol
that occurs for the first time at or after `j`, in that order, the
production `lhs -> symbol F` and the production of the new non-terminal `F`,
and nothing else; it appends the names `F` to the non-terminal list; and it
leaves every alternative marked. -/
theorem factorGroups_exact (prod : Production)
    (hsym : ∀ k, k < prod.rhs.length → symAt prod.rhs k ≠ none) :
    ∀ (m j : Nat) (processed : List Bool) (result : Grammar),
      j + m = prod.rhs.length → processed.length = prod.rhs.length →
      (∀ k, k < prod.rhs.length →
        (processed.getD k false = true ↔
          ∃ j', j' < j ∧ symAt prod.rhs j' = symAt prod.rhs k)) →
      ∃ (r : Grammar) (p' : List Bool) (groups : List (CStr × CStr)),
        factorGroups prod (List.range' j m) processed result = some (r, p') ∧
        groups.map (fun x => x.1) = leadingSymbolsFrom prod.rhs (List.range' j m) ∧
        r.productions = result.productions ++ factoredBlock prod groups ∧
        r.nonTerminals = result.nonTerminals ++ groups.map (fun x => x.2) ∧
        p'.length = prod.rhs.length ∧
        ∀ k, k < prod.rhs.length →
          (p'.getD k false = true ↔
            ∃ j', j' < j + m ∧ symAt prod.rhs j' = symAt prod.rhs k) := by
  intro m
  induction m with
  | zero =>
    intro j processed result hjm hlen hinv
    exact ⟨result, processed, [], by simp [factorGroups], by simp [leadingSymbolsFrom],
      by simp [factoredBlock], by simp, hlen, by simpa using hinv⟩
  | succ m ih =>
    intro j processed result hjm hlen hinv
    have hjlt : j < prod.rhs.length := by omega
    rw [List.range'_succ]
    unfold factorGroups
    by_cases hp : processed.getD j false = true
    · simp only [hp, if_true]
      obtain ⟨j1, hj1, hj1s⟩ := (hinv j hjlt).mp hp
      have hinv' : ∀ k, k < prod.rhs.length →
          (processed.getD k false = true ↔
            ∃ j', j' < j + 1 ∧ symAt prod.rhs j' = symAt prod.rhs k) := by
        intro k hk
        rw [hinv k hk]
        constructor
        · rintro ⟨j', h1, h2⟩
          exact ⟨j', by omega, h2⟩
        · rintro ⟨j', h1, h2⟩
          by_cases e : j' = j
          · subst e
            exact ⟨j1, hj1, hj1s.trans h2⟩
          · exact ⟨j', by omega, h2⟩
      obtain ⟨r, p', groups, hr, hg, hprods, hnames, hplen, hpp⟩ :=
        ih (j + 1) processed result (by omega) hlen hinv'
      refine ⟨r, p', groups, hr, ?_, hprods, hnames, hplen, ?_⟩
      · have hnot : ¬ (List.range j).all
            (fun j' => symAt prod.rhs j' != symAt prod.rhs j) = true := by
          rw [firstOccurrence_iff]
          exact fun hn => hn ⟨j1, hj1, hj1s⟩
        rw [hg, leadingSymbolsFrom_cons_later prod.rhs j _ hnot]
      · intro k hk
        rw [hpp k hk]
        have e : j + 1 + m = j + (m + 1) := by omega
        rw [e]
    · have hp2 : processed.getD j false = false := by simpa using hp
      simp only [hp2, Bool.false_eq_true, if_false]
      cases hsj : symAt prod.rhs j with
      | none => exact absurd hsj (hsym j hjlt)
      | some sj' =>
        have hbefore : ∀ k, k < j → symAt prod.rhs k ≠ some sj' := by
          intro k hk e
          have := (hinv j hjlt).mpr ⟨k, hk, e.trans hsj.symm⟩
          rw [hp2] at this
          exact Bool.noConfusion this
        have hfree : ∀ k, j ≤ k → k < prod.rhs.length → symAt prod.rhs k = some sj' →
            processed.getD k false = false := by
          intro k _ hk e
          by_contra hne
          have hk1 : processed.getD k false = true := by simpa using hne
          obtain ⟨j', h1, h2⟩ := (hinv k hk).mp hk1
          exact hbefore j' h1 (h2.trans e)
        obtain ⟨p1, hc, hplen1, hpp1⟩ := collectGroup_at prod.rhs j sj' processed hsj hjlt
          hlen hp2 hsym
        rw [group_eq_groupOf prod.rhs j sj' processed (by omega) hbefore hfree] at hc
        rw [hc]
        simp only [groupOf_ne_nil prod.rhs j sj' hjlt hsj, if_true]
        have hinv' : ∀ k, k < prod.rhs.length →
            (p1.getD k false = true ↔
              ∃ j', j' < j + 1 ∧ symAt prod.rhs j' = symAt prod.rhs k) := by
          intro k hk
          rw [hpp1 k, hinv k hk]
          constructor
          · rintro (⟨j', h1, h2⟩ | ⟨_, _, h3⟩)
            · exact ⟨j', by omega, h2⟩
            · exact ⟨j, by omega, hsj.trans h3.symm⟩
          · rintro ⟨j', h1, h2⟩
            by_cases e : j' = j
            · subst e
              by_cases hkj : j' ≤ k
              · exact Or.inr ⟨hkj, hk, h2.symm.trans hsj⟩
              · exact Or.inl ⟨k, by omega, rfl⟩
            · exact Or.inl ⟨j', by omega, h2⟩
        obtain ⟨r, p', groups, hr, hg, hprods, hnames, hplen, hpp⟩ := ih (j + 1) p1
          { result with
            nonTerminals := result.nonTerminals ++ [freshName result prod.lhs]
            productions := result.productions ++
              [ { lhs := prod.lhs, rhs := [sj' ++ str " " ++ freshName result prod.lhs] },
                { lhs := freshName result prod.lhs, rhs := groupOf prod.rhs sj' } ] }
          (by omega) (hplen1.trans hlen) hinv'
        refine ⟨r, p', (sj', freshName result prod.lhs) :: groups, hr, ?_, ?_, ?_, hplen, ?_⟩
        · have hyes : (List.range j).all
              (fun j' => symAt prod.rhs j' != symAt prod.rhs j) = true := by
            rw [firstOccurrence_iff]
            rintro ⟨j', hj', he⟩
            exact hbefore j' hj' (he.trans hsj)
          rw [List.map_cons, hg, leadingSymbolsFrom_cons_first prod.rhs j _ sj' hyes hsj]
        · rw [hprods]
          simp [factoredBlock]
        · rw [hnames]
          simp
        · intro k hk
          rw [hpp k hk]
          have e : j + 1 + m = j + (m + 1) := by omega
          rw [e]

/-- Two texts without a common prefix do not begin with the same byte. -/
theorem head_of_commonPrefix_nil (a b : CStr) (h : commonPrefix a b = []) :
    a.head? = none ∨ a.head? ≠ b.head? := by
  cases a with
  | nil => exact Or.inl rfl
  | cons x xs =>
    cases b with
    | nil => right; simp
    | cons y ys =>
      right
      by_cases hxy : x = y
      · simp [commonPrefix, hxy] at h
      · simpa using hxy

/-- Factoring is asked for exactly when two alternatives begin with the same byte. -/
theorem needsFactoring_iff (alts : List CStr) :
    needsFactoring alts = false ↔
      alts.Pairwise (fun a b => a.head? = none ∨ a.head? ≠ b.head?) := by
  refine ⟨?_, needsFactoring_eq_false alts⟩
  induction alts with
  | nil => intro _; exact List.Pairwise.nil
  | cons a more ih =>
    intro h
    unfold needsFactoring at h
    rw [Bool.or_eq_false_iff] at h
    refine List.Pairwise.cons ?_ (ih h.2)
    intro b hb
    have h1 := List.any_eq_false.mp h.1 b hb
    apply head_of_commonPrefix_nil
    by_contra hne
    apply h1
    have hpos : 0 < (commonPrefix a b).length := List.length_pos.mpr hne
    simp [hasCommonPrefix, hpos]

/-- The body of the loop over the productions, for a production whose
alternatives all have a first symbol and for which factoring is asked: it
returns, it appends one pair of productions for every distinct first symbol
and nothing else, and it appends the new names to the non-terminal list. -/
theorem factorProduction_exact (result : Grammar) (prod : Production)
    (hsym : ∀ k, k < prod.rhs.length → symAt prod.rhs k ≠ none)
    (hgate : needsFactoring prod.rhs = true) :
    ∃ (r : Grammar) (groups : List (CStr × CStr)),
      factorProduction result prod = some r ∧
      groups.map (fun x => x.1) = leadingSymbols prod.rhs ∧
      r.productions = result.productions ++ factoredBlock prod groups ∧
      r.nonTerminals = result.nonTerminals ++ groups.map (fun x => x.2) := by
  obtain ⟨r, p', groups, hr, hg, hprods, hnames, hplen, hpp⟩ :=
    factorGroups_exact prod hsym prod.rhs.length 0
      (List.replicate prod.rhs.length false) result (by omega) (by simp)
      (by
        intro k hk
        constructor
        · intro h
          simp [List.getD_eq_getElem?_getD, List.getElem?_replicate, hk] at h
        · rintro ⟨j', h1, _⟩
          omega)
  have hall : ∀ k, k < p'.length → p'.getD k false = true := by
    intro k hk
    rw [hplen] at hk
    exact (hpp k hk).mpr ⟨k, by omega, rfl⟩
  refine ⟨r, groups, ?_, ?_, hprods, hnames⟩
  · unfold factorProduction
    simp only [hgate, Bool.not_true, Bool.false_eq_true, if_false]
    rw [List.range_eq_range', hr]
    simp only [unfactored_nil prod.rhs p' hall, List.length_nil, Nat.lt_irrefl, if_false]
  · rw [hg, leadingSymbols, List.range_eq_range']

/-- The body of the loop over the productions, for a production whose
alternatives all have a first symbol: what it appends. -/
theorem factorProduction_block (result : Grammar) (prod : Production) (base : List CStr)
    (hbase : ∀ x ∈ base, x ∈ result.nonTerminals)
    (hsym : ∀ k, k < prod.rhs.length → symAt prod.rhs k ≠ none) :
    ∃ (r : Grammar) (block : List Production),
      factorProduction result prod = some r ∧
      r.productions = result.productions ++ block ∧
      FactoredAs base r.nonTerminals prod block := by
  by_cases hgate : needsFactoring prod.rhs = true
  · obtain ⟨r, groups, hr, hg, hprods, hnames⟩ := factorProduction_exact result prod hsym hgate
    refine ⟨r, factoredBlock prod groups, hr, hprods, ?_, ?_⟩
    · intro h
      rw [hgate] at h
      exact Bool.noConfusion h
    · intro _
      refine ⟨groups, hg, rfl, ?_⟩
      intro name hn
      obtain ⟨_, _, names, h1, h2⟩ := factorProduction_appends result prod r hr
      have he : names = groups.map (fun x => x.2) :=
        List.append_cancel_left (h1.symm.trans hnames)
      refine ⟨fun hb => h2 name (he ▸ hn) (hbase name hb), ?_⟩
      rw [hnames]
      exact List.mem_append_right _ hn
  · have hn2 : needsFactoring prod.rhs = false := by simpa using hgate
    refine ⟨{ result with productions := result.productions ++ [prod] }, [prod], ?_, rfl,
      fun _ => rfl, ?_⟩
    · simp [factorProduction, hn2]
    · intro h
      rw [hn2] at h
      exact Bool.noConfusion h

/-- A block written for a production stays one when names are added to the
final non-terminal list. -/
theorem FactoredAs.factored_mono {base final final1 : List CStr} {prod : Production}
    {block : List Production} (h : FactoredAs base final prod block)
    (hsub : ∀ x ∈ final, x ∈ final1) : FactoredAs base final1 prod block := by
  refine ⟨h.1, fun hg => ?_⟩
  obtain ⟨groups, h1, h2, h3⟩ := h.2 hg
  exact ⟨groups, h1, h2, fun name hn => ⟨(h3 name hn).1, hsub name (h3 name hn).2⟩⟩

/-- The loop over the productions, when every alternative has a first
symbol: it returns, and what it appends is, production by production, the
production itself or its pairs of factored productions. -/
theorem factorAll_exact (base : List CStr) :
    ∀ (prods : List Production) (result : Grammar),
      (∀ x ∈ base, x ∈ result.nonTerminals) →
      (∀ p ∈ prods, ∀ k, k < p.rhs.length → symAt p.rhs k ≠ none) →
      ∃ (r : Grammar) (blocks : List (List Production)),
        factorAll prods result = some r ∧
        r.productions = result.productions ++ blocks.flatten ∧
        List.Forall₂ (FactoredAs base r.nonTerminals) prods blocks := by
  intro prods
  induction prods with
  | nil =>
    intro result _ _
    exact ⟨result, [], rfl, by simp, List.Forall₂.nil⟩
  | cons p rest ih =>
    intro result hbase hsym
    obtain ⟨r1, block, hr1, hp1, hb1⟩ := factorProduction_block result p base hbase
      (hsym p (List.mem_cons_self p rest))
    obtain ⟨_, _, names1, hn1, _⟩ := factorProduction_appends result p r1 hr1
    have hbase1 : ∀ x ∈ base, x ∈ r1.nonTerminals := by
      intro x hx
      rw [hn1]
      exact List.mem_append_left _ (hbase x hx)
    obtain ⟨r, blocks, hr, hp, hb⟩ := ih r1 hbase1
      (fun q hq => hsym q (List.mem_cons_of_mem p hq))
    obtain ⟨_, _, names2, hn2, _⟩ := factorAll_appends rest r1 r hr
    refine ⟨r, block :: blocks, by simp only [factorAll, hr1, hr], ?_, ?_⟩
    · rw [hp, hp1]
      simp
    · refine List.Forall₂.cons (hb1.factored_mono ?_) hb
      intro x hx
      rw [hn2]
      exact List.mem_append_left _ hx

/-- The body of the loop over the alternatives on an array in which no set
holds `EPSILON`, for a symbol `getSymbol` returned: the branch for the symbol
`EPSILON` and the branch for a first non-terminal whose set holds `EPSILON`
are not taken, and no set of the resulting array holds `EPSILON`. -/
theorem firstStep_without_epsilon (grammar : Grammar) (ntIndex : Nat) (rhs symbol : CStr)
    (pos : Nat) (s : List Set) (c : Bool) (hne : symbol ≠ EPSILON)
    (hs : Holds (fun _ e => e ≠ EPSILON) s) :
    firstStep grammar ntIndex rhs symbol pos s c =
      (if isTerminal grammar symbol then
        (addToSetAt s ntIndex symbol, c || grewAt s (addToSetAt s ntIndex symbol) ntIndex)
      else if isNonTerminal grammar symbol then
        match findSet s grammar.nonTerminals.length symbol with
        | none => (s, c)
        | some symbolIndex =>
          (addAllExceptEpsilonAt s ntIndex (elementsAt s symbolIndex),
            c || grewAt s (addAllExceptEpsilonAt s ntIndex (elementsAt s symbolIndex)) ntIndex)
      else (s, c)) ∧
    Holds (fun _ e => e ≠ EPSILON) (firstStep grammar ntIndex rhs symbol pos s c).1 := by
  have hnm : ∀ x, s[ntIndex]? = some x →
      x.symbol = (s[ntIndex]?.map (fun y => y.symbol)).getD [] := by
    intro x hx
    rw [hx]
    rfl
  unfold firstStep
  simp only [hne, if_false]
  by_cases h2 : isTerminal grammar symbol = true
  · simp only [h2, if_true, true_and]
    exact hs.holds_addToSetAt ntIndex _ symbol hnm hne
  · simp only [h2, if_false]
    by_cases h3 : isNonTerminal grammar symbol = true
    · simp only [h3, if_true]
      cases hf : findSet s grammar.nonTerminals.length symbol with
      | none => exact ⟨rfl, hs⟩
      | some symbolIndex =>
        simp only
        have hs1 : Holds (fun _ e => e ≠ EPSILON)
            (addAllExceptEpsilonAt s ntIndex (elementsAt s symbolIndex)) :=
          hs.holds_addAllExceptEpsilonAt ntIndex _ _ hnm (fun e _ h => h)
        have hE : (elementsAt (addAllExceptEpsilonAt s ntIndex (elementsAt s symbolIndex))
            symbolIndex).any (fun e => e == EPSILON) = false := by
          rw [List.any_eq_false]
          intro e he
          cases hy : (addAllExceptEpsilonAt s ntIndex (elementsAt s symbolIndex))[symbolIndex]? with
          | none =>
            rw [elementsAt_of_none _ _ hy] at he
            simp at he
          | some y =>
            have := hs1.holds_at symbolIndex y hy e he
            simpa using this
        simp only [hE, Bool.not_false, if_true, true_and]
        exact hs1
    · simp only [h3]
      exact ⟨rfl, hs⟩

/-! ### Names that begin with an upper-case letter -/

/-- An alternative that begins with a byte other than whitespace contains a
symbol. -/
theorem getSymbol_of_trimmed (rhs : CStr) (h : ∃ c tail, rhs = c :: tail ∧ isspace c = false) :
    (getSymbol rhs 0).1 ≠ none := by
  obtain ⟨c, tail, hr, hc⟩ := h
  intro hn
  rw [getSymbol_none_iff_blank, hr] at hn
  simp only [List.all_cons, Bool.and_eq_true] at hn
  rw [hc] at hn
  exact Bool.noConfusion hn.1

/-! ## The claims -/

/-- C1 as stated fails on the code: for the grammar `E -> T E'`,
`E' -> + T E' | ε`, `T -> id` the text `id` is in neither FIRST(E) nor
FIRST(T), and `EPSILON` is not in FIRST(E'). -/
theorem C1_counterexample :
    str "id" ∉ setFor (computeFirstSets exprGrammar) (str "E") ∧
    str "id" ∉ setFor (computeFirstSets exprGrammar) (str "T") ∧
    EPSILON ∉ setFor (computeFirstSets exprGrammar) (str "E'") := by
  decide

/-- C1 (amended): for the grammar `E -> T E'`, `E' -> + T E' | ε`, `T -> id`,
`computeFirstSets` returns FIRST(E) = FIRST(T) = `{i}`, the first byte of
`id` (a terminal is a single byte), FIRST(E') contains `+`, and one more
pass over the productions changes nothing. -/
theorem C1_first_sets_of_expr_grammar :
    setFor (computeFirstSets exprGrammar) (str "E") = [str "i"] ∧
    setFor (computeFirstSets exprGrammar) (str "T") = [str "i"] ∧
    str "+" ∈ setFor (computeFirstSets exprGrammar) (str "E'") ∧
    (firstPass exprGrammar exprGrammar.productions (computeFirstSets exprGrammar) false).2
      = false := by
  decide

/-- C2 on the code: for the grammar `E -> T E'`, `E' -> + T E' | ε`, `T -> id`
the program computes FOLLOW(E) = FOLLOW(E') = `{$}` but FOLLOW(T) = `{+}`,
without `$`; one more pass over the productions changes nothing. -/
theorem C2_follow_sets_of_expr_grammar :
    setFor (computeFollowSets exprGrammar (computeFirstSets exprGrammar)) (str "E")
      = [str "$"] ∧
    setFor (computeFollowSets exprGrammar (computeFirstSets exprGrammar)) (str "E'")
      = [str "$"] ∧
    setFor (computeFollowSets exprGrammar (computeFirstSets exprGrammar)) (str "T")
      = [str "+"] ∧
    (followPass exprGrammar (computeFirstSets exprGrammar) exprGrammar.productions
      (computeFollowSets exprGrammar (computeFirstSets exprGrammar)) false).2 = false := by
  decide

/-- C3 as stated fails on the code: left factoring of `A -> aB | aC | d` does
not yield exactly two productions; it yields the four productions
`A -> a A'`, `A' -> B | C`, `A -> d A'1`, `A'1 -> ε`. -/
theorem C3_counterexample :
    (¬ ∃ g, leftFactoring factorGrammar = some g ∧ g.productions.length = 2) ∧
    (leftFactoring factorGrammar).map (fun g => g.productions) =
      some [ ⟨str "A", [str "a A'"]⟩, ⟨str "A'", [str "B", str "C"]⟩,
             ⟨str "A", [str "d A'1"]⟩, ⟨str "A'1", [EPSILON]⟩ ] := by
  decide

/-- C3 (amended): left factoring of `A -> aB | aC | d` returns a grammar whose
first two productions are `A -> a A'`, with that single alternative, and
`A' -> B | C`, and whose non-terminal list is the input list followed by new
names, the first of them `A'`. -/
theorem C3_left_factoring_of_shared_first_symbol :
    ∃ g, leftFactoring factorGrammar = some g ∧
      g.productions.take 2 = [⟨str "A", [str "a A'"]⟩, ⟨str "A'", [str "B", str "C"]⟩] ∧
      g.nonTerminals.take 4 = factorGrammar.nonTerminals ++ [str "A'"] := by
  decide

/-- C4 as stated fails on the code: for `A -> Ab | c` (`α = b`, `β = c`) the
text `Ab` is one symbol, no left recursion is seen and the production is
returned unchanged, so the output is not a pair of productions for `A` and
a new non-terminal. -/
theorem C4_counterexample :
    (leftRecursionRemoval recursionGrammar).productions =
      [⟨str "A", [str "Ab", str "c"]⟩] ∧
    ¬ ∃ p q, (leftRecursionRemoval recursionGrammar).productions = [p, q] := by
  constructor
  · decide
  · intro h
    obtain ⟨p, q, hpq⟩ := h
    have hlen : (leftRecursionRemoval recursionGrammar).productions.length = 1 := by decide
    rw [hpq] at hlen
    simp at hlen

/-- C4 (amended): for every name `A` that is an upper-case letter followed by
letters, digits, `_` or `'`, every non-empty `α` whose first byte is none of
these, every `β` whose first symbol is not `A`, and every grammar whose only
production is `A -> Aα | β` and whose non-terminal list contains `A` and has
no repetition, `leftRecursionRemoval` yields exactly the productions
`A -> β A'` (just `A'` when `β` is `EPSILON`) and `A' -> α A' | EPSILON`, a
space before each `A'`, where `A'` is the new name: it is appended to the
non-terminal list and is none of the input's non-terminals. -/
theorem C4_left_recursion_removal_of_single_production
    (grammar : Grammar) (A α β : CStr)
    (hA : isIdentifier A = true)
    (hα : ∃ x xs, α = x :: xs ∧ isIdentChar x = false)
    (hβ : (getSymbol β 0).1 ≠ some A)
    (hprods : grammar.productions = [⟨A, [A ++ α, β]⟩])
    (hmem : A ∈ grammar.nonTerminals) (hnodup : grammar.nonTerminals.Nodup) :
    (leftRecursionRemoval grammar).productions =
      [ ⟨A, [if β = EPSILON then freshName grammar A
             else β ++ str " " ++ freshName grammar A]⟩,
        ⟨freshName grammar A, [α ++ str " " ++ freshName grammar A, EPSILON]⟩ ] ∧
    (leftRecursionRemoval grammar).nonTerminals =
      grammar.nonTerminals ++ [freshName grammar A] ∧
    freshName grammar A ∉ grammar.nonTerminals := by
  obtain ⟨s, t, hl⟩ := List.append_of_mem hmem
  have hnd := hnodup
  rw [hl] at hnd
  have hAs : A ∉ s := fun h => (List.nodup_append.mp hnd).2.2 h (List.mem_cons_self A t)
  have hAt : A ∉ t := (List.nodup_cons.mp (List.nodup_append.mp hnd).2.1).1
  have hnone : ∀ l : List CStr, A ∉ l →
      ∀ x ∈ l, grammar.productions.find? (fun p => p.lhs == x) = none := by
    intro l hAl x hx
    have hx2 : (A == x) = false := by
      simp only [beq_eq_false_iff_ne]
      intro e
      exact hAl (e ▸ hx)
    simp [hprods, List.find?, hx2]
  have hfresh : freshName { grammar with productions := [] } A = freshName grammar A :=
    freshName_congr _ _ A rfl
  have hres : leftRecursionRemoval grammar =
      removeStep grammar { grammar with productions := [] } A := by
    unfold leftRecursionRemoval
    rw [hl, List.foldl_append, List.foldl_cons,
      foldl_removeStep_no_production grammar s (hnone s hAs),
      foldl_removeStep_no_production grammar t (hnone t hAt)]
  rw [hres, removeStep_single grammar _ A α β hA hα hβ hprods, hfresh]
  exact ⟨by simp, rfl, freshName_unused grammar A⟩

/-- C4 at `A -> A+b | c`: the output is `A -> c A'`, `A' -> +b A' | ε`. -/
theorem C4_left_recursion_removal_of_single_production_witness :
    (leftRecursionRemoval ⟨[⟨str "A", [str "A+b", str "c"]⟩], [str "+", str "b", str "c"],
        [str "A"], str "A"⟩).productions =
      [⟨str "A", [str "c A'"]⟩, ⟨str "A'", [str "+b A'", EPSILON]⟩] :=
  (C4_left_recursion_removal_of_single_production
    ⟨[⟨str "A", [str "A+b", str "c"]⟩], [str "+", str "b", str "c"], [str "A"], str "A"⟩
    (str "A") (str "+b") (str "c") (by decide) ⟨43, str "b", by decide, by decide⟩
    (by decide) (by decide) (by decide) (by decide)).1

/-- C5 on the code: for `S -> a | aB` the table built from the computed FIRST
and FOLLOW sets has the single entry `(S, $, ε)`, so no cell holds two
alternatives. -/
theorem C5_table_of_ambiguous_grammar :
    (constructLL1Table ambiguousGrammar (computeFirstSets ambiguousGrammar)
      (computeFollowSets ambiguousGrammar (computeFirstSets ambiguousGrammar))).entries =
      [⟨str "S", str "$", EPSILON⟩] := by
  decide

/-- C6 on the code: for `A -> ab`, whose alternative starts with the terminal
`a`, the table has the single entry `(A, b, ab)` and no entry for the cell
`(A, a)`. -/
theorem C6_table_uses_second_symbol :
    (constructLL1Table terminalGrammar (computeFirstSets terminalGrammar)
      (computeFollowSets terminalGrammar (computeFirstSets terminalGrammar))).entries =
      [⟨str "A", str "b", str "ab"⟩] ∧
    (⟨str "A", str "a", str "ab"⟩ : ParseTableEntry) ∉
      (constructLL1Table terminalGrammar (computeFirstSets terminalGrammar)
        (computeFollowSets terminalGrammar (computeFirstSets terminalGrammar))).entries := by
  decide

/-- C7: for every grammar, FIRST and FOLLOW arrays indexed by the grammar's
non-terminals, every production `A` with `A` in the non-terminal list that
has an alternative equal to `EPSILON`, and every element `t` of the supplied
FOLLOW(A), the table contains the entry `(A, t, EPSILON)`. -/
theorem C7_epsilon_alternative_fills_follow_cells
    (grammar : Grammar) (firstSets followSets : List Set) (prod : Production) (t : CStr)
    (hfirst : firstSets.map (fun s => s.symbol) = grammar.nonTerminals)
    (hfollow : followSets.map (fun s => s.symbol) = grammar.nonTerminals)
    (hprod : prod ∈ grammar.productions)
    (hlhs : prod.lhs ∈ grammar.nonTerminals)
    (halt : EPSILON ∈ prod.rhs)
    (ht : t ∈ setFor followSets prod.lhs) :
    ({ nonTerminal := prod.lhs, terminal := t, production := EPSILON } : ParseTableEntry) ∈
      (constructLL1Table grammar firstSets followSets).entries := by
  have hlen : followSets.length ≤ grammar.nonTerminals.length := by
    rw [← hfollow, List.length_map]
  have hmem : prod.lhs ∈ followSets.map (fun s => s.symbol) := by
    rw [hfollow]; exact hlhs
  obtain ⟨i, hi, he⟩ := findSet_elementsAt followSets _ prod.lhs hlen hmem
  have hidx : findSet firstSets grammar.nonTerminals.length prod.lhs = some i := by
    rw [findSet_congr firstSets followSets _ _ (hfirst.trans hfollow.symm)]; exact hi
  simp only [constructLL1Table, List.mem_flatten, List.mem_map]
  refine ⟨tableProduction grammar firstSets followSets prod, ⟨prod, hprod, rfl⟩, ?_⟩
  simp only [tableProduction, hidx, List.mem_flatten, List.mem_map]
  refine ⟨tableAlternative grammar firstSets followSets prod.lhs i EPSILON,
    ⟨EPSILON, halt, rfl⟩, ?_⟩
  simp only [tableAlternative, tableFirstSymbol_EPSILON, List.mem_map]
  exact ⟨t, by rw [he]; exact ht, rfl⟩

/-- C7 at the grammar `E -> T E'`, `E' -> + T E' | ε`, `T -> id` with its
computed sets: the cell `(E', $)` holds `EPSILON`. -/
theorem C7_epsilon_alternative_fills_follow_cells_witness :
    (⟨str "E'", str "$", EPSILON⟩ : ParseTableEntry) ∈
      (constructLL1Table exprGrammar (computeFirstSets exprGrammar)
        (computeFollowSets exprGrammar (computeFirstSets exprGrammar))).entries :=
  C7_epsilon_alternative_fills_follow_cells exprGrammar (computeFirstSets exprGrammar)
    (computeFollowSets exprGrammar (computeFirstSets exprGrammar))
    ⟨str "E'", [str "+ T E'", EPSILON]⟩ (str "$")
    (by decide) (by decide) (by decide) (by decide) (by decide) (by decide)

/-- C8 on the code: for the grammar `X -> ε` the set FIRST(X) is the single
first byte of the marker and does not contain `EPSILON`, whether the
alternative is the literal `EPSILON` or the UTF-8 bytes `CE B5` of ε. -/
theorem C8_first_set_lacks_epsilon :
    setFor (computeFirstSets (epsilonGrammar EPSILON)) (str "X") = [[0xC3]] ∧
    EPSILON ∉ setFor (computeFirstSets (epsilonGrammar EPSILON)) (str "X") ∧
    setFor (computeFirstSets (epsilonGrammar [0xCE, 0xB5])) (str "X") = [[0xCE]] ∧
    EPSILON ∉ setFor (computeFirstSets (epsilonGrammar [0xCE, 0xB5])) (str "X") := by
  decide

/-- C9 on the code: for `X -> a | b` the set FIRST(X) is `{a}`; the terminal
`b` that starts the second alternative is not in it. -/
theorem C9_first_set_ignores_later_alternatives :
    setFor (computeFirstSets choiceGrammar) (str "X") = [str "a"] ∧
    str "b" ∉ setFor (computeFirstSets choiceGrammar) (str "X") := by
  decide

/-- C10 on the code: with `Y -> ε`, the set FIRST(X) for `X -> Y t` does not
contain `t`, and the set FIRST(X) for `X -> Y` does not contain `EPSILON`;
both are the single byte `C3` taken over from FIRST(Y). -/
theorem C10_first_set_stops_at_first_symbol :
    setFor (computeFirstSets (nullableGrammar (str "Y t") [str " ", str "t"])) (str "X")
      = [[0xC3]] ∧
    str "t" ∉
      setFor (computeFirstSets (nullableGrammar (str "Y t") [str " ", str "t"])) (str "X") ∧
    setFor (computeFirstSets (nullableGrammar (str "Y") [])) (str "X") = [[0xC3]] ∧
    EPSILON ∉ setFor (computeFirstSets (nullableGrammar (str "Y") [])) (str "X") := by
  decide

/-- C11: for every grammar, one more pass of the loop body over all the
productions on the sets returned by `computeFirstSets` returns the same
array with `changes` still false, and a pass on any array keeps every set's
elements, in place, at the front of the set. -/
theorem C11_first_sets_are_a_fixed_point (grammar : Grammar) :
    firstPass grammar grammar.productions (computeFirstSets grammar) false =
      (computeFirstSets grammar, false) ∧
    ∀ (sets : List Set) (i : Nat),
      elementsAt sets i <+:
        elementsAt (firstPass grammar grammar.productions sets false).1 i :=
  ⟨computeFirstSets_fixed grammar,
    fun sets i =>
      (firstPass_adv grammar grammar.productions sets false).1.1.elementsAt_kept i⟩

/-- C12: for every grammar whose start symbol is in its non-terminal list and
every supplied FIRST-set argument, the set FOLLOW(start symbol) returned by
`computeFollowSets` contains `$`. -/
theorem C12_follow_of_start_has_end_marker (grammar : Grammar) (firstSets : List Set)
    (hstart : grammar.startSymbol ∈ grammar.nonTerminals) :
    str "$" ∈ setFor (computeFollowSets grammar firstSets) grammar.startSymbol := by
  unfold computeFollowSets
  exact ((followLoop_ext grammar firstSets _ _).setFor_kept grammar.startSymbol).subset
    (initFollowSets_start grammar hstart)

/-- C12 at the grammar `E -> T E'`, `E' -> + T E' | ε`, `T -> id` with its
computed FIRST sets: `$` is in FOLLOW(E). -/
theorem C12_follow_of_start_has_end_marker_witness :
    str "$" ∈ setFor (computeFollowSets exprGrammar (computeFirstSets exprGrammar)) (str "E") :=
  C12_follow_of_start_has_end_marker exprGrammar (computeFirstSets exprGrammar) (by decide)

/-- C13: for every grammar, every supplied FIRST-set argument, every
production `A` and every alternative of `A` whose last symbol, as `getSymbol`
splits the alternative, is a non-terminal `B`, with `A` and `B` in the
non-terminal list, every element of the returned FOLLOW(A) is in the
returned FOLLOW(B). -/
theorem C13_follow_of_lhs_reaches_last_symbol (grammar : Grammar) (firstSets : List Set)
    (prod : Production) (rhs : CStr) (l1 : List CStr) (B : CStr)
    (hprod : prod ∈ grammar.productions) (hrhs : rhs ∈ prod.rhs)
    (hlast : tokenize rhs = l1 ++ [B])
    (hA : prod.lhs ∈ grammar.nonTerminals) (hB : B ∈ grammar.nonTerminals) :
    ∀ e ∈ setFor (computeFollowSets grammar firstSets) prod.lhs,
      e ∈ setFor (computeFollowSets grammar firstSets) B := by
  obtain ⟨lhsIndex, hl, hc⟩ := computeFollowSets_closed grammar firstSets prod rhs l1 B []
    hprod hA hrhs hlast
  obtain ⟨nt, hnt, hel⟩ := findSet_of_symbols grammar _ B
    (computeFollowSets_symbols grammar firstSets) hB
  have h := hc ((isNonTerminal_iff grammar B).mpr hB) nt hnt
  simp only [List.head?_nil] at h
  intro e he
  rw [← hel]
  apply h
  rw [hl]
  exact he

/-- C13 at the grammar `E -> T E'`, `E' -> + T E' | ε`, `T -> id`: the
alternative `T E'` of `E` ends with `E'`, and `$` of FOLLOW(E) is in
FOLLOW(E'). -/
theorem C13_follow_of_lhs_reaches_last_symbol_witness :
    str "$" ∈ setFor (computeFollowSets exprGrammar (computeFirstSets exprGrammar))
      (str "E'") :=
  C13_follow_of_lhs_reaches_last_symbol exprGrammar (computeFirstSets exprGrammar)
    ⟨str "E", [str "T E'"]⟩ (str "T E'") [str "T"] (str "E'")
    (by decide) (by decide) (by decide) (by decide) (by decide) (str "$") (by decide)

/-- C14 as stated fails on the code: for `S -> B C d` and supplied FIRST sets
with FIRST(C) = `{EPSILON}`, the terminal `d` is in FIRST(`C d`) by the rule
of the specification, and it is not in the returned FOLLOW(B), which is
`{$}`. -/
theorem C14_counterexample :
    sequenceFirstSets.map (fun s => s.symbol) = sequenceGrammar.nonTerminals ∧
    tokenize (str "B C d") = [str "B", str "C", str "d"] ∧
    str "d" ∈ specFirstOfSequence sequenceGrammar sequenceFirstSets [str "C", str "d"] ∧
    str "d" ≠ EPSILON ∧
    setFor (computeFollowSets sequenceGrammar sequenceFirstSets) (str "B") = [str "$"] ∧
    str "d" ∉ setFor (computeFollowSets sequenceGrammar sequenceFirstSets) (str "B") := by
  decide

/-- C14 (amended): for every grammar, every supplied FIRST-set argument
indexed by the grammar's non-terminals, and every occurrence of a
non-terminal `B` in an alternative of a production `A`, followed by a symbol
`X` (`A` and `B` in the non-terminal list), the returned FOLLOW(B) contains
`X` when `X` is a terminal, and every element other than `EPSILON` of the
supplied FIRST(X) when `X` is a non-terminal and no terminal; the symbols
after `X` play no part. -/
theorem C14_follow_holds_first_of_next_symbol (grammar : Grammar) (firstSets : List Set)
    (prod : Production) (rhs : CStr) (l1 : List CStr) (B X : CStr) (l2 : List CStr)
    (hfirst : firstSets.map (fun s => s.symbol) = grammar.nonTerminals)
    (hprod : prod ∈ grammar.productions) (hrhs : rhs ∈ prod.rhs)
    (hocc : tokenize rhs = l1 ++ B :: X :: l2)
    (hA : prod.lhs ∈ grammar.nonTerminals) (hB : B ∈ grammar.nonTerminals) :
    (isTerminal grammar X = true →
      X ∈ setFor (computeFollowSets grammar firstSets) B) ∧
    (isTerminal grammar X = false → X ∈ grammar.nonTerminals →
      ∀ e ∈ setFor firstSets X, e ≠ EPSILON →
        e ∈ setFor (computeFollowSets grammar firstSets) B) := by
  obtain ⟨lhsIndex, _, hc⟩ := computeFollowSets_closed grammar firstSets prod rhs l1 B
    (X :: l2) hprod hA hrhs hocc
  obtain ⟨nt, hnt, hel⟩ := findSet_of_symbols grammar _ B
    (computeFollowSets_symbols grammar firstSets) hB
  have h := hc ((isNonTerminal_iff grammar B).mpr hB) nt hnt
  simp only [List.head?_cons] at h
  rw [hel] at h
  refine ⟨h.1, ?_⟩
  intro hX1 hX2 e he hne
  obtain ⟨nx, hnx, helx⟩ := findSet_of_symbols grammar firstSets X hfirst hX2
  have h2 := (h.2 hX1 ((isNonTerminal_iff grammar X).mpr hX2) nx hnx).1
  apply h2 e _ hne
  rw [helx]
  exact he

/-- C14 (amended) at the grammar `E -> T E'`, `E' -> + T E' | ε`, `T -> id`
with its computed FIRST sets: in `T E'` the non-terminal `T` is followed by
`E'`, and `+` of FIRST(E') is in FOLLOW(T). -/
theorem C14_follow_holds_first_of_next_symbol_witness :
    str "+" ∈ setFor (computeFollowSets exprGrammar (computeFirstSets exprGrammar))
      (str "T") :=
  (C14_follow_holds_first_of_next_symbol exprGrammar (computeFirstSets exprGrammar)
    ⟨str "E", [str "T E'"]⟩ (str "T E'") [] (str "T") (str "E'") []
    (by decide) (by decide) (by decide) (by decide) (by decide) (by decide)).2
    (by decide) (by decide) (str "+") (by decide) (by decide)

/-- C15 as stated fails on the code: in the grammar `S -> B`, `x -> B a B b` the
alternative `B a B b` holds `B` twice, followed by the terminals `a` and `b`,
but its production is skipped because `x` is not in the non-terminal list,
and the returned FOLLOW(B) is `{$}`. -/
theorem C15_counterexample :
    tokenize (str "B a B b") = [str "B", str "a", str "B", str "b"] ∧
    setFor (computeFollowSets strayGrammar (computeFirstSets strayGrammar)) (str "B")
      = [str "$"] ∧
    str "a" ∉ setFor (computeFollowSets strayGrammar (computeFirstSets strayGrammar))
      (str "B") := by
  decide

/-- C15 (amended): for every grammar, every supplied FIRST-set argument and
every alternative of a production whose left-hand side is in the
non-terminal list, every occurrence of a non-terminal `B` of the
non-terminal list that is immediately followed by a terminal `t` of the
grammar puts `t` in the returned FOLLOW(B), however often `B` occurs in the
alternative. -/
theorem C15_every_occurrence_is_visited (grammar : Grammar) (firstSets : List Set)
    (prod : Production) (rhs : CStr) (l1 : List CStr) (B t : CStr) (l2 : List CStr)
    (hprod : prod ∈ grammar.productions) (hrhs : rhs ∈ prod.rhs)
    (hocc : tokenize rhs = l1 ++ B :: t :: l2)
    (hA : prod.lhs ∈ grammar.nonTerminals) (hB : B ∈ grammar.nonTerminals)
    (ht : t ∈ grammar.terminals) :
    t ∈ setFor (computeFollowSets grammar firstSets) B := by
  obtain ⟨lhsIndex, _, hc⟩ := computeFollowSets_closed grammar firstSets prod rhs l1 B
    (t :: l2) hprod hA hrhs hocc
  obtain ⟨nt, hnt, hel⟩ := findSet_of_symbols grammar _ B
    (computeFollowSets_symbols grammar firstSets) hB
  have h := hc ((isNonTerminal_iff grammar B).mpr hB) nt hnt
  simp only [List.head?_cons] at h
  rw [hel] at h
  exact h.1 ((isTerminal_iff grammar t).mpr ht)

/-- C15 (amended) at the grammar `A -> B a B b`: the second occurrence of `B`
is followed by `b`, and `b` is in FOLLOW(B) (as is `a`). -/
theorem C15_every_occurrence_is_visited_witness :
    str "b" ∈ setFor (computeFollowSets repeatGrammar (computeFirstSets repeatGrammar))
      (str "B") :=
  C15_every_occurrence_is_visited repeatGrammar (computeFirstSets repeatGrammar)
    ⟨str "A", [str "B a B b"]⟩ (str "B a B b") [str "B", str "a"] (str "B") (str "b") []
    (by decide) (by decide) (by decide) (by decide) (by decide) (by decide)

/-- C16 on the code: the grammar `A -> a B | a C` has one level of common
prefix (the suffixes ` B` and ` C` begin with different symbols), yet a
second run of `leftFactoring` changes the output of the first: the
production for `A'` of the first run, whose alternatives `B` and `C` begin with
a space, is rewritten, with two more new non-terminals. -/
theorem C16_second_left_factoring_differs :
    (getSymbol (str " B") 0).1 ≠ (getSymbol (str " C") 0).1 ∧
    (leftFactoring spacedGrammar).map (fun g => (g.productions, g.nonTerminals)) =
      some ([⟨str "A", [str "a A'"]⟩, ⟨str "A'", [str " B", str " C"]⟩],
            [str "A", str "B", str "C", str "A'"]) ∧
    ((leftFactoring spacedGrammar).bind leftFactoring).map
        (fun g => (g.productions, g.nonTerminals)) =
      some ([⟨str "A", [str "a A'"]⟩, ⟨str "A'", [str "B A''"]⟩, ⟨str "A''", [[]]⟩,
             ⟨str "A'", [str "C A''1"]⟩, ⟨str "A''1", [[]]⟩],
            [str "A", str "B", str "C", str "A'", str "A''", str "A''1"]) ∧
    (leftFactoring spacedGrammar).bind leftFactoring ≠ leftFactoring spacedGrammar := by
  decide

/-- C18 on the code: in `A -> aB | aC | d` the alternative `d` shares its first
symbol with no other alternative, yet it is factored: the output has the
production `A -> d A'1` and the new non-terminal `A'1`, and `d` is an
alternative of no production of the output. -/
theorem C18_single_alternative_is_factored :
    ∃ g, leftFactoring factorGrammar = some g ∧
      (⟨str "A", [str "d A'1"]⟩ : Production) ∈ g.productions ∧
      (⟨str "A'1", [EPSILON]⟩ : Production) ∈ g.productions ∧
      str "A'1" ∈ g.nonTerminals ∧ str "A'1" ∉ factorGrammar.nonTerminals ∧
      ∀ p ∈ g.productions, str "d" ∉ p.rhs := by
  decide

/-- C19: for every grammar whose non-terminal list has no repeated name,
whenever `leftFactoring` returns, the non-terminal list it returns is the
input list followed by the names it introduced, and it has no repeated name:
every new name differs from every input name and from every other new name.
It does return when every alternative contains a symbol. -/
theorem C19_new_names_are_unique (grammar : Grammar)
    (hnodup : grammar.nonTerminals.Nodup) :
    (∀ result, leftFactoring grammar = some result →
      ∃ names, result.nonTerminals = grammar.nonTerminals ++ names ∧
        result.nonTerminals.Nodup ∧ names.Nodup ∧
        ∀ name ∈ names, name ∉ grammar.nonTerminals) ∧
    ((∀ p ∈ grammar.productions, ∀ rhs ∈ p.rhs, (getSymbol rhs 0).1 ≠ none) →
      ∃ result, leftFactoring grammar = some result) := by
  constructor
  · intro result hout
    obtain ⟨_, _, ⟨names, hn⟩, hd, _⟩ :=
      factorAll_continues grammar.productions _ result hout
    have hnd : result.nonTerminals.Nodup := hd hnodup
    refine ⟨names, hn, hnd, ?_, ?_⟩
    · rw [hn] at hnd
      exact (List.nodup_append.mp hnd).2.1
    · rw [hn] at hnd
      intro name h1 h2
      exact (List.nodup_append.mp hnd).2.2 h2 h1
  · intro hsym
    obtain ⟨r, hr, _⟩ := factorAll_spec grammar.productions
      { grammar with productions := [] }
      (fun p hp => symAt_ne_none p.rhs (hsym p hp))
    exact ⟨r, hr⟩

/-- C19 at `A -> aB | aC | d`: `leftFactoring` returns, and the non-terminal
list it returns (`A, B, C, A', A'1`) has no repeated name. -/
theorem C19_new_names_are_unique_witness :
    ∃ result, leftFactoring factorGrammar = some result ∧ result.nonTerminals.Nodup := by
  have h := C19_new_names_are_unique factorGrammar (by decide)
  obtain ⟨result, hr⟩ := h.2 (by decide)
  obtain ⟨_, _, hnd, _⟩ := h.1 result hr
  exact ⟨result, hr, hnd⟩

/-- C20: for every grammar in which no two alternatives of the same
production begin with the same byte, `leftFactoring` returns the grammar
unchanged: the same productions in the same order, and the same
non-terminals, terminals and start symbol. -/
theorem C20_left_factoring_without_shared_first_byte (grammar : Grammar)
    (h : ∀ p ∈ grammar.productions,
      p.rhs.Pairwise (fun a b => a.head? = none ∨ a.head? ≠ b.head?)) :
    leftFactoring grammar = some grammar := by
  unfold leftFactoring
  rw [factorAll_unchanged grammar.productions _
    (fun p hp => needsFactoring_eq_false p.rhs (h p hp))]
  simp

/-- C20 at the grammar `E -> T E'`, `E' -> + T E' | ε`, `T -> id`. -/
theorem C20_left_factoring_without_shared_first_byte_witness :
    leftFactoring exprGrammar = some exprGrammar :=
  C20_left_factoring_without_shared_first_byte exprGrammar (by decide)

/-- C17 as stated fails on the code: in the grammar `A -> a A'`, `A' -> B | B`
with a space before the second `B` (the output of `leftFactoring` for
`A -> aB | a B`), the two alternatives of `A'` are not empty and have the same
first symbol `B`, but they do not begin with the same byte, so
`leftFactoring` returns the grammar unchanged, with no production for `A'`
of the form `B F`. -/
theorem C17_counterexample :
    leftFactoring ⟨[⟨str "A", [str "aB", str "a B"]⟩], [str "a", str " "],
      [str "A", str "B"], str "A"⟩ = some indentedGrammar ∧
    (getSymbol (str "B") 0).1 = some (str "B") ∧
    (getSymbol (str " B") 0).1 = some (str "B") ∧
    leftFactoring indentedGrammar = some indentedGrammar ∧
    ∀ p ∈ indentedGrammar.productions, p.lhs = str "A'" → p.rhs = [str "B", str " B"] := by
  decide

/-- C17 (amended): for every grammar in which every alternative contains a
symbol, every production `A` in which two alternatives begin with the same
byte, and every symbol `s` that is the first symbol of two or more
alternatives of `A`, `leftFactoring` returns a grammar that contains the
production `A -> s F`, with that single alternative, immediately followed by
the production of `F`, a name that is no non-terminal of the input and is
one of the output; the alternatives of `F` are, in the original order, the
texts after the first symbol of the alternatives of `A` that begin with `s`,
an alternative that is `s` alone giving `EPSILON`.  The factored text is the
first symbol alone. -/
theorem C17_shared_first_symbol_is_factored (grammar : Grammar) (prod : Production)
    (s : CStr)
    (hsym : ∀ p ∈ grammar.productions, ∀ rhs ∈ p.rhs, (getSymbol rhs 0).1 ≠ none)
    (hprod : prod ∈ grammar.productions)
    (hgate : needsFactoring prod.rhs = true)
    (hshared :
      2 ≤ (prod.rhs.filter (fun rhs => decide ((getSymbol rhs 0).1 = some s))).length) :
    ∃ result F before after, leftFactoring grammar = some result ∧
      F ∉ grammar.nonTerminals ∧ F ∈ result.nonTerminals ∧
      result.productions =
        before ++ [⟨prod.lhs, [s ++ str " " ++ F]⟩, ⟨F, groupOf prod.rhs s⟩] ++ after := by
  obtain ⟨r, hr, hspec⟩ := factorAll_spec grammar.productions
    { grammar with productions := [] }
    (fun p hp => symAt_ne_none p.rhs (hsym p hp))
  have hex : ∃ rhs, rhs ∈ prod.rhs ∧ (getSymbol rhs 0).1 = some s := by
    have hpos : 0 < (prod.rhs.filter
        (fun rhs => decide ((getSymbol rhs 0).1 = some s))).length := by omega
    obtain ⟨rhs, hmem⟩ := List.exists_mem_of_length_pos hpos
    rw [List.mem_filter] at hmem
    exact ⟨rhs, hmem.1, by simpa using hmem.2⟩
  obtain ⟨rhs, hmem, hs⟩ := hex
  obtain ⟨j0, h1, h2, h3⟩ := exists_first (fun k => symAt prod.rhs k = some s)
    prod.rhs.length (symAt_of_mem prod.rhs rhs s hmem hs)
  obtain ⟨F, before, after, hF1, hF2, hF3⟩ := hspec prod hprod hgate s j0 h1 h2 h3
  refine ⟨r, F, before, after, hr, hF1, hF2, ?_⟩
  simpa using hF3

/-- C17 (amended) at `A -> aB | aC | d` with `s = a`: the output holds
`A -> a A'` immediately followed by `A' -> B | C`. -/
theorem C17_shared_first_symbol_is_factored_witness :
    ∃ result F before after, leftFactoring factorGrammar = some result ∧
      F ∉ factorGrammar.nonTerminals ∧ F ∈ result.nonTerminals ∧
      result.productions =
        before ++ [⟨str "A", [str "a" ++ str " " ++ F]⟩, ⟨F, [str "B", str "C"]⟩] ++ after :=
  C17_shared_first_symbol_is_factored factorGrammar
    ⟨str "A", [str "aB", str "aC", str "d"]⟩ (str "a")
    (by decide) (by decide) (by decide) (by decide)

/-- C27: for every grammar, a pass of the loop of `computeFirstSets` over any
array only extends the sets, and when it sets `changes` one of the sets has
become strictly longer; every array the loop goes through holds, in each
set, pairwise different elements that are terminals of the grammar or
`EPSILON`; and the loop stops: the pass budget of the model is never
exhausted, a larger budget gives the same array, and a further pass on the
returned array leaves `changes` false. -/
theorem C27_first_loop_terminates (grammar : Grammar) :
    (∀ sets : List Set,
      Ext sets (firstPass grammar grammar.productions sets false).1 ∧
      ((firstPass grammar grammar.productions sets false).2 = true →
        ∃ i, (elementsAt sets i).length <
          (elementsAt (firstPass grammar grammar.productions sets false).1 i).length)) ∧
    (∀ fuel, ∀ x ∈ firstLoop grammar fuel (initSets grammar),
      x.elements.Nodup ∧ ∀ e ∈ x.elements, e = EPSILON ∨ e ∈ grammar.terminals) ∧
    (∀ extra, firstLoop grammar (firstFuel grammar + extra) (initSets grammar) =
      computeFirstSets grammar) ∧
    firstPass grammar grammar.productions (computeFirstSets grammar) false =
      (computeFirstSets grammar, false) := by
  refine ⟨fun sets => ?_, fun fuel x hx => ?_, fun extra => ?_, computeFirstSets_fixed grammar⟩
  · have hadv := (firstPass_adv grammar grammar.productions sets false).1
    refine ⟨hadv.1, fun hc => ?_⟩
    rcases hadv.2.2.1 hc with h | h
    · exact Bool.noConfusion h
    · exact hadv.1.exists_longer h
  · have hw := firstLoop_wf grammar fuel (initSets grammar)
      (initSets_wf (firstAlphabet grammar) grammar).1 x hx
    exact ⟨hw.1, fun e he => by simpa [firstAlphabet] using hw.2 e he⟩
  · exact firstLoop_more grammar (firstFuel grammar) extra (initSets grammar)
      (computeFirstSets_fixed grammar)

/-- C30 on the code: at every position where the bytes of `EPSILON` begin,
`getSymbol` returns the first byte of the marker as a symbol of its own and
advances the position by that one byte; it does not return `EPSILON` and does
not move past the marker. -/
theorem C30_epsilon_marker_is_split (rhs : CStr) (pos : Nat)
    (h : EPSILON <+: rhs.drop pos) :
    getSymbol rhs pos = (some [0xC3], pos + 1) ∧
      (getSymbol rhs pos).1 ≠ some EPSILON ∧
      (getSymbol rhs pos).2 ≠ pos + EPSILON.length := by
  obtain ⟨t, ht⟩ := h
  have hd : rhs.drop pos = 0xC3 :: ([0x8E, 0xC2, 0xB5] ++ t) := by
    rw [← ht]; rfl
  have hskip : skipSpaces rhs pos = pos := by
    simp [skipSpaces, hd, isspace]
  have hg : getSymbol rhs pos = (some [0xC3], pos + 1) := by
    simp [getSymbol, hskip, hd, isalpha, isupper]
  rw [hg]
  refine ⟨rfl, ?_, ?_⟩ <;> simp [EPSILON]

/-- C30 at the alternative `a ε`, position 2, where the marker begins: the
symbol returned is the byte `C3` and the new position is 3. -/
theorem C30_epsilon_marker_is_split_witness :
    getSymbol (str "a " ++ EPSILON) 2 = (some [0xC3], 2 + 1) ∧
      (getSymbol (str "a " ++ EPSILON) 2).1 ≠ some EPSILON ∧
      (getSymbol (str "a " ++ EPSILON) 2).2 ≠ 2 + EPSILON.length :=
  C30_epsilon_marker_is_split (str "a " ++ EPSILON) 2 (by decide)

/-- C25 as stated fails on the code: in the grammar `A -> B a`, `B -> A b` the
alternative of `A` begins with `B` and the alternative of `B` begins with
`A`, and `leftRecursionRemoval` returns the grammar as it received it. -/
theorem C25_counterexample :
    indirectGrammar.productions = [⟨str "A", [str "B a"]⟩, ⟨str "B", [str "A b"]⟩] ∧
    (getSymbol (str "B a") 0).1 = some (str "B") ∧
    (getSymbol (str "A b") 0).1 = some (str "A") ∧
    leftRecursionRemoval indirectGrammar = indirectGrammar := by
  decide

/-- C25 (amended): for every grammar in which no production has an
alternative that begins with the production's own left-hand side, whatever
left recursion through other non-terminals it has, `leftRecursionRemoval`
returns a grammar: the input with, as productions, the first production of
each non-terminal of the non-terminal list, in the order of that list. -/
theorem C25_indirect_recursion_is_not_detected (grammar : Grammar)
    (h : ∀ p ∈ grammar.productions, hasDirectLeftRecursion p = false) :
    leftRecursionRemoval grammar =
      { grammar with productions :=
          grammar.nonTerminals.filterMap (fun nt =>
            grammar.productions.find? (fun p => p.lhs == nt)) } := by
  unfold leftRecursionRemoval
  rw [foldl_removeStep_no_recursion grammar h]
  simp

/-- C25 (amended) at the grammar `A -> B a`, `B -> A b`. -/
theorem C25_indirect_recursion_is_not_detected_witness :
    leftRecursionRemoval indirectGrammar =
      { indirectGrammar with productions :=
          indirectGrammar.nonTerminals.filterMap (fun nt =>
            indirectGrammar.productions.find? (fun p => p.lhs == nt)) } :=
  C25_indirect_recursion_is_not_detected indirectGrammar (by decide)

/-- C26 as stated fails on the code: in the grammar `S -> B c` the
non-terminal `B` has no production, and `computeFirstSets` and
`computeFollowSets` return their arrays as for any grammar: empty FIRST sets,
FOLLOW(S) = `{$}` and FOLLOW(B) = `{c}`. -/
theorem C26_counterexample :
    undefinedGrammar.productions.find? (fun p => p.lhs == str "B") = none ∧
    tokenize (str "B c") = [str "B", str "c"] ∧
    isNonTerminal undefinedGrammar (str "B") = true ∧
    computeFirstSets undefinedGrammar = [⟨str "S", []⟩, ⟨str "B", []⟩] ∧
    computeFollowSets undefinedGrammar (computeFirstSets undefinedGrammar) =
      [⟨str "S", [str "$"]⟩, ⟨str "B", [str "c"]⟩] := by
  decide

/-- C26 (amended): for every grammar, also one in which an alternative uses a
non-terminal that has no production, `computeFirstSets` and (for every
supplied FIRST-set argument) `computeFollowSets` return an array with one set
per non-terminal of the non-terminal list, in the order of that list; and
the FIRST set of a name that is the left-hand side of no production is
returned empty. -/
theorem C26_undefined_non_terminal_is_not_reported (grammar : Grammar) :
    (computeFirstSets grammar).map (fun s => s.symbol) = grammar.nonTerminals ∧
    (∀ firstSets : List Set,
      (computeFollowSets grammar firstSets).map (fun s => s.symbol) = grammar.nonTerminals) ∧
    (∀ name : CStr, (∀ p ∈ grammar.productions, p.lhs ≠ name) →
      setFor (computeFirstSets grammar) name = []) :=
  ⟨computeFirstSets_symbols grammar, fun firstSets => computeFollowSets_symbols grammar firstSets,
    fun name h => computeFirstSets_without_production grammar name h⟩

/-- C28: for every grammar and every supplied FIRST-set argument, an
iteration of the scan of an alternative that read a symbol ends at a
position after the one it started from, so that the scan is over after at
most `strlen(rhs) + 1` iterations (a larger budget gives the same result);
a pass over any array only extends the sets, and when it sets `changes` one
of the sets has become strictly longer; every array the loop goes through
holds, in each set, pairwise different elements that are `$`, terminals of
the grammar or elements of the supplied FIRST sets; and the loop stops: the
pass budget of the model is never exhausted, a larger budget gives the same
array, and a further pass on the returned array leaves `changes` false. -/
theorem C28_follow_loop_terminates (grammar : Grammar) (firstSets : List Set) :
    (∀ (lhsIndex : Nat) (rhs : CStr) (pos : Nat) (symbol : CStr) (savedPos : Nat)
        (sets : List Set) (changes : Bool),
      getSymbol rhs pos = (some symbol, savedPos) →
      pos < (scanStep grammar firstSets lhsIndex rhs symbol savedPos sets changes).1) ∧
    (∀ (lhsIndex : Nat) (rhs : CStr) (extra : Nat) (sets : List Set) (changes : Bool),
      followScan grammar firstSets lhsIndex rhs (rhs.length + 1 + extra) 0 sets changes =
        followScan grammar firstSets lhsIndex rhs (rhs.length + 1) 0 sets changes) ∧
    (∀ sets : List Set,
      Ext sets (followPass grammar firstSets grammar.productions sets false).1 ∧
      ((followPass grammar firstSets grammar.productions sets false).2 = true →
        ∃ i, (elementsAt sets i).length <
          (elementsAt (followPass grammar firstSets grammar.productions sets false).1 i).length)) ∧
    (∀ fuel, ∀ x ∈ followLoop grammar firstSets fuel (initFollowSets grammar),
      x.elements.Nodup ∧ ∀ e ∈ x.elements,
        e = str "$" ∨ e ∈ grammar.terminals ∨
          ∃ f ∈ firstSets.take grammar.nonTerminals.length, e ∈ f.elements) ∧
    (∀ extra, followLoop grammar firstSets (followFuel grammar firstSets + extra)
        (initFollowSets grammar) = computeFollowSets grammar firstSets) ∧
    followPass grammar firstSets grammar.productions (computeFollowSets grammar firstSets) false =
      (computeFollowSets grammar firstSets, false) := by
  refine ⟨?_, ?_, fun sets => ?_, fun fuel x hx => ?_, fun extra => ?_,
    computeFollowSets_fixed grammar firstSets⟩
  · intro lhsIndex rhs pos symbol savedPos sets changes hg
    have h1 := getSymbol_pos_lt rhs pos symbol savedPos hg
    have h2 := scanStep_pos_ge grammar firstSets lhsIndex rhs symbol savedPos sets changes
    omega
  · intro lhsIndex rhs extra sets changes
    exact followScan_more grammar firstSets lhsIndex rhs (rhs.length + 1) 0 extra sets changes
      (by omega)
  · have hadv := (followPass_adv grammar firstSets grammar.productions sets false).1
    refine ⟨hadv.1, fun hc => ?_⟩
    rcases hadv.2.2.1 hc with h | h
    · exact Bool.noConfusion h
    · exact hadv.1.exists_longer h
  · have hw := followLoop_wf grammar firstSets fuel (initFollowSets grammar)
      (initFollowSets_wf grammar firstSets).1 x hx
    refine ⟨hw.1, fun e he => ?_⟩
    have hmem := hw.2 e he
    simp only [followAlphabet, List.mem_cons, List.mem_append, List.mem_flatten,
      List.mem_map] at hmem
    rcases hmem with h | h | ⟨l, ⟨f, hf, rfl⟩, hel⟩
    · exact Or.inl h
    · exact Or.inr (Or.inl h)
    · exact Or.inr (Or.inr ⟨f, hf, hel⟩)
  · exact followLoop_more grammar firstSets (followFuel grammar firstSets) extra
      (initFollowSets grammar) (computeFollowSets_fixed grammar firstSets)

/-- C21 on the code: `leftFactoring` turns `A -> aB | aC | d` into a grammar
with two productions for `A`; the second of them, `A -> d A'1`, has no
alternative that begins with `A`, and it is not a production of the output of
`leftRecursionRemoval`, which holds the productions `A -> a A'`, `A' -> B | C`
and `A'1 -> ε` only. -/
theorem C21_later_production_is_dropped :
    leftFactoring factorGrammar = some factoredGrammar ∧
    (⟨str "A", [str "d A'1"]⟩ : Production) ∈ factoredGrammar.productions ∧
    hasDirectLeftRecursion ⟨str "A", [str "d A'1"]⟩ = false ∧
    (⟨str "A", [str "d A'1"]⟩ : Production) ∉
      (leftRecursionRemoval factoredGrammar).productions ∧
    (leftRecursionRemoval factoredGrammar).productions =
      [⟨str "A", [str "a A'"]⟩, ⟨str "A'", [str "B", str "C"]⟩, ⟨str "A'1", [EPSILON]⟩] := by
  decide

/-- C23 as stated fails on the code: for `A -> A | b` the output holds the
production `A' -> A' | ε`, whose first alternative begins with its own
left-hand side. -/
theorem C23_counterexample :
    (⟨str "A'", [str "A'", EPSILON]⟩ : Production) ∈
      (leftRecursionRemoval bareGrammar).productions ∧
    hasDirectLeftRecursion ⟨str "A'", [str "A'", EPSILON]⟩ = true := by
  decide

/-- C23 (amended): for every grammar whose non-terminal names are an
upper-case letter followed by letters, digits, `_` or `'`, and in which every
alternative that begins with the left-hand side of its production goes on
with a further symbol that is a non-terminal of the list or a single
character, no production of the output of `leftRecursionRemoval` has an
alternative whose first symbol is that production's left-hand side. -/
theorem C23_output_without_direct_recursion (grammar : Grammar)
    (hid : ∀ nt ∈ grammar.nonTerminals, isIdentifier nt = true)
    (hnext : ∀ prod ∈ grammar.productions, ∀ rhs ∈ prod.rhs,
      (getSymbol rhs 0).1 = some prod.lhs →
      ∃ t, (getSymbol rhs (getSymbol rhs 0).2).1 = some t ∧
        (t ∈ grammar.nonTerminals ∨ t.length = 1)) :
    ∀ p ∈ (leftRecursionRemoval grammar).productions, hasDirectLeftRecursion p = false := by
  intro p hp
  rw [leftRecursionRemoval_eq] at hp
  simp only [List.mem_flatten, List.mem_map] at hp
  obtain ⟨l, ⟨e, he, rfl⟩, hpl⟩ := hp
  obtain ⟨h1, h2, h3, h4⟩ := removalSteps_spec grammar _ _ e he
  rcases e with ⟨prod, o⟩
  simp only at h1 h2 h3 h4
  cases o with
  | none =>
    simp only [stepProductions, List.mem_singleton] at hpl
    rw [hpl]
    exact h3 rfl
  | some name =>
    obtain ⟨_, hnew, k, hk⟩ := h4 name rfl
    have hprod : prod ∈ grammar.productions := List.mem_of_find?_eq_some h1
    have hlid := hid prod.lhs h2
    have hname : isIdentifier name = true := by
      rw [hk]; exact candidate_identifier prod.lhs k hlid
    have hlen : 2 ≤ name.length := by
      have := candidate_length prod.lhs k
      rw [← hk] at this
      have : 0 < prod.lhs.length := by
        cases hl : prod.lhs with
        | nil => rw [hl] at hlid; simp [isIdentifier] at hlid
        | cons c cs => simp
      omega
    simp only [stepProductions, List.mem_cons, List.mem_singleton, List.not_mem_nil,
      or_false] at hpl
    rcases hpl with rfl | rfl
    · exact rewrittenProduction_no_recursion prod name hname (fun e => hnew (by rw [e]; exact h2))
    · apply tailProduction_no_recursion prod name hname
      intro rhs hrhs hfirst
      obtain ⟨t, ht, hcase⟩ := hnext prod hprod rhs hrhs hfirst
      refine ⟨t, ht, fun e => ?_⟩
      rcases hcase with hc | hc
      · exact hnew (by rw [← e]; exact hc)
      · rw [e] at hc; omega

/-- C23 (amended) at the grammar `E -> E + T | T`, `T -> i`: the production
`E' -> + T E' | ε` of the output has no alternative that begins with `E'`. -/
theorem C23_output_without_direct_recursion_witness :
    hasDirectLeftRecursion ⟨str "E'", [str " + T E'", EPSILON]⟩ = false :=
  C23_output_without_direct_recursion sumGrammar (by decide) (by decide)
    ⟨str "E'", [str " + T E'", EPSILON]⟩ (by decide)

/-- C29: for every grammar and every reordering of its productions, the array
`computeFirstSets` returns for the reordered grammar carries the same symbols
at the same indices, and what the program reads as FIRST of each name holds
the same elements as on the original order. -/
theorem C29_first_sets_do_not_depend_on_order (grammar : Grammar)
    (reordered : List Production) (hperm : reordered.Perm grammar.productions) :
    (computeFirstSets { grammar with productions := reordered }).map (fun s => s.symbol) =
      (computeFirstSets grammar).map (fun s => s.symbol) ∧
    ∀ (name e : CStr),
      e ∈ setFor (computeFirstSets { grammar with productions := reordered }) name ↔
        e ∈ setFor (computeFirstSets grammar) name := by
  have h1 := computeFirstSets_below { grammar with productions := reordered } grammar rfl rfl
    (fun prod hp => hperm.mem_iff.mp hp)
  have h2 := computeFirstSets_below grammar { grammar with productions := reordered } rfl rfl
    (fun prod hp => hperm.mem_iff.mpr hp)
  exact ⟨h1.1, fun name e => ⟨h1.setFor_subset name e, h2.setFor_subset name e⟩⟩

/-- C29 at the grammar `E -> T E'`, `E' -> + T E' | ε`, `T -> id` with its
productions in reverse order. -/
theorem C29_first_sets_do_not_depend_on_order_witness :
    (computeFirstSets { exprGrammar with productions := exprGrammar.productions.reverse }).map
        (fun s => s.symbol) = (computeFirstSets exprGrammar).map (fun s => s.symbol) ∧
    ∀ (name e : CStr),
      e ∈ setFor
          (computeFirstSets { exprGrammar with productions := exprGrammar.productions.reverse })
          name ↔
        e ∈ setFor (computeFirstSets exprGrammar) name :=
  C29_first_sets_do_not_depend_on_order exprGrammar exprGrammar.productions.reverse
    (List.reverse_perm _)

/-- C24 on the code: the grammar `leftFactoring` returns for
`A -> aB | aC | d` has no alternative that begins with the left-hand side of
a production, so no left recursion at all, and two productions for `A`; the
string `d` is derivable from its start symbol, and it is not derivable from
the start symbol of the output of `leftRecursionRemoval`, which holds the
first production for `A` only. -/
theorem C24_string_is_lost :
    leftFactoring factorGrammar = some factoredGrammar ∧
    (∀ prod ∈ factoredGrammar.productions, ∀ rhs ∈ prod.rhs,
      ∀ q ∈ factoredGrammar.productions, (getSymbol rhs 0).1 ≠ some q.lhs) ∧
    Generates factoredGrammar [str "d"] ∧
    ¬ Generates (leftRecursionRemoval factoredGrammar) [str "d"] := by
  refine ⟨by decide, by decide, ?_, ?_⟩
  · rw [generates_iff_derives]
    have h1 : Derives factoredGrammar [str "A'1"] [] := by
      apply derives_alternative factoredGrammar ⟨str "A'1", [EPSILON]⟩ EPSILON []
        (by decide) (by decide) (by decide)
      rw [show symbolsOf EPSILON = [] by decide]
      exact Derives.done
    have h2 : Derives factoredGrammar [str "d", str "A'1"] [str "d"] :=
      Derives.shift (str "d") _ _ (by decide) h1
    apply derives_alternative factoredGrammar ⟨str "A", [str "d A'1"]⟩ (str "d A'1") [str "d"]
      (by decide) (by decide) (by decide)
    rw [show symbolsOf (str "d A'1") = [str "d", str "A'1"] by decide]
    exact h2
  · rw [generates_iff_derives]
    have hB : ∀ w, ¬ Derives (leftRecursionRemoval factoredGrammar) [str "B"] w := by
      intro w h
      obtain ⟨rhs, hr, _⟩ := derives_cons_alternatives _ _ _ _ h (by decide)
      rw [show alternativesOf (leftRecursionRemoval factoredGrammar) (str "B") = [] by decide]
        at hr
      simp at hr
    have hC : ∀ w, ¬ Derives (leftRecursionRemoval factoredGrammar) [str "C"] w := by
      intro w h
      obtain ⟨rhs, hr, _⟩ := derives_cons_alternatives _ _ _ _ h (by decide)
      rw [show alternativesOf (leftRecursionRemoval factoredGrammar) (str "C") = [] by decide]
        at hr
      simp at hr
    have hA1 : ∀ w, ¬ Derives (leftRecursionRemoval factoredGrammar) [str "A'"] w := by
      intro w h
      obtain ⟨rhs, hr, u, w1, hu, _, _⟩ := derives_cons_alternatives _ _ _ _ h (by decide)
      rw [show alternativesOf (leftRecursionRemoval factoredGrammar) (str "A'") =
        [str "B", str "C"] by decide] at hr
      simp only [List.mem_cons, List.mem_singleton, List.not_mem_nil, or_false] at hr
      rcases hr with hr | hr
      · rw [hr, show symbolsOf (str "B") = [str "B"] by decide] at hu
        exact hB u hu
      · rw [hr, show symbolsOf (str "C") = [str "C"] by decide] at hu
        exact hC u hu
    intro h
    rw [show (leftRecursionRemoval factoredGrammar).startSymbol = str "A" by decide] at h
    obtain ⟨rhs, hr, u, w1, hu, _, _⟩ := derives_cons_alternatives _ _ _ _ h (by decide)
    rw [show alternativesOf (leftRecursionRemoval factoredGrammar) (str "A") =
      [str "a A'"] by decide] at hr
    simp only [List.mem_singleton] at hr
    rw [hr, show symbolsOf (str "a A'") = [str "a", str "A'"] by decide] at hu
    rcases derives_cons_inv _ _ _ _ hu with ⟨_, w2, _, hd⟩ | ⟨hn, _⟩
    · exact hA1 w2 hd
    · exact absurd hn (by decide)

/-- Where `leftRecursionRemoval` reads every production, it keeps the
language: for every grammar in which no two productions have the same
left-hand side, whose non-terminal names are an upper-case letter followed
by letters, digits, `_` or `'`, whose terminals are not such names, in which
every symbol of every alternative is a terminal or a non-terminal of the
lists, and whose start symbol is in the non-terminal list, the strings of
terminals derivable from the start symbol of the output are the strings
derivable from the start symbol of the input (alternatives read as
`getSymbol` symbol sequences, the alternative `EPSILON` as the empty
sequence). -/
theorem leftRecursionRemoval_language (grammar : Grammar)
    (hP : (grammar.productions.map (fun p => p.lhs)).Nodup)
    (hN : ∀ nt ∈ grammar.nonTerminals, isIdentifier nt = true)
    (hT : ∀ t ∈ grammar.terminals, isIdentifier t = false)
    (hS : ∀ prod ∈ grammar.productions, ∀ rhs ∈ prod.rhs, ∀ t ∈ symbolsOf rhs,
      isTerminal grammar t = true ∨ isNonTerminal grammar t = true)
    (hStart : grammar.startSymbol ∈ grammar.nonTerminals) (w : List CStr) :
    Generates (leftRecursionRemoval grammar) w ↔ Generates grammar w := by
  rw [generates_iff_derives, generates_iff_derives]
  have hs : (leftRecursionRemoval grammar).startSymbol = grammar.startSymbol := by
    rw [leftRecursionRemoval_eq]
  rw [hs]
  apply leftRecursionRemoval_derives grammar hT hN hP hS
  intro s hs
  simp only [List.mem_singleton] at hs
  rw [hs]
  exact Or.inr ((isNonTerminal_iff grammar _).mpr hStart)

/-- The language at the grammar `E -> E + T | T`, `T -> i` and the string
`i + i`: it is derivable from `E` in the grammar, hence in the output of
`leftRecursionRemoval`. -/
theorem leftRecursionRemoval_language_of_sum :
    Generates (leftRecursionRemoval sumGrammar) [str "i", str "+", str "i"] :=
  (leftRecursionRemoval_language sumGrammar (by decide) (by decide) (by decide) (by decide) (by decide)
    [str "i", str "+", str "i"]).mpr (by
      rw [generates_iff_derives]
      have hT : Derives sumGrammar [str "T"] [str "i"] := by
        apply derives_alternative sumGrammar ⟨str "T", [str "i"]⟩ (str "i") [str "i"]
          (by decide) (by decide) (by decide)
        rw [show symbolsOf (str "i") = [str "i"] by decide]
        exact derives_terminals sumGrammar [str "i"] (by decide)
      have hE : Derives sumGrammar [str "E"] [str "i"] := by
        apply derives_alternative sumGrammar ⟨str "E", [str "E + T", str "T"]⟩ (str "T")
          [str "i"] (by decide) (by decide) (by decide)
        rw [show symbolsOf (str "T") = [str "T"] by decide]
        exact hT
      apply derives_alternative sumGrammar ⟨str "E", [str "E + T", str "T"]⟩ (str "E + T")
        [str "i", str "+", str "i"] (by decide) (by decide) (by decide)
      rw [show symbolsOf (str "E + T") = [str "E", str "+", str "T"] by decide]
      exact derives_append sumGrammar [str "E"] [str "+", str "T"] [str "i"] [str "+", str "i"]
        hE (Derives.shift (str "+") _ _ (by decide) hT))

/-- C26 (amended) at the grammar `S -> B c`: the FIRST set of `B`, which has
no production, is returned empty. -/
theorem C26_undefined_non_terminal_is_not_reported_witness :
    setFor (computeFirstSets undefinedGrammar) (str "B") = [] :=
  (C26_undefined_non_terminal_is_not_reported undefinedGrammar).2.2 (str "B") (by decide)

/-- C27 at the grammar `E -> T E'`, `E' -> + T E' | ε`, `T -> id`: the first
pass, on the empty sets, sets `changes` and makes one of the sets longer. -/
theorem C27_first_loop_terminates_witness :
    ∃ i, (elementsAt (initSets exprGrammar) i).length <
      (elementsAt (firstPass exprGrammar exprGrammar.productions
        (initSets exprGrammar) false).1 i).length :=
  ((C27_first_loop_terminates exprGrammar).1 (initSets exprGrammar)).2 (by decide)

/-- C28 at the grammar `E -> T E'`, `E' -> + T E' | ε`, `T -> id` with its
computed FIRST sets: the first pass, on the initial sets, sets `changes` and
makes one of the sets longer. -/
theorem C28_follow_loop_terminates_witness :
    ∃ i, (elementsAt (initFollowSets exprGrammar) i).length <
      (elementsAt (followPass exprGrammar (computeFirstSets exprGrammar)
        exprGrammar.productions (initFollowSets exprGrammar) false).1 i).length :=
  ((C28_follow_loop_terminates exprGrammar (computeFirstSets exprGrammar)).2.2.1
    (initFollowSets exprGrammar)).2 (by decide)

/-- C31: for every text and position, with `blanks` the run of whitespace
that starts at the position and `rest` the text after that run, `getSymbol`
returns no symbol exactly when every remaining byte is whitespace, that is
when `rest` is empty, and the position is then the end of the run; when
`rest` begins with an upper-case letter it returns the longest run of
letters, digits, underscores and apostrophes that `rest` begins with, a run
followed by no such byte; otherwise it returns the first byte of `rest`
alone; in both cases the new position is the old one plus the number of
blanks plus the length of the symbol, and the text from the new position on
is what follows the symbol. -/
theorem C31_getSymbol_reads_one_token (rhs : CStr) (pos : Nat) :
    ∃ blanks rest, rhs.drop pos = blanks ++ rest ∧
      (∀ b ∈ blanks, isspace b = true) ∧
      (∀ c tail, rest = c :: tail → isspace c = false) ∧
      ((getSymbol rhs pos).1 = none ↔ ∀ b ∈ rhs.drop pos, isspace b = true) ∧
      ((getSymbol rhs pos).1 = none ↔ rest = []) ∧
      (rest = [] → getSymbol rhs pos = (none, pos + blanks.length)) ∧
      (∀ c tail, rest = c :: tail → isupper c = true →
        ∃ run after, rest = run ++ after ∧ run.head? = some c ∧
          (∀ x ∈ run, isIdentChar x = true) ∧
          (∀ y more, after = y :: more → isIdentChar y = false) ∧
          getSymbol rhs pos = (some run, pos + blanks.length + run.length) ∧
          rhs.drop (pos + blanks.length + run.length) = after) ∧
      (∀ c tail, rest = c :: tail → isupper c = false →
        getSymbol rhs pos = (some [c], pos + blanks.length + 1) ∧
        rhs.drop (pos + blanks.length + 1) = tail) := by
  have hsplit : rhs.drop pos =
      (rhs.drop pos).takeWhile isspace ++ (rhs.drop pos).dropWhile isspace :=
    (List.takeWhile_append_dropWhile isspace (rhs.drop pos)).symm
  have hblank : ∀ b ∈ (rhs.drop pos).takeWhile isspace, isspace b = true :=
    fun b hb => List.mem_takeWhile_imp hb
  have hhead : ∀ c tail, (rhs.drop pos).dropWhile isspace = c :: tail → isspace c = false := by
    intro c tail h
    have h1 := List.head_dropWhile_not isspace (rhs.drop pos) (by rw [h]; simp)
    simpa [h] using h1
  have hg := getSymbol_cases rhs pos
  have hdrop : ∀ n, rhs.drop (pos + ((rhs.drop pos).takeWhile isspace).length + n) =
      ((rhs.drop pos).dropWhile isspace).drop n := by
    intro n
    rw [← List.drop_drop, ← List.drop_drop, drop_takeWhile_length]
  have hnone : (getSymbol rhs pos).1 = none ↔ (rhs.drop pos).dropWhile isspace = [] := by
    rw [hg]
    cases (rhs.drop pos).dropWhile isspace with
    | nil => simp
    | cons c tail =>
      by_cases hu : isupper c = true <;> simp [hu]
  refine ⟨(rhs.drop pos).takeWhile isspace, (rhs.drop pos).dropWhile isspace, hsplit, hblank,
    hhead, ?_, hnone, ?_, ?_, ?_⟩
  · rw [hnone, List.dropWhile_eq_nil_iff]
  · intro h
    rw [hg, h]
  · intro c tail h hu
    refine ⟨(c :: tail).takeWhile isIdentChar, (c :: tail).dropWhile isIdentChar, ?_, ?_, ?_, ?_,
      ?_, ?_⟩
    · rw [h, List.takeWhile_append_dropWhile]
    · simp [List.takeWhile, isIdentChar_of_isupper c hu]
    · exact fun x hx => List.mem_takeWhile_imp hx
    · intro y more hy
      have h1 := List.head_dropWhile_not isIdentChar (c :: tail) (by rw [hy]; simp)
      simpa [hy] using h1
    · rw [hg, h]
      simp [hu]
    · rw [hdrop, h, drop_takeWhile_length]
  · intro c tail h hu
    refine ⟨?_, ?_⟩
    · rw [hg, h]
      simp [hu]
    · rw [hdrop, h]
      rfl

/-- C33 (soundness of FIRST): for every grammar, every set of the array
`computeFirstSets` returns and every element `t` of it other than `EPSILON`,
`t` is a terminal of the grammar and there is a chain of non-terminals from
the symbol `X` of the set, each the first symbol of an alternative of a
production for the one before, such that `t` is the first symbol of an
alternative of a production for the last of them; the same holds of what the
program reads as FIRST of a name. -/
theorem C33_first_sets_are_sound (grammar : Grammar) :
    (∀ x ∈ computeFirstSets grammar, ∀ t ∈ x.elements, t ≠ EPSILON →
      isTerminal grammar t = true ∧ CanStart grammar x.symbol t) ∧
    (∀ X t, t ∈ setFor (computeFirstSets grammar) X → t ≠ EPSILON →
      isTerminal grammar t = true ∧ CanStart grammar X t) := by
  have h := computeFirstSets_sound grammar
  refine ⟨fun x hx t ht _ => (h x hx t ht).2, ?_⟩
  intro X t ht _
  obtain ⟨x, hx, hn, he⟩ := setFor_mem _ X t ht
  rw [← hn]
  exact (h x hx t he).2

/-- C33 at the grammar `E -> T E'`, `E' -> + T E' | ε`, `T -> id`: the byte
`i` of FIRST(E) is a terminal and can start what `E` derives (through `T`). -/
theorem C33_first_sets_are_sound_witness :
    isTerminal exprGrammar (str "i") = true ∧ CanStart exprGrammar (str "E") (str "i") :=
  (C33_first_sets_are_sound exprGrammar).2 (str "E") (str "i") (by decide) (by decide)

/-- C35: for every grammar, no set of the array `computeFirstSets` returns
contains `EPSILON`, nor does any set of the array after any number of passes
of its loop; no symbol `getSymbol` returns is `EPSILON`: it is a single byte
or it begins with an upper-case letter; and on an array in which no set
holds `EPSILON` the body of the loop over the alternatives, for the first
symbol of an alternative, takes neither the branch for the symbol `EPSILON`
nor the branch for a first non-terminal whose set holds `EPSILON`, and
leaves an array in which no set holds `EPSILON`. -/
theorem C35_first_sets_hold_no_epsilon (grammar : Grammar) :
    (∀ x ∈ computeFirstSets grammar, EPSILON ∉ x.elements) ∧
    (∀ name, EPSILON ∉ setFor (computeFirstSets grammar) name) ∧
    (∀ fuel, ∀ x ∈ firstLoop grammar fuel (initSets grammar), EPSILON ∉ x.elements) ∧
    (∀ rhs pos t, (getSymbol rhs pos).1 = some t →
      t ≠ EPSILON ∧ (t.length = 1 ∨ ∃ c cs, t = c :: cs ∧ isupper c = true)) ∧
    (∀ (ntIndex : Nat) (rhs symbol : CStr) (pos : Nat) (s : List Set) (c : Bool),
      getSymbol rhs 0 = (some symbol, pos) → (∀ x ∈ s, EPSILON ∉ x.elements) →
      firstStep grammar ntIndex rhs symbol pos s c =
        (if isTerminal grammar symbol then
          (addToSetAt s ntIndex symbol, c || grewAt s (addToSetAt s ntIndex symbol) ntIndex)
        else if isNonTerminal grammar symbol then
          match findSet s grammar.nonTerminals.length symbol with
          | none => (s, c)
          | some symbolIndex =>
            (addAllExceptEpsilonAt s ntIndex (elementsAt s symbolIndex),
              c || grewAt s (addAllExceptEpsilonAt s ntIndex (elementsAt s symbolIndex)) ntIndex)
        else (s, c)) ∧
      ∀ x ∈ (firstStep grammar ntIndex rhs symbol pos s c).1, EPSILON ∉ x.elements) := by
  have h := computeFirstSets_sound grammar
  refine ⟨fun x hx he => (h x hx EPSILON he).1 rfl, ?_, ?_, ?_, ?_⟩
  · intro name he
    obtain ⟨x, hx, _, hm⟩ := setFor_mem _ name EPSILON he
    exact (h x hx EPSILON hm).1 rfl
  · intro fuel x hx he
    exact (firstLoop_sound grammar fuel (initSets grammar) (initSets_sound grammar) x hx
      EPSILON he).1 rfl
  · intro rhs pos t ht
    exact ⟨getSymbol_ne_epsilon rhs pos t ht, getSymbol_token rhs pos t ht⟩
  · intro ntIndex rhs symbol pos s c hg hs
    have hne : symbol ≠ EPSILON := getSymbol_ne_epsilon rhs 0 symbol (by rw [hg])
    have hs2 : Holds (fun _ e => e ≠ EPSILON) s := by
      intro x hx e he hE
      exact hs x hx (hE ▸ he)
    obtain ⟨h1, h2⟩ := firstStep_without_epsilon grammar ntIndex rhs symbol pos s c hne hs2
    exact ⟨h1, fun x hx he => h2 x hx EPSILON he rfl⟩

/-- C34: for every grammar, every element of every set of the array
`computeFollowSets` returns for the FIRST sets of `computeFirstSets` is the
end-marker `$` or a terminal of the grammar, and it is not `EPSILON`, also
when `EPSILON` is listed as a terminal; whatever FIRST sets are supplied, no
FOLLOW set contains `EPSILON`. -/
theorem C34_follow_sets_hold_terminals (grammar : Grammar) :
    (∀ x ∈ computeFollowSets grammar (computeFirstSets grammar), ∀ e ∈ x.elements,
      (e = str "$" ∨ isTerminal grammar e = true) ∧ e ≠ EPSILON) ∧
    (∀ name, ∀ e ∈ setFor (computeFollowSets grammar (computeFirstSets grammar)) name,
      (e = str "$" ∨ isTerminal grammar e = true) ∧ e ≠ EPSILON) ∧
    (∀ firstSets, ∀ x ∈ computeFollowSets grammar firstSets, EPSILON ∉ x.elements) := by
  have h1 : Holds (fun _ e => (e = str "$" ∨ isTerminal grammar e = true) ∧ e ≠ EPSILON)
      (computeFollowSets grammar (computeFirstSets grammar)) := by
    apply followLoop_holds grammar _
      (fun e => (e = str "$" ∨ isTerminal grammar e = true) ∧ e ≠ EPSILON)
    · exact fun t ht hne => ⟨Or.inr ht, hne⟩
    · intro x hx e he hne
      exact ⟨Or.inr (computeFirstSets_sound grammar x hx e he).2.1, hne⟩
    · exact initFollowSets_holds grammar _ ⟨Or.inl rfl, by decide⟩
  refine ⟨h1, ?_, ?_⟩
  · intro name e he
    obtain ⟨x, hx, _, hm⟩ := setFor_mem _ name e he
    exact h1 x hx e hm
  · intro firstSets x hx he
    have h2 : Holds (fun _ e => e ≠ EPSILON) (computeFollowSets grammar firstSets) := by
      apply followLoop_holds grammar firstSets (fun e => e ≠ EPSILON)
      · exact fun t _ hne => hne
      · exact fun x _ e _ hne => hne
      · exact initFollowSets_holds grammar _ (by decide)
    exact h2 x hx EPSILON he rfl

/-- C36: for every grammar, `computeFirstSets` returns the same array for
the grammar and for the grammar in which every production is truncated to
its first alternative that is not empty or whitespace-only: no other
alternative is read. -/
theorem C36_first_sets_read_one_alternative (grammar : Grammar) :
    computeFirstSets grammar = computeFirstSets (truncatedGrammar grammar) := by
  unfold computeFirstSets
  rw [firstLoop_truncated]
  rfl

/-- C36 at the grammar `A -> | B c | d`, `B -> b`, whose first alternative of
`A` is a single space: the truncated grammar is `A -> B c`, `B -> b`, and
both have the same FIRST sets. -/
theorem C36_first_sets_read_one_alternative_witness :
    (truncatedGrammar blankFirstGrammar).productions =
      [⟨str "A", [str "B c"]⟩, ⟨str "B", [str "b"]⟩] ∧
    computeFirstSets blankFirstGrammar = computeFirstSets (truncatedGrammar blankFirstGrammar) :=
  ⟨by decide, C36_first_sets_read_one_alternative blankFirstGrammar⟩

/-- C32: for every grammar, the production list `leftRecursionRemoval`
returns is made of one block per non-terminal of the input's non-terminal
list that has a production, in the order of that list: the block of a
non-terminal is the first production with that left-hand side when it has no
direct left recursion, and otherwise the rewritten production for the
non-terminal immediately followed by the production of the new
non-terminal made for it, a name outside the input's non-terminal list. -/
theorem C32_output_follows_the_non_terminal_list (grammar : Grammar) :
    ∃ steps : List (Production × Option CStr),
      (leftRecursionRemoval grammar).productions = (steps.map stepProductions).flatten ∧
      steps.map (fun e => e.1.lhs) =
        grammar.nonTerminals.filter
          (fun nt => (grammar.productions.find? (fun p => p.lhs == nt)).isSome) ∧
      ∀ e ∈ steps,
        grammar.productions.find? (fun p => p.lhs == e.1.lhs) = some e.1 ∧
        (e.2 = none → hasDirectLeftRecursion e.1 = false ∧ stepProductions e = [e.1]) ∧
        ∀ name, e.2 = some name →
          hasDirectLeftRecursion e.1 = true ∧ name ∉ grammar.nonTerminals ∧
          stepProductions e = [rewrittenProduction e.1 name, tailProduction e.1 name] ∧
          (rewrittenProduction e.1 name).lhs = e.1.lhs ∧
          (tailProduction e.1 name).lhs = name := by
  refine ⟨removalSteps grammar grammar.nonTerminals { grammar with productions := [] }, ?_,
    removalSteps_lhs grammar _ _, ?_⟩
  · rw [leftRecursionRemoval_eq]
  · intro e he
    obtain ⟨h1, _, h3, h4⟩ := removalSteps_spec grammar _ _ e he
    refine ⟨h1, ?_, ?_⟩
    · intro hn
      refine ⟨h3 hn, ?_⟩
      obtain ⟨prod, o⟩ := e
      simp only at hn
      subst hn
      rfl
    · intro name hn
      obtain ⟨h5, h6, _⟩ := h4 name hn
      refine ⟨h5, h6, ?_, rfl, rfl⟩
      obtain ⟨prod, o⟩ := e
      simp only at hn
      subst hn
      rfl

/-- C32 at the grammar `E -> T E'`, `E' -> + T E' | ε`, `T -> id`, whose
non-terminal list is `E, T, E'`: the output has the productions in the order
`E`, `T`, `E'`, not in the order `E`, `E'`, `T` of the input's productions. -/
theorem C32_output_follows_the_non_terminal_list_witness :
    exprGrammar.productions.map (fun p => p.lhs) = [str "E", str "E'", str "T"] ∧
    ∃ steps : List (Production × Option CStr),
      (leftRecursionRemoval exprGrammar).productions = (steps.map stepProductions).flatten ∧
      steps.map (fun e => e.1.lhs) = [str "E", str "T", str "E'"] := by
  obtain ⟨steps, h1, h2, _⟩ := C32_output_follows_the_non_terminal_list exprGrammar
  exact ⟨by decide, steps, h1, h2.trans (by decide)⟩

/-- C38: for every grammar, `leftRecursionRemoval` returns the same grammar
for the input and for the input with every production removed whose
left-hand side is not in the non-terminal list or that is preceded by
another production with the same left-hand side. -/
theorem C38_only_first_productions_are_read (grammar : Grammar) :
    leftRecursionRemoval grammar = leftRecursionRemoval (prunedGrammar grammar) := by
  have hr : leftRecursionRemoval (prunedGrammar grammar) =
      grammar.nonTerminals.foldl (removeStep (prunedGrammar grammar))
        { grammar with productions := [] } := rfl
  rw [hr, leftRecursionRemoval]
  apply foldl_removeStep_congr
  intro nt hnt
  have h := find?_firstListedProductions grammar.nonTerminals nt hnt grammar.productions []
  simp only [List.not_mem_nil, if_false] at h
  exact h.symm

/-- C38 at the grammar `leftFactoring` returns for `A -> aB | aC | d`, which
has the productions `A -> a A'`, `A' -> B | C`, `A -> d A'1`, `A'1 -> ε`: the
second production for `A` is among those removed, and it is in neither
output. -/
theorem C38_only_first_productions_are_read_witness :
    (prunedGrammar factoredGrammar).productions =
      [⟨str "A", [str "a A'"]⟩, ⟨str "A'", [str "B", str "C"]⟩, ⟨str "A'1", [EPSILON]⟩] ∧
    (⟨str "A", [str "d A'1"]⟩ : Production) ∉ (leftRecursionRemoval factoredGrammar).productions ∧
    leftRecursionRemoval factoredGrammar = leftRecursionRemoval (prunedGrammar factoredGrammar) :=
  ⟨by decide, by decide, C38_only_first_productions_are_read factoredGrammar⟩

/-- C37: for every grammar, FIRST and FOLLOW arrays indexed by the grammar's
non-terminals, and every alternative `rhs` other than `EPSILON` of a
production `A` with `A` in the non-terminal list, the symbol from which
`constructLL1Table` chooses the cells is the second symbol of `rhs`: when
that symbol is a terminal `b` the alternative adds the single entry
`(A, b, rhs)`, and when `rhs` consists of exactly one symbol the entries it
adds are, for each element `t` of the supplied FOLLOW(A), the entry `(A, t)`
with production `EPSILON`; these entries are in the table, and none of the
entries the alternative adds has the production `rhs`. -/
theorem C37_table_reads_the_second_symbol
    (grammar : Grammar) (firstSets followSets : List Set) (prod : Production) (rhs : CStr)
    (hfirst : firstSets.map (fun s => s.symbol) = grammar.nonTerminals)
    (hfollow : followSets.map (fun s => s.symbol) = grammar.nonTerminals)
    (hprod : prod ∈ grammar.productions)
    (hlhs : prod.lhs ∈ grammar.nonTerminals)
    (halt : rhs ∈ prod.rhs)
    (hne : rhs ≠ EPSILON) :
    tableFirstSymbol rhs = (tokenize rhs)[1]? ∧
    ∃ ntIndex, findSet firstSets grammar.nonTerminals.length prod.lhs = some ntIndex ∧
      elementsAt followSets ntIndex = setFor followSets prod.lhs ∧
      (∀ e ∈ tableAlternative grammar firstSets followSets prod.lhs ntIndex rhs,
        e ∈ (constructLL1Table grammar firstSets followSets).entries) ∧
      (∀ b, (tokenize rhs)[1]? = some b → isTerminal grammar b = true →
        tableAlternative grammar firstSets followSets prod.lhs ntIndex rhs =
          [⟨prod.lhs, b, rhs⟩]) ∧
      (∀ s, tokenize rhs = [s] →
        tableAlternative grammar firstSets followSets prod.lhs ntIndex rhs =
          (setFor followSets prod.lhs).map (fun t => ⟨prod.lhs, t, EPSILON⟩) ∧
        (∀ t ∈ setFor followSets prod.lhs,
          (⟨prod.lhs, t, EPSILON⟩ : ParseTableEntry) ∈
            (constructLL1Table grammar firstSets followSets).entries) ∧
        ∀ e ∈ tableAlternative grammar firstSets followSets prod.lhs ntIndex rhs,
          e.production = EPSILON ∧ e.production ≠ rhs) := by
  have hsym := tableFirstSymbol_eq rhs hne
  have hlen : followSets.length ≤ grammar.nonTerminals.length := by
    rw [← hfollow, List.length_map]
  have hmem : prod.lhs ∈ followSets.map (fun s => s.symbol) := by
    rw [hfollow]; exact hlhs
  obtain ⟨i, hi, he⟩ := findSet_elementsAt followSets _ prod.lhs hlen hmem
  have hidx : findSet firstSets grammar.nonTerminals.length prod.lhs = some i := by
    rw [findSet_congr firstSets followSets _ _ (hfirst.trans hfollow.symm)]; exact hi
  have htable : ∀ e ∈ tableAlternative grammar firstSets followSets prod.lhs i rhs,
      e ∈ (constructLL1Table grammar firstSets followSets).entries := by
    intro e hmem
    simp only [constructLL1Table, List.mem_flatten, List.mem_map]
    refine ⟨tableProduction grammar firstSets followSets prod, ⟨prod, hprod, rfl⟩, ?_⟩
    simp only [tableProduction, hidx, List.mem_flatten, List.mem_map]
    exact ⟨tableAlternative grammar firstSets followSets prod.lhs i rhs, ⟨rhs, halt, rfl⟩, hmem⟩
  refine ⟨hsym, i, hidx, he, htable, ?_, ?_⟩
  · intro b hb hterm
    have hbne : b ≠ EPSILON := by
      rw [← getSymbol_second] at hb
      exact getSymbol_ne_epsilon rhs _ b hb
    simp only [tableAlternative, hsym, hb, hbne, hterm, if_false, if_true]
  · intro s hs
    have hnone : tableFirstSymbol rhs = none := by
      rw [hsym, hs]
      rfl
    have hlist : tableAlternative grammar firstSets followSets prod.lhs i rhs =
        (setFor followSets prod.lhs).map (fun t => ⟨prod.lhs, t, EPSILON⟩) := by
      simp only [tableAlternative, hnone, he]
    refine ⟨hlist, ?_, ?_⟩
    · intro t ht
      apply htable
      rw [hlist]
      exact List.mem_map.mpr ⟨t, ht, rfl⟩
    · intro e hmem
      rw [hlist] at hmem
      obtain ⟨t, _, rfl⟩ := List.mem_map.mp hmem
      exact ⟨rfl, fun h => hne h.symm⟩

/-- C37 at the grammar `S -> a | aB` with its computed sets and the
alternative `a`, which consists of one symbol: the table holds the entry
`(S, $)` with production `EPSILON`, and the alternative adds no entry with
production `a`. -/
theorem C37_table_reads_the_second_symbol_witness :
    tableFirstSymbol (str "a") = none ∧
    (⟨str "S", str "$", EPSILON⟩ : ParseTableEntry) ∈
      (constructLL1Table ambiguousGrammar (computeFirstSets ambiguousGrammar)
        (computeFollowSets ambiguousGrammar (computeFirstSets ambiguousGrammar))).entries := by
  obtain ⟨h1, i, _, _, _, _, h2⟩ := C37_table_reads_the_second_symbol ambiguousGrammar
    (computeFirstSets ambiguousGrammar)
    (computeFollowSets ambiguousGrammar (computeFirstSets ambiguousGrammar))
    ⟨str "S", [str "a", str "aB"]⟩ (str "a")
    (by decide) (by decide) (by decide) (by decide) (by decide) (by decide)
  exact ⟨h1.trans (by decide), (h2 (str "a") (by decide)).2.1 (str "$") (by decide)⟩

/-- C40: for every grammar, whenever `leftFactoring` returns, and it does
when every alternative contains a symbol, the grammar it returns has the
terminal list and the start symbol of the input, and its non-terminal list
is the input's list followed by names that are not in the input's list; the
same holds of the grammar `leftRecursionRemoval` returns.  In both cases the
input's non-terminal list is a prefix of the output's. -/
theorem C40_symbol_lists_are_only_appended_to (grammar : Grammar) :
    (∀ result, leftFactoring grammar = some result →
      result.terminals = grammar.terminals ∧ result.startSymbol = grammar.startSymbol ∧
      grammar.nonTerminals <+: result.nonTerminals ∧
      ∃ names, result.nonTerminals = grammar.nonTerminals ++ names ∧
        ∀ name ∈ names, name ∉ grammar.nonTerminals) ∧
    ((∀ p ∈ grammar.productions, ∀ rhs ∈ p.rhs, (getSymbol rhs 0).1 ≠ none) →
      ∃ result, leftFactoring grammar = some result) ∧
    ((leftRecursionRemoval grammar).terminals = grammar.terminals ∧
      (leftRecursionRemoval grammar).startSymbol = grammar.startSymbol ∧
      grammar.nonTerminals <+: (leftRecursionRemoval grammar).nonTerminals ∧
      ∃ names, (leftRecursionRemoval grammar).nonTerminals = grammar.nonTerminals ++ names ∧
        ∀ name ∈ names, name ∉ grammar.nonTerminals) := by
  refine ⟨?_, ?_, ?_⟩
  · intro result hout
    obtain ⟨h1, h2, names, h3, h4⟩ := factorAll_appends grammar.productions _ result hout
    exact ⟨h1, h2, ⟨names, h3.symm⟩, names, h3, h4⟩
  · intro hsym
    obtain ⟨r, hr, _⟩ := factorAll_spec grammar.productions
      { grammar with productions := [] }
      (fun p hp => symAt_ne_none p.rhs (hsym p hp))
    exact ⟨r, hr⟩
  · obtain ⟨h1, h2, names, h3, h4⟩ := leftRecursionRemoval_appends grammar
    exact ⟨h1, h2, ⟨names, h3.symm⟩, names, h3, h4⟩

/-- C40 at `A -> aB | aC | d` for `leftFactoring`, which appends `A'` and
`A'1`, and at `E -> E + T | T`, `T -> i` for `leftRecursionRemoval`, which
appends `E'`. -/
theorem C40_symbol_lists_are_only_appended_to_witness :
    (∃ result, leftFactoring factorGrammar = some result ∧
      result.terminals = factorGrammar.terminals ∧
      result.startSymbol = factorGrammar.startSymbol ∧
      result.nonTerminals = factorGrammar.nonTerminals ++ [str "A'", str "A'1"]) ∧
    (leftRecursionRemoval sumGrammar).terminals = sumGrammar.terminals ∧
    (leftRecursionRemoval sumGrammar).startSymbol = sumGrammar.startSymbol ∧
    (leftRecursionRemoval sumGrammar).nonTerminals = sumGrammar.nonTerminals ++ [str "E'"] := by
  have h := C40_symbol_lists_are_only_appended_to factorGrammar
  have h2 := (C40_symbol_lists_are_only_appended_to sumGrammar).2.2
  obtain ⟨result, hr⟩ := h.2.1 (by decide)
  obtain ⟨ht, hs, _, _⟩ := h.1 result hr
  refine ⟨⟨result, hr, ht, hs, ?_⟩, h2.1, h2.2.1, by decide⟩
  have hd : leftFactoring factorGrammar = some factoredGrammar := by decide
  rw [hd] at hr
  rw [← Option.some.inj hr]
  decide

/-- C39: for every grammar in which every alternative contains a symbol, as
every non-empty alternative does that the loader stores (it trims the blanks
around each alternative, line 376), `leftFactoring` returns, and the
production list it returns is made
of one block per production of the input, in order: the production itself
when no two of its alternatives begin with the same byte, and otherwise, for
each distinct first symbol `s` of its alternatives in the order of first
occurrence, the production `A -> s F` with that single alternative followed
by the production of `F`, a name that is not a non-terminal of the input and
is one of the output, whose alternatives are the group of `s`; nothing else
is written, so there is no production of unfactored alternatives.  The
distinct first symbols are pairwise different and are exactly the first
symbols of the alternatives, and every alternative is in the group of its
first symbol, also when no other alternative begins with that symbol. -/
theorem C39_every_alternative_is_grouped (grammar : Grammar)
    (hsym : ∀ p ∈ grammar.productions, ∀ rhs ∈ p.rhs, (getSymbol rhs 0).1 ≠ none) :
    ∃ (result : Grammar) (blocks : List (List Production)),
      leftFactoring grammar = some result ∧
      result.productions = blocks.flatten ∧
      List.Forall₂ (FactoredAs grammar.nonTerminals result.nonTerminals)
        grammar.productions blocks ∧
      ∀ prod ∈ grammar.productions,
        (needsFactoring prod.rhs = true ↔
          ¬ prod.rhs.Pairwise (fun a b => a.head? = none ∨ a.head? ≠ b.head?)) ∧
        (leadingSymbols prod.rhs).Nodup ∧
        (∀ s, s ∈ leadingSymbols prod.rhs ↔ ∃ rhs ∈ prod.rhs, (getSymbol rhs 0).1 = some s) ∧
        ∀ rhs ∈ prod.rhs, ∃ s ∈ leadingSymbols prod.rhs,
          (getSymbol rhs 0).1 = some s ∧
          remainderOf rhs s (getSymbol rhs 0).2 ∈ groupOf prod.rhs s := by
  obtain ⟨r, blocks, hr, hp, hb⟩ := factorAll_exact grammar.nonTerminals grammar.productions
    { grammar with productions := [] } (fun x hx => hx)
    (fun p hp => symAt_ne_none p.rhs (hsym p hp))
  refine ⟨r, blocks, hr, by simpa using hp, hb, ?_⟩
  intro prod hprod
  refine ⟨?_, leadingSymbols_nodup prod.rhs, mem_leadingSymbols prod.rhs, ?_⟩
  · rw [← needsFactoring_iff]
    simp
  · intro rhs hrhs
    cases hs : (getSymbol rhs 0).1 with
    | none => exact absurd hs (hsym prod hprod rhs hrhs)
    | some s =>
      exact ⟨s, (mem_leadingSymbols prod.rhs s).mpr ⟨rhs, hrhs, hs⟩, rfl,
        mem_groupOf prod.rhs rhs s hrhs hs⟩

/-- C39 at `A -> aB | aC | d`: the distinct first symbols are `a`
and `d`, and the output is made of the blocks the theorem describes. -/
theorem C39_every_alternative_is_grouped_witness :
    leadingSymbols [str "aB", str "aC", str "d"] = [str "a", str "d"] ∧
    ∃ (result : Grammar) (blocks : List (List Production)),
      leftFactoring factorGrammar = some result ∧
      result.productions = blocks.flatten ∧
      List.Forall₂ (FactoredAs factorGrammar.nonTerminals result.nonTerminals)
        factorGrammar.productions blocks := by
  obtain ⟨result, blocks, h1, h2, h3, _⟩ :=
    C39_every_alternative_is_grouped factorGrammar (by decide)
  exact ⟨by decide, result, blocks, h1, h2, h3⟩

end LL1
